import Mathlib

/-!
# lmdave: the asset dumper `dump_dave.go`

A shallow embedding of the executable unpacker `ulz` of `dump_dave.go`
(format detection, relocation table reconstruction, payload decompression,
header finalisation) together with the properties established about it.

Conventions of the embedding:
* a byte is a `Fin 256`; 16-bit and 32-bit machine words are natural numbers
  reduced modulo `2^16` / `2^32` wherever the Go code can overflow;
* Go `int` is unbounded (`Nat`, or `Int` where a value may be negative);
* a Go function that may return an error, panic or loop returns a `Res`.
-/

namespace Lmdave

/-- One byte (`uint8`). -/
abbrev Byte := Fin 256

/-- Truncating conversion `uint8(n)`. -/
def u8 (n : Nat) : Byte := ⟨n % 256, Nat.mod_lt n (by decide)⟩

/-- Outcome of running a Go function: a normal return with a value, a returned
`error` value, an uncaught run-time panic that terminates the program, or a
loop that does not finish within the iteration budget of the embedding. -/
inductive Res (α : Type) where
  | ok (val : α)
  | error (msg : String)
  | crash
  | hang
deriving DecidableEq, Repr

/-- The value of a normal return, if the outcome is one. -/
def Res.toOption {α : Type} : Res α → Option α
  | .ok a => some a
  | _ => none

/-- A Go `[]byte`: `elems` are the `len` elements of the slice, `spare` is the
rest of its backing array up to `cap`. -/
structure Slice where
  elems : List Byte
  spare : List Byte
deriving DecidableEq, Repr

/-- Go `len(s)`. -/
def Slice.len (s : Slice) : Nat := s.elems.length

/-- Go `cap(s)`. -/
def Slice.cap (s : Slice) : Nat := s.elems.length + s.spare.length

/-- The slice expression `s[lo:hi]`, which panics (`none`) unless
`lo <= hi <= cap(s)`; it may reach into the backing array beyond `len(s)`. -/
def Slice.sub (s : Slice) (lo hi : Nat) : Option (List Byte) :=
  if lo ≤ hi ∧ hi ≤ s.cap then some (((s.elems ++ s.spare).drop lo).take (hi - lo)) else none

/-- Little-endian 16-bit word made of two bytes (`binary.LittleEndian.Uint16`). -/
def word (lo hi : Byte) : Nat := lo.val + 256 * hi.val

/-- Decode consecutive little-endian 16-bit words (`binary.Read` into a
`[n]uint16`). -/
def words : List Byte → List Nat
  | lo :: hi :: rest => word lo hi :: words rest
  | _ => []

/-- Read of exactly `n` bytes (`n > 0`) from a reader holding `r`, as done by
`binary.Read` through `io.ReadFull`: the bytes read and the rest, or the error
`EOF` when nothing is left and `unexpected EOF` when too little is left. -/
def readFull (r : List Byte) (n : Nat) : Except String (List Byte × List Byte) :=
  if n ≤ r.length then .ok (r.take n, r.drop n)
  else if r.length = 0 then .error "EOF"
  else .error "unexpected EOF"

/-- Go `copy(dst, src)`: overwrites the first `min(len(dst), len(src))`
elements of `dst`. -/
def goCopy (dst src : List Byte) : List Byte := src.take dst.length ++ dst.drop src.length

def sig90 : List Byte :=
  [0x06, 0x0E, 0x1F, 0x8B, 0x0E, 0x0C, 0x00, 0x8B,
   0xF1, 0x4E, 0x89, 0xF7, 0x8C, 0xDB, 0x03, 0x1E,
   0x0A, 0x00, 0x8E, 0xC3, 0xB4, 0x00, 0x31, 0xED,
   0xFD, 0xAC, 0x01, 0xC5, 0xAA, 0xE2, 0xFA, 0x8B,
   0x16, 0x0E, 0x00, 0x8A, 0xC2, 0x29, 0xC5, 0x8A,
   0xC6, 0x29, 0xC5, 0x39, 0xD5, 0x74, 0x0C, 0xBA,
   0x91, 0x01, 0xB4, 0x09, 0xCD, 0x21, 0xB8, 0xFF,
   0x4C, 0xCD, 0x21, 0x53, 0xB8, 0x53, 0x00, 0x50,
   0xCB, 0x2E, 0x8B, 0x2E, 0x08, 0x00, 0x8C, 0xDA,
   0x89, 0xE8, 0x3D, 0x00, 0x10, 0x76, 0x03, 0xB8,
   0x00, 0x10, 0x29, 0xC5, 0x29, 0xC2, 0x29, 0xC3,
   0x8E, 0xDA, 0x8E, 0xC3, 0xB1, 0x03, 0xD3, 0xE0,
   0x89, 0xC1, 0xD1, 0xE0, 0x48, 0x48, 0x8B, 0xF0,
   0x8B, 0xF8, 0xF3, 0xA5, 0x09, 0xED, 0x75, 0xD8,
   0xFC, 0x8E, 0xC2, 0x8E, 0xDB, 0x31, 0xF6, 0x31,
   0xFF, 0xBA, 0x10, 0x00, 0xAD, 0x89, 0xC5, 0xD1,
   0xED, 0x4A, 0x75, 0x05, 0xAD, 0x89, 0xC5, 0xB2,
   0x10, 0x73, 0x03, 0xA4, 0xEB, 0xF1, 0x31, 0xC9,
   0xD1, 0xED, 0x4A, 0x75, 0x05, 0xAD, 0x89, 0xC5,
   0xB2, 0x10, 0x72, 0x22, 0xD1, 0xED, 0x4A, 0x75,
   0x05, 0xAD, 0x89, 0xC5, 0xB2, 0x10, 0xD1, 0xD1,
   0xD1, 0xED, 0x4A, 0x75, 0x05, 0xAD, 0x89, 0xC5,
   0xB2, 0x10, 0xD1, 0xD1, 0x41, 0x41, 0xAC, 0xB7,
   0xFF, 0x8A, 0xD8, 0xE9, 0x13, 0x00, 0xAD, 0x8B,
   0xD8, 0xB1, 0x03, 0xD2, 0xEF, 0x80, 0xCF, 0xE0,
   0x80, 0xE4, 0x07, 0x74, 0x0C, 0x88, 0xE1, 0x41,
   0x41, 0x26, 0x8A, 0x01, 0xAA, 0xE2, 0xFA, 0xEB,
   0xA6, 0xAC, 0x08, 0xC0, 0x74, 0x40, 0x3C, 0x01,
   0x74, 0x05, 0x88, 0xC1, 0x41, 0xEB, 0xEA, 0x89]

def sig91 : List Byte :=
  [0x06, 0x0E, 0x1F, 0x8B, 0x0E, 0x0C, 0x00, 0x8B,
   0xF1, 0x4E, 0x89, 0xF7, 0x8C, 0xDB, 0x03, 0x1E,
   0x0A, 0x00, 0x8E, 0xC3, 0xFD, 0xF3, 0xA4, 0x53,
   0xB8, 0x2B, 0x00, 0x50, 0xCB, 0x2E, 0x8B, 0x2E,
   0x08, 0x00, 0x8C, 0xDA, 0x89, 0xE8, 0x3D, 0x00,
   0x10, 0x76, 0x03, 0xB8, 0x00, 0x10, 0x29, 0xC5,
   0x29, 0xC2, 0x29, 0xC3, 0x8E, 0xDA, 0x8E, 0xC3,
   0xB1, 0x03, 0xD3, 0xE0, 0x89, 0xC1, 0xD1, 0xE0,
   0x48, 0x48, 0x8B, 0xF0, 0x8B, 0xF8, 0xF3, 0xA5,
   0x09, 0xED, 0x75, 0xD8, 0xFC, 0x8E, 0xC2, 0x8E,
   0xDB, 0x31, 0xF6, 0x31, 0xFF, 0xBA, 0x10, 0x00,
   0xAD, 0x89, 0xC5, 0xD1, 0xED, 0x4A, 0x75, 0x05,
   0xAD, 0x89, 0xC5, 0xB2, 0x10, 0x73, 0x03, 0xA4,
   0xEB, 0xF1, 0x31, 0xC9, 0xD1, 0xED, 0x4A, 0x75,
   0x05, 0xAD, 0x89, 0xC5, 0xB2, 0x10, 0x72, 0x22,
   0xD1, 0xED, 0x4A, 0x75, 0x05, 0xAD, 0x89, 0xC5,
   0xB2, 0x10, 0xD1, 0xD1, 0xD1, 0xED, 0x4A, 0x75,
   0x05, 0xAD, 0x89, 0xC5, 0xB2, 0x10, 0xD1, 0xD1,
   0x41, 0x41, 0xAC, 0xB7, 0xFF, 0x8A, 0xD8, 0xE9,
   0x13, 0x00, 0xAD, 0x8B, 0xD8, 0xB1, 0x03, 0xD2,
   0xEF, 0x80, 0xCF, 0xE0, 0x80, 0xE4, 0x07, 0x74,
   0x0C, 0x88, 0xE1, 0x41, 0x41, 0x26, 0x8A, 0x01,
   0xAA, 0xE2, 0xFA, 0xEB, 0xA6, 0xAC, 0x08, 0xC0,
   0x74, 0x34, 0x3C, 0x01, 0x74, 0x05, 0x88, 0xC1,
   0x41, 0xEB, 0xEA, 0x89, 0xFB, 0x83, 0xE7, 0x0F,
   0x81, 0xC7, 0x00, 0x20, 0xB1, 0x04, 0xD3, 0xEB,
   0x8C, 0xC0, 0x01, 0xD8, 0x2D, 0x00, 0x02, 0x8E,
   0xC0, 0x89, 0xF3, 0x83, 0xE6, 0x0F, 0xD3, 0xEB,
   0x8C, 0xD8, 0x01, 0xD8, 0x8E, 0xD8, 0xE9, 0x72]

/-- The receiver `ulz` of the unpacker. -/
structure ulz where
  inp : Slice
  out : List Byte
  ihead : List Nat
  ohead : List Nat
  inf : List Nat
  ver : Nat
  loadsize : Nat
deriving DecidableEq, Repr

/-- The zero value `var ulz ulz` on which `dump` calls `decode`. -/
def ulz.zero : ulz :=
  { inp := ⟨[], []⟩, out := [], ihead := List.replicate 0x10 0, ohead := List.replicate 0x10 0,
    inf := List.replicate 8 0, ver := 0, loadsize := 0 }

/-- Element `i` of a header array. -/
def hd (h : List Nat) (i : Nat) : Nat := h.getD i 0

/-- Entry-point byte offset computed by `rdhead`:
`(int(ihead[4]) + int(ihead[0xb]))<<4 + int(ihead[0xa])`. -/
def entryOf (ihead : List Nat) : Nat := ((hd ihead 0x4 + hd ihead 0xb) <<< 4) + hd ihead 0xa

/-- Method `ulz.rdhead`: the detected variant (0, 90 or 91) and the receiver with
`ihead` and `ohead` loaded. -/
def rdhead (p : ulz) : Res (Nat × ulz) :=
  match readFull p.inp.elems 32 with
  | .error _ => .ok (0, p)
  | .ok (hdr, _) =>
    let p := { p with ihead := words hdr, ohead := words hdr }
    if hd p.ihead 0x0 ≠ 0x5a4d ∨ hd p.ihead 0xd ≠ 0 ∨ hd p.ihead 0xc ≠ 0x1c then .ok (0, p)
    else
      let entry := entryOf p.ihead
      if entry ≥ p.inp.len + sig90.length then .ok (0, p)
      else
        match p.inp.sub entry (entry + sig90.length) with
        | none => .crash
        | some w90 =>
          if w90 = sig90 then .ok (90, p)
          else
            match p.inp.sub entry (entry + sig91.length) with
            | none => .crash
            | some w91 => if w91 = sig91 then .ok (91, p) else .ok (0, p)

/-- Method `ulz.putword`: append `v` as a little-endian 16-bit word. -/
def putword (out : List Byte) (v : Nat) : List Byte := out ++ [u8 v, u8 (v >>> 8)]

/-- State of the relocation loops: the reader's remaining bytes, the output
buffer and the `uint16` variables `reloff`, `relseg`, `relcount`. -/
structure Rel where
  r : List Byte
  out : List Byte
  reloff : Nat
  relseg : Nat
  relcount : Nat
deriving DecidableEq, Repr

/-- The state in which both relocation loops start: `var relcount, reloff, relseg uint16`. -/
def Rel.init (r out : List Byte) : Rel :=
  { r := r, out := out, reloff := 0, relseg := 0, relcount := 0 }

/-- The inner loop `for ; c > 0; c--` of `reloc90`. -/
def reloc90Block : Nat → Rel → Except String Rel
  | 0, s => .ok s
  | c + 1, s =>
    match readFull s.r 2 with
    | .error e => .error e
    | .ok (b, r) =>
      let reloff := hd (words b) 0
      reloc90Block c
        { r := r, out := putword (putword s.out reloff) s.relseg, reloff := reloff,
          relseg := s.relseg, relcount := (s.relcount + 1) % 65536 }

/-- The outer loop `for { ... }` of `reloc90`, at most `fuel` iterations. -/
def reloc90Loop : Nat → Rel → Res Rel
  | 0, _ => .hang
  | fuel + 1, s =>
    match readFull s.r 2 with
    | .error e => .error e
    | .ok (b, r) =>
      match reloc90Block (hd (words b) 0) { s with r := r } with
      | .error e => .error e
      | .ok s =>
        let s := { s with relseg := (s.relseg + 0x1000) % 65536 }
        if s.relseg ≥ 0xf000 + 0x1000 then .ok s
        else reloc90Loop fuel s

/-- Method `ulz.reloc90`. Every iteration of the outer loop reads at least two
bytes, so `len(in) + 1` iterations are never used up. -/
def reloc90 (p : ulz) (fpos : Nat) : Res ulz :=
  let fpos := (fpos + 0x19d) % 2 ^ 32
  if fpos ≥ p.inp.len % 2 ^ 32 then .error "compressed relocation table not found"
  else
    match reloc90Loop (p.inp.len + 1) (Rel.init (p.inp.elems.drop fpos) p.out) with
    | .ok s => .ok { p with out := s.out, ohead := p.ohead.set 3 s.relcount }
    | .error e => .error e
    | .crash => .crash
    | .hang => .hang

/-- Result of one iteration of the loop of `reloc91`. -/
inductive Rel91 where
  | next (s : Rel)
  | done (s : Rel)
  | fail (msg : String)
deriving DecidableEq, Repr

/-- The tail of the loop body of `reloc91` (source lines 408-413): add the span
to the offset, fold it into the segment, emit the pair and count it. -/
def reloc91Emit (s : Rel) (span : Nat) : Rel :=
  let reloff := (s.reloff + span) % 65536
  let relseg := (s.relseg + ((reloff - (reloff &&& 0x0f)) >>> 4)) % 65536
  let reloff := reloff &&& 0xf
  { s with out := putword (putword s.out reloff) relseg, reloff := reloff, relseg := relseg,
           relcount := (s.relcount + 1) % 65536 }

/-- One iteration of the loop of `reloc91`. -/
def reloc91Step (s : Rel) : Rel91 :=
  match s.r with
  | [] => .fail "EOF"
  | temp :: r =>
    if temp.val = 0 then
      match readFull r 2 with
      | .error e => .fail e
      | .ok (b, r) =>
        let span := hd (words b) 0
        if span = 0 then
          .next (reloc91Emit { s with r := r, relseg := (s.relseg + 0xfff) % 65536 } span)
        else if span = 1 then .done { s with r := r }
        else .next (reloc91Emit { s with r := r } span)
    else .next (reloc91Emit { s with r := r } temp.val)

/-- The loop of `reloc91`, at most `fuel` iterations. -/
def reloc91Loop : Nat → Rel → Res Rel
  | 0, _ => .hang
  | fuel + 1, s =>
    match reloc91Step s with
    | .fail e => .error e
    | .done s => .ok s
    | .next s => reloc91Loop fuel s

/-- Method `ulz.reloc91`. Every iteration reads at least one byte, so
`len(in) + 1` iterations are never used up. -/
def reloc91 (p : ulz) (fpos : Nat) : Res ulz :=
  let fpos := (fpos + 0x158) % 2 ^ 32
  if fpos ≥ p.inp.len % 2 ^ 32 then .error "compressed relocation table not found"
  else
    match reloc91Loop (p.inp.len + 1) (Rel.init (p.inp.elems.drop fpos) p.out) with
    | .ok s => .ok { p with out := s.out, ohead := p.ohead.set 3 s.relcount }
    | .error e => .error e
    | .crash => .crash
    | .hang => .hang

/-- Method `ulz.mkreltbl`. -/
def mkreltbl (p : ulz) : Res ulz :=
  let fpos := ((hd p.ihead 0xb + hd p.ihead 0x4) <<< 4) % 2 ^ 32
  if fpos ≥ p.inp.len % 2 ^ 32 then .error "compressed relocation table not found"
  else
    match readFull (p.inp.elems.drop fpos) 16 with
    | .error e => .error e
    | .ok (b, _) =>
      let inf := words b
      let ohead := ((((p.ohead.set 0xa (hd inf 0)).set 0xb (hd inf 1)).set 0x8 (hd inf 2)).set
        0x7 (hd inf 3)).set 0xc 0x1c
      let p := { p with inf := inf, ohead := ohead, out := List.replicate 0x1c 0 }
      if p.ver = 90 then reloc90 p fpos
      else if p.ver = 91 then reloc91 p fpos
      else .crash

/-- Type `bitstream` (its `data` field is always the input `p.in` and is passed
separately). -/
structure bitstream where
  buf : Nat
  count : Nat
deriving DecidableEq, Repr

/-- Expression `binary.LittleEndian.Uint16(data[pos:])`, which panics (`none`)
unless two bytes are available at `pos`. -/
def le16At (data : List Byte) (pos : Nat) : Option Nat :=
  match data[pos]?, data[pos + 1]? with
  | some lo, some hi => some (word lo hi)
  | _, _ => none

/-- Method `bitstream.init`: the loaded stream and the advanced cursor. -/
def bitstream.init (data : List Byte) (pos : Nat) : Option (bitstream × Nat) :=
  match le16At data pos with
  | none => none
  | some w => some ({ buf := w, count := 0x10 }, pos + 2)

/-- Method `bitstream.getbit`: the bit, the new stream state and the cursor. -/
def bitstream.getbit (p : bitstream) (data : List Byte) (pos : Nat) :
    Option (Nat × bitstream × Nat) :=
  let b := p.buf % 2
  let count := (p.count + 255) % 256
  if count = 0 then
    match le16At data pos with
    | none => none
    | some w => some (b, { buf := w, count := 0x10 }, pos + 2)
  else some (b, { buf := p.buf / 2, count := count }, pos)

/-- Conversion of a 16-bit pattern to `int16`. -/
def toInt16 (x : Nat) : Int :=
  if x % 65536 < 32768 then ((x % 65536 : Nat) : Int) else ((x % 65536 : Nat) : Int) - 65536

/-- Local variables of `ulz.unpack` that change in its loop. -/
structure Unp where
  data : List Byte
  bits : bitstream
  dp : Nat
  ip : Nat
  op : Nat
  out : List Byte
deriving DecidableEq, Repr

/-- Method `ulz.resize`. -/
def resize (out : List Byte) (n : Nat) : List Byte :=
  if out.length ≥ n then out else out ++ List.replicate (n - out.length) 0

/-- Statement `copy(p.out[op:], src)`; the slice expression panics (`none`) when
`op > len(p.out)`. -/
def copyOut (out : List Byte) (op : Nat) (src : List Byte) : Option (List Byte) :=
  if op ≤ out.length then some (out.take op ++ goCopy (out.drop op) src) else none

/-- The window flush at the head of the loop of `unpack` (source lines 444-452). -/
def flush (s : Unp) : Option Unp :=
  if s.dp > 0x4000 then
    let out := if s.out.length < 0x2000 + s.op then resize s.out (0x2000 + s.op) else s.out
    match copyOut out s.op (s.data.take 0x2000) with
    | none => none
    | some out =>
      let dp := s.dp - 0x2000
      some { s with out := out, op := s.op + 0x2000, dp := dp,
                    data := goCopy (s.data.take dp) (s.data.drop 0x2000) ++ s.data.drop dp }
  else some s

/-- The copy loop `for ; ln > 0; ln, dp = ln-1, dp+1 { data[dp] = data[dp+int(span)] }`
of `unpack`; an index outside the window panics (`none`). -/
def copyLoop : Nat → Int → List Byte → Nat → Option (List Byte × Nat)
  | 0, _, data, dp => some (data, dp)
  | ln + 1, span, data, dp =>
    if (dp : Int) + span < 0 then none
    else
      match data[((dp : Int) + span).toNat]? with
      | none => none
      | some v => if dp < data.length then copyLoop ln span (data.set dp v) (dp + 1) else none

/-- Result of one iteration of the loop of `unpack`. -/
inductive Step where
  | next (s : Unp)
  | stop (s : Unp)
  | fault
deriving DecidableEq, Repr

/-- The back-reference copy that ends an iteration of the loop of `unpack`. -/
def stepCopy (s : Unp) (bits : bitstream) (ip : Nat) (ln : Nat) (span : Int) : Step :=
  match copyLoop ln span s.data s.dp with
  | none => .fault
  | some (data, dp) => .next { s with data := data, dp := dp, bits := bits, ip := ip }

/-- One iteration of the loop of `unpack` (source lines 444-484) on input `inp`. -/
def unpackStep (inp : List Byte) (s0 : Unp) : Step :=
  match flush s0 with
  | none => .fault
  | some s =>
    match s.bits.getbit inp s.ip with
    | none => .fault
    | some (b1, bits, ip) =>
      if b1 ≠ 0 then
        match inp[ip]? with
        | none => .fault
        | some v =>
          if s.dp < s.data.length then
            .next { s with data := s.data.set s.dp v, dp := s.dp + 1, bits := bits, ip := ip + 1 }
          else .fault
      else
        match bits.getbit inp ip with
        | none => .fault
        | some (b2, bits, ip) =>
          if b2 = 0 then
            match bits.getbit inp ip with
            | none => .fault
            | some (b3, bits, ip) =>
              match bits.getbit inp ip with
              | none => .fault
              | some (b4, bits, ip) =>
                let ln := ((b3 <<< 1) ||| b4) + 2
                match inp[ip]? with
                | none => .fault
                | some v => stepCopy s bits (ip + 1) ln (toInt16 (v.val ||| 0xff00))
          else
            match inp[ip]? with
            | none => .fault
            | some lo =>
              match inp[ip + 1]? with
              | none => .fault
              | some hi =>
                let span := toInt16 (lo.val ||| ((((hi.val - (hi.val &&& 0x07)) <<< 5) ||| 0xe000) % 65536))
                let ln := (hi.val &&& 0x07) + 2
                if ln = 2 then
                  match inp[ip + 2]? with
                  | none => .fault
                  | some e =>
                    if e.val = 0 then .stop { s with bits := bits, ip := ip + 3 }
                    else if e.val = 1 then .next { s with bits := bits, ip := ip + 3 }
                    else stepCopy s bits (ip + 3) (e.val + 1) span
                else stepCopy s bits (ip + 2) ln span

/-- Outcome of the loop of `unpack`. -/
inductive LoopRes where
  | done (s : Unp)
  | fault
  | hang
deriving DecidableEq, Repr

/-- The loop `for { ... }` of `unpack`, at most `fuel` iterations. -/
def unpackLoop (inp : List Byte) : Nat → Unp → LoopRes
  | 0, _ => .hang
  | fuel + 1, s =>
    match unpackStep inp s with
    | .fault => .fault
    | .stop s => .done s
    | .next s => unpackLoop inp fuel s

/-- The message of the error that `unpack` returns when it recovers a panic. -/
def corruptMsg : String := "could not unpack corrupted compressed stream"

/-- Initial cursor of `unpack`: `(int(ihead[0xb]) - int(inf[4]) + int(ihead[4])) << 4`. -/
def ipOf (p : ulz) : Int := ((hd p.ihead 0xb : Int) - (hd p.inf 0x4 : Int) + (hd p.ihead 0x4 : Int)) * 16

/-- Iteration budget given to the loop of `unpack`: every iteration reads at
least one control bit, so this many iterations are never used up. -/
def unpackFuel (inp : List Byte) : Nat := 16 * inp.length + 17

/-- The statements of `unpack` after its loop (source lines 486-495): the output
buffer and `loadsize`. -/
def unpackFinish (s : Unp) (iop : Nat) : Option (List Byte × Nat) :=
  if s.dp ≠ s.data.length then
    let out := if s.out.length < s.dp + s.op then resize s.out (s.dp + s.op) else s.out
    match copyOut out s.op (s.data.take s.dp) with
    | none => none
    | some out => some (out, (s.op + s.dp - iop) % 2 ^ 32)
  else some (s.out, (s.op - iop) % 2 ^ 32)

/-- Method `ulz.unpack`: every panic raised in its body is recovered and turned
into the error `corruptMsg`. -/
def unpack (p : ulz) : Res ulz :=
  let op := hd p.ohead 4 <<< 4
  if ipOf p < 0 then .error corruptMsg
  else
    match bitstream.init p.inp.elems (ipOf p).toNat with
    | none => .error corruptMsg
    | some (bits, ip) =>
      match unpackLoop p.inp.elems (unpackFuel p.inp.elems)
          { data := List.replicate 0x4500 0, bits := bits, dp := 0, ip := ip, op := op,
            out := p.out } with
      | .hang => .hang
      | .fault => .error corruptMsg
      | .done s =>
        match unpackFinish s op with
        | none => .error corruptMsg
        | some (out, loadsize) => .ok { p with out := out, loadsize := loadsize }

/-- Statement `binary.LittleEndian.PutUint16(out[i*2:], v)`; panics (`none`) when
fewer than two bytes are left at `i*2`. -/
def putUint16At (out : List Byte) (i : Nat) (v : Nat) : Option (List Byte) :=
  if i * 2 + 2 ≤ out.length then some ((out.set (i * 2) (u8 v)).set (i * 2 + 1) (u8 (v >>> 8)))
  else none

/-- The loop `for i := 0; i < 0xe; i++` of `wrhead`, from index `i` for `n` rounds. -/
def wrheadLoop (ohead : List Nat) : Nat → Nat → List Byte → Option (List Byte)
  | 0, _, out => some out
  | n + 1, i, out =>
    match putUint16At out i (hd ohead i) with
    | none => none
    | some out => wrheadLoop ohead n (i + 1) out

/-- Subtraction of `uint16` values. -/
def sub16 (a b : Nat) : Nat := (a + 65536 - b % 65536) % 65536

/-- Method `ulz.wrhead`; a panic of `PutUint16` is not recovered. -/
def wrhead (p : ulz) : Res ulz :=
  let ohead :=
    if hd p.ihead 6 ≠ 0 then
      let o5 := sub16 (hd p.ohead 5)
        ((hd p.inf 5 + (((hd p.inf 6 + 16 - 1) % 65536) >>> 4) + 9) % 65536)
      let ohead := p.ohead.set 5 o5
      if hd p.ihead 6 ≠ 0xffff then
        ohead.set 6 (sub16 (hd ohead 6) (sub16 (hd p.ihead 5) (hd ohead 5)))
      else ohead
    else p.ohead
  let base := (hd ohead 4 <<< 4) % 2 ^ 32
  let ohead := ohead.set 1 (((p.loadsize + base) % 2 ^ 32) % 65536 &&& 0x1ff)
  let ohead := ohead.set 2 ((((p.loadsize + ((base + 0x1ff) % 2 ^ 32)) % 2 ^ 32) >>> 9) % 65536)
  match wrheadLoop ohead 0xe 0 p.out with
  | none => .crash
  | some out => .ok { p with ohead := ohead, out := out }

/-- Method `ulz.decode`, called on the zero receiver: the returned buffer. -/
def decode (inp : Slice) : Res (List Byte) :=
  let p := { ulz.zero with inp := inp }
  match rdhead p with
  | .error e => .error e
  | .crash => .crash
  | .hang => .hang
  | .ok (ver, p) =>
    let p := { p with ver := ver }
    if p.ver = 0 then .ok p.inp.elems
    else
      match mkreltbl p with
      | .error e => .error e
      | .crash => .crash
      | .hang => .hang
      | .ok p =>
        let fpos := p.out.length
        let i := (((0x200 : Int) - (fpos : Int)) % 512).toNat
        let p := { p with ohead := p.ohead.set 4 (((fpos + i) >>> 4) % 65536),
                          out := p.out ++ List.replicate i 0 }
        match unpack p with
        | .error e => .error e
        | .crash => .crash
        | .hang => .hang
        | .ok p =>
          match wrhead p with
          | .error e => .error e
          | .crash => .crash
          | .hang => .hang
          | .ok p => .ok p.out

/-- The header words that `rdhead` loads from an input of at least 32 bytes. -/
def headerOf (inp : Slice) : List Nat := words (inp.elems.take 32)

/-- The receiver once `rdhead` has loaded `ihead` and copied it to `ohead`. -/
def loaded (p : ulz) : ulz := { p with ihead := headerOf p.inp, ohead := headerOf p.inp }

/-- The fixed header fields that `rdhead` requires of a packed image. -/
def validHeader (h : List Nat) : Prop := hd h 0x0 = 0x5a4d ∧ hd h 0xd = 0 ∧ hd h 0xc = 0x1c

instance (h : List Nat) : Decidable (validHeader h) := by unfold validHeader; infer_instance


/-- The 232 bytes of the input that start at the entry offset of its header. -/
def stubWindow (inp : Slice) : List Byte :=
  (inp.elems.drop (entryOf (headerOf inp))).take 232

/-- A 32-byte load header with the fixed fields that `rdhead` requires and the
given words 4, 10 and 11; every other word is zero. -/
def mkHeader (w4 w10 w11 : Nat) : List Byte :=
  [0x4d, 0x5a, 0, 0, 0, 0, 0, 0, u8 w4, u8 (w4 >>> 8), 0, 0, 0, 0, 0, 0, 0, 0, 0, 0,
   u8 w10, u8 (w10 >>> 8), u8 w11, u8 (w11 >>> 8), 0x1c, 0, 0, 0, 0, 0, 0, 0]

/-- A 264-byte image: a header whose entry offset is 32, followed by the
variant-90 stub. -/
def stubImage90 : Slice := ⟨mkHeader 2 0 0 ++ sig90, []⟩

/-- A 512-byte image as `os.ReadFile` returns it (one spare byte of capacity):
a valid header whose entry offset is 496, followed by zero bytes. -/
def truncatedImage : Slice := ⟨mkHeader 0x1f 0 0 ++ List.replicate 480 0, [0]⟩

/-- A 32-byte image (a bare header whose entry offset is 32) in a backing array
whose spare capacity happens to hold the variant-90 stub. -/
def bareHeaderImage : Slice := ⟨mkHeader 2 0 0, sig90⟩

/-- A 479-byte variant-90 image: header (entry offset 48), info block, the
variant-90 stub, filler up to the relocation data at offset `32 + 0x19d`, and
16 count blocks: one relocation offset `0x1234` in block 0, none in the others. -/
def image90 : Slice :=
  ⟨mkHeader 2 16 0 ++ List.replicate 16 0 ++ sig90 ++ List.replicate 165 0 ++
    [1, 0, 0x34, 0x12] ++ List.replicate 30 0, []⟩

/-- A 391-byte variant-91 image. Bytes 32..47 hold a compressed stream (control
word `0x107`: three literals `A`, `B`, `C`, a short back-reference of length 2
and distance 3, the end-of-stream code), bytes 48..63 the info block (compressed
size 1 paragraph), bytes 62..293 the variant-91 stub, and the relocation data at
offset `48 + 0x158` is: span 5, the segment-wrap marker, the end marker. -/
def image91 : Slice :=
  ⟨mkHeader 2 0x0e 1 ++ [0x07, 0x01, 65, 66, 67, 0xfd, 0, 0, 0, 0, 0, 0, 0, 0, 0, 0] ++
    [0, 0, 0, 0, 0, 0, 0, 0, 1, 0, 0, 0, 0, 0] ++ sig91 ++ List.replicate 98 0 ++
    [5, 0, 0, 0, 0, 1, 0], []⟩

/-! ### The decode steps of `unpack`, and a reference decoder -/

/-- What one iteration of the loop of `unpack` reads from the compressed stream:
a literal byte, a back-reference (length and negative distance), the extended
code 1 (nothing to do) or the end-of-stream code. -/
inductive Cmd where
  | lit (v : Byte)
  | copy (ln : Nat) (span : Int)
  | skip
  | stop
deriving DecidableEq, Repr

/-- The reads of one iteration of the loop of `unpack` (control bits and raw
bytes, source lines 453-479), without its effect on the window: the decode step
read, the new bit-stream state and the new cursor; `none` when a control word
or a raw byte is read at or beyond the end of the input. -/
def readCmd (inp : List Byte) (bits : bitstream) (ip : Nat) : Option (Cmd × bitstream × Nat) :=
  match bits.getbit inp ip with
  | none => none
  | some (b1, bits, ip) =>
    if b1 ≠ 0 then
      match inp[ip]? with
      | none => none
      | some v => some (.lit v, bits, ip + 1)
    else
      match bits.getbit inp ip with
      | none => none
      | some (b2, bits, ip) =>
        if b2 = 0 then
          match bits.getbit inp ip with
          | none => none
          | some (b3, bits, ip) =>
            match bits.getbit inp ip with
            | none => none
            | some (b4, bits, ip) =>
              match inp[ip]? with
              | none => none
              | some v =>
                some (.copy (((b3 <<< 1) ||| b4) + 2) (toInt16 (v.val ||| 0xff00)), bits, ip + 1)
        else
          match inp[ip]? with
          | none => none
          | some lo =>
            match inp[ip + 1]? with
            | none => none
            | some hi =>
              let span := toInt16 (lo.val ||| ((((hi.val - (hi.val &&& 0x07)) <<< 5) ||| 0xe000) % 65536))
              let ln := (hi.val &&& 0x07) + 2
              if ln = 2 then
                match inp[ip + 2]? with
                | none => none
                | some e =>
                  if e.val = 0 then some (.stop, bits, ip + 3)
                  else if e.val = 1 then some (.skip, bits, ip + 3)
                  else some (.copy (e.val + 1) span, bits, ip + 3)
              else some (.copy ln span, bits, ip + 2)

/-- The effect of a decode step on the window of `unpack`. -/
def applyCmd (s : Unp) (bits : bitstream) (ip : Nat) : Cmd → Step
  | .lit v =>
    if s.dp < s.data.length then
      .next { s with data := s.data.set s.dp v, dp := s.dp + 1, bits := bits, ip := ip }
    else .fault
  | .copy ln span => stepCopy s bits ip ln span
  | .skip => .next { s with bits := bits, ip := ip }
  | .stop => .stop { s with bits := bits, ip := ip }

/-- Whether reading successive decode steps from the given bit-stream state runs
off the end of the input before an end-of-stream code is read, within `fuel`
steps. -/
def overruns (inp : List Byte) : Nat → bitstream → Nat → Bool
  | 0, _, _ => false
  | fuel + 1, bits, ip =>
    match readCmd inp bits ip with
    | none => true
    | some (.stop, _, _) => false
    | some (_, bits, ip) => overruns inp fuel bits ip

/-- State of the reference decoder: everything decoded so far in one unbounded
buffer, the bit stream and the read cursor. -/
structure Ref where
  acc : List Byte
  bits : bitstream
  ip : Nat
deriving DecidableEq, Repr

/-- Back-reference copy of the reference decoder: `ln` times, append the byte
that lies `-span` positions before the end of the buffer. -/
def refCopy : Nat → Int → List Byte → Option (List Byte)
  | 0, _, acc => some acc
  | ln + 1, span, acc =>
    if (acc.length : Int) + span < 0 then none
    else
      match acc[((acc.length : Int) + span).toNat]? with
      | none => none
      | some v => refCopy ln span (acc ++ [v])

/-- Outcome of one step, and of the whole loop, of the reference decoder. -/
inductive RefRes where
  | next (s : Ref)
  | done (s : Ref)
  | fault
  | hang
deriving DecidableEq, Repr

/-- One decode step of the reference decoder: the same reads as `unpack`, applied
to the unbounded buffer. -/
def refStep (inp : List Byte) (s : Ref) : RefRes :=
  match readCmd inp s.bits s.ip with
  | none => .fault
  | some (.lit v, bits, ip) => .next { acc := s.acc ++ [v], bits := bits, ip := ip }
  | some (.copy ln span, bits, ip) =>
    match refCopy ln span s.acc with
    | none => .fault
    | some acc => .next { acc := acc, bits := bits, ip := ip }
  | some (.skip, bits, ip) => .next { s with bits := bits, ip := ip }
  | some (.stop, bits, ip) => .done { s with bits := bits, ip := ip }

/-- The loop of the reference decoder, at most `fuel` steps. -/
def refLoop (inp : List Byte) : Nat → Ref → RefRes
  | 0, _ => .hang
  | fuel + 1, s =>
    match refStep inp s with
    | .next s => refLoop inp fuel s
    | r => r

/-- The reference decoder: the decoded payload, or the error of a corrupted
stream. -/
def refUnpack (p : ulz) : Res (List Byte) :=
  if ipOf p < 0 then .error corruptMsg
  else
    match bitstream.init p.inp.elems (ipOf p).toNat with
    | none => .error corruptMsg
    | some (bits, ip) =>
      match refLoop p.inp.elems (unpackFuel p.inp.elems) { acc := [], bits := bits, ip := ip } with
      | .done s => .ok s.acc
      | .fault => .error corruptMsg
      | .next _ => .hang
      | .hang => .hang

/-- The buffer `out` with `bytes` stored from position `pos` on, grown with zero
bytes where it is too short. -/
def place (out : List Byte) (pos : Nat) (bytes : List Byte) : List Byte :=
  (resize out (pos + bytes.length)).take pos ++ bytes ++ out.drop (pos + bytes.length)

/-- The receiver with which `decode` calls `unpack`, when it gets that far:
after `rdhead`, `mkreltbl` and the padding of the output to a multiple of 512. -/
def beforeUnpack (inp : Slice) : Option ulz :=
  match rdhead { ulz.zero with inp := inp } with
  | .ok (ver, p) =>
    if ver = 0 then none
    else
      match mkreltbl { p with ver := ver } with
      | .ok p =>
        let fpos := p.out.length
        let i := (((0x200 : Int) - (fpos : Int)) % 512).toNat
        some { p with ohead := p.ohead.set 4 (((fpos + i) >>> 4) % 65536),
                      out := p.out ++ List.replicate i 0 }
      | _ => none
  | _ => none

/-- Literal-only encoder, seen from the bit reader: with `k` control bits of the
current word still unread, the value of those bits (next bit lowest) and the
bytes that follow in the stream, such that every byte of `s` is a literal step
(control bit 1, then the raw byte) and the end-of-stream code (control bits
0, 1, raw bytes 0, 0, 0) comes last; a new control word is placed where the
reader reloads, right after the last bit of the current word is consumed. -/
def encFrom : Nat → List Byte → Nat × List Byte
  | k, [] =>
    if k = 1 then (0, [1, 0, 0, 0, 0])
    else if k = 2 then (2, [0, 0, 0, 0, 0])
    else (2, [0, 0, 0])
  | k, b :: rest =>
    if k = 1 then
      let t := encFrom 16 rest
      (1, u8 t.1 :: u8 (t.1 >>> 8) :: b :: t.2)
    else
      let t := encFrom (k - 1) rest
      (1 + 2 * t.1, b :: t.2)

/-- The compressed stream that encodes `s` with literal steps only: the first
control word, then the rest of the stream. -/
def encodeLiterals (s : List Byte) : List Byte :=
  u8 (encFrom 16 s).1 :: u8 ((encFrom 16 s).1 >>> 8) :: (encFrom 16 s).2

/-- A reader state is sound when its cursor lies inside the input and between 1
and 16 bits of the current control word are unread. -/
def BitsOk (inp : List Byte) (bits : bitstream) (ip : Nat) : Prop :=
  ip ≤ inp.length ∧ 1 ≤ bits.count ∧ bits.count ≤ 16

/-- Number of control bits that the reader can still deliver at most: it
decreases with every decode step. -/
def bitsLeft (inp : List Byte) (bits : bitstream) (ip : Nat) : Nat :=
  16 * (inp.length - ip) + bits.count

/-- The link between a state `s` of the loop of `unpack` (at the head of an
iteration) and a state `r` of the reference decoder, where `out0` and `iop` are
the output buffer and write position at the start of `unpack` and `fl` are the
bytes flushed from the window so far: the reference buffer is the flushed bytes
followed by the live part of the window, and the output buffer holds the flushed
bytes from `iop` on. -/
structure Sim (out0 : List Byte) (iop : Nat) (s : Unp) (r : Ref) (fl : List Byte) : Prop where
  bits : s.bits = r.bits
  ip : s.ip = r.ip
  len : s.data.length = 0x4500
  dp : s.dp ≤ 0x4100
  op : s.op = iop + fl.length
  acc : r.acc = fl ++ s.data.take s.dp
  hist : fl = [] ∨ 0x2000 < s.dp
  out : ∀ X, place s.out s.op X = place out0 iop (fl ++ X)

/-- A 395-byte variant-91 image whose compressed stream (bytes 32..47, all
literal steps) has no end-of-stream code: the decoder reads on through the rest
of the image and runs off its end. Its relocation data is the end marker alone. -/
def overrunImage : Slice :=
  ⟨mkHeader 2 0x0e 1 ++ List.replicate 16 0xff ++
    [0, 0, 0, 0, 0, 0, 0, 0, 1, 0, 0, 0, 0, 0] ++ sig91 ++ List.replicate 98 0xff ++
    [0, 1, 0], []⟩

/-- The receiver with which `decode` calls `unpack` on `overrunImage`. -/
def overrunState : ulz :=
  { inp := overrunImage, out := List.replicate 512 0,
    ihead := [0x5a4d, 0, 0, 0, 2, 0, 0, 0, 0, 0, 0x0e, 1, 0x1c, 0, 0, 0],
    ohead := [0x5a4d, 0, 0, 0, 32, 0, 0, 0, 0, 0, 0, 0, 0x1c, 0, 0, 0],
    inf := [0, 0, 0, 0, 1, 0, 0, 0x0e06], ver := 91, loadsize := 0 }

/-! ### Relocation data of variant 91: end marker, emitted pairs, encoder -/

/-- Whether the variant-91 relocation data `r`, read span by span, contains the
end marker (a zero byte followed by the 16-bit word 1) before it runs out. -/
def hasEnd91 : List Byte → Bool
  | [] => false
  | b :: r =>
    if b.val ≠ 0 then hasEnd91 r
    else
      match r with
      | lo :: hi :: r2 => if word lo hi = 1 then true else hasEnd91 r2
      | _ => false

/-- The (offset, segment) pairs that the loop of `reloc91` hands to `putword`, in
emission order: one pair for every iteration that reaches the emitting tail of
the loop body. -/
def reloc91Trace : Nat → Rel → List (Nat × Nat)
  | 0, _ => []
  | fuel + 1, s =>
    match reloc91Step s with
    | .next t => (t.reloff, t.relseg) :: reloc91Trace fuel t
    | _ => []

/-- The bytes of a relocation table: every pair as a little-endian offset word
followed by a little-endian segment word. -/
def tableBytes : List (Nat × Nat) → List Byte
  | [] => []
  | (o, s) :: rest => u8 o :: u8 (o >>> 8) :: u8 s :: u8 (s >>> 8) :: tableBytes rest

/-- Where `mkreltbl` makes `reloc91` start reading: `fpos + 0x158` in `uint32`
arithmetic, with `fpos = (ihead[0xb] + ihead[4]) << 4`. -/
def relocStart91 (p : ulz) : Nat :=
  (((hd p.ihead 0xb + hd p.ihead 0x4) <<< 4) % 2 ^ 32 + 0x158) % 2 ^ 32

/-- The pairs that `mkreltbl` emits on a variant-91 input. -/
def emitted91 (p : ulz) : List (Nat × Nat) :=
  reloc91Trace (p.inp.len + 1)
    (Rel.init (p.inp.elems.drop (relocStart91 p)) (List.replicate 0x1c 0))

/-- A span of the variant-91 format: one byte when it is between 1 and 255,
otherwise a zero byte followed by the span as a 16-bit little-endian word. -/
def encSpan (d : Nat) : List Byte :=
  if 0 < d ∧ d < 256 then [u8 d] else [0, u8 d, u8 (d >>> 8)]

/-- Variant-91 encoding of a list of (offset, segment) pairs after the address
`prev`: the successive differences of the addresses `16 * segment + offset` as
spans, then the end marker. -/
def encode91From (prev : Nat) : List (Nat × Nat) → List Byte
  | [] => [0, 1, 0]
  | (o, s) :: rest => encSpan (16 * s + o - prev) ++ encode91From (16 * s + o) rest

/-- Variant-91 encoding of a relocation table; the address accumulators start
at 0. -/
def encode91 (pairs : List (Nat × Nat)) : List Byte := encode91From 0 pairs

/-- The pairs that the variant-91 span format reproduces after the address
`prev`: offsets at most 15 and segments at most `0xffff`, addresses strictly
ascending from `prev`, and no span that overflows the 16-bit offset
accumulator (`prev mod 16` plus the span is at most `0xffff`). -/
def Spans91 (prev : Nat) : List (Nat × Nat) → Prop
  | [] => True
  | (o, s) :: rest =>
    o ≤ 15 ∧ s ≤ 0xffff ∧ prev < 16 * s + o ∧ (16 * s + o - prev) + prev % 16 ≤ 0xffff ∧
      Spans91 (16 * s + o) rest

/-- The first 392 bytes of `image91`: header, compressed stream, info block,
variant-91 stub and filler; the relocation data follows at offset `48 + 0x158`. -/
def stub91Head : List Byte :=
  mkHeader 2 0x0e 1 ++ [0x07, 0x01, 65, 66, 67, 0xfd, 0, 0, 0, 0, 0, 0, 0, 0, 0, 0] ++
    [0, 0, 0, 0, 0, 0, 0, 0, 1, 0, 0, 0, 0, 0] ++ sig91 ++ List.replicate 98 0

/-- A variant-91 image like `image91` with the relocation data `rel`. -/
def image91With (rel : List Byte) : Slice := ⟨stub91Head ++ rel, []⟩

/-! ### The bit reader, call after call -/

/-- The results of `n` successive calls of `getbit` between which the caller
leaves the cursor alone: the bits, the final stream state and the cursor. -/
def getbits (data : List Byte) : Nat → bitstream → Nat → Option (List Nat × bitstream × Nat)
  | 0, p, pos => some ([], p, pos)
  | n + 1, p, pos =>
    match p.getbit data pos with
    | none => none
    | some (b, p, pos) =>
      match getbits data n p pos with
      | none => none
      | some (bs, p, pos) => some (b :: bs, p, pos)

/-- The little-endian 16-bit word at byte offset `pos`, with missing bytes read
as 0. -/
def wordAt (data : List Byte) (pos : Nat) : Nat := word (data.getD pos 0) (data.getD (pos + 1) 0)

/-- A receiver whose input has `2^32 + 100` bytes: 376 zero bytes, the end marker
of the variant-91 relocation data at offset `32 + 0x158 = 376`, zero bytes. -/
def hugeRelocState : ulz :=
  { ulz.zero with
    inp := ⟨List.replicate 376 0 ++ ([0, 1, 0] ++ List.replicate (2 ^ 32 - 279) 0), []⟩ }

/-- The receiver with which `decode` calls `mkreltbl` on `image91`. -/
def image91Loaded : ulz := { loaded { ulz.zero with inp := image91 } with ver := 91 }

/-- The receiver that `mkreltbl` returns on `image91`. -/
def image91Reloc : ulz :=
  { inp := image91, out := List.replicate 0x1c 0 ++ [5, 0, 0, 0, 5, 0, 0xff, 0x0f],
    ihead := [0x5a4d, 0, 0, 0, 2, 0, 0, 0, 0, 0, 0x0e, 1, 0x1c, 0, 0, 0],
    ohead := [0x5a4d, 0, 0, 2, 2, 0, 0, 0, 0, 0, 0, 0, 0x1c, 0, 0, 0],
    inf := [0, 0, 0, 0, 1, 0, 0, 0x0e06], ver := 91, loadsize := 0 }

/-- The receiver with which `decode` calls `mkreltbl` on `image91With rel`. -/
def loaded91 (rel : List Byte) : ulz :=
  { loaded { ulz.zero with inp := image91With rel } with ver := 91 }

/-- The receiver on which `decode` calls `unpack` for `image91`: the relocation
table of `image91Reloc` padded to 512 bytes, output header word 4 set to 32. -/
def image91Padded : ulz :=
  { image91Reloc with
    out := image91Reloc.out ++ List.replicate 476 0,
    ohead := image91Reloc.ohead.set 4 32 }

/-! ### The graphics decoder of `dumptiles` -/

/-- Constant `vgaoff` of `dumptiles`. -/
def vgaoff : Nat := 0x120f0

/-- Constant `paloff` of `dumptiles`. -/
def paloff : Nat := 0x26b0a

/-- The bytes that successive reads of `io.NewSectionReader(r, off, math.MaxInt32)`
deliver, `r` being a reader over `data`: at most `MaxInt32` bytes from offset
`off` on. -/
def sectionReader (data : List Byte) (off : Nat) : List Byte :=
  (data.drop off).take 0x7fffffff

/-- Little-endian 32-bit word made of four bytes (`binary.LittleEndian.Uint32`). -/
def word32 (b0 b1 b2 b3 : Byte) : Nat :=
  b0.val + 256 * b1.val + 65536 * b2.val + 16777216 * b3.val

/-- Statement `binary.Read(r, binary.LittleEndian, &v)` for a `uint8` variable
that holds `cur`, its error ignored: the variable afterwards and the rest of the
reader. At the end of the input the variable keeps its value. -/
def readByteOr (r : List Byte) (cur : Byte) : Byte × List Byte :=
  match r with
  | [] => (cur, [])
  | x :: r => (x, r)

/-- Statement `binary.Read(rv, binary.LittleEndian, &flen)` on `var flen uint32`,
its error ignored: with fewer than four bytes left `flen` stays 0 and the
reader is drained. -/
def readLen (r : List Byte) : Nat × List Byte :=
  match r with
  | b0 :: b1 :: b2 :: b3 :: r => (word32 b0 b1 b2 b3, r)
  | _ => (0, [])

/-- State of the RLE loop of `dumptiles`: the rest of the reader `rv`, the
buffer `out` and the `uint32` counter `clen`. -/
structure Rle where
  r : List Byte
  out : List Byte
  clen : Nat
deriving DecidableEq, Repr

/-- The loop `for b++; b != 0; b--` of a literal run, for `n` rounds; `nb` is the
variable that the reads store into. -/
def rleLiteral : Nat → Byte → Rle → Rle
  | 0, _, s => s
  | n + 1, nb, s =>
    let x := readByteOr s.r nb
    rleLiteral n x.1 { r := x.2, out := s.out ++ [x.1], clen := (s.clen + 1) % 2 ^ 32 }

/-- The loop `for b += 3; b != 0; b--` of a repeat run, for `n` rounds. -/
def rleRepeat : Nat → Byte → Rle → Rle
  | 0, _, s => s
  | n + 1, nb, s =>
    rleRepeat n nb { s with out := s.out ++ [nb], clen := (s.clen + 1) % 2 ^ 32 }

/-- The body of the RLE loop of `dumptiles`: one run. The variables `b` and `nb`
start at 0 in every iteration. -/
def rleStep (s : Rle) : Rle :=
  let x := readByteOr s.r 0
  if x.1.val &&& 0x80 ≠ 0 then rleLiteral ((x.1.val &&& 0x7f) + 1) 0 { s with r := x.2 }
  else
    let y := readByteOr x.2 0
    rleRepeat (x.1.val + 3) y.1 { s with r := y.2 }

/-- The RLE loop `for clen := uint32(0); clen < flen; ` of `dumptiles`, at most
`fuel` iterations. -/
def rleLoop (flen : Nat) : Nat → Rle → Res Rle
  | 0, _ => .hang
  | fuel + 1, s => if s.clen < flen then rleLoop flen fuel (rleStep s) else .ok s

/-- The first part of `dumptiles` (source lines 157-182): the decompressed
graphics stream `out` and the declared length `flen`. An iteration either
consumes input or, once the input is used up, advances `clen` by 3 modulo
`2^32`, so the iteration budget is the input length plus `2^32 + 1`. -/
def rleDecode (data : List Byte) : Res (List Byte × Nat) :=
  let x := readLen (sectionReader data vgaoff)
  match rleLoop x.1 (x.2.length + 2 ^ 32 + 1) { r := x.2, out := [], clen := 0 } with
  | .ok s => .ok (s.out, x.1)
  | .error e => .error e
  | .crash => .crash
  | .hang => .hang

/-- The palette loops of `dumptiles` (source lines 184-190), flattened to `n`
successive channels `pal[i*3+j]`: a read into the zero channel, then
`pal[i*3+j] <<= 2` in `uint8`. -/
def palLoop : Nat → List Byte → List Byte
  | 0, _ => []
  | n + 1, r => u8 ((readByteOr r 0).1.val <<< 2) :: palLoop n (readByteOr r 0).2

/-- The palette `pal` that `dumptiles` builds. -/
def palette (data : List Byte) : List Byte := palLoop 768 (sectionReader data paloff)

/-- Expression `binary.LittleEndian.Uint32(out[pos:])`, which panics (`none`)
unless four bytes are available at `pos`. -/
def le32At (out : List Byte) (pos : Nat) : Option Nat :=
  match out[pos]?, out[pos + 1]?, out[pos + 2]?, out[pos + 3]? with
  | some b0, some b1, some b2, some b3 => some (word32 b0 b1 b2 b3)
  | _, _, _, _ => none

/-- The loop `for i := uint32(0); i < tn; i++` that reads the tile index table,
from index `i` for `n` rounds; the offset `i*4+4` is computed in `uint32`. -/
def tileLoop (out : List Byte) : Nat → Nat → Option (List Nat)
  | 0, _ => some []
  | n + 1, i =>
    match le32At out ((i * 4 + 4) % 2 ^ 32) with
    | none => none
    | some t =>
      match tileLoop out n (i + 1) with
      | none => none
      | some ti => some (t :: ti)

/-- The part of `dumptiles` that builds the tile index table `ti` (source lines
192-206) from the decompressed stream `out` and the declared length `flen`. -/
def tileIndex (out : List Byte) (flen : Nat) : Res (List Nat) :=
  if out.length < 4 then
    .error ("decompressed tile index buffer of " ++ toString out.length ++ " bytes is too small")
  else
    match le32At out 0 with
    | none => .crash
    | some tn =>
      if out.length < tn * 4 + 4 then
        .error ("decompressed tile index buffer of " ++ toString out.length ++
          " bytes is too small for tile length of " ++ toString tn ++ " bytes")
      else
        match tileLoop out tn 0 with
        | none => .crash
        | some ti => .ok (ti ++ [flen])

/-- The little-endian 32-bit word at byte offset `pos`, with missing bytes read
as 0. -/
def word32At (out : List Byte) (pos : Nat) : Nat :=
  word32 (out.getD pos 0) (out.getD (pos + 1) 0) (out.getD (pos + 2) 0) (out.getD (pos + 3) 0)

/-- A decompressed graphics stream of `2^32 + 4` bytes: the tile count `2^30`,
then zero bytes. -/
def hugeTileStream : List Byte := [0, 0, 0, 0x40] ++ List.replicate (2 ^ 32) 0

/-- An image that ends three bytes into the palette blob: channels 63, 1, 200. -/
def paletteSample : List Byte := List.replicate paloff 0 ++ [63, 1, 200]

/-- A decompressed graphics stream of 14 bytes that declares two tiles, at
offsets 12 and 13. -/
def tileSample : List Byte := [2, 0, 0, 0, 12, 0, 0, 0, 13, 0, 0, 0, 7, 9]

/-! ### The RLE format as the specification describes it -/

/-- One run of the RLE format, read as the specification describes it: a control
byte with its high bit set is followed by `(b & 0x7f) + 1` bytes to append
verbatim, a control byte with its high bit clear by one byte to append `b + 3`
times. The result is the bytes to append and the rest of the input, or `none`
when the input ends inside the run. -/
def specRun : List Byte → Option (List Byte × List Byte)
  | [] => none
  | b :: rest =>
    if b.val &&& 0x80 ≠ 0 then
      if (b.val &&& 0x7f) + 1 ≤ rest.length then
        some (rest.take ((b.val &&& 0x7f) + 1), rest.drop ((b.val &&& 0x7f) + 1))
      else none
    else
      match rest with
      | [] => none
      | v :: rest => some (List.replicate (b.val + 3) v, rest)

/-- The RLE decoder as the specification describes it: runs are appended to
`acc` until the number of bytes produced is at least the declared length
`flen`; `none` when the input ends before that (or after `fuel` runs). -/
def specDecode (flen : Nat) : Nat → List Byte → List Byte → Option (List Byte)
  | 0, _, _ => none
  | fuel + 1, r, acc =>
    if flen ≤ acc.length then some acc
    else
      match specRun r with
      | none => none
      | some x => specDecode flen fuel x.2 (acc ++ x.1)

/-- A run of an RLE encoding: a literal run of the given bytes, or a repeat run
of `n` copies of one byte. -/
inductive Run where
  | lit (bs : List Byte)
  | rep (v : Byte) (n : Nat)
deriving DecidableEq, Repr

/-- The bytes that a run stands for. -/
def Run.expand : Run → List Byte
  | .lit bs => bs
  | .rep v n => List.replicate n v

/-- A literal run has 1 to 128 bytes, a repeat run 3 to 130 copies. -/
def Run.Valid : Run → Prop
  | .lit bs => 1 ≤ bs.length ∧ bs.length ≤ 128
  | .rep _ n => 3 ≤ n ∧ n ≤ 130

/-- The encoding of a run: the control byte `0x80 | (len - 1)` and the bytes of a
literal run, the control byte `n - 3` and the byte of a repeat run. -/
def Run.encode : Run → List Byte
  | .lit bs => u8 (0x80 + (bs.length - 1)) :: bs
  | .rep v n => [u8 (n - 3), v]

/-- The bytes that a sequence of runs stands for. -/
def expandRuns : List Run → List Byte
  | [] => []
  | run :: runs => run.expand ++ expandRuns runs

/-- The encoding of a sequence of runs. -/
def encodeRuns : List Run → List Byte
  | [] => []
  | run :: runs => run.encode ++ encodeRuns runs

/-- A length as a 32-bit little-endian word. -/
def le32 (n : Nat) : List Byte := [u8 n, u8 (n >>> 8), u8 (n >>> 16), u8 (n >>> 24)]

/-- The encoding of `k` repeat runs of 130 zero bytes each. -/
def repRuns : Nat → List Byte
  | 0 => []
  | k + 1 => 0x7f :: 0 :: repRuns k

/-- The encoding of `k` literal runs of the single byte 1. -/
def litRuns : Nat → List Byte
  | 0 => []
  | k + 1 => 0x80 :: 1 :: litRuns k

/-- An image whose graphics blob is: the declared length 7, a literal run of the
bytes 1, 2, 3, a repeat run of four bytes 9. -/
def rleSample : List Byte := List.replicate vgaoff 0 ++ [7, 0, 0, 0, 0x82, 1, 2, 3, 0x01, 9]

/-- An image whose graphics blob declares the length `2^32 - 1` and holds
33038210 repeat runs of 130 zero bytes each (`2^32 + 4` bytes in all). -/
def hugeRleImage : List Byte :=
  List.replicate vgaoff 0 ++ ([0xff, 0xff, 0xff, 0xff] ++ repRuns 33038210)

/-- An image whose graphics blob declares the length 10 and ends inside its
first run: a literal run of four bytes of which only two are present. -/
def cutRleImage : List Byte := List.replicate vgaoff 0 ++ [10, 0, 0, 0, 0x83, 1, 2]

/-- An encoding of `2^30` bytes 1 as `2^30` literal runs of one byte each. -/
def hugeRuns : List Run := List.replicate (2 ^ 30) (.lit [1])

/-- An image whose graphics blob is the encoding `hugeRuns`, prefixed with its
decoded length `2^30`: `2^31 + 4` bytes from offset `vgaoff` on. -/
def hugeLitImage : List Byte :=
  List.replicate vgaoff 0 ++ (le32 (expandRuns hugeRuns).length ++ encodeRuns hugeRuns ++ [])

/-! ### The tiles of `dumptiles` -/

/-- A `color.RGBA` value. -/
structure RGBA where
  r : Byte
  g : Byte
  b : Byte
  a : Byte
deriving DecidableEq, Repr

/-- An `*image.RGBA` with bounds `image.Rect(0, 0, w, h)`: its pixels in
row-major order. -/
structure Img where
  w : Nat
  h : Nat
  pix : List RGBA
deriving DecidableEq, Repr

/-- Call `image.NewRGBA(image.Rect(0, 0, w, h))`: every pixel is transparent
black. -/
def Img.new (w h : Nat) : Img := { w := w, h := h, pix := List.replicate (w * h) ⟨0, 0, 0, 0⟩ }

/-- Method `(*image.RGBA).Set`: a point outside the bounds is ignored. -/
def Img.set (m : Img) (x y : Nat) (c : RGBA) : Img :=
  if x < m.w ∧ y < m.h then { m with pix := m.pix.set (y * m.w + x) c } else m

/-- The pixel at `(x, y)`, if the point lies inside the bounds. -/
def Img.get (m : Img) (x y : Nat) : Option RGBA :=
  if x < m.w ∧ y < m.h then m.pix[y * m.w + x]? else none

/-- The start offset `cb` of a tile whose index table entry is `v` (source lines
213-217): `cb++` in `uint32` when `cb > 65280`. -/
def tileStart (v : Nat) : Nat := if v > 65280 then (v + 1) % 2 ^ 32 else v

/-- The detection of an inline tile size (source lines 219-224) at offset `cb`:
the width, the height and the offset of the pixel data; `none` when one of the
index expressions `out[cb+1]`, `out[cb+3]`, `out[cb]`, `out[cb+2]` (computed in
`uint32` and evaluated in this order, as far as `&&` gets) is out of range and
panics. -/
def tileHeader (out : List Byte) (cb : Nat) : Option (Nat × Nat × Nat) :=
  match out[(cb + 1) % 2 ^ 32]? with
  | none => none
  | some b1 =>
    if b1.val = 0 then
      match out[(cb + 3) % 2 ^ 32]? with
      | none => none
      | some b3 =>
        if b3.val = 0 then
          match out[cb]? with
          | none => none
          | some b0 =>
            if 0 < b0.val ∧ b0.val < 0xbf then
              match out[(cb + 2) % 2 ^ 32]? with
              | none => none
              | some b2 =>
                if 0 < b2.val ∧ b2.val < 0x64 then some (b0.val, b2.val, (cb + 4) % 2 ^ 32)
                else some (16, 16, cb)
            else some (16, 16, cb)
        else some (16, 16, cb)
    else some (16, 16, cb)

/-- Expression `color.RGBA{pal[sb*3], pal[sb*3+1], pal[sb*3+2], 255}`. -/
def palColor (pal : List Byte) (sb : Nat) : RGBA :=
  { r := pal.getD (sb * 3) 0, g := pal.getD (sb * 3 + 1) 0, b := pal.getD (sb * 3 + 2) 0, a := 255 }

/-- The pixel loop `for ; cb < ti[tc+1]; cb++` of a tile (source lines 228-241),
for the `n` iterations that remain: the image and the final `cb`. -/
def pixelLoop (out pal : List Byte) (tw : Nat) : Nat → Nat → Nat → Nat → Img → Res (Img × Nat)
  | 0, cb, _, _, m => .ok (m, cb)
  | n + 1, cb, x, y, m =>
    if cb ≥ out.length then .error ("invalid current byte index " ++ toString cb)
    else if (out.getD cb 0).val * 3 + 2 ≥ 768 then
      .error ("invalid palette index " ++ toString (out.getD cb 0).val)
    else
      let m := m.set x y (palColor pal (out.getD cb 0).val)
      if x + 1 ≥ tw then pixelLoop out pal tw n (cb + 1) 0 (y + 1) m
      else pixelLoop out pal tw n (cb + 1) (x + 1) y m

/-- One iteration of the tile loop of `dumptiles` (source lines 213-242) for the
index table entries `v = ti[tc]` and `next = ti[tc+1]`: the image of the tile
and the value of `cb` after the pixel loop. -/
def decodeTile (out pal : List Byte) (v next : Nat) : Res (Img × Nat) :=
  match tileHeader out (tileStart v) with
  | none => .crash
  | some (tw, th, cb) => pixelLoop out pal tw (next - cb) cb 0 0 (Img.new tw th)

/-- The tile loop `for tc := uint32(0); tc < tn; tc++` of `dumptiles`, from tile
`tc` for `n` rounds. Writing the image files is left out: the file system is
taken to accept every write. -/
def tileImages (out pal : List Byte) (ti : List Nat) : Nat → Nat → Res (List Img)
  | 0, _ => .ok []
  | n + 1, tc =>
    if tc ≥ ti.length then .error ("invalid tile index " ++ toString tc)
    else
      match ti[tc + 1]? with
      | none => .crash
      | some next =>
        match decodeTile out pal (ti.getD tc 0) next with
        | .ok (m, _) =>
          match tileImages out pal ti n (tc + 1) with
          | .ok imgs => .ok (m :: imgs)
          | r => r
        | .error e => .error e
        | .crash => .crash
        | .hang => .hang

/-- Function `dumptiles`: the images of the tiles. The tile count `tn` is the
little-endian word at byte 0 of the decompressed stream. -/
def dumptiles (data : List Byte) : Res (List Img) :=
  match rleDecode data with
  | .ok (out, flen) =>
    match tileIndex out flen with
    | .ok ti => tileImages out (palette data) ti (word32At out 0) 0
    | .error e => .error e
    | .crash => .crash
    | .hang => .hang
  | .error e => .error e
  | .crash => .crash
  | .hang => .hang

/-! ### Level records and the map -/

/-- Type `Level` of `dump_dave.go`: `Path [256]uint8`, `Tiles [1000]uint8`,
`Pad [24]uint8`. -/
structure Level where
  Path : List Byte
  Tiles : List Byte
  Pad : List Byte
deriving DecidableEq, Repr

/-- Constant `leveloff` of `dumplevel`. -/
def leveloff : Nat := 0x26e0a

/-- Constant `levelsize` of `dumplevel`. -/
def levelsize : Nat := 1280

/-- Function `dumplevel`: the parsed level and the bytes written to the level
file (`binary.Write` of the level). Creating and writing the file is left out:
the file system is taken to accept every write. -/
def dumplevel (data : List Byte) (level : Nat) : Res (Level × List Byte) :=
  let start := leveloff + levelsize * level
  let stop := start + levelsize
  if stop ≥ data.length then .error "level does not exist in file"
  else
    let r := (data.drop start).take (stop - start)
    let l : Level :=
      { Path := r.take 256, Tiles := (r.drop 256).take 1000, Pad := (r.drop 1256).take 24 }
    .ok (l, l.Path ++ l.Tiles ++ l.Pad)

/-- One call `draw.Draw(m, dp, imgs[id], image.ZP, draw.Over)` of `dumpmap`: the
corners `(x0, y0)-(x1, y1)` of the destination rectangle `dp` and the image
drawn. -/
structure DrawCall where
  x0 : Nat
  y0 : Nat
  x1 : Nat
  y1 : Nat
  img : Img
deriving DecidableEq, Repr

/-- The body of the innermost loop of `dumpmap` for level `k`, row `j` and column
`i`; `none` when `lvls[k]` or `imgs[id]` is out of range and panics. -/
def drawTile (lvls : List Level) (imgs : List Img) (k j i : Nat) : Option DrawCall :=
  match lvls[k]? with
  | none => none
  | some lvl =>
    match imgs[(lvl.Tiles.getD (j * 100 + i) 0).val]? with
    | none => none
    | some img =>
      some { x0 := i * 16, y0 := k * 160 + j * 16, x1 := i * 16 + 16, y1 := k * 160 + j * 16 + 16,
             img := img }

/-- The loop `for i := 0; i < 100; i++` of `dumpmap`, from column `i` for `n`
rounds. -/
def dumpmapRow (lvls : List Level) (imgs : List Img) (k j : Nat) : Nat → Nat → Option (List DrawCall)
  | 0, _ => some []
  | n + 1, i =>
    match drawTile lvls imgs k j i with
    | none => none
    | some d =>
      match dumpmapRow lvls imgs k j n (i + 1) with
      | none => none
      | some ds => some (d :: ds)

/-- The loop `for j := 0; j < 10; j++` of `dumpmap`, from row `j` for `n` rounds. -/
def dumpmapLevel (lvls : List Level) (imgs : List Img) (k : Nat) : Nat → Nat → Option (List DrawCall)
  | 0, _ => some []
  | n + 1, j =>
    match dumpmapRow lvls imgs k j 100 0 with
    | none => none
    | some ds =>
      match dumpmapLevel lvls imgs k n (j + 1) with
      | none => none
      | some es => some (ds ++ es)

/-- The loop `for k := 0; k < 10; k++` of `dumpmap`, from level `k` for `n`
rounds. -/
def dumpmapLoop (lvls : List Level) (imgs : List Img) : Nat → Nat → Option (List DrawCall)
  | 0, _ => some []
  | n + 1, k =>
    match dumpmapLevel lvls imgs k 10 0 with
    | none => none
    | some ds =>
      match dumpmapLoop lvls imgs n (k + 1) with
      | none => none
      | some es => some (ds ++ es)

/-- Function `dumpmap`: the draw calls made on the 1600 x 1600 raster, in order;
a panic of an index expression is not recovered. Writing the image file is
left out. -/
def dumpmap (lvls : List Level) (imgs : List Img) : Res (List DrawCall) :=
  match dumpmapLoop lvls imgs 10 0 with
  | none => .crash
  | some ds => .ok ds

/-! ### Monsters of `lmdave.go` -/

/-- Type `Monster` of `lmdave.go`. -/
structure Monster where
  typ : Int
  path_index : Int
  dead_timer : Int
  monster_x : Int
  monster_y : Int
  monster_px : Int
  monster_py : Int
  next_px : Int
  next_py : Int
deriving DecidableEq, Repr

/-- Expression `int(c.level[c.current_level].path[i])` for an `int` index `i`
into `path [256]byte`; `none` when the index is out of range and panics. -/
def pathAt (path : List Byte) (i : Int) : Option Int :=
  if 0 ≤ i ∧ i < 256 then some ((path.getD i.toNat 0).val : Int) else none

/-- The waypoint fetch of `move_monsters` (source lines 797-809). -/
def fetchWaypoint (path : List Byte) (m : Monster) : Option Monster :=
  if m.next_px = 0 ∧ m.next_py = 0 then
    match pathAt path m.path_index with
    | none => none
    | some px =>
      match pathAt path (m.path_index + 1) with
      | none => none
      | some py =>
        let m := { m with next_px := px, next_py := py, path_index := m.path_index + 2 }
        if m.next_px = -22 ∧ m.next_py = -22 then
          match pathAt path 0, pathAt path 1 with
          | some px, some py => some { m with next_px := px, next_py := py, path_index := 2 }
          | _, _ => none
        else some m
  else some m

/-- The four movement statements of `move_monsters` (source lines 811-833). -/
def stepMonster (m : Monster) : Monster :=
  let m := if m.next_px < 0 then { m with monster_px := m.monster_px - 1, next_px := m.next_px + 1 }
    else m
  let m := if m.next_px > 0 then { m with monster_px := m.monster_px + 1, next_px := m.next_px - 1 }
    else m
  let m := if m.next_py < 0 then { m with monster_py := m.monster_py - 1, next_py := m.next_py + 1 }
    else m
  if m.next_py > 0 then { m with monster_py := m.monster_py + 1, next_py := m.next_py - 1 } else m

/-- Constant `TILE_SIZE` of `lmdave.go`. -/
def TILE_SIZE : Int := 16

/-- The body of the loop of `move_monsters` for one monster, `path` being
`c.level[c.current_level].path`; `none` when an index expression panics. -/
def moveMonster (path : List Byte) (m : Monster) : Option Monster :=
  if m.typ ≠ 0 ∧ m.dead_timer = 0 then
    match fetchWaypoint path m with
    | none => none
    | some m =>
      match fetchWaypoint path (stepMonster m) with
      | none => none
      | some m =>
        let m := stepMonster m
        some { m with monster_x := Int.tdiv m.monster_px TILE_SIZE,
                      monster_y := Int.tdiv m.monster_py TILE_SIZE }
  else some m

/-- Method `Game.move_monsters` on the monsters of the game. -/
def move_monsters (path : List Byte) : List Monster → Option (List Monster)
  | [] => some []
  | m :: ms =>
    match moveMonster path m with
    | none => none
    | some m =>
      match move_monsters path ms with
      | none => none
      | some ms => some (m :: ms)

/-- A decompressed graphics stream with one tile whose pixel data start with an
inline size: width 2, height 3, then six palette indices. -/
def sizedTileStream : List Byte := [1, 0, 0, 0, 8, 0, 0, 0, 2, 0, 3, 0, 1, 2, 3, 4, 5, 6]

/-- A decompressed graphics stream of 8 bytes whose only index table entry is
`0xffffffff`. -/
def wrapTileStream : List Byte := [1, 0, 0, 0, 0xff, 0xff, 0xff, 0xff]

/-- A decompressed graphics stream with one 16 x 16 tile of 256 palette indices
5, and its declared length 264. -/
def fiveTileStream : List Byte := [1, 0, 0, 0, 8, 0, 0, 0] ++ List.replicate 256 5

/-- The palette built from a palette blob whose entry 5 is `(0x10, 0x20, 0x30)`
and whose other entries are zero. -/
def fivePalette : List Byte := palLoop 768 (List.replicate 15 0 ++ [0x10, 0x20, 0x30])

/-- The 16 x 16 image whose every pixel is `RGBA(0x40, 0x80, 0xc0, 0xff)`. -/
def fiveTileImage : Img := { w := 16, h := 16, pix := List.replicate 256 ⟨0x40, 0x80, 0xc0, 0xff⟩ }

/-- An image whose graphics blob declares the length 4 and holds one literal
run of 12 bytes: the tile count 1, the index table entry 8, four bytes 5. -/
def shortTileImage : List Byte :=
  List.replicate vgaoff 0 ++ [4, 0, 0, 0, 0x8b, 1, 0, 0, 0, 8, 0, 0, 0, 5, 5, 5, 5]

/-- An image whose graphics blob expands to 8 bytes: the tile count 1 and the
index table entry 8, which points at the end of the stream. -/
def crashTileImage : List Byte :=
  List.replicate vgaoff 0 ++ [8, 0, 0, 0, 0x87, 1, 0, 0, 0, 8, 0, 0, 0]

/-- A level record: 256 path bytes 7, the tile grid (byte 0 is 42, then 999
bytes 1), 24 padding bytes 0. -/
def levelRecord : List Byte :=
  List.replicate 256 7 ++ (42 :: List.replicate 999 1) ++ List.replicate 24 0

/-- An image that holds `levelRecord` as record 0 and ends one byte after it. -/
def levelSample : List Byte :=
  List.replicate (leveloff + levelsize * 0) 0 ++ (levelRecord ++ [0])

/-- An image that ends exactly at the end of record 0. -/
def exactFitImage : List Byte := List.replicate (leveloff + levelsize * (0 + 1)) 0

/-- Ten levels whose tile grids hold the tile number 1 everywhere. -/
def tenLevels : List Level :=
  List.replicate 10 { Path := List.replicate 256 0, Tiles := List.replicate 1000 1,
                      Pad := List.replicate 24 0 }

/-- A compressed stream: the control word `0x0049` (a literal, a short
back-reference with length bits 1, 0, the end-of-stream code), the literal `A`,
the distance byte `0xff`, and the three zero bytes of the end-of-stream code. -/
def runStream : List Byte := [0x49, 0x00, 65, 0xff, 0, 0, 0]

/-- The variables of the loop of `unpack` on `runStream` after its literal
step: one byte decoded, 15 control bits unread, cursor at the distance byte. -/
def runState : Unp :=
  { data := 65 :: List.replicate 0x44ff 0, bits := ⟨0x24, 15⟩, dp := 1, ip := 3, op := 0,
    out := [] }

/-- The state of the reference decoder that goes with `runState`. -/
def runRef : Ref := { acc := [65], bits := ⟨0x24, 15⟩, ip := 3 }

/-- A monster path whose first waypoint is `(5, 0)` and whose second pair is the
end-of-path sentinel, bytes `0xEA 0xEA`. -/
def sentinelPath : List Byte := [5, 0, 0xEA, 0xEA] ++ List.replicate 252 0

/-- An active monster that has walked its first waypoint and fetches the next
one at path index 2. -/
def sentinelMonster : Monster :=
  { typ := 1, path_index := 2, dead_timer := 0, monster_x := 1, monster_y := 1,
    monster_px := 21, monster_py := 16, next_px := 0, next_py := 0 }

/-! ### Dave of `lmdave.go` -/

/-- The fields of type `Game` of `lmdave.go` that `move_dave` reads or writes.
Go `int` values are unbounded integers here; `/` is the truncating division of Go. -/
structure Game where
  dave_tick : Int
  dave_x : Int
  dave_y : Int
  dbullet_px : Int
  dbullet_py : Int
  dbullet_dir : Int
  dave_px : Int
  dave_py : Int
  last_dir : Int
  dave_right : Bool
  dave_left : Bool
  dave_jump : Bool
  dave_fire : Bool
  dave_down : Bool
  dave_up : Bool
  dave_jetpack : Bool
  jump_timer : Int
  collision_point : List Bool
deriving DecidableEq, Repr

/-- Source lines 700-707 of `move_dave`: the grid position of Dave, and the wrap
to the top of the level when he falls through the floor. -/
def daveGrid (c : Game) : Game :=
  let c : Game := { c with dave_x := Int.tdiv c.dave_px TILE_SIZE }
  let c : Game := { c with dave_y := Int.tdiv c.dave_py TILE_SIZE }
  if c.dave_y > 9 then { c with dave_y := 0, dave_py := -16 } else c

/-- Source lines 709-737 of `move_dave`: the moves right, left, down and up. -/
def daveWalk (c : Game) : Game :=
  let c : Game := if c.dave_right then
      { c with dave_px := c.dave_px + 2, last_dir := 1, dave_tick := c.dave_tick + 1,
               dave_right := false }
    else c
  let c : Game := if c.dave_left then
      { c with dave_px := c.dave_px - 2, last_dir := -1, dave_tick := c.dave_tick + 1,
               dave_left := false }
    else c
  let c : Game := if c.dave_down then
      { c with dave_tick := c.dave_tick + 1, dave_py := c.dave_py + 2, dave_down := false }
    else c
  if c.dave_up then
    { c with dave_tick := c.dave_tick + 1, dave_py := c.dave_py - 2, dave_up := false }
  else c

/-- Source lines 739-765 of `move_dave`: the jetpack cancels the jump; the
jump. -/
def daveJump (c : Game) : Game :=
  let c : Game := if c.dave_jetpack then { c with dave_jump := false, jump_timer := 0 } else c
  if c.dave_jump then
    let c : Game := if c.jump_timer = 0 then { c with jump_timer := 30, last_dir := 0 } else c
    let c : Game :=
      if c.collision_point.getD 0 false ∧ c.collision_point.getD 1 false then
        let c : Game := if c.jump_timer > 16 then { c with dave_py := c.dave_py - 2 } else c
        if c.jump_timer ≥ 12 ∧ c.jump_timer ≤ 15 then { c with dave_py := c.dave_py - 1 } else c
      else c
    let c : Game := { c with jump_timer := c.jump_timer - 1 }
    if c.jump_timer = 0 then { c with dave_jump := false } else c
  else c

/-- Source lines 767-787 of `move_dave`: Dave fires his gun. -/
def daveFire (c : Game) : Game :=
  if c.dave_fire then
    let c : Game := { c with dbullet_dir := c.last_dir }
    let c : Game := if c.dbullet_dir = 0 then { c with dbullet_dir := 1 } else c
    let c : Game := if c.dbullet_dir = 1 then { c with dbullet_px := c.dave_px + 18 } else c
    let c : Game := if c.dbullet_dir = -1 then { c with dbullet_px := c.dave_py - 8 } else c
    { c with dbullet_py := c.dave_py + 8, dave_fire := false }
  else c

/-- Method `Game.move_dave`. -/
def move_dave (c : Game) : Game := daveFire (daveJump (daveWalk (daveGrid c)))

/-- Dave at pixel `(100, 40)`, facing left, about to fire. -/
def leftShooter : Game :=
  { dave_tick := 0, dave_x := 6, dave_y := 2, dbullet_px := 0, dbullet_py := 0, dbullet_dir := 0,
    dave_px := 100, dave_py := 40, last_dir := -1, dave_right := false, dave_left := false,
    dave_jump := false, dave_fire := true, dave_down := false, dave_up := false,
    dave_jetpack := false, jump_timer := 0, collision_point := List.replicate 9 true }

/-- The variables of the loop of `unpack` at the head of its iteration number
`n`, counted from the state `s`; `none` when the loop has ended or panicked
before. -/
def unpackIter (inp : List Byte) : Nat → Unp → Option Unp
  | 0, s => some s
  | n + 1, s =>
    match unpackStep inp s with
    | .next s2 => unpackIter inp n s2
    | _ => none

/-- The receiver whose input is `runStream`, read from offset 0. -/
def runInput : ulz := { ulz.zero with inp := ⟨runStream, []⟩ }

/-- The variables of the loop of `unpack` on `runInput` when the loop starts. -/
def runStart : Unp :=
  { data := List.replicate 0x4500 0, bits := ⟨0x49, 16⟩, dp := 0, ip := 2, op := 0, out := [] }

/-- The 517 bytes that `decode` returns on `image91`: the 28 header bytes, the
two relocation entries, the padding to 512 bytes and the payload `ABCAB`. -/
def image91Out : List Byte :=
  [0x4d, 0x5a, 5, 0, 2, 0, 2, 0, 0x20, 0, 0, 0, 0, 0, 0, 0, 0, 0, 0, 0, 0, 0, 0, 0, 0x1c, 0, 0, 0] ++
    [5, 0, 0, 0, 5, 0, 0xff, 0x0f] ++ List.replicate 476 0 ++ [65, 66, 67, 65, 66]

/-- The control word `0xAAAA` (eight pairs of control bits 0, 1) with `j` of its
pairs unread. -/
def copyCtl (j : Nat) : Nat := 0xAAAA / 4 ^ (8 - j)

/-- A compressed stream, seen from the bit reader with `j` pairs of control bits
of the current word unread: `n` long back-references of length 256 and
distance 1 (control bits 0, 1 and the raw bytes `ff f8 ff`), then the
end-of-stream code (control bits 0, 1 and the raw bytes `00 00 00`); the
control word `aa aa` is placed where the reader reloads, between the second
control bit and the raw bytes of a step. -/
def copyEnc : Nat → Nat → List Byte
  | j, 0 => if j = 1 then [0xAA, 0xAA, 0, 0, 0] else [0, 0, 0]
  | j, n + 1 =>
    if j = 1 then 0xAA :: 0xAA :: 0xff :: 0xf8 :: 0xff :: copyEnc 8 n
    else 0xff :: 0xf8 :: 0xff :: copyEnc (j - 1) n

/-- The compressed stream of two literal zero bytes followed by `n` long
back-references of length 256 and distance 1: its first control word is
`0xAAAB` (control bits 1, 1, then seven pairs 0, 1). -/
def copyStream (n : Nat) : List Byte := [0xAB, 0xAA, 0, 0] ++ copyEnc 7 n

/-- What follows the compressed stream in `copyImageOf`: the info block
(compressed size `0x6800` paragraphs), the variant-91 stub, filler, and the
relocation data, which is the end marker alone. -/
def copyTail : List Byte :=
  [0, 0, 0, 0, 0, 0, 0, 0, 0x00, 0x68, 0, 0, 0, 0] ++
    (sig91 ++ (List.replicate 98 0 ++ [0, 1, 0]))

/-- A variant-91 image whose compressed stream `mid` fills the `0x68000` bytes
between the header and the info block. -/
def copyImageOf (mid : List Byte) : Slice := ⟨mkHeader 2 0x0e 0x6800 ++ (mid ++ copyTail), []⟩

/-- The receiver on which `decode` calls `unpack` for `copyImageOf mid`: an
empty relocation table padded to 512 bytes, output header word 4 set to 32. -/
def copyReceiverOf (mid : List Byte) : ulz :=
  { inp := copyImageOf mid, out := List.replicate 0x1c 0 ++ List.replicate 484 0,
    ihead := [0x5a4d, 0, 0, 0, 2, 0, 0, 0, 0, 0, 0x0e, 0x6800, 0x1c, 0, 0, 0],
    ohead := [0x5a4d, 0, 0, 0, 32, 0, 0, 0, 0, 0, 0, 0, 0x1c, 0, 0, 0],
    inf := [0, 0, 0, 0, 0x6800, 0, 0, 0x0e06], ver := 91, loadsize := 0 }

/-- The compressed stream of `copyImage`: two literal zero bytes and 131069
back-references of length 256, followed by four filler bytes. -/
def copyMid : List Byte := copyStream 131069 ++ [0, 0, 0, 0]

/-- A packed image of 426363 bytes that decodes to `2^25 - 254` bytes. -/
def copyImage : Slice := copyImageOf copyMid

/-- The receiver with which `decode` calls `mkreltbl` on `copyImageOf mid`. -/
def copyLoadedOf (mid : List Byte) : ulz :=
  { inp := copyImageOf mid, out := [],
    ihead := [0x5a4d, 0, 0, 0, 2, 0, 0, 0, 0, 0, 0x0e, 0x6800, 0x1c, 0, 0, 0],
    ohead := [0x5a4d, 0, 0, 0, 2, 0, 0, 0, 0, 0, 0x0e, 0x6800, 0x1c, 0, 0, 0],
    inf := List.replicate 8 0, ver := 91, loadsize := 0 }
/-! ## Auxiliary facts -/

theorem readFull_of_le (r : List Byte) (n : Nat) (h : n ≤ r.length) :
    readFull r n = .ok (r.take n, r.drop n) := by
  simp [readFull, h]

theorem readFull_of_lt (r : List Byte) (n : Nat) (h : r.length < n) :
    ∃ e, readFull r n = .error e := by
  unfold readFull
  rw [if_neg (by omega)]
  split <;> exact ⟨_, rfl⟩

theorem words_getElem? : ∀ (l : List Byte) (k : Nat) (a b : Byte),
    l[2 * k]? = some a → l[2 * k + 1]? = some b → (words l)[k]? = some (word a b)
  | [], k, a, b, h, _ => by simp at h
  | [x], k, a, b, _, h => by simp at h
  | x :: y :: rest, 0, a, b, h1, h2 => by
    simp at h1 h2
    simp [words, h1, h2]
  | x :: y :: rest, k + 1, a, b, h1, h2 => by
    have e1 : 2 * (k + 1) = 2 * k + 1 + 1 := by ring
    have e2 : 2 * (k + 1) + 1 = 2 * k + 1 + 1 + 1 := by ring
    rw [e1] at h1
    rw [e2] at h2
    simp only [List.getElem?_cons_succ] at h1 h2
    simp only [words, List.getElem?_cons_succ]
    exact words_getElem? rest k a b h1 h2

theorem hd_words (l : List Byte) (k : Nat) (a b : Byte)
    (h1 : l[2 * k]? = some a) (h2 : l[2 * k + 1]? = some b) : hd (words l) k = word a b := by
  simp [hd, List.getD, words_getElem? l k a b h1 h2]

theorem sub_of_le (s : Slice) (lo n : Nat) (h : lo + n ≤ s.cap) :
    s.sub lo (lo + n) = some (((s.elems ++ s.spare).drop lo).take n) := by
  simp [Slice.sub, h]

theorem sub_of_gt (s : Slice) (lo n : Nat) (h : s.cap < lo + n) : s.sub lo (lo + n) = none := by
  simp [Slice.sub]; omega

theorem sig90_length : sig90.length = 232 := rfl
theorem sig91_length : sig91.length = 232 := rfl
theorem sig90_ne_sig91 : sig90 ≠ sig91 := by decide

theorem rdhead_unfold (p : ulz) (h32 : 32 ≤ p.inp.len) :
    rdhead p =
      if ¬ validHeader (headerOf p.inp) then .ok (0, loaded p)
      else if entryOf (headerOf p.inp) ≥ p.inp.len + 232 then .ok (0, loaded p)
      else
        match p.inp.sub (entryOf (headerOf p.inp)) (entryOf (headerOf p.inp) + 232) with
        | none => .crash
        | some w =>
          if w = sig90 then .ok (90, loaded p)
          else if w = sig91 then .ok (91, loaded p) else .ok (0, loaded p) := by
  have h32 : 32 ≤ p.inp.elems.length := h32
  simp only [rdhead, readFull_of_le _ _ h32, sig90_length, sig91_length, headerOf, loaded,
    validHeader]
  by_cases hv : hd (words (List.take 32 p.inp.elems)) 0x0 = 0x5a4d ∧
      hd (words (List.take 32 p.inp.elems)) 0xd = 0 ∧
      hd (words (List.take 32 p.inp.elems)) 0xc = 0x1c
  · have hv2 : ¬ (hd (words (List.take 32 p.inp.elems)) 0x0 ≠ 0x5a4d ∨
        hd (words (List.take 32 p.inp.elems)) 0xd ≠ 0 ∨
        hd (words (List.take 32 p.inp.elems)) 0xc ≠ 0x1c) := by tauto
    rw [if_neg hv2, if_neg (not_not.mpr hv)]
    split
    · rfl
    · cases hs : p.inp.sub (entryOf (words (List.take 32 p.inp.elems)))
          (entryOf (words (List.take 32 p.inp.elems)) + 232) with
      | none => rfl
      | some w => rfl
  · have hv2 : (hd (words (List.take 32 p.inp.elems)) 0x0 ≠ 0x5a4d ∨
        hd (words (List.take 32 p.inp.elems)) 0xd ≠ 0 ∨
        hd (words (List.take 32 p.inp.elems)) 0xc ≠ 0x1c) := by tauto
    rw [if_pos hv2, if_pos hv]

theorem sub_inside (s : Slice) (lo n : Nat) (h : lo + n ≤ s.len) :
    s.sub lo (lo + n) = some ((s.elems.drop lo).take n) := by
  have h : lo + n ≤ s.elems.length := h
  rw [sub_of_le s lo n (by unfold Slice.cap; omega)]
  rw [List.drop_append_of_le_length (by omega), List.take_append_of_le_length]
  simp only [List.length_drop]
  omega

/-! ## Format detection -/

/-- C2: on an input of at least 32 bytes `rdhead` returns 0 when a fixed header
field is wrong; when they are right and the 232 bytes at the entry offset lie
inside the input, it returns 90 exactly when they equal `sig90`, 91 exactly
when they equal `sig91` and 0 exactly when they equal neither; the two
signatures are 232 bytes long and differ. -/
theorem rdhead_classification (p : ulz) (h32 : 32 ≤ p.inp.len) :
    (¬ validHeader (headerOf p.inp) → rdhead p = .ok (0, loaded p)) ∧
    (validHeader (headerOf p.inp) → entryOf (headerOf p.inp) + 232 ≤ p.inp.len →
      (rdhead p = .ok (90, loaded p) ↔ stubWindow p.inp = sig90) ∧
      (rdhead p = .ok (91, loaded p) ↔ stubWindow p.inp = sig91) ∧
      (rdhead p = .ok (0, loaded p) ↔ stubWindow p.inp ≠ sig90 ∧ stubWindow p.inp ≠ sig91)) ∧
    sig90.length = 232 ∧ sig91.length = 232 ∧ sig90 ≠ sig91 := by
  refine ⟨?_, ?_, sig90_length, sig91_length, sig90_ne_sig91⟩
  · intro hv
    rw [rdhead_unfold p h32, if_pos hv]
  · intro hv he
    rw [rdhead_unfold p h32, if_neg (not_not.mpr hv), if_neg (by omega),
      sub_inside p.inp _ 232 he]
    simp only [stubWindow]
    by_cases h90 : List.take 232 (List.drop (entryOf (headerOf p.inp)) p.inp.elems) = sig90
    · have h91 : ¬ sig90 = sig91 := sig90_ne_sig91
      simp [h90, h91]
    · by_cases h91 : List.take 232 (List.drop (entryOf (headerOf p.inp)) p.inp.elems) = sig91
      · have h19 : ¬ sig91 = sig90 := fun h => sig90_ne_sig91 h.symm
        simp [h91, h19]
      · simp [h90, h91]

set_option maxRecDepth 100000 in
theorem rdhead_classification_witness :
    32 ≤ ({ ulz.zero with inp := stubImage90 } : ulz).inp.len ∧
    rdhead { ulz.zero with inp := stubImage90 } =
      .ok (90, loaded { ulz.zero with inp := stubImage90 }) :=
  ⟨by decide,
   ((rdhead_classification { ulz.zero with inp := stubImage90 } (by decide)).2.1
      (by decide) (by decide)).1.2 (by decide)⟩

theorem rdhead_short (p : ulz) (h : p.inp.len < 32) : rdhead p = .ok (0, p) := by
  obtain ⟨e, he⟩ := readFull_of_lt p.inp.elems 32 h
  simp [rdhead, he]

theorem rdhead_inp (p q : ulz) (v : Nat) (h : rdhead p = .ok (v, q)) : q.inp = p.inp := by
  by_cases h32 : 32 ≤ p.inp.len
  · rw [rdhead_unfold p h32] at h
    have key : ∀ x : Nat, (Res.ok (x, loaded p) : Res (Nat × ulz)) = .ok (v, q) →
        q.inp = p.inp := by
      intro x hx
      injection hx with hx
      injection hx with _ hx
      rw [← hx]
      rfl
    split at h
    · exact key _ h
    · split at h
      · exact key _ h
      · split at h
        · exact absurd h (by simp)
        · split at h
          · exact key _ h
          · split at h <;> exact key _ h
  · rw [rdhead_short p (by omega)] at h
    injection h with h
    injection h with _ h
    rw [← h]

/-- C1: when `rdhead` classifies the input as not packed (result 0), which it
does for every input shorter than 32 bytes, `decode` returns the input byte
sequence unchanged and no error. -/
theorem decode_not_packed (inp : Slice)
    (h : inp.len < 32 ∨ ∃ q, rdhead { ulz.zero with inp := inp } = .ok (0, q)) :
    (∃ q, rdhead { ulz.zero with inp := inp } = .ok (0, q)) ∧ decode inp = .ok inp.elems := by
  have hr : ∃ q, rdhead { ulz.zero with inp := inp } = .ok (0, q) := by
    rcases h with h | h
    · exact ⟨_, rdhead_short _ h⟩
    · exact h
  refine ⟨hr, ?_⟩
  obtain ⟨q, hq⟩ := hr
  have hi := rdhead_inp _ _ _ hq
  simp only [decode, hq, if_true]
  rw [hi]

theorem decode_not_packed_witness :
    (⟨[1, 2, 3], []⟩ : Slice).len < 32 ∧ decode ⟨[1, 2, 3], []⟩ = .ok [1, 2, 3] :=
  ⟨by decide, (decode_not_packed ⟨[1, 2, 3], []⟩ (Or.inl (by decide))).2⟩

theorem rdhead_crash_of_window_past_cap (p : ulz) (h32 : 32 ≤ p.inp.len)
    (hv : validHeader (headerOf p.inp)) (h1 : entryOf (headerOf p.inp) < p.inp.len + 232)
    (h2 : p.inp.cap < entryOf (headerOf p.inp) + 232) : rdhead p = .crash := by
  rw [rdhead_unfold p h32, if_neg (not_not.mpr hv), if_neg (by omega), sub_of_gt _ _ _ h2]

set_option maxRecDepth 100000 in
/-- C4 (the code departs from the claim): on a 512-byte image with valid header
fields whose 232-byte window at entry offset 496 runs past the end of the
input, `rdhead` does not return 0: the slice expression panics and `decode`
crashes; and when the backing array is large enough the bytes beyond the end
of the input are read and compared, so that a bare 32-byte header is
classified as variant 90. -/
theorem rdhead_window_past_end :
    validHeader (headerOf truncatedImage) ∧ truncatedImage.len = 512 ∧
    entryOf (headerOf truncatedImage) = 496 ∧
    stubWindow truncatedImage ≠ sig90 ∧ stubWindow truncatedImage ≠ sig91 ∧
    rdhead { ulz.zero with inp := truncatedImage } = .crash ∧
    decode truncatedImage = .crash ∧
    bareHeaderImage.len = 32 ∧
    rdhead { ulz.zero with inp := bareHeaderImage } =
      .ok (90, loaded { ulz.zero with inp := bareHeaderImage }) := by
  have hc : rdhead { ulz.zero with inp := truncatedImage } = .crash :=
    rdhead_crash_of_window_past_cap _ (by decide) (by decide) (by decide) (by decide)
  refine ⟨by decide, by decide, by decide, by decide, by decide, hc, ?_, by decide, ?_⟩
  · simp only [decode, hc]
  · rw [rdhead_unfold _ (by decide), if_neg (by decide), if_neg (by decide),
      sub_of_le _ _ _ (by decide)]
    have hw : List.take 232 (List.drop (entryOf (headerOf bareHeaderImage))
        (bareHeaderImage.elems ++ bareHeaderImage.spare)) = sig90 := by decide
    dsimp only
    rw [hw, if_pos rfl]

theorem rdhead_packed_inv (p q : ulz) (v : Nat) (hr : rdhead p = .ok (v, q))
    (hv : v = 90 ∨ v = 91) :
    32 ≤ p.inp.len ∧ validHeader (headerOf p.inp) ∧ q = loaded p ∧
    entryOf (headerOf p.inp) + 232 ≤ p.inp.cap ∧
    ((v = 90 ∧ ((p.inp.elems ++ p.inp.spare).drop (entryOf (headerOf p.inp))).take 232 = sig90) ∨
     (v = 91 ∧ ((p.inp.elems ++ p.inp.spare).drop (entryOf (headerOf p.inp))).take 232 = sig91)) := by
  have h32 : 32 ≤ p.inp.len := by
    by_contra hlt
    rw [rdhead_short p (by omega)] at hr
    injection hr with hr
    injection hr with hr _
    omega
  rw [rdhead_unfold p h32] at hr
  have key0 : (Res.ok (0, loaded p) : Res (Nat × ulz)) = .ok (v, q) → False := by
    intro hx
    injection hx with hx
    injection hx with hx _
    omega
  by_cases hval : validHeader (headerOf p.inp)
  swap
  · rw [if_pos hval] at hr
    exact absurd hr key0
  rw [if_neg (not_not.mpr hval)] at hr
  by_cases hge : entryOf (headerOf p.inp) ≥ p.inp.len + 232
  · rw [if_pos hge] at hr
    exact absurd hr key0
  rw [if_neg hge] at hr
  by_cases hcap : entryOf (headerOf p.inp) + 232 ≤ p.inp.cap
  swap
  · rw [sub_of_gt _ _ _ (by omega)] at hr
    exact absurd hr (by simp)
  rw [sub_of_le _ _ _ hcap] at hr
  refine ⟨h32, hval, ?_, hcap, ?_⟩
  · dsimp only at hr
    split at hr
    · injection hr with hr
      injection hr with _ hr
      exact hr.symm
    · split at hr
      · injection hr with hr
        injection hr with _ hr
        exact hr.symm
      · exact absurd hr key0
  · dsimp only at hr
    split at hr
    · rename_i h90
      injection hr with hr
      injection hr with hr _
      exact Or.inl ⟨hr.symm, h90⟩
    · split at hr
      · rename_i h91
        injection hr with hr
        injection hr with hr _
        exact Or.inr ⟨hr.symm, h91⟩
      · exact absurd hr key0

theorem window_getElem? (l : List Byte) (e j : Nat) (hj : j < 232) :
    ((l.drop e).take 232)[j]? = l[e + j]? := by
  rw [List.getElem?_take_of_lt hj, List.getElem?_drop]

theorem header_congr (l m : List Byte) (hl : 32 ≤ l.length)
    (h : ∀ j, j < 28 → l[j]? = m[j]?) (k : Nat) (hk : k < 14) :
    hd (words (l.take 32)) k = hd (words (m.take 32)) k := by
  have ha : (l.take 32)[2 * k]? = some (l[2 * k]) := by
    rw [List.getElem?_take_of_lt (by omega), List.getElem?_eq_getElem]
  have hb : (l.take 32)[2 * k + 1]? = some (l[2 * k + 1]) := by
    rw [List.getElem?_take_of_lt (by omega), List.getElem?_eq_getElem]
  have hc : (m.take 32)[2 * k]? = some (l[2 * k]) := by
    rw [List.getElem?_take_of_lt (by omega), ← h _ (by omega), List.getElem?_eq_getElem]
  have hd' : (m.take 32)[2 * k + 1]? = some (l[2 * k + 1]) := by
    rw [List.getElem?_take_of_lt (by omega), ← h _ (by omega), List.getElem?_eq_getElem]
  rw [hd_words _ _ _ _ ha hb, hd_words _ _ _ _ hc hd']

set_option maxRecDepth 100000 in
theorem sig90_not_in_header : ∀ e, e < 28 →
    ¬ (sig90[27 - e]? = some 0 ∧ (e ≤ 24 → sig90[24 - e]? = some 0x1c)) := by decide

set_option maxRecDepth 100000 in
theorem sig91_not_in_header : ∀ e, e < 28 →
    ¬ (sig91[27 - e]? = some 0 ∧ (e ≤ 24 → sig91[24 - e]? = some 0x1c)) := by decide

theorem getElem?_eq_some_getD (l : List Byte) (i : Nat) (h : i < l.length) :
    l[i]? = some (l.getD i 0) := by
  simp [List.getD, List.getElem?_eq_getElem h]

theorem header_bytes (l : List Byte) (hl : 32 ≤ l.length) (hv : validHeader (words (l.take 32))) :
    l[24]? = some 0x1c ∧ l[27]? = some 0 := by
  have get : ∀ k, k < 16 →
      hd (words (l.take 32)) k = word (l.getD (2 * k) 0) (l.getD (2 * k + 1) 0) := by
    intro k hk
    apply hd_words
    · rw [List.getElem?_take_of_lt (by omega), getElem?_eq_some_getD _ _ (by omega)]
    · rw [List.getElem?_take_of_lt (by omega), getElem?_eq_some_getD _ _ (by omega)]
  obtain ⟨_, h13, h12⟩ := hv
  rw [get 0xd (by omega)] at h13
  rw [get 0xc (by omega)] at h12
  unfold word at h13 h12
  have e24 : l.getD 24 0 = 0x1c := by
    apply Fin.ext
    have := (l.getD (2 * 0xc + 1) 0).isLt
    have h : (l.getD (2 * 0xc) 0).val = 28 := by omega
    exact h
  have e27 : l.getD 27 0 = 0 := by
    apply Fin.ext
    have h : (l.getD (2 * 0xd + 1) 0).val = 0 := by omega
    exact h
  rw [getElem?_eq_some_getD _ _ (by omega), getElem?_eq_some_getD _ _ (by omega), e24, e27]
  exact ⟨rfl, rfl⟩

theorem entry_ge_28 (inp : Slice) (sig : List Byte) (h32 : 32 ≤ inp.len)
    (hv : validHeader (headerOf inp))
    (hw : ((inp.elems ++ inp.spare).drop (entryOf (headerOf inp))).take 232 = sig)
    (hs : ∀ e, e < 28 → ¬ (sig[27 - e]? = some 0 ∧ (e ≤ 24 → sig[24 - e]? = some 0x1c))) :
    28 ≤ entryOf (headerOf inp) := by
  by_contra hlt
  have h32 : 32 ≤ inp.elems.length := h32
  obtain ⟨b24, b27⟩ := header_bytes inp.elems h32 hv
  apply hs (entryOf (headerOf inp)) (by omega)
  constructor
  · rw [← hw, window_getElem? _ _ _ (by omega), List.getElem?_append_left (by omega)]
    rw [show entryOf (headerOf inp) + (27 - entryOf (headerOf inp)) = 27 by omega]
    exact b27
  · intro h24
    rw [← hw, window_getElem? _ _ _ (by omega), List.getElem?_append_left (by omega)]
    rw [show entryOf (headerOf inp) + (24 - entryOf (headerOf inp)) = 24 by omega]
    exact b24

set_option maxRecDepth 100000 in
theorem sig_two_diffs :
    (sig90[20]? ≠ sig91[20]? ∧ sig90[21]? ≠ sig91[21]?) ∧
    (sig91[20]? ≠ sig90[20]? ∧ sig91[21]? ≠ sig90[21]?) := by decide

theorem window_after_set_ne (l : List Byte) (e i : Nat) (b : Byte) (sigX sigY : List Byte)
    (hW : (l.drop e).take 232 = sigX) (h1 : e ≤ i) (h2 : i < e + 232) (hi : i < l.length)
    (hb : l[i]? ≠ some b) (hxy : sigX[20]? ≠ sigY[20]? ∧ sigX[21]? ≠ sigY[21]?) :
    ((l.set i b).drop e).take 232 ≠ sigX ∧ ((l.set i b).drop e).take 232 ≠ sigY := by
  have hX : ∀ j, j < 232 → sigX[j]? = l[e + j]? := by
    intro j hj
    rw [← hW, window_getElem? _ _ _ hj]
  constructor
  · intro h
    have h' := congrArg (fun w => w[i - e]?) h
    simp only [] at h'
    rw [window_getElem? _ _ _ (by omega), hX _ (by omega),
      show e + (i - e) = i by omega, List.getElem?_set_self hi] at h'
    exact hb h'.symm
  · intro h
    have key : ∀ j, j < 232 → e + j ≠ i → sigX[j]? = sigY[j]? := by
      intro j hj hne
      have h' := congrArg (fun w => w[j]?) h
      simp only [] at h'
      rw [window_getElem? _ _ _ hj, List.getElem?_set_ne (by omega)] at h'
      rw [hX _ hj, h']
    by_cases h20 : e + 20 = i
    · exact hxy.2 (key 21 (by omega) (by omega))
    · exact hxy.1 (key 20 (by omega) h20)

/-- C3: when `rdhead` returns 90 or 91, replacing one byte of the input inside
the 232-byte window at the entry offset by a different value makes `rdhead`
return 0. -/
theorem rdhead_single_byte_change (p q : ulz) (v i : Nat) (b : Byte)
    (hr : rdhead p = .ok (v, q)) (hv : v = 90 ∨ v = 91)
    (h1 : entryOf (headerOf p.inp) ≤ i) (h2 : i < entryOf (headerOf p.inp) + 232)
    (h3 : i < p.inp.len) (hb : p.inp.elems[i]? ≠ some b) :
    rdhead { p with inp := ⟨p.inp.elems.set i b, p.inp.spare⟩ } =
      .ok (0, loaded { p with inp := ⟨p.inp.elems.set i b, p.inp.spare⟩ }) := by
  obtain ⟨h32, hval, _, hcap, hw⟩ := rdhead_packed_inv p q v hr hv
  have h3 : i < p.inp.elems.length := h3
  have h32 : 32 ≤ p.inp.elems.length := h32
  have he : 28 ≤ entryOf (headerOf p.inp) := by
    rcases hw with ⟨_, hw⟩ | ⟨_, hw⟩
    · exact entry_ge_28 p.inp sig90 h32 hval hw sig90_not_in_header
    · exact entry_ge_28 p.inp sig91 h32 hval hw sig91_not_in_header
  have hcongr : ∀ k, k < 14 →
      hd (headerOf ⟨p.inp.elems.set i b, p.inp.spare⟩) k = hd (headerOf p.inp) k := by
    intro k hk
    apply header_congr _ _ (by simp only [List.length_set]; omega)
    · intro j hj
      exact List.getElem?_set_ne (by omega)
    · exact hk
  have hval' : validHeader (headerOf ⟨p.inp.elems.set i b, p.inp.spare⟩) := by
    unfold validHeader at hval ⊢
    rw [hcongr _ (by omega), hcongr _ (by omega), hcongr _ (by omega)]
    exact hval
  have hent : entryOf (headerOf ⟨p.inp.elems.set i b, p.inp.spare⟩) = entryOf (headerOf p.inp) := by
    unfold entryOf
    rw [hcongr _ (by omega), hcongr _ (by omega), hcongr _ (by omega)]
  have hlen : (⟨p.inp.elems.set i b, p.inp.spare⟩ : Slice).len = p.inp.len := by
    simp [Slice.len]
  have hcap' : (⟨p.inp.elems.set i b, p.inp.spare⟩ : Slice).cap = p.inp.cap := by
    simp [Slice.cap]
  have hne : ((p.inp.elems.set i b ++ p.inp.spare).drop (entryOf (headerOf p.inp))).take 232 ≠ sig90
      ∧ ((p.inp.elems.set i b ++ p.inp.spare).drop (entryOf (headerOf p.inp))).take 232 ≠ sig91 := by
    rw [← List.set_append_left _ _ h3]
    have hb' : (p.inp.elems ++ p.inp.spare)[i]? ≠ some b := by
      rw [List.getElem?_append_left h3]
      exact hb
    have hi' : i < (p.inp.elems ++ p.inp.spare).length := by
      rw [List.length_append]; omega
    rcases hw with ⟨_, hw⟩ | ⟨_, hw⟩
    · exact window_after_set_ne _ _ i b sig90 sig91 hw h1 h2 hi' hb' sig_two_diffs.1
    · exact (window_after_set_ne _ _ i b sig91 sig90 hw h1 h2 hi' hb' sig_two_diffs.2).symm
  rw [rdhead_unfold _ (by show 32 ≤ Slice.len _; rw [hlen]; exact h32)]
  dsimp only
  rw [if_neg (not_not.mpr hval'), hent, hlen, if_neg (by unfold Slice.cap Slice.len at *; omega),
    sub_of_le _ _ _ (by rw [hcap']; exact hcap)]
  dsimp only
  rw [if_neg hne.1, if_neg hne.2]

set_option maxRecDepth 100000 in
theorem rdhead_stubImage90 :
    rdhead { ulz.zero with inp := stubImage90 } =
      .ok (90, loaded { ulz.zero with inp := stubImage90 }) := by
  rw [rdhead_unfold _ (by decide), if_neg (by decide), if_neg (by decide),
    sub_inside _ _ _ (by decide)]
  have hw : List.take 232 (List.drop (entryOf (headerOf stubImage90)) stubImage90.elems) = sig90 := by
    decide
  dsimp only
  rw [hw, if_pos rfl]

set_option maxRecDepth 100000 in
theorem rdhead_single_byte_change_witness :
    rdhead { ulz.zero with inp := stubImage90 } =
      .ok (90, loaded { ulz.zero with inp := stubImage90 }) ∧
    entryOf (headerOf stubImage90) ≤ 40 ∧ 40 < entryOf (headerOf stubImage90) + 232 ∧
    40 < stubImage90.len ∧ stubImage90.elems[40]? ≠ some 0 ∧
    rdhead { ulz.zero with inp := ⟨stubImage90.elems.set 40 0, stubImage90.spare⟩ } =
      .ok (0, loaded { ulz.zero with inp := ⟨stubImage90.elems.set 40 0, stubImage90.spare⟩ }) :=
  ⟨rdhead_stubImage90, by decide, by decide, by decide, by decide,
   rdhead_single_byte_change { ulz.zero with inp := stubImage90 } _ 90 40 0 rdhead_stubImage90
     (Or.inl rfl) (by decide) (by decide) (by decide) (by decide)⟩

/-! ## Relocation tables -/

theorem readFull_ok (r b t : List Byte) (n : Nat) (h : readFull r n = .ok (b, t)) :
    n ≤ r.length ∧ b = r.take n ∧ t = r.drop n := by
  unfold readFull at h
  split at h
  · injection h with h
    injection h with h1 h2
    exact ⟨by assumption, h1.symm, h2.symm⟩
  · split at h <;> exact absurd h (by simp)

theorem reloc90Block_length : ∀ (c : Nat) (s t : Rel),
    reloc90Block c s = .ok t → t.r.length ≤ s.r.length
  | 0, s, t, h => by
    simp only [reloc90Block] at h
    injection h with h
    rw [h]
  | c + 1, s, t, h => by
    unfold reloc90Block at h
    cases hrd : readFull s.r 2 with
    | error e =>
      rw [hrd] at h
      exact absurd h (by simp)
    | ok br =>
      obtain ⟨b, r⟩ := br
      rw [hrd] at h
      obtain ⟨_, _, hr⟩ := readFull_ok _ _ _ _ hrd
      have := reloc90Block_length c _ t h
      dsimp only at this
      rw [hr, List.length_drop] at this
      omega

theorem reloc90Loop_not_ok : ∀ (fuel : Nat) (s t : Rel), reloc90Loop fuel s ≠ .ok t
  | 0, s, t => by simp [reloc90Loop]
  | fuel + 1, s, t => by
    unfold reloc90Loop
    split
    · simp
    · split
      · simp
      · dsimp only
        rw [if_neg (by omega)]
        exact reloc90Loop_not_ok fuel _ t

theorem reloc90Loop_error : ∀ (fuel : Nat) (s : Rel), s.r.length < fuel →
    ∃ e, reloc90Loop fuel s = .error e
  | 0, s, h => by omega
  | fuel + 1, s, h => by
    unfold reloc90Loop
    cases hrd : readFull s.r 2 with
    | error e => exact ⟨e, rfl⟩
    | ok br =>
      obtain ⟨b, r⟩ := br
      dsimp only
      have hlen : r.length + 2 ≤ s.r.length := by
        obtain ⟨h2, _, hr⟩ := readFull_ok _ _ _ _ hrd
        rw [hr, List.length_drop]
        omega
      cases hb : reloc90Block (hd (words b) 0) { s with r := r } with
      | error e => exact ⟨e, rfl⟩
      | ok t =>
        dsimp only
        rw [if_neg (by omega)]
        apply reloc90Loop_error fuel
        have := reloc90Block_length _ _ _ hb
        dsimp only at this ⊢
        omega

theorem reloc90_error (p : ulz) (fpos : Nat) : ∃ e, reloc90 p fpos = .error e := by
  unfold reloc90
  dsimp only
  split
  · exact ⟨_, rfl⟩
  · obtain ⟨e, he⟩ := reloc90Loop_error (p.inp.len + 1)
      (Rel.init (p.inp.elems.drop ((fpos + 0x19d) % 2 ^ 32)) p.out)
      (by simp only [Rel.init, List.length_drop, Slice.len]; omega)
    rw [he]
    exact ⟨e, rfl⟩

set_option maxRecDepth 100000 in
/-- C8 (the code departs from the claim): `reloc90` never returns success. Its
segment accumulator is a `uint16`, so it wraps to 0 after the 16th count block
instead of reaching `0xf000 + 0x1000`; the loop goes on reading count blocks
until the input is exhausted and returns the read error. On an image whose
relocation data is exactly 16 well-formed count blocks, 16 iterations do not
end the loop, the 17th fails with `EOF`, and `decode` returns that error. -/
theorem reloc90_never_succeeds :
    (∀ (p : ulz) (fpos : Nat), ∃ e, reloc90 p fpos = .error e) ∧
    image90.elems.drop (32 + 0x19d) = [1, 0, 0x34, 0x12] ++ List.replicate 30 0 ∧
    reloc90Loop 16 (Rel.init (image90.elems.drop (32 + 0x19d)) (List.replicate 0x1c 0)) = .hang ∧
    reloc90Loop 17 (Rel.init (image90.elems.drop (32 + 0x19d)) (List.replicate 0x1c 0)) =
      .error "EOF" ∧
    decode image90 = .error "EOF" := by
  refine ⟨reloc90_error, by decide, by decide, by decide, by decide⟩

theorem and_0xf (x : Nat) : x &&& 0xf = x % 16 := Nat.and_pow_two_sub_one_eq_mod x 4

theorem clear_low_shift (x : Nat) : (x - x % 16) >>> 4 = x / 16 := by
  rw [Nat.shiftRight_eq_div_pow]
  omega

theorem reloc91Emit_eq (s : Rel) (span : Nat) :
    reloc91Emit s span =
      { r := s.r,
        out := putword (putword s.out (((s.reloff + span) % 65536) % 16))
          ((s.relseg + ((s.reloff + span) % 65536) / 16) % 65536),
        reloff := ((s.reloff + span) % 65536) % 16,
        relseg := (s.relseg + ((s.reloff + span) % 65536) / 16) % 65536,
        relcount := (s.relcount + 1) % 65536 } := by
  simp only [reloc91Emit, and_0xf, clear_low_shift]

/-- C10: in `reloc91` a span `s` that is not a marker (a non-zero byte, or a zero
byte followed by a 16-bit word of at least 2) emits the pair
`(offset2, segment2)` with `offset2 = (offset + s) mod 16` and
`segment2 = segment + ((offset + s) >> 4)`, the sum `offset + s` and the new
segment being taken in 16-bit arithmetic; the emitted offset is at most 15. -/
theorem reloc91_span_step (s : Rel) (rest : List Byte) (span : Nat)
    (hr : (∃ b : Byte, b.val ≠ 0 ∧ span = b.val ∧ s.r = b :: rest) ∨
          (∃ lo hi : Byte, span = word lo hi ∧ 2 ≤ span ∧ s.r = 0 :: lo :: hi :: rest)) :
    reloc91Step s = .next
      { r := rest,
        out := s.out ++
          [u8 ((s.reloff + span) % 16), u8 (((s.reloff + span) % 16) >>> 8),
           u8 ((s.relseg + ((s.reloff + span) % 65536) / 16) % 65536),
           u8 (((s.relseg + ((s.reloff + span) % 65536) / 16) % 65536) >>> 8)],
        reloff := (s.reloff + span) % 16,
        relseg := (s.relseg + ((s.reloff + span) % 65536) / 16) % 65536,
        relcount := (s.relcount + 1) % 65536 } ∧
    (s.reloff + span) % 16 ≤ 15 := by
  have hmod : ((s.reloff + span) % 65536) % 16 = (s.reloff + span) % 16 := by omega
  refine ⟨?_, by omega⟩
  rcases hr with ⟨b, hb, hs, hrr⟩ | ⟨lo, hi, hs, h2, hrr⟩
  · unfold reloc91Step
    rw [hrr]
    dsimp only
    rw [if_neg hb, reloc91Emit_eq, ← hs, hmod]
    simp [putword]
  · unfold reloc91Step
    rw [hrr]
    dsimp only
    rw [if_pos (by rfl), readFull_of_le _ _ (by simp)]
    dsimp only
    have hw : hd (words (List.take 2 (lo :: hi :: rest))) 0 = span := by
      rw [hs]; rfl
    rw [hw, if_neg (by omega), if_neg (by omega), reloc91Emit_eq, hmod]
    simp [putword]

theorem reloc91_span_step_witness :
    reloc91Step (Rel.init [0, 0x34, 0x12, 7] (List.replicate 0x1c 0)) = .next
      { r := [7],
        out := List.replicate 0x1c 0 ++ [4, 0, 0x23, 1],
        reloff := 4, relseg := 0x123, relcount := 1 } :=
  (reloc91_span_step (Rel.init [0, 0x34, 0x12, 7] (List.replicate 0x1c 0)) [7] 0x1234
    (Or.inr ⟨0x34, 0x12, by decide, by decide, by decide⟩)).1

set_option maxRecDepth 100000 in
/-- C9 (the code departs from the claim): in `reloc91` the segment-wrap marker (a
zero byte followed by the word 0) adds `0xfff` to the segment accumulator but
then falls through to the emitting tail of the loop body: it appends one more
(offset, segment) pair to the table and increments the entry count. On the
relocation data `span 5, marker, end marker` the table gets two entries
instead of one. -/
theorem reloc91_marker_emits :
    (∀ (s : Rel) (rest : List Byte), ∃ t,
      reloc91Step { s with r := 0 :: 0 :: 0 :: rest } = .next t ∧ t.r = rest ∧
      t.relseg = ((s.relseg + 0xfff) % 65536 + (s.reloff % 65536) / 16) % 65536 ∧
      t.out = putword (putword s.out t.reloff) t.relseg ∧
      t.out.length = s.out.length + 4 ∧
      t.relcount = (s.relcount + 1) % 65536) ∧
    reloc91Loop 3 (Rel.init [5, 0, 0, 0, 0, 1, 0] (List.replicate 0x1c 0)) = .ok
      { r := [], out := List.replicate 0x1c 0 ++ [5, 0, 0, 0] ++ [5, 0, 0xff, 0x0f],
        reloff := 5, relseg := 0xfff, relcount := 2 } ∧
    (mkreltbl { loaded { ulz.zero with inp := image91 } with ver := 91 }).toOption.map
        (fun q => (hd q.ohead 3, q.out)) =
      some (2, List.replicate 0x1c 0 ++ [5, 0, 0, 0] ++ [5, 0, 0xff, 0x0f]) := by
  refine ⟨?_, by decide, by decide⟩
  · intro s rest
    refine ⟨reloc91Emit { s with r := rest, relseg := (s.relseg + 0xfff) % 65536 } 0, ?_, ?_⟩
    · unfold reloc91Step
      dsimp only
      rw [if_pos (by rfl), readFull_of_le _ _ (by simp)]
      dsimp only
      rw [if_pos (by rfl)]
      rfl
    · rw [reloc91Emit_eq]
      dsimp only
      simp [putword]

/-! ## Payload decompression -/

theorem unpackStep_eq (inp : List Byte) (s0 : Unp) :
    unpackStep inp s0 =
      match flush s0 with
      | none => .fault
      | some s =>
        match readCmd inp s.bits s.ip with
        | none => .fault
        | some (cmd, bits, ip) => applyCmd s bits ip cmd := by
  unfold unpackStep
  cases flush s0 with
  | none => rfl
  | some s =>
    dsimp only
    unfold readCmd
    cases s.bits.getbit inp s.ip with
    | none => rfl
    | some r1 =>
      obtain ⟨b1, bits1, ip1⟩ := r1
      dsimp only
      by_cases hb1 : b1 ≠ 0
      · rw [if_pos hb1, if_pos hb1]
        cases inp[ip1]? <;> rfl
      · rw [if_neg hb1, if_neg hb1]
        cases bits1.getbit inp ip1 with
        | none => rfl
        | some r2 =>
          obtain ⟨b2, bits2, ip2⟩ := r2
          dsimp only
          by_cases hb2 : b2 = 0
          · rw [if_pos hb2, if_pos hb2]
            cases bits2.getbit inp ip2 with
            | none => rfl
            | some r3 =>
              obtain ⟨b3, bits3, ip3⟩ := r3
              dsimp only
              cases bits3.getbit inp ip3 with
              | none => rfl
              | some r4 =>
                obtain ⟨b4, bits4, ip4⟩ := r4
                dsimp only
                cases inp[ip4]? <;> rfl
          · rw [if_neg hb2, if_neg hb2]
            cases inp[ip2]? with
            | none => rfl
            | some lo =>
              dsimp only
              cases inp[ip2 + 1]? with
              | none => rfl
              | some hi =>
                dsimp only
                by_cases hln : (hi.val &&& 0x07) + 2 = 2
                · rw [if_pos hln, if_pos hln]
                  cases inp[ip2 + 2]? with
                  | none => rfl
                  | some e =>
                    dsimp only
                    by_cases he0 : e.val = 0
                    · rw [if_pos he0, if_pos he0]
                      rfl
                    · rw [if_neg he0, if_neg he0]
                      by_cases he1 : e.val = 1
                      · rw [if_pos he1, if_pos he1]
                        rfl
                      · rw [if_neg he1, if_neg he1]
                        rfl
                · rw [if_neg hln, if_neg hln]
                  rfl

theorem getElem?_some_lt {α : Type} (l : List α) (i : Nat) (v : α) (h : l[i]? = some v) :
    i < l.length := by
  by_contra hn
  rw [List.getElem?_eq_none (by omega)] at h
  exact absurd h (by simp)

theorem le16At_some (inp : List Byte) (pos w : Nat) (h : le16At inp pos = some w) :
    pos + 2 ≤ inp.length := by
  unfold le16At at h
  cases h1 : inp[pos]? with
  | none => rw [h1] at h; exact absurd h (by simp)
  | some lo =>
    cases h2 : inp[pos + 1]? with
    | none => rw [h1, h2] at h; exact absurd h (by simp)
    | some hi =>
      have := getElem?_some_lt _ _ _ h2
      omega

theorem getbit_spec (inp : List Byte) (bits bits2 : bitstream) (ip ip2 b : Nat)
    (h : bits.getbit inp ip = some (b, bits2, ip2)) (hok : BitsOk inp bits ip) :
    b < 2 ∧ BitsOk inp bits2 ip2 ∧ bitsLeft inp bits2 ip2 + 1 ≤ bitsLeft inp bits ip := by
  obtain ⟨h1, h2, h3⟩ := hok
  unfold bitstream.getbit at h
  dsimp only at h
  by_cases hc : (bits.count + 255) % 256 = 0
  · rw [if_pos hc] at h
    cases hw : le16At inp ip with
    | none => rw [hw] at h; exact absurd h (by simp)
    | some w =>
      rw [hw] at h
      have hlen := le16At_some _ _ _ hw
      injection h with h
      injection h with hb h
      injection h with hbits hip
      subst hb hbits hip
      refine ⟨Nat.mod_lt _ (by omega), ⟨by omega, by dsimp only; omega, by dsimp only; omega⟩, ?_⟩
      unfold bitsLeft
      dsimp only
      omega
  · rw [if_neg hc] at h
    injection h with h
    injection h with hb h
    injection h with hbits hip
    subst hb hbits hip
    refine ⟨Nat.mod_lt _ (by omega), ⟨h1, ?_, ?_⟩, ?_⟩
    · dsimp only; omega
    · dsimp only; omega
    · unfold bitsLeft
      dsimp only
      omega

theorem short_span (v : Byte) : toInt16 (v.val ||| 0xff00) = (v.val : Int) - 256 := by
  have hv := v.isLt
  have h := Nat.mul_add_lt_is_or (i := 8) (b := v.val) (by omega) 255
  rw [Nat.or_comm]
  have e : (0xff00 : Nat) = 2 ^ 8 * 255 := by norm_num
  rw [e, ← h]
  unfold toInt16
  norm_num
  omega

theorem long_hi (hi : Byte) :
    (((hi.val - (hi.val &&& 0x07)) <<< 5) ||| 0xe000) % 65536 = 2 ^ 8 * (224 + hi.val / 8) := by
  have hv := hi.isLt
  have h7 : hi.val &&& 0x07 = hi.val % 8 := Nat.and_pow_two_sub_one_eq_mod hi.val 3
  have h := Nat.mul_add_lt_is_or (i := 13) (b := (hi.val - hi.val % 8) <<< 5)
    (by rw [Nat.shiftLeft_eq]; norm_num; omega) 7
  rw [h7, Nat.or_comm]
  have e : (0xe000 : Nat) = 2 ^ 13 * 7 := by norm_num
  rw [e, ← h, Nat.shiftLeft_eq]
  norm_num
  omega

theorem long_span (lo hi : Byte) :
    toInt16 (lo.val ||| ((((hi.val - (hi.val &&& 0x07)) <<< 5) ||| 0xe000) % 65536)) =
      -8192 + 256 * ((hi.val / 8 : Nat) : Int) + (lo.val : Int) := by
  have hl := lo.isLt
  have hh := hi.isLt
  rw [long_hi, Nat.or_comm, ← Nat.mul_add_lt_is_or (by omega)]
  unfold toInt16
  norm_num
  omega

theorem two_bits (b3 b4 : Nat) (h3 : b3 < 2) (h4 : b4 < 2) : (b3 <<< 1) ||| b4 = 2 * b3 + b4 := by
  interval_cases b3 <;> interval_cases b4 <;> rfl

theorem bitsOk_advance (inp : List Byte) (bits : bitstream) (ip k : Nat)
    (hok : BitsOk inp bits ip) (hk : ip + k ≤ inp.length) :
    BitsOk inp bits (ip + k) ∧ bitsLeft inp bits (ip + k) ≤ bitsLeft inp bits ip := by
  obtain ⟨h1, h2, h3⟩ := hok
  refine ⟨⟨hk, h2, h3⟩, ?_⟩
  unfold bitsLeft
  omega

theorem readCmd_spec (inp : List Byte) (bits bits2 : bitstream) (ip ip2 : Nat) (cmd : Cmd)
    (h : readCmd inp bits ip = some (cmd, bits2, ip2)) (hok : BitsOk inp bits ip) :
    BitsOk inp bits2 ip2 ∧ bitsLeft inp bits2 ip2 + 1 ≤ bitsLeft inp bits ip ∧
    (∀ ln span, cmd = .copy ln span → 2 ≤ ln ∧ ln ≤ 256 ∧ -8192 ≤ span ∧ span ≤ -1) := by
  unfold readCmd at h
  cases h1 : bits.getbit inp ip with
  | none => rw [h1] at h; exact absurd h (by simp)
  | some r1 =>
    obtain ⟨b1, bits1, ip1⟩ := r1
    rw [h1] at h
    dsimp only at h
    obtain ⟨hb1, hok1, hm1⟩ := getbit_spec _ _ _ _ _ _ h1 hok
    by_cases hb : b1 ≠ 0
    · rw [if_pos hb] at h
      cases hv : inp[ip1]? with
      | none => rw [hv] at h; exact absurd h (by simp)
      | some v =>
        rw [hv] at h
        injection h with h
        injection h with hc h
        injection h with hbits hip
        subst hc hbits hip
        have hlt := getElem?_some_lt _ _ _ hv
        obtain ⟨ha, hb⟩ := bitsOk_advance inp bits1 ip1 1 hok1 (by omega)
        exact ⟨ha, by omega, by intro ln span hc; exact absurd hc (by simp)⟩
    · rw [if_neg hb] at h
      cases h2 : bits1.getbit inp ip1 with
      | none => rw [h2] at h; exact absurd h (by simp)
      | some r2 =>
        obtain ⟨b2, bits2', ip2'⟩ := r2
        rw [h2] at h
        dsimp only at h
        obtain ⟨hb2, hok2, hm2⟩ := getbit_spec _ _ _ _ _ _ h2 hok1
        by_cases hz : b2 = 0
        · rw [if_pos hz] at h
          cases h3 : bits2'.getbit inp ip2' with
          | none => rw [h3] at h; exact absurd h (by simp)
          | some r3 =>
            obtain ⟨b3, bits3, ip3⟩ := r3
            rw [h3] at h
            dsimp only at h
            obtain ⟨hb3, hok3, hm3⟩ := getbit_spec _ _ _ _ _ _ h3 hok2
            cases h4 : bits3.getbit inp ip3 with
            | none => rw [h4] at h; exact absurd h (by simp)
            | some r4 =>
              obtain ⟨b4, bits4, ip4⟩ := r4
              rw [h4] at h
              dsimp only at h
              obtain ⟨hb4, hok4, hm4⟩ := getbit_spec _ _ _ _ _ _ h4 hok3
              cases hv : inp[ip4]? with
              | none => rw [hv] at h; exact absurd h (by simp)
              | some v =>
                rw [hv] at h
                injection h with h
                injection h with hc h
                injection h with hbits hip
                subst hc hbits hip
                have hlt := getElem?_some_lt _ _ _ hv
                obtain ⟨ha, hb⟩ := bitsOk_advance inp bits4 ip4 1 hok4 (by omega)
                refine ⟨ha, by omega, ?_⟩
                intro ln span hc
                injection hc with hln hsp
                rw [two_bits b3 b4 hb3 hb4] at hln
                rw [short_span] at hsp
                have := v.isLt
                omega
        · rw [if_neg hz] at h
          cases hlo : inp[ip2']? with
          | none => rw [hlo] at h; exact absurd h (by simp)
          | some lo =>
            rw [hlo] at h
            dsimp only at h
            cases hhi : inp[ip2' + 1]? with
            | none => rw [hhi] at h; exact absurd h (by simp)
            | some hi =>
              rw [hhi] at h
              dsimp only at h
              have hlt := getElem?_some_lt _ _ _ hhi
              have hspan := long_span lo hi
              have hl := lo.isLt
              have hh := hi.isLt
              have h7 : hi.val &&& 0x07 = hi.val % 8 := Nat.and_pow_two_sub_one_eq_mod hi.val 3
              by_cases hln : (hi.val &&& 0x07) + 2 = 2
              · rw [if_pos hln] at h
                cases he : inp[ip2' + 2]? with
                | none => rw [he] at h; exact absurd h (by simp)
                | some e =>
                  rw [he] at h
                  dsimp only at h
                  have hlt2 := getElem?_some_lt _ _ _ he
                  have hev := e.isLt
                  obtain ⟨ha, hb⟩ := bitsOk_advance inp bits2' ip2' 3 hok2 (by omega)
                  by_cases he0 : e.val = 0
                  · rw [if_pos he0] at h
                    injection h with h
                    injection h with hc h
                    injection h with hbits hip
                    subst hc hbits hip
                    exact ⟨ha, by omega, by intro ln span hc; exact absurd hc (by simp)⟩
                  · rw [if_neg he0] at h
                    by_cases he1 : e.val = 1
                    · rw [if_pos he1] at h
                      injection h with h
                      injection h with hc h
                      injection h with hbits hip
                      subst hc hbits hip
                      exact ⟨ha, by omega, by intro ln span hc; exact absurd hc (by simp)⟩
                    · rw [if_neg he1] at h
                      injection h with h
                      injection h with hc h
                      injection h with hbits hip
                      subst hc hbits hip
                      refine ⟨ha, by omega, ?_⟩
                      intro ln span hc
                      injection hc with hln2 hsp
                      rw [hspan] at hsp
                      omega
              · rw [if_neg hln] at h
                injection h with h
                injection h with hc h
                injection h with hbits hip
                subst hc hbits hip
                obtain ⟨ha, hb⟩ := bitsOk_advance inp bits2' ip2' 2 hok2 (by omega)
                refine ⟨ha, by omega, ?_⟩
                intro ln span hc
                injection hc with hln2 hsp
                rw [hspan] at hsp
                omega

theorem resize_length (out : List Byte) (m : Nat) : (resize out m).length = max out.length m := by
  unfold resize
  split
  · omega
  · rw [List.length_append, List.length_replicate]
    omega

theorem resize_getElem? (out : List Byte) (m i : Nat) :
    (resize out m)[i]? =
      if i < out.length then out[i]? else if i < m then some 0 else none := by
  unfold resize
  split
  · by_cases h : i < out.length
    · rw [if_pos h]
    · rw [if_neg h, if_neg (by omega), List.getElem?_eq_none (by omega)]
  · rw [List.getElem?_append]
    by_cases h : i < out.length
    · rw [if_pos h, if_pos h]
    · rw [if_neg h, if_neg h, List.getElem?_replicate]
      by_cases h2 : i < m
      · rw [if_pos (by omega), if_pos h2]
      · rw [if_neg (by omega), if_neg h2]

theorem place_length (out : List Byte) (pos : Nat) (b : List Byte) :
    (place out pos b).length = max out.length (pos + b.length) := by
  unfold place
  simp only [List.length_append, List.length_take, List.length_drop, resize_length]
  omega

theorem place_getElem? (out : List Byte) (pos : Nat) (b : List Byte) (i : Nat) :
    (place out pos b)[i]? =
      if i < pos then (if i < out.length then out[i]? else some 0)
      else if i < pos + b.length then b[i - pos]? else out[i]? := by
  have hT : (List.take pos (resize out (pos + b.length))).length = pos := by
    rw [List.length_take, resize_length]
    omega
  unfold place
  rw [List.getElem?_append, List.length_append, hT]
  by_cases h1 : i < pos
  · rw [if_pos (by omega), if_pos h1, List.getElem?_append, hT, if_pos h1,
      List.getElem?_take_of_lt h1, resize_getElem?]
    by_cases h2 : i < out.length
    · rw [if_pos h2, if_pos h2]
    · rw [if_neg h2, if_neg h2, if_pos (by omega)]
  · rw [if_neg h1]
    by_cases h2 : i < pos + b.length
    · rw [if_pos h2, if_pos h2, List.getElem?_append, hT, if_neg h1]
    · rw [if_neg h2, if_neg h2, List.getElem?_drop]
      congr 1
      omega

theorem place_place (out : List Byte) (pos : Nat) (a b : List Byte) :
    place (place out pos a) (pos + a.length) b = place out pos (a ++ b) := by
  apply List.ext_getElem?
  intro i
  rw [place_getElem?, place_getElem?, place_getElem?, place_length, List.length_append,
    List.getElem?_append]
  by_cases h1 : i < pos
  · rw [if_pos (by omega), if_pos (by omega), if_pos h1, if_pos h1]
  · rw [if_neg h1, if_neg h1]
    by_cases h2 : i < pos + a.length
    · rw [if_pos h2, if_pos (by omega), if_pos h2, if_pos (by omega), if_pos (by omega)]
    · rw [if_neg h2, if_neg h2]
      by_cases h3 : i < pos + a.length + b.length
      · rw [if_pos h3, if_pos (by omega), if_neg (by omega)]
        congr 1
        omega
      · rw [if_neg h3, if_neg (by omega)]

theorem goCopy_of_le (dst src : List Byte) (h : src.length ≤ dst.length) :
    goCopy dst src = src ++ dst.drop src.length := by
  unfold goCopy
  rw [List.take_of_length_le h]

theorem goCopy_length (dst src : List Byte) : (goCopy dst src).length = dst.length := by
  unfold goCopy
  rw [List.length_append, List.length_take, List.length_drop]
  omega

theorem drop_resize (out : List Byte) (k : Nat) :
    (resize out k).drop k = out.drop k := by
  apply List.ext_getElem?
  intro i
  rw [List.getElem?_drop, List.getElem?_drop, resize_getElem?]
  by_cases h : k + i < out.length
  · rw [if_pos h]
  · rw [if_neg h, if_neg (by omega), List.getElem?_eq_none (by omega)]

theorem copyOut_resize (out : List Byte) (op : Nat) (chunk : List Byte) :
    copyOut (resize out (op + chunk.length)) op chunk = some (place out op chunk) := by
  have hlen := resize_length out (op + chunk.length)
  unfold copyOut
  rw [if_pos (by omega), goCopy_of_le _ _ (by rw [List.length_drop]; omega), List.drop_drop,
    drop_resize]
  unfold place
  rw [List.append_assoc]

theorem resize_guard (out : List Byte) (n : Nat) :
    (if out.length < n then resize out n else out) = resize out n := by
  unfold resize
  by_cases h : out.length < n
  · rw [if_pos h, if_neg (by omega)]
  · rw [if_neg h, if_pos (by omega)]

theorem flush_sim (out0 : List Byte) (iop : Nat) (s : Unp) (r : Ref) (fl : List Byte)
    (h : Sim out0 iop s r fl) :
    ∃ s1 fl1, flush s = some s1 ∧ Sim out0 iop s1 r fl1 ∧ s1.dp ≤ 0x4000 := by
  by_cases hdp : s.dp > 0x4000
  · have hlen := h.len
    have hdpb := h.dp
    have hchunk : (s.data.take 0x2000).length = 0x2000 := by
      rw [List.length_take]; omega
    have hout : copyOut (if s.out.length < 0x2000 + s.op then resize s.out (0x2000 + s.op)
        else s.out) s.op (s.data.take 0x2000) = some (place s.out s.op (s.data.take 0x2000)) := by
      rw [resize_guard, show 0x2000 + s.op = s.op + (s.data.take 0x2000).length by omega]
      exact copyOut_resize _ _ _
    refine ⟨{ s with out := place s.out s.op (s.data.take 0x2000), op := s.op + 0x2000,
                     dp := s.dp - 0x2000,
                     data := goCopy (s.data.take (s.dp - 0x2000)) (s.data.drop 0x2000) ++
                       s.data.drop (s.dp - 0x2000) },
      fl ++ s.data.take 0x2000, ?_, ?_, ?_⟩
    · unfold flush
      rw [if_pos hdp]
      dsimp only
      rw [hout]
    · have hg : (goCopy (s.data.take (s.dp - 0x2000)) (s.data.drop 0x2000)).length =
          s.dp - 0x2000 := by
        rw [goCopy_length, List.length_take]; omega
      have hgo : goCopy (s.data.take (s.dp - 0x2000)) (s.data.drop 0x2000) =
          (s.data.drop 0x2000).take (s.dp - 0x2000) := by
        have e1 : List.drop (s.data.drop 0x2000).length (s.data.take (s.dp - 0x2000)) = [] :=
          List.drop_eq_nil_of_le (by rw [List.length_take, List.length_drop]; omega)
        unfold goCopy
        rw [e1, List.append_nil, List.length_take, Nat.min_eq_left (by omega)]
      constructor
      · exact h.bits
      · exact h.ip
      · dsimp only
        rw [List.length_append, hg, List.length_drop]
        omega
      · dsimp only; omega
      · dsimp only
        rw [h.op, List.length_append, hchunk]
        omega
      · dsimp only
        have e2 := List.take_add s.data 0x2000 (s.dp - 0x2000)
        rw [show 0x2000 + (s.dp - 0x2000) = s.dp by omega] at e2
        rw [h.acc, List.take_left' hg, hgo, List.append_assoc, e2]
      · right
        dsimp only
        omega
      · intro X
        dsimp only
        have := place_place s.out s.op (s.data.take 0x2000) X
        rw [hchunk] at this
        rw [this, h.out, List.append_assoc]
    · dsimp only; omega
  · refine ⟨s, fl, ?_, h, by omega⟩
    unfold flush
    rw [if_neg hdp]

theorem take_set_succ (data : List Byte) (dp : Nat) (v : Byte) (h : dp < data.length) :
    (data.set dp v).take (dp + 1) = data.take dp ++ [v] := by
  have e : (data.set dp v).take dp = data.take dp := by
    apply List.ext_getElem?
    intro i
    rw [List.getElem?_take, List.getElem?_take]
    split
    · rw [List.getElem?_set_ne (by omega)]
    · rfl
  rw [List.take_succ, e, List.getElem?_set_self h]
  rfl

theorem copy_sim (fl : List Byte) (span : Int) (hs : span ≤ -1) :
    ∀ (ln : Nat) (data : List Byte) (dp : Nat) (acc : List Byte),
      acc = fl ++ data.take dp → dp + ln ≤ data.length → (fl = [] ∨ -span ≤ (dp : Int)) →
      (copyLoop ln span data dp = none ∧ refCopy ln span acc = none) ∨
      (∃ data2, copyLoop ln span data dp = some (data2, dp + ln) ∧
        data2.length = data.length ∧ refCopy ln span acc = some (fl ++ data2.take (dp + ln)))
  | 0, data, dp, acc, hacc, _, _ => by
    right
    exact ⟨data, rfl, rfl, by rw [hacc]; rfl⟩
  | ln + 1, data, dp, acc, hacc, hlen, hh => by
    have hal : acc.length = fl.length + dp := by
      rw [hacc, List.length_append, List.length_take]
      omega
    unfold copyLoop refCopy
    by_cases hneg : (dp : Int) + span < 0
    · left
      have hfl : fl = [] := by
        rcases hh with hh | hh
        · exact hh
        · omega
      have hfl0 : fl.length = 0 := by rw [hfl]; rfl
      rw [if_pos hneg, if_pos (by rw [hal, hfl0]; omega)]
      exact ⟨rfl, rfl⟩
    · rw [if_neg hneg, if_neg (by rw [hal]; omega)]
      have hj : ((dp : Int) + span).toNat < dp := by omega
      have hjl : ((dp : Int) + span).toNat < data.length := by omega
      have hk : ((acc.length : Int) + span).toNat = fl.length + ((dp : Int) + span).toNat := by
        rw [hal]
        omega
      have hread : acc[((acc.length : Int) + span).toNat]? = data[((dp : Int) + span).toNat]? := by
        rw [hk, hacc, List.getElem?_append_right (by omega), Nat.add_sub_cancel_left,
          List.getElem?_take_of_lt hj]
      rw [hread, List.getElem?_eq_getElem hjl]
      dsimp only
      rw [if_pos (by omega)]
      have ih := copy_sim fl span hs ln (data.set dp (data[((dp : Int) + span).toNat])) (dp + 1)
        (acc ++ [data[((dp : Int) + span).toNat]])
        (by rw [take_set_succ _ _ _ (by omega), hacc, List.append_assoc])
        (by rw [List.length_set]; omega)
        (by rcases hh with hh | hh
            · exact Or.inl hh
            · right; omega)
      rw [List.length_set, show dp + 1 + ln = dp + (ln + 1) by omega] at ih
      exact ih

theorem step_sim (inp out0 : List Byte) (iop : Nat) (s : Unp) (r : Ref) (fl : List Byte)
    (h : Sim out0 iop s r fl) (hok : BitsOk inp r.bits r.ip) :
    (unpackStep inp s = .fault ∧ refStep inp r = .fault) ∨
    (∃ s2 r2 fl2, unpackStep inp s = .next s2 ∧ refStep inp r = .next r2 ∧
      Sim out0 iop s2 r2 fl2 ∧ BitsOk inp r2.bits r2.ip ∧
      bitsLeft inp r2.bits r2.ip + 1 ≤ bitsLeft inp r.bits r.ip) ∨
    (∃ s2 r2 fl2, unpackStep inp s = .stop s2 ∧ refStep inp r = .done r2 ∧
      Sim out0 iop s2 r2 fl2 ∧ s2.dp ≤ 0x4000) := by
  obtain ⟨s1, fl1, hfl, h1, hdp1⟩ := flush_sim out0 iop s r fl h
  rw [unpackStep_eq, hfl]
  dsimp only
  unfold refStep
  rw [h1.bits, h1.ip]
  cases hrd : readCmd inp r.bits r.ip with
  | none => exact Or.inl ⟨rfl, rfl⟩
  | some res =>
    obtain ⟨cmd, bits, ip⟩ := res
    obtain ⟨hok2, hdec, hcopy⟩ := readCmd_spec _ _ _ _ _ _ hrd hok
    have hlen := h1.len
    cases cmd with
    | lit v =>
      right; left
      refine ⟨{ s1 with data := s1.data.set s1.dp v, dp := s1.dp + 1, bits := bits, ip := ip },
        { acc := r.acc ++ [v], bits := bits, ip := ip }, fl1, ?_, rfl, ?_, hok2, hdec⟩
      · dsimp only [applyCmd]
        rw [if_pos (by omega)]
      · constructor
        · rfl
        · rfl
        · dsimp only; rw [List.length_set]; exact hlen
        · dsimp only; omega
        · exact h1.op
        · dsimp only
          rw [take_set_succ _ _ _ (by omega), h1.acc, List.append_assoc]
        · rcases h1.hist with hh | hh
          · exact Or.inl hh
          · right; dsimp only; omega
        · exact h1.out
    | copy ln span =>
      obtain ⟨hl1, hl2, hs1, hs2⟩ := hcopy ln span rfl
      have hh : fl1 = [] ∨ -span ≤ (s1.dp : Int) := by
        rcases h1.hist with hh | hh
        · exact Or.inl hh
        · right; omega
      rcases copy_sim fl1 span hs2 ln s1.data s1.dp r.acc h1.acc (by omega) hh with
        ⟨hc1, hc2⟩ | ⟨data2, hc1, hc2, hc3⟩
      · left
        dsimp only [applyCmd, stepCopy]
        rw [hc1, hc2]
        exact ⟨rfl, rfl⟩
      · right; left
        refine ⟨{ s1 with data := data2, dp := s1.dp + ln, bits := bits, ip := ip },
          { acc := fl1 ++ data2.take (s1.dp + ln), bits := bits, ip := ip }, fl1, ?_, ?_, ?_,
          hok2, hdec⟩
        · dsimp only [applyCmd, stepCopy]
          rw [hc1]
        · dsimp only
          rw [hc3]
        · constructor
          · rfl
          · rfl
          · dsimp only; rw [hc2]; exact hlen
          · dsimp only; omega
          · exact h1.op
          · rfl
          · rcases h1.hist with hh | hh
            · exact Or.inl hh
            · right; dsimp only; omega
          · exact h1.out
    | skip =>
      right; left
      refine ⟨{ s1 with bits := bits, ip := ip }, { r with bits := bits, ip := ip }, fl1,
        rfl, rfl, ?_, hok2, hdec⟩
      exact ⟨rfl, rfl, h1.len, h1.dp, h1.op, h1.acc, h1.hist, h1.out⟩
    | stop =>
      right; right
      refine ⟨{ s1 with bits := bits, ip := ip }, { r with bits := bits, ip := ip }, fl1,
        rfl, rfl, ?_, hdp1⟩
      exact ⟨rfl, rfl, h1.len, h1.dp, h1.op, h1.acc, h1.hist, h1.out⟩

theorem loop_sim (inp out0 : List Byte) (iop : Nat) :
    ∀ (fuel : Nat) (s : Unp) (r : Ref) (fl : List Byte), Sim out0 iop s r fl →
      BitsOk inp r.bits r.ip → bitsLeft inp r.bits r.ip < fuel →
      (unpackLoop inp fuel s = .fault ∧ refLoop inp fuel r = .fault) ∨
      (∃ s2 r2 fl2, unpackLoop inp fuel s = .done s2 ∧ refLoop inp fuel r = .done r2 ∧
        Sim out0 iop s2 r2 fl2 ∧ s2.dp ≤ 0x4000)
  | 0, _, _, _, _, _, hf => by omega
  | fuel + 1, s, r, fl, h, hok, hf => by
    unfold unpackLoop refLoop
    rcases step_sim inp out0 iop s r fl h hok with ⟨h1, h2⟩ | ⟨s2, r2, fl2, h1, h2, h3, h4, h5⟩ |
      ⟨s2, r2, fl2, h1, h2, h3, h4⟩
    · rw [h1, h2]
      exact Or.inl ⟨rfl, rfl⟩
    · rw [h1, h2]
      exact loop_sim inp out0 iop fuel s2 r2 fl2 h3 h4 (by omega)
    · rw [h1, h2]
      exact Or.inr ⟨s2, r2, fl2, rfl, rfl, h3, h4⟩

theorem init_spec (inp : List Byte) (pos : Nat) (bits : bitstream) (ip : Nat)
    (h : bitstream.init inp pos = some (bits, ip)) :
    BitsOk inp bits ip ∧ bitsLeft inp bits ip < unpackFuel inp := by
  unfold bitstream.init at h
  cases hw : le16At inp pos with
  | none => rw [hw] at h; exact absurd h (by simp)
  | some w =>
    rw [hw] at h
    have hlen := le16At_some _ _ _ hw
    injection h with h
    injection h with hbits hip
    subst hbits hip
    refine ⟨⟨hlen, by dsimp only; omega, by dsimp only; omega⟩, ?_⟩
    unfold bitsLeft unpackFuel
    dsimp only
    omega

theorem unpackFinish_sim (out0 : List Byte) (iop : Nat) (s : Unp) (r : Ref) (fl : List Byte)
    (h : Sim out0 iop s r fl) (hdp : s.dp ≤ 0x4000) :
    unpackFinish s iop = some (place out0 iop r.acc, r.acc.length % 2 ^ 32) := by
  have hlen := h.len
  have hchunk : (s.data.take s.dp).length = s.dp := by
    rw [List.length_take]; omega
  unfold unpackFinish
  rw [if_pos (by omega)]
  dsimp only
  have hout : copyOut (if s.out.length < s.dp + s.op then resize s.out (s.dp + s.op) else s.out)
      s.op (s.data.take s.dp) = some (place s.out s.op (s.data.take s.dp)) := by
    rw [resize_guard]
    have := copyOut_resize s.out s.op (s.data.take s.dp)
    rw [hchunk, Nat.add_comm] at this
    exact this
  rw [hout]
  dsimp only
  rw [h.out, ← h.acc]
  have hal : r.acc.length = fl.length + s.dp := by
    rw [h.acc, List.length_append, hchunk]
  rw [h.op, hal, show iop + fl.length + s.dp - iop = fl.length + s.dp by omega]

theorem unpack_ref (p : ulz) :
    (∃ payload, refUnpack p = .ok payload ∧
      unpack p = .ok { p with out := place p.out (hd p.ohead 4 <<< 4) payload,
                              loadsize := payload.length % 2 ^ 32 }) ∨
    (refUnpack p = .error corruptMsg ∧ unpack p = .error corruptMsg) := by
  unfold refUnpack unpack
  dsimp only
  by_cases hneg : ipOf p < 0
  · rw [if_pos hneg, if_pos hneg]
    exact Or.inr ⟨rfl, rfl⟩
  · rw [if_neg hneg, if_neg hneg]
    cases hinit : bitstream.init p.inp.elems (ipOf p).toNat with
    | none => exact Or.inr ⟨rfl, rfl⟩
    | some res =>
      obtain ⟨bits, ip⟩ := res
      dsimp only
      obtain ⟨hok, hfuel⟩ := init_spec _ _ _ _ hinit
      have hsim : Sim p.out (hd p.ohead 4 <<< 4)
          { data := List.replicate 0x4500 0, bits := bits, dp := 0, ip := ip,
            op := hd p.ohead 4 <<< 4, out := p.out }
          { acc := [], bits := bits, ip := ip } [] :=
        ⟨rfl, rfl, List.length_replicate _ _, by dsimp only; omega, rfl, rfl, Or.inl rfl,
          fun X => rfl⟩
      rcases loop_sim p.inp.elems p.out (hd p.ohead 4 <<< 4) (unpackFuel p.inp.elems) _ _ _ hsim
        hok hfuel with ⟨h1, h2⟩ | ⟨s2, r2, fl2, h1, h2, h3, h4⟩
      · rw [h1, h2]
        exact Or.inr ⟨rfl, rfl⟩
      · rw [h1, h2]
        dsimp only
        rw [unpackFinish_sim _ _ _ _ _ h3 h4]
        exact Or.inl ⟨r2.acc, rfl, rfl⟩

theorem place_payload (out : List Byte) (pos : Nat) (b : List Byte) :
    ((place out pos b).drop pos).take b.length = b := by
  apply List.ext_getElem?
  intro i
  rw [List.getElem?_take, List.getElem?_drop, place_getElem?]
  by_cases h : i < b.length
  · rw [if_pos h, if_neg (by omega), if_pos (by omega), Nat.add_sub_cancel_left]
  · rw [if_neg h, List.getElem?_eq_none (by omega)]

/-- C6: the windowed decoder `unpack` (0x4500-byte window, flush of 0x2000 bytes
whenever the write cursor exceeds 0x4000) and the reference decoder, which
applies the same decode steps to one unbounded buffer, have the same outcome on
every input: either both succeed and the payload that `unpack` stores in the
output from the start position on is the reference payload, byte for byte, or
both return the error of a corrupted stream. -/
theorem unpack_refines_reference (p : ulz) :
    (∃ q payload, unpack p = .ok q ∧ refUnpack p = .ok payload ∧
      (q.out.drop (hd p.ohead 4 <<< 4)).take payload.length = payload ∧
      q.out.length = max p.out.length ((hd p.ohead 4 <<< 4) + payload.length) ∧
      q.loadsize = payload.length % 2 ^ 32) ∨
    (unpack p = .error corruptMsg ∧ refUnpack p = .error corruptMsg) := by
  rcases unpack_ref p with ⟨payload, h1, h2⟩ | ⟨h1, h2⟩
  · left
    exact ⟨_, payload, h2, h1, place_payload _ _ _, place_length _ _ _, rfl⟩
  · right
    exact ⟨h2, h1⟩

theorem flush_reader (s s1 : Unp) (h : flush s = some s1) : s1.bits = s.bits ∧ s1.ip = s.ip := by
  unfold flush at h
  split at h
  · dsimp only at h
    split at h
    · exact absurd h (by simp)
    · injection h with h
      rw [← h]
      exact ⟨rfl, rfl⟩
  · injection h with h
    rw [← h]
    exact ⟨rfl, rfl⟩

theorem applyCmd_cases (s : Unp) (bits : bitstream) (ip : Nat) (cmd : Cmd) (hc : cmd ≠ .stop) :
    applyCmd s bits ip cmd = .fault ∨
    ∃ s2, applyCmd s bits ip cmd = .next s2 ∧ s2.bits = bits ∧ s2.ip = ip := by
  cases cmd with
  | lit v =>
    dsimp only [applyCmd]
    split
    · exact Or.inr ⟨_, rfl, rfl, rfl⟩
    · exact Or.inl rfl
  | copy ln span =>
    dsimp only [applyCmd, stepCopy]
    cases copyLoop ln span s.data s.dp with
    | none => exact Or.inl rfl
    | some res => exact Or.inr ⟨_, rfl, rfl, rfl⟩
  | skip => exact Or.inr ⟨_, rfl, rfl, rfl⟩
  | stop => exact absurd rfl hc

theorem overrun_loop (inp : List Byte) :
    ∀ (fuel : Nat) (bits : bitstream) (ip : Nat), overruns inp fuel bits ip = true →
      ∀ (fuel2 : Nat) (s : Unp), s.bits = bits → s.ip = ip →
        unpackLoop inp fuel2 s = .fault ∨ unpackLoop inp fuel2 s = .hang
  | 0, _, _, h, _, _, _, _ => by simp [overruns] at h
  | _ + 1, _, _, _, 0, _, _, _ => Or.inr rfl
  | fuel + 1, bits, ip, h, fuel2 + 1, s, hb, hi => by
    unfold unpackLoop
    rw [unpackStep_eq]
    cases hf : flush s with
    | none => exact Or.inl rfl
    | some s1 =>
      obtain ⟨hb1, hi1⟩ := flush_reader _ _ hf
      dsimp only
      rw [hb1, hi1, hb, hi]
      unfold overruns at h
      cases hrd : readCmd inp bits ip with
      | none => exact Or.inl rfl
      | some res =>
        obtain ⟨cmd, bits2, ip2⟩ := res
        rw [hrd] at h
        dsimp only
        have hc : cmd ≠ .stop := by
          intro hc
          rw [hc] at h
          exact absurd h (by simp)
        have h2 : overruns inp fuel bits2 ip2 = true := by
          cases cmd with
          | stop => exact absurd rfl hc
          | lit v => exact h
          | copy ln span => exact h
          | skip => exact h
        rcases applyCmd_cases s1 bits2 ip2 cmd hc with ha | ⟨s2, ha, hb2, hi2⟩
        · rw [ha]
          exact Or.inl rfl
        · rw [ha]
          exact overrun_loop inp fuel bits2 ip2 h2 fuel2 s2 hb2 hi2

theorem unpack_of_overrun (p : ulz) (bits : bitstream) (ip fuel : Nat) (h0 : 0 ≤ ipOf p)
    (hov : bitstream.init p.inp.elems (ipOf p).toNat = none ∨
      (bitstream.init p.inp.elems (ipOf p).toNat = some (bits, ip) ∧
        overruns p.inp.elems fuel bits ip = true)) :
    unpack p = .error corruptMsg := by
  rcases unpack_ref p with ⟨payload, _, h2⟩ | ⟨_, h2⟩
  swap
  · exact h2
  exfalso
  unfold unpack at h2
  dsimp only at h2
  rw [if_neg (by omega)] at h2
  rcases hov with hinit | ⟨hinit, hov⟩
  · rw [hinit] at h2
    exact absurd h2 (by simp)
  · rw [hinit] at h2
    dsimp only at h2
    rcases overrun_loop p.inp.elems fuel bits ip hov (unpackFuel p.inp.elems)
      { data := List.replicate 0x4500 0, bits := bits, dp := 0, ip := ip,
        op := hd p.ohead 4 <<< 4, out := p.out } rfl rfl with hl | hl
    · rw [hl] at h2
      exact absurd h2 (by simp)
    · rw [hl] at h2
      exact absurd h2 (by simp)

theorem decode_of_beforeUnpack (inp : Slice) (p : ulz) (h : beforeUnpack inp = some p) :
    decode inp =
      match unpack p with
      | .error e => .error e
      | .crash => .crash
      | .hang => .hang
      | .ok q =>
        match wrhead q with
        | .error e => .error e
        | .crash => .crash
        | .hang => .hang
        | .ok q => .ok q.out := by
  unfold beforeUnpack at h
  unfold decode
  dsimp only at h ⊢
  cases hr : rdhead { ulz.zero with inp := inp } with
  | error e => rw [hr] at h; exact absurd h (by simp)
  | crash => rw [hr] at h; exact absurd h (by simp)
  | hang => rw [hr] at h; exact absurd h (by simp)
  | ok res =>
    obtain ⟨ver, p1⟩ := res
    rw [hr] at h
    dsimp only at h ⊢
    by_cases hv : ver = 0
    · rw [if_pos hv] at h
      exact absurd h (by simp)
    · rw [if_neg hv] at h
      rw [if_neg hv]
      cases hm : mkreltbl { p1 with ver := ver } with
      | error e => rw [hm] at h; exact absurd h (by simp)
      | crash => rw [hm] at h; exact absurd h (by simp)
      | hang => rw [hm] at h; exact absurd h (by simp)
      | ok p2 =>
        rw [hm] at h
        dsimp only at h ⊢
        injection h with h
        subst h
        rfl

/-- C7: when `decode` reaches `unpack` on a packed input and the compressed
stream makes the decoder read a control word or a raw byte at or beyond the end
of the input before an end-of-stream code (the very first control word, or a
later read), `unpack` returns the error "could not unpack corrupted compressed
stream" instead of crashing, and `decode` returns that error and no buffer. -/
theorem unpack_overrun_error (inp : Slice) (p : ulz) (bits : bitstream) (ip fuel : Nat)
    (hp : beforeUnpack inp = some p) (h0 : 0 ≤ ipOf p)
    (hov : bitstream.init p.inp.elems (ipOf p).toNat = none ∨
      (bitstream.init p.inp.elems (ipOf p).toNat = some (bits, ip) ∧
        overruns p.inp.elems fuel bits ip = true)) :
    unpack p = .error "could not unpack corrupted compressed stream" ∧
    decode inp = .error "could not unpack corrupted compressed stream" := by
  have hu := unpack_of_overrun p bits ip fuel h0 hov
  refine ⟨hu, ?_⟩
  rw [decode_of_beforeUnpack inp p hp, hu]
  rfl

set_option maxRecDepth 1000000 in
theorem unpack_overrun_error_witness :
    beforeUnpack overrunImage = some overrunState ∧ 0 ≤ ipOf overrunState ∧
    bitstream.init overrunState.inp.elems (ipOf overrunState).toNat = some (⟨0xffff, 16⟩, 34) ∧
    overruns overrunState.inp.elems 270 ⟨0xffff, 16⟩ 34 = true ∧
    decode overrunImage = .error "could not unpack corrupted compressed stream" :=
  ⟨by decide, by decide, by decide, by decide,
   (unpack_overrun_error overrunImage overrunState ⟨0xffff, 16⟩ 34 270 (by decide) (by decide)
      (Or.inr ⟨by decide, by decide⟩)).2⟩

/-! ## Literal-only streams -/

theorem getbit_mid (inp : List Byte) (buf k ip : Nat) (h1 : 2 ≤ k) (h2 : k ≤ 16) :
    bitstream.getbit ⟨buf, k⟩ inp ip = some (buf % 2, ⟨buf / 2, k - 1⟩, ip) := by
  unfold bitstream.getbit
  dsimp only
  rw [if_neg (by omega), show (k + 255) % 256 = k - 1 by omega]

theorem getbit_last (inp : List Byte) (buf ip w : Nat) (hw : le16At inp ip = some w) :
    bitstream.getbit ⟨buf, 1⟩ inp ip = some (buf % 2, ⟨w, 16⟩, ip + 2) := by
  unfold bitstream.getbit
  dsimp only
  rw [if_pos (by rfl), hw]

theorem drop_head (inp : List Byte) (ip : Nat) (x : Byte) (rest : List Byte)
    (h : inp.drop ip = x :: rest) : inp[ip]? = some x ∧ inp.drop (ip + 1) = rest := by
  constructor
  · have := List.getElem?_drop inp ip 0
    rw [h] at this
    simpa using this.symm
  · rw [← List.drop_drop, h]
    rfl

theorem le16At_drop (inp : List Byte) (ip : Nat) (a b : Byte) (rest : List Byte)
    (h : inp.drop ip = a :: b :: rest) :
    le16At inp ip = some (word a b) ∧ inp.drop (ip + 2) = rest := by
  obtain ⟨h1, h2⟩ := drop_head inp ip a _ h
  obtain ⟨h3, h4⟩ := drop_head inp (ip + 1) b _ h2
  refine ⟨?_, h4⟩
  unfold le16At
  rw [h1, h3]

theorem word_u8 (v : Nat) (h : v < 65536) : word (u8 v) (u8 (v >>> 8)) = v := by
  unfold word u8
  dsimp only
  rw [Nat.shiftRight_eq_div_pow]
  omega

theorem readCmd_lit_mid (inp : List Byte) (buf k ip : Nat) (b : Byte) (rest : List Byte)
    (h1 : 2 ≤ k) (h2 : k ≤ 16) (hb : buf % 2 = 1) (hd : inp.drop ip = b :: rest) :
    readCmd inp ⟨buf, k⟩ ip = some (.lit b, ⟨buf / 2, k - 1⟩, ip + 1) := by
  unfold readCmd
  rw [getbit_mid inp buf k ip h1 h2]
  dsimp only
  rw [if_pos (by omega), (drop_head inp ip b rest hd).1]

theorem readCmd_lit_last (inp : List Byte) (buf ip : Nat) (lo hi b : Byte) (rest : List Byte)
    (hb : buf % 2 = 1) (hd : inp.drop ip = lo :: hi :: b :: rest) :
    readCmd inp ⟨buf, 1⟩ ip = some (.lit b, ⟨word lo hi, 16⟩, ip + 3) := by
  obtain ⟨hw, hr⟩ := le16At_drop inp ip lo hi _ hd
  unfold readCmd
  rw [getbit_last inp buf ip _ hw]
  dsimp only
  rw [if_pos (by omega), (drop_head inp (ip + 2) b rest hr).1]

theorem readCmd_stop_tail (inp : List Byte) (bits : bitstream) (ip : Nat) (rest : List Byte)
    (hd : inp.drop ip = 0 :: 0 :: 0 :: rest) :
    (match inp[ip]? with
      | none => none
      | some lo =>
        match inp[ip + 1]? with
        | none => none
        | some hi =>
          let span := toInt16 (lo.val ||| ((((hi.val - (hi.val &&& 0x07)) <<< 5) ||| 0xe000) % 65536))
          let ln := (hi.val &&& 0x07) + 2
          if ln = 2 then
            match inp[ip + 2]? with
            | none => none
            | some e =>
              if e.val = 0 then some (Cmd.stop, bits, ip + 3)
              else if e.val = 1 then some (.skip, bits, ip + 3)
              else some (.copy (e.val + 1) span, bits, ip + 3)
          else some (.copy ln span, bits, ip + 2)) = some (.stop, bits, ip + 3) := by
  obtain ⟨h1, r1⟩ := drop_head inp ip 0 _ hd
  obtain ⟨h2, r2⟩ := drop_head inp (ip + 1) 0 _ r1
  obtain ⟨h3, _⟩ := drop_head inp (ip + 2) 0 _ r2
  rw [h1, h2, h3]
  rfl

theorem readCmd_end (inp : List Byte) (k ip : Nat) (post : List Byte) (h1 : 1 ≤ k) (h2 : k ≤ 16)
    (hd : inp.drop ip = (encFrom k []).2 ++ post) :
    ∃ bits2 ip2, readCmd inp ⟨(encFrom k []).1, k⟩ ip = some (.stop, bits2, ip2) := by
  unfold encFrom at hd ⊢
  by_cases hk1 : k = 1
  · subst hk1
    rw [if_pos rfl] at hd ⊢
    dsimp only at hd ⊢
    obtain ⟨hw, hr⟩ := le16At_drop inp ip 1 0 _ hd
    refine ⟨?_, ?_, ?_⟩
    rotate_left 2
    unfold readCmd
    rw [getbit_last inp 0 ip _ hw]
    dsimp only
    rw [if_neg (by decide), getbit_mid inp (word 1 0) 16 (ip + 2) (by omega) (by omega)]
    dsimp only
    rw [if_neg (by decide)]
    exact readCmd_stop_tail inp _ (ip + 2) post hr
  · rw [if_neg hk1] at hd ⊢
    by_cases hk2 : k = 2
    · subst hk2
      rw [if_pos rfl] at hd ⊢
      dsimp only at hd ⊢
      obtain ⟨hw, hr⟩ := le16At_drop inp ip 0 0 _ hd
      refine ⟨?_, ?_, ?_⟩
      rotate_left 2
      unfold readCmd
      rw [getbit_mid inp 2 2 ip (by omega) (by omega)]
      dsimp only
      rw [if_neg (by decide), getbit_last inp (2 / 2) ip _ hw]
      dsimp only
      rw [if_neg (by decide)]
      exact readCmd_stop_tail inp _ (ip + 2) post hr
    · rw [if_neg hk2] at hd ⊢
      dsimp only at hd ⊢
      refine ⟨?_, ?_, ?_⟩
      rotate_left 2
      unfold readCmd
      rw [getbit_mid inp 2 k ip (by omega) (by omega)]
      dsimp only
      rw [if_neg (by decide), getbit_mid inp (2 / 2) (k - 1) ip (by omega) (by omega)]
      dsimp only
      rw [if_neg (by decide)]
      exact readCmd_stop_tail inp _ ip post hd

theorem encFrom_lt : ∀ (s : List Byte) (k : Nat), 1 ≤ k → (encFrom k s).1 < 2 ^ k
  | [], k, hk => by
    unfold encFrom
    by_cases h1 : k = 1
    · subst h1; decide
    · rw [if_neg h1]
      have : 2 ^ 2 ≤ 2 ^ k := Nat.pow_le_pow_right (by omega) (by omega)
      split <;> dsimp only <;> omega
  | b :: rest, k, hk => by
    unfold encFrom
    by_cases h1 : k = 1
    · subst h1
      rw [if_pos rfl]
      dsimp only
      omega
    · rw [if_neg h1]
      dsimp only
      have ih := encFrom_lt rest (k - 1) (by omega)
      have e : 2 ^ k = 2 * 2 ^ (k - 1) := by
        rw [show k = (k - 1) + 1 by omega, Nat.pow_succ]
        simp
        ring
      omega

theorem encFrom_length : ∀ (s : List Byte) (k : Nat), s.length ≤ (encFrom k s).2.length
  | [], k => Nat.zero_le _
  | b :: rest, k => by
    unfold encFrom
    split
    · dsimp only
      have := encFrom_length rest 16
      simp only [List.length_cons]
      omega
    · dsimp only
      have := encFrom_length rest (k - 1)
      simp only [List.length_cons]
      omega

theorem refLoop_literals (inp post : List Byte) :
    ∀ (s : List Byte) (k : Nat) (acc : List Byte) (ip fuel : Nat), 1 ≤ k → k ≤ 16 →
      inp.drop ip = (encFrom k s).2 ++ post → s.length < fuel →
      ∃ r, refLoop inp fuel { acc := acc, bits := ⟨(encFrom k s).1, k⟩, ip := ip } = .done r ∧
        r.acc = acc ++ s
  | _, _, _, _, 0, _, _, _, hf => by omega
  | [], k, acc, ip, fuel + 1, h1, h2, hd, _ => by
    obtain ⟨bits2, ip2, hrd⟩ := readCmd_end inp k ip post h1 h2 hd
    unfold refLoop refStep
    dsimp only
    rw [hrd]
    exact ⟨_, rfl, (List.append_nil acc).symm⟩
  | b :: rest, k, acc, ip, fuel + 1, h1, h2, hd, hf => by
    have hf2 : rest.length < fuel := by
      simp only [List.length_cons] at hf
      omega
    by_cases hk : k = 1
    · subst hk
      have e : encFrom 1 (b :: rest) =
          (1, u8 (encFrom 16 rest).1 :: u8 ((encFrom 16 rest).1 >>> 8) :: b :: (encFrom 16 rest).2) := by
        rw [encFrom, if_pos rfl]
      rw [e] at hd ⊢
      dsimp only at hd ⊢
      have hlt := encFrom_lt rest 16 (by omega)
      have hrd := readCmd_lit_last inp 1 ip _ _ b ((encFrom 16 rest).2 ++ post) (by decide) hd
      rw [word_u8 _ (by omega)] at hrd
      have hdrop : inp.drop (ip + 3) = (encFrom 16 rest).2 ++ post := by
        rw [← List.drop_drop, hd]
        rfl
      obtain ⟨r, hr1, hr2⟩ := refLoop_literals inp post rest 16 (acc ++ [b]) (ip + 3) fuel
        (by omega) (by omega) hdrop hf2
      unfold refLoop refStep
      dsimp only
      rw [hrd]
      dsimp only
      exact ⟨r, hr1, by rw [hr2, List.append_assoc]; rfl⟩
    · have e : encFrom k (b :: rest) =
          (1 + 2 * (encFrom (k - 1) rest).1, b :: (encFrom (k - 1) rest).2) := by
        rw [encFrom, if_neg hk]
      rw [e] at hd ⊢
      dsimp only at hd ⊢
      have hrd := readCmd_lit_mid inp (1 + 2 * (encFrom (k - 1) rest).1) k ip b
        ((encFrom (k - 1) rest).2 ++ post) (by omega) h2 (by omega) hd
      rw [show (1 + 2 * (encFrom (k - 1) rest).1) / 2 = (encFrom (k - 1) rest).1 by omega] at hrd
      have hdrop : inp.drop (ip + 1) = (encFrom (k - 1) rest).2 ++ post := by
        rw [← List.drop_drop, hd]
        rfl
      obtain ⟨r, hr1, hr2⟩ := refLoop_literals inp post rest (k - 1) (acc ++ [b]) (ip + 1) fuel
        (by omega) (by omega) hdrop hf2
      unfold refLoop refStep
      dsimp only
      rw [hrd]
      dsimp only
      exact ⟨r, hr1, by rw [hr2, List.append_assoc]; rfl⟩

theorem refUnpack_literals (p : ulz) (s pre post : List Byte)
    (hin : p.inp.elems = pre ++ encodeLiterals s ++ post) (hip : ipOf p = pre.length) :
    refUnpack p = .ok s := by
  have hlt := encFrom_lt s 16 (by omega)
  have hdrop : p.inp.elems.drop pre.length =
      u8 (encFrom 16 s).1 :: u8 ((encFrom 16 s).1 >>> 8) :: ((encFrom 16 s).2 ++ post) := by
    rw [hin, List.append_assoc, List.drop_left]
    rfl
  obtain ⟨hw, hr⟩ := le16At_drop _ _ _ _ _ hdrop
  rw [word_u8 _ (by omega)] at hw
  have hlen : s.length < unpackFuel p.inp.elems := by
    have h1 := encFrom_length s 16
    unfold unpackFuel
    rw [hin]
    simp only [List.length_append, encodeLiterals, List.length_cons]
    omega
  obtain ⟨r, hr1, hr2⟩ := refLoop_literals p.inp.elems post s 16 [] (pre.length + 2)
    (unpackFuel p.inp.elems) (by omega) (by omega) hr hlen
  unfold refUnpack
  rw [if_neg (by omega), hip, Int.toNat_ofNat]
  unfold bitstream.init
  rw [hw]
  dsimp only
  rw [hr1]
  dsimp only
  rw [hr2]
  rfl

theorem unpack_literals (p : ulz) (s pre post : List Byte)
    (hin : p.inp.elems = pre ++ encodeLiterals s ++ post) (hip : ipOf p = pre.length) :
    unpack p = .ok { p with out := place p.out (hd p.ohead 4 <<< 4) s,
                            loadsize := s.length % 2 ^ 32 } := by
  have href := refUnpack_literals p s pre post hin hip
  rcases unpack_ref p with ⟨payload, h1, h2⟩ | ⟨h1, _⟩
  · rw [href] at h1
    injection h1 with h1
    rw [h2, ← h1]
  · rw [href] at h1
    exact absurd h1 (by simp)

theorem unpack_literals_spec (p : ulz) (s pre post : List Byte)
    (hin : p.inp.elems = pre ++ encodeLiterals s ++ post) (hip : ipOf p = pre.length) :
    ∃ q, unpack p = .ok q ∧ (q.out.drop (hd p.ohead 4 <<< 4)).take s.length = s ∧
      q.loadsize = s.length % 2 ^ 32 :=
  ⟨_, unpack_literals p s pre post hin hip, place_payload _ _ _, rfl⟩

/-- C5 (amended): for every byte sequence `s`, the compressed stream that encodes
each byte of `s` as a literal step and ends with the end-of-stream code is
decoded by `unpack` into a payload equal to `s` byte for byte; the recorded load
size is `len(s)` modulo `2^32`, hence `len(s)` whenever `s` is shorter than
`2^32` bytes. -/
theorem literal_roundtrip (p : ulz) (s pre post : List Byte)
    (hin : p.inp.elems = pre ++ encodeLiterals s ++ post) (hip : ipOf p = pre.length) :
    ∃ q, unpack p = .ok q ∧ (q.out.drop (hd p.ohead 4 <<< 4)).take s.length = s ∧
      q.loadsize = s.length % 2 ^ 32 ∧ (s.length < 2 ^ 32 → q.loadsize = s.length) := by
  obtain ⟨q, h1, h2, h3⟩ := unpack_literals_spec p s pre post hin hip
  refine ⟨q, h1, h2, h3, ?_⟩
  intro hs
  rw [h3]
  exact Nat.mod_eq_of_lt hs

theorem literal_roundtrip_witness :
    ({ ulz.zero with inp := ⟨encodeLiterals [1, 2, 3], []⟩ } : ulz).inp.elems =
      [] ++ encodeLiterals [1, 2, 3] ++ [] ∧
    ipOf { ulz.zero with inp := ⟨encodeLiterals [1, 2, 3], []⟩ } = ([] : List Byte).length ∧
    ∃ q, unpack { ulz.zero with inp := ⟨encodeLiterals [1, 2, 3], []⟩ } = .ok q ∧
      (q.out.drop 0).take 3 = [1, 2, 3] ∧ q.loadsize = 3 :=
  ⟨by decide, by decide,
   (literal_roundtrip { ulz.zero with inp := ⟨encodeLiterals [1, 2, 3], []⟩ } [1, 2, 3] [] []
      (by decide) (by decide)).imp fun _ h => ⟨h.1, h.2.1, h.2.2.2 (by decide)⟩⟩


/-- C5 (counterexample): for the byte sequence of `2^32` zero bytes, encoded with
literal steps, `unpack` succeeds and records the load size 0, not `len(s)`:
`loadsize` is a `uint32`. -/
theorem literal_roundtrip_counterexample :
    (List.replicate (2 ^ 32) (0 : Byte)).length = 4294967296 ∧
    ∃ q, unpack { ulz.zero with inp := ⟨encodeLiterals (List.replicate (2 ^ 32) 0), []⟩ } = .ok q ∧
      q.loadsize = 0 := by
  have hin : ({ ulz.zero with inp := ⟨encodeLiterals (List.replicate (2 ^ 32) 0), []⟩ } :
      ulz).inp.elems = [] ++ encodeLiterals (List.replicate (2 ^ 32) 0) ++ [] := by
    show encodeLiterals (List.replicate (2 ^ 32) 0) =
      [] ++ encodeLiterals (List.replicate (2 ^ 32) 0) ++ []
    rw [List.nil_append, List.append_nil]
  obtain ⟨q, h1, _, h3⟩ := unpack_literals_spec _ (List.replicate (2 ^ 32) 0) [] [] hin rfl
  rw [List.length_replicate, Nat.mod_self] at h3
  exact ⟨List.length_replicate _ _, q, h1, h3⟩

/-! ## The bit reader -/

theorem le16At_of_le (data : List Byte) (pos : Nat) (h : pos + 2 ≤ data.length) :
    le16At data pos = some (wordAt data pos) := by
  unfold le16At wordAt
  rw [getElem?_eq_some_getD _ _ (by omega), getElem?_eq_some_getD _ _ (by omega)]

theorem getbits_from (data : List Byte) (s : Nat) :
    ∀ (n j : Nat), s + 2 * ((j + n) / 16) + 2 ≤ data.length →
      ∃ bs, getbits data n ⟨wordAt data (s + 2 * (j / 16)) / 2 ^ (j % 16), 16 - j % 16⟩
            (s + 2 + 2 * (j / 16)) =
          some (bs, ⟨wordAt data (s + 2 * ((j + n) / 16)) / 2 ^ ((j + n) % 16), 16 - (j + n) % 16⟩,
            s + 2 + 2 * ((j + n) / 16)) ∧
        bs.length = n ∧
        ∀ k, k < n → bs[k]? =
          some (wordAt data (s + 2 * ((j + k) / 16)) / 2 ^ ((j + k) % 16) % 2)
  | 0, j, _ => ⟨[], rfl, rfl, fun k hk => absurd hk (Nat.not_lt_zero k)⟩
  | n + 1, j, h => by
    have hstep : bitstream.getbit
        ⟨wordAt data (s + 2 * (j / 16)) / 2 ^ (j % 16), 16 - j % 16⟩ data (s + 2 + 2 * (j / 16)) =
        some (wordAt data (s + 2 * (j / 16)) / 2 ^ (j % 16) % 2,
          ⟨wordAt data (s + 2 * ((j + 1) / 16)) / 2 ^ ((j + 1) % 16), 16 - (j + 1) % 16⟩,
          s + 2 + 2 * ((j + 1) / 16)) := by
      by_cases hl : j % 16 = 15
      · have e1 : (j + 1) / 16 = j / 16 + 1 := by omega
        have e2 : (j + 1) % 16 = 0 := by omega
        have hw := le16At_of_le data (s + 2 + 2 * (j / 16)) (by omega)
        rw [show 16 - j % 16 = 1 by omega, getbit_last _ _ _ _ hw, e1, e2]
        rw [show s + 2 + 2 * (j / 16) = s + 2 * (j / 16 + 1) by omega]
        simp
        omega
      · have e1 : (j + 1) / 16 = j / 16 := by omega
        have e2 : (j + 1) % 16 = j % 16 + 1 := by omega
        rw [getbit_mid _ _ _ _ (by omega) (by omega), e1, e2, Nat.pow_succ, Nat.div_div_eq_div_mul]
        rw [show 16 - j % 16 - 1 = 16 - (j % 16 + 1) by omega]
    obtain ⟨bs, h1, h2, h3⟩ := getbits_from data s n (j + 1)
      (by rw [show j + 1 + n = j + (n + 1) by omega]; exact h)
    refine ⟨(wordAt data (s + 2 * (j / 16)) / 2 ^ (j % 16) % 2) :: bs, ?_, by simp [h2], ?_⟩
    · unfold getbits
      rw [hstep]
      dsimp only
      rw [h1, show j + 1 + n = j + (n + 1) by omega]
    · intro k hk
      cases k with
      | zero => simp
      | succ k =>
        rw [List.getElem?_cons_succ, h3 k (by omega), show j + 1 + k = j + (k + 1) by omega]

/-- C16: after `init(buffer, s)`, when the buffer contains every word that is
loaded, the `k`-th call of `getbit` returns bit `k mod 16` (counted from the
least significant bit) of the little-endian word at byte offset
`s + 2 * floor(k / 16)`, and after `n` calls the cursor is
`s + 2 + 2 * floor(n / 16)`. -/
theorem getbit_sequence (data : List Byte) (s n : Nat)
    (h : s + 2 * (n / 16) + 2 ≤ data.length) :
    ∃ b0 bs bn, bitstream.init data s = some (b0, s + 2) ∧
      getbits data n b0 (s + 2) = some (bs, bn, s + 2 + 2 * (n / 16)) ∧ bs.length = n ∧
      ∀ k, k < n → bs[k]? = some (wordAt data (s + 2 * (k / 16)) / 2 ^ (k % 16) % 2) := by
  obtain ⟨bs, h1, h2, h3⟩ := getbits_from data s n 0 (by rw [Nat.zero_add]; exact h)
  simp only [Nat.zero_add, Nat.zero_div, Nat.zero_mod, Nat.mul_zero, Nat.add_zero, Nat.pow_zero,
    Nat.div_one, Nat.sub_zero] at h1 h3
  refine ⟨_, bs, _, ?_, h1, h2, h3⟩
  unfold bitstream.init
  rw [le16At_of_le data s (by omega)]

theorem getbit_sequence_witness :
    ∃ b0 bs bn, bitstream.init [0x05, 0x80, 0x01, 0x00] 0 = some (b0, 0 + 2) ∧
      getbits [0x05, 0x80, 0x01, 0x00] 17 b0 (0 + 2) = some (bs, bn, 0 + 2 + 2 * (17 / 16)) ∧
      bs.length = 17 ∧
      ∀ k, k < 17 →
        bs[k]? = some (wordAt [0x05, 0x80, 0x01, 0x00] (0 + 2 * (k / 16)) / 2 ^ (k % 16) % 2) :=
  getbit_sequence [0x05, 0x80, 0x01, 0x00] 0 17 (by decide)

/-! ## Relocation data of variant 91 -/

theorem reloc91Emit_r (s : Rel) (span : Nat) : (reloc91Emit s span).r = s.r := rfl

theorem reloc91Step_cases (s : Rel) :
    (s.r = [] ∧ reloc91Step s = .fail "EOF") ∨
    (∃ b rest, s.r = b :: rest ∧ b.val ≠ 0 ∧
      reloc91Step s = .next (reloc91Emit { s with r := rest } b.val)) ∨
    (∃ (b : Byte) (rest : List Byte), s.r = b :: rest ∧ b.val = 0 ∧ rest.length < 2 ∧
      ∃ e, reloc91Step s = .fail e) ∨
    (∃ (b lo hi : Byte) (rest : List Byte), s.r = b :: lo :: hi :: rest ∧ b.val = 0 ∧
      word lo hi = 0 ∧
      reloc91Step s =
        .next (reloc91Emit { s with r := rest, relseg := (s.relseg + 0xfff) % 65536 } 0)) ∨
    (∃ (b lo hi : Byte) (rest : List Byte), s.r = b :: lo :: hi :: rest ∧ b.val = 0 ∧
      word lo hi = 1 ∧ reloc91Step s = .done { s with r := rest }) ∨
    (∃ (b lo hi : Byte) (rest : List Byte), s.r = b :: lo :: hi :: rest ∧ b.val = 0 ∧
      2 ≤ word lo hi ∧ reloc91Step s = .next (reloc91Emit { s with r := rest } (word lo hi))) := by
  unfold reloc91Step
  cases hr : s.r with
  | nil => exact Or.inl ⟨rfl, rfl⟩
  | cons b rest =>
    right
    dsimp only
    by_cases hb : b.val = 0
    · rw [if_pos hb]
      right
      cases rest with
      | nil =>
        left
        obtain ⟨e, he⟩ := readFull_of_lt [] 2 (by decide)
        exact ⟨b, [], rfl, hb, by decide, e, by rw [he]⟩
      | cons lo rest2 =>
        cases rest2 with
        | nil =>
          left
          obtain ⟨e, he⟩ := readFull_of_lt [lo] 2 (by simp)
          exact ⟨b, [lo], rfl, hb, by simp, e, by rw [he]⟩
        | cons hi rest3 =>
          right
          rw [readFull_of_le _ _ (by simp)]
          dsimp only
          have hw : hd (words (List.take 2 (lo :: hi :: rest3))) 0 = word lo hi := rfl
          rw [hw]
          have hdrop : List.drop 2 (lo :: hi :: rest3) = rest3 := rfl
          rw [hdrop]
          by_cases h0 : word lo hi = 0
          · left
            rw [if_pos h0]
            refine ⟨b, lo, hi, rest3, rfl, hb, h0, ?_⟩
            rw [h0]
          · rw [if_neg h0]
            right
            by_cases h1 : word lo hi = 1
            · left
              rw [if_pos h1]
              exact ⟨b, lo, hi, rest3, rfl, hb, h1, rfl⟩
            · right
              rw [if_neg h1]
              exact ⟨b, lo, hi, rest3, rfl, hb, by omega, rfl⟩
    · rw [if_neg hb]
      left
      exact ⟨b, rest, rfl, hb, rfl⟩

theorem hasEnd91_nonzero (b : Byte) (r : List Byte) (hb : b.val ≠ 0) :
    hasEnd91 (b :: r) = hasEnd91 r := by
  rw [hasEnd91.eq_def]
  dsimp only
  rw [if_pos hb]

theorem hasEnd91_word (b lo hi : Byte) (r : List Byte) (hb : b.val = 0) :
    hasEnd91 (b :: lo :: hi :: r) = if word lo hi = 1 then true else hasEnd91 r := by
  rw [hasEnd91.eq_def]
  dsimp only
  rw [if_neg (by omega)]

theorem hasEnd91_short (b : Byte) (r : List Byte) (hb : b.val = 0) (hl : r.length < 2) :
    hasEnd91 (b :: r) = false := by
  rw [hasEnd91.eq_def]
  dsimp only
  rw [if_neg (by omega)]
  match r, hl with
  | [], _ => rfl
  | [_], _ => rfl
  | _ :: _ :: _, hl =>
    simp only [List.length_cons] at hl
    omega

theorem reloc91Loop_end :
    ∀ (fuel : Nat) (s : Rel), s.r.length < fuel →
      (hasEnd91 s.r = true → ∃ t, reloc91Loop fuel s = .ok t) ∧
      (hasEnd91 s.r = false → ∃ e, reloc91Loop fuel s = .error e)
  | 0, _, h => by omega
  | fuel + 1, s, h => by
    unfold reloc91Loop
    rcases reloc91Step_cases s with ⟨hr, hs⟩ | ⟨b, rest, hr, hb, hs⟩ |
      ⟨b, rest, hr, hb, hl, e, hs⟩ | ⟨b, lo, hi, rest, hr, hb, hw, hs⟩ |
      ⟨b, lo, hi, rest, hr, hb, hw, hs⟩ | ⟨b, lo, hi, rest, hr, hb, hw, hs⟩
    · rw [hs, hr]
      exact ⟨fun h => absurd h (by simp [hasEnd91]), fun _ => ⟨_, rfl⟩⟩
    · rw [hs, hr]
      dsimp only
      have ih := reloc91Loop_end fuel (reloc91Emit { s with r := rest } b.val)
        (by rw [reloc91Emit_r]; rw [hr] at h; simp only [List.length_cons] at h; dsimp only; omega)
      rw [reloc91Emit_r] at ih
      rw [hasEnd91_nonzero _ _ hb]
      exact ih
    · rw [hs, hr, hasEnd91_short _ _ hb hl]
      exact ⟨fun h => absurd h (by simp), fun _ => ⟨_, rfl⟩⟩
    · rw [hs, hr]
      dsimp only
      have ih := reloc91Loop_end fuel
        (reloc91Emit { s with r := rest, relseg := (s.relseg + 0xfff) % 65536 } 0)
        (by rw [reloc91Emit_r]; rw [hr] at h; simp only [List.length_cons] at h; dsimp only; omega)
      rw [reloc91Emit_r] at ih
      rw [hasEnd91_word _ _ _ _ hb, if_neg (by omega)]
      exact ih
    · rw [hs, hr]
      dsimp only
      rw [hasEnd91_word _ _ _ _ hb, if_pos hw]
      exact ⟨fun _ => ⟨_, rfl⟩, fun h => absurd h (by simp)⟩
    · rw [hs, hr]
      dsimp only
      have ih := reloc91Loop_end fuel (reloc91Emit { s with r := rest } (word lo hi))
        (by rw [reloc91Emit_r]; rw [hr] at h; simp only [List.length_cons] at h; dsimp only; omega)
      rw [reloc91Emit_r] at ih
      rw [hasEnd91_word _ _ _ _ hb, if_neg (by omega)]
      exact ih

theorem reloc91_unfold (p : ulz) (fpos : Nat) :
    reloc91 p fpos =
      if (fpos + 0x158) % 2 ^ 32 ≥ p.inp.len % 2 ^ 32 then
        .error "compressed relocation table not found"
      else
        match reloc91Loop (p.inp.len + 1)
            (Rel.init (p.inp.elems.drop ((fpos + 0x158) % 2 ^ 32)) p.out) with
        | .ok s => .ok { p with out := s.out, ohead := p.ohead.set 3 s.relcount }
        | .error e => .error e
        | .crash => .crash
        | .hang => .hang := rfl

/-- C11 (amended): on an input shorter than `2^32` bytes, `reloc91` returns
success exactly when its relocation data starts inside the input and the end
marker (a zero byte followed by the 16-bit word 1) is read before the input is
exhausted, and it returns an error otherwise; the end marker itself emits no
entry. -/
theorem reloc91_success_iff (p : ulz) (fpos : Nat) (hlen : p.inp.len < 2 ^ 32) :
    ((∃ q, reloc91 p fpos = .ok q) ↔
      ((fpos + 0x158) % 2 ^ 32 < p.inp.len ∧
        hasEnd91 (p.inp.elems.drop ((fpos + 0x158) % 2 ^ 32)) = true)) ∧
    (¬ ((fpos + 0x158) % 2 ^ 32 < p.inp.len ∧
        hasEnd91 (p.inp.elems.drop ((fpos + 0x158) % 2 ^ 32)) = true) →
      ∃ e, reloc91 p fpos = .error e) ∧
    (∀ (s : Rel) (rest : List Byte),
      reloc91Step { s with r := 0 :: 1 :: 0 :: rest } = .done { s with r := rest }) := by
  have hmod : p.inp.len % 2 ^ 32 = p.inp.len := Nat.mod_eq_of_lt hlen
  have key : (fpos + 0x158) % 2 ^ 32 < p.inp.len →
      (hasEnd91 (p.inp.elems.drop ((fpos + 0x158) % 2 ^ 32)) = true → ∃ q, reloc91 p fpos = .ok q) ∧
      (hasEnd91 (p.inp.elems.drop ((fpos + 0x158) % 2 ^ 32)) = false →
        ∃ e, reloc91 p fpos = .error e) := by
    intro hst
    have hl := reloc91Loop_end (p.inp.len + 1)
      (Rel.init (p.inp.elems.drop ((fpos + 0x158) % 2 ^ 32)) p.out)
      (by simp only [Rel.init, List.length_drop, Slice.len]; omega)
    rw [reloc91_unfold, hmod, if_neg (by omega)]
    constructor
    · intro h
      obtain ⟨t, ht⟩ := hl.1 h
      rw [ht]
      exact ⟨_, rfl⟩
    · intro h
      obtain ⟨e, he⟩ := hl.2 h
      rw [he]
      exact ⟨_, rfl⟩
  have hbad : ¬ ((fpos + 0x158) % 2 ^ 32 < p.inp.len ∧
        hasEnd91 (p.inp.elems.drop ((fpos + 0x158) % 2 ^ 32)) = true) →
      ∃ e, reloc91 p fpos = .error e := by
    intro hn
    by_cases hst : (fpos + 0x158) % 2 ^ 32 < p.inp.len
    · apply (key hst).2
      cases hh : hasEnd91 (p.inp.elems.drop ((fpos + 0x158) % 2 ^ 32)) with
      | false => rfl
      | true => exact absurd ⟨hst, hh⟩ hn
    · rw [reloc91_unfold, hmod, if_pos (by omega)]
      exact ⟨_, rfl⟩
  refine ⟨⟨?_, fun h => (key h.1).1 h.2⟩, hbad, ?_⟩
  · intro hok
    by_contra hn
    obtain ⟨q, hq⟩ := hok
    obtain ⟨e, he⟩ := hbad hn
    rw [hq] at he
    exact absurd he (by simp)
  · intro s rest
    unfold reloc91Step
    dsimp only
    rw [if_pos (by rfl), readFull_of_le _ _ (by simp)]
    dsimp only
    have hw : hd (words (List.take 2 ((1 : Byte) :: 0 :: rest))) 0 = 1 := rfl
    rw [hw, if_neg (by decide), if_pos rfl]
    rfl

set_option maxRecDepth 100000 in
theorem reloc91_success_iff_witness :
    (image91With [5, 0, 1, 0]).len < 2 ^ 32 ∧
    ∃ q, reloc91 { ulz.zero with inp := image91With [5, 0, 1, 0] } 48 = .ok q :=
  ⟨by decide,
   ((reloc91_success_iff { ulz.zero with inp := image91With [5, 0, 1, 0] } 48
      (by decide)).1).2 ⟨by decide, by decide⟩⟩

theorem hugeRelocState_len : hugeRelocState.inp.len = 2 ^ 32 + 100 := by
  unfold hugeRelocState Slice.len
  dsimp only
  rw [List.length_append, List.length_append, List.length_replicate, List.length_replicate]
  rfl

theorem hugeRelocState_drop :
    hugeRelocState.inp.elems.drop 376 = 0 :: 1 :: 0 :: List.replicate (2 ^ 32 - 279) 0 := by
  unfold hugeRelocState
  dsimp only
  rw [List.drop_left' (List.length_replicate _ _)]
  rfl

/-- C11 (counterexample): an input of `2^32 + 100` bytes whose relocation data
at offset `32 + 0x158 = 376` is the end marker: the data starts inside the
input and the end marker is there, yet `reloc91` returns an error, because the
start is compared with `uint32(len(in)) = 100`. -/
theorem reloc91_success_counterexample :
    hugeRelocState.inp.len = 2 ^ 32 + 100 ∧ (32 + 0x158) % 2 ^ 32 < hugeRelocState.inp.len ∧
    hasEnd91 (hugeRelocState.inp.elems.drop ((32 + 0x158) % 2 ^ 32)) = true ∧
    reloc91 hugeRelocState 32 = .error "compressed relocation table not found" := by
  have hl := hugeRelocState_len
  refine ⟨hl, by rw [hl]; decide, ?_, ?_⟩
  · rw [show (32 + 0x158) % 2 ^ 32 = 376 by decide, hugeRelocState_drop,
      hasEnd91_word _ _ _ _ (by rfl), if_pos (by decide)]
  · rw [reloc91_unfold, hl, if_pos (by decide)]

theorem reloc91Emit_out (s : Rel) (span : Nat) :
    (reloc91Emit s span).out =
      s.out ++ [u8 (reloc91Emit s span).reloff, u8 ((reloc91Emit s span).reloff >>> 8),
        u8 (reloc91Emit s span).relseg, u8 ((reloc91Emit s span).relseg >>> 8)] := by
  simp [reloc91Emit, putword]

theorem reloc91Emit_bounds (s : Rel) (span : Nat) :
    (reloc91Emit s span).reloff ≤ 15 ∧ (reloc91Emit s span).relseg < 65536 ∧
    (reloc91Emit s span).relcount = (s.relcount + 1) % 65536 := by
  rw [reloc91Emit_eq]
  dsimp only
  omega

theorem reloc91Step_next (s t : Rel) (h : reloc91Step s = .next t) :
    t.out = s.out ++ [u8 t.reloff, u8 (t.reloff >>> 8), u8 t.relseg, u8 (t.relseg >>> 8)] ∧
    t.relcount = (s.relcount + 1) % 65536 ∧ t.reloff ≤ 15 ∧ t.relseg < 65536 ∧
    t.r.length < s.r.length := by
  rcases reloc91Step_cases s with ⟨hr, hs⟩ | ⟨b, rest, hr, hb, hs⟩ |
    ⟨b, rest, hr, hb, hl, e, hs⟩ | ⟨b, lo, hi, rest, hr, hb, hw, hs⟩ |
    ⟨b, lo, hi, rest, hr, hb, hw, hs⟩ | ⟨b, lo, hi, rest, hr, hb, hw, hs⟩
  · rw [hs] at h; exact absurd h (by simp)
  · rw [hs] at h
    injection h with h
    subst h
    obtain ⟨h1, h2, h3⟩ := reloc91Emit_bounds { s with r := rest } b.val
    refine ⟨reloc91Emit_out _ _, h3, h1, h2, ?_⟩
    rw [reloc91Emit_r, hr]
    simp
  · rw [hs] at h; exact absurd h (by simp)
  · rw [hs] at h
    injection h with h
    subst h
    obtain ⟨h1, h2, h3⟩ :=
      reloc91Emit_bounds { s with r := rest, relseg := (s.relseg + 0xfff) % 65536 } 0
    refine ⟨reloc91Emit_out _ _, h3, h1, h2, ?_⟩
    rw [reloc91Emit_r, hr]
    simp
    omega
  · rw [hs] at h; exact absurd h (by simp)
  · rw [hs] at h
    injection h with h
    subst h
    obtain ⟨h1, h2, h3⟩ := reloc91Emit_bounds { s with r := rest } (word lo hi)
    refine ⟨reloc91Emit_out _ _, h3, h1, h2, ?_⟩
    rw [reloc91Emit_r, hr]
    simp
    omega

theorem reloc91Step_done (s t : Rel) (h : reloc91Step s = .done t) :
    t.out = s.out ∧ t.relcount = s.relcount := by
  rcases reloc91Step_cases s with ⟨hr, hs⟩ | ⟨b, rest, hr, hb, hs⟩ |
    ⟨b, rest, hr, hb, hl, e, hs⟩ | ⟨b, lo, hi, rest, hr, hb, hw, hs⟩ |
    ⟨b, lo, hi, rest, hr, hb, hw, hs⟩ | ⟨b, lo, hi, rest, hr, hb, hw, hs⟩
  · rw [hs] at h; exact absurd h (by simp)
  · rw [hs] at h; exact absurd h (by simp)
  · rw [hs] at h; exact absurd h (by simp)
  · rw [hs] at h; exact absurd h (by simp)
  · rw [hs] at h
    injection h with h
    subst h
    exact ⟨rfl, rfl⟩
  · rw [hs] at h; exact absurd h (by simp)

theorem tableBytes_length : ∀ (l : List (Nat × Nat)), (tableBytes l).length = 4 * l.length
  | [] => rfl
  | (o, s) :: rest => by
    simp only [tableBytes, List.length_cons, tableBytes_length rest]
    omega

theorem reloc91Loop_trace :
    ∀ (fuel : Nat) (s t : Rel), reloc91Loop fuel s = .ok t → s.relcount < 65536 →
      t.out = s.out ++ tableBytes (reloc91Trace fuel s) ∧
      t.relcount = (s.relcount + (reloc91Trace fuel s).length) % 65536 ∧
      ∀ o sg, (o, sg) ∈ reloc91Trace fuel s → o ≤ 15 ∧ sg < 65536
  | 0, s, t, h, _ => by simp [reloc91Loop] at h
  | fuel + 1, s, t, h, hc => by
    unfold reloc91Loop at h
    unfold reloc91Trace
    cases hs : reloc91Step s with
    | fail e => rw [hs] at h; exact absurd h (by simp)
    | done t2 =>
      rw [hs] at h
      dsimp only at h ⊢
      injection h with h
      subst h
      obtain ⟨h1, h2⟩ := reloc91Step_done _ _ hs
      refine ⟨by rw [h1]; simp [tableBytes], ?_, ?_⟩
      · rw [h2]
        simp
        omega
      · intro o sg hm
        exact absurd hm (by simp)
    | next t2 =>
      rw [hs] at h
      dsimp only at h ⊢
      obtain ⟨h1, h2, h3, h4, _⟩ := reloc91Step_next _ _ hs
      obtain ⟨i1, i2, i4⟩ := reloc91Loop_trace fuel t2 t h (by omega)
      refine ⟨?_, ?_, ?_⟩
      · rw [i1, h1]
        simp [tableBytes]
      · rw [i2, h2, List.length_cons]
        omega
      · intro o sg hm
        rcases List.mem_cons.mp hm with hm | hm
        · injection hm with ho hsg
          omega
        · exact i4 o sg hm

theorem hd_set_self (l : List Nat) (i v : Nat) (h : i < l.length) : hd (l.set i v) i = v := by
  simp [hd, List.getD, List.getElem?_set_self h]

theorem hd_set_ne (l : List Nat) (i j v : Nat) (h : i ≠ j) : hd (l.set i v) j = hd l j := by
  simp [hd, List.getD, List.getElem?_set_ne h]

theorem mkreltbl_ok (p q : ulz) (h : mkreltbl p = .ok q) :
    p.ver = 91 ∧
    ∃ (t : Rel) (inf ohead2 : List Nat),
      reloc91Loop (p.inp.len + 1)
        (Rel.init (p.inp.elems.drop (relocStart91 p)) (List.replicate 0x1c 0)) = .ok t ∧
      q = { p with inf := inf, ohead := ohead2.set 3 t.relcount, out := t.out } ∧
      ohead2.length = p.ohead.length := by
  unfold mkreltbl at h
  dsimp only at h
  split at h
  · exact absurd h (by simp)
  · split at h
    · exact absurd h (by simp)
    · rename_i b rest hrd
      split at h
      · obtain ⟨e, he⟩ := reloc90_error
          { p with inf := words b,
                   ohead := ((((p.ohead.set 0xa (hd (words b) 0)).set 0xb (hd (words b) 1)).set 0x8
                     (hd (words b) 2)).set 0x7 (hd (words b) 3)).set 0xc 0x1c,
                   out := List.replicate 0x1c 0 }
          (((hd p.ihead 0xb + hd p.ihead 0x4) <<< 4) % 2 ^ 32)
        rw [he] at h
        exact absurd h (by simp)
      · split at h
        · rename_i h90 h91
          refine ⟨h91, ?_⟩
          rw [reloc91_unfold] at h
          split at h
          · exact absurd h (by simp)
          · dsimp only at h
            cases hl : reloc91Loop (p.inp.len + 1)
                (Rel.init (p.inp.elems.drop
                  ((((hd p.ihead 0xb + hd p.ihead 0x4) <<< 4) % 2 ^ 32 + 0x158) % 2 ^ 32))
                  (List.replicate 0x1c 0)) with
            | ok t =>
              have hl2 := hl
              unfold Slice.len at hl2
              unfold Slice.len at h
              rw [hl2] at h
              dsimp only at h
              injection h with h
              refine ⟨t, words b, _, hl, h.symm, ?_⟩
              simp only [List.length_set]
            | error e =>
              unfold Slice.len at hl h
              rw [hl] at h
              exact absurd h (by simp)
            | crash =>
              unfold Slice.len at hl h
              rw [hl] at h
              exact absurd h (by simp)
            | hang =>
              unfold Slice.len at hl h
              rw [hl] at h
              exact absurd h (by simp)
        · exact absurd h (by simp)

theorem mkreltbl_layout (p q : ulz) (h : mkreltbl p = .ok q) (hoh : p.ohead.length = 0x10) :
    p.ver = 91 ∧ q.out = List.replicate 0x1c 0 ++ tableBytes (emitted91 p) ∧
    hd q.ohead 3 = (emitted91 p).length % 65536 ∧ q.ohead.length = 0x10 ∧
    (∀ o s, (o, s) ∈ emitted91 p → o ≤ 15 ∧ s < 65536) ∧ q.inp = p.inp ∧ q.ihead = p.ihead := by
  obtain ⟨hv, t, inf, ohead2, hl, hq, hlen⟩ := mkreltbl_ok p q h
  obtain ⟨h1, h2, h3⟩ := reloc91Loop_trace _ _ _ hl (by simp [Rel.init])
  subst hq
  refine ⟨hv, h1, ?_, ?_, h3, rfl, rfl⟩
  · dsimp only
    rw [hd_set_self _ _ _ (by omega), h2]
    simp [Rel.init, emitted91]
  · dsimp only
    rw [List.length_set]
    omega

/-- C13 (amended): on every successful relocation decode, which only variant 91
can produce, the output is 28 zero bytes followed by the emitted
(offset, segment) pairs in emission order, each as a little-endian offset word
and a little-endian segment word, and output header word 3 is the number `n`
of pairs modulo `2^16`, hence `n` itself when fewer than 65536 pairs are
emitted. -/
theorem reltbl_layout (p q : ulz) (h : mkreltbl p = .ok q) (hoh : p.ohead.length = 0x10) :
    p.ver = 91 ∧
    q.out = List.replicate 0x1c 0 ++ tableBytes (emitted91 p) ∧
    (tableBytes (emitted91 p)).length = 4 * (emitted91 p).length ∧
    hd q.ohead 3 = (emitted91 p).length % 65536 ∧
    ((emitted91 p).length < 65536 → hd q.ohead 3 = (emitted91 p).length) ∧
    (∀ o s, (o, s) ∈ emitted91 p → o < 65536 ∧ s < 65536) := by
  obtain ⟨h1, h2, h3, _, h5, _⟩ := mkreltbl_layout p q h hoh
  refine ⟨h1, h2, tableBytes_length _, h3, fun hlt => by rw [h3]; exact Nat.mod_eq_of_lt hlt, ?_⟩
  intro o s hm
  have := h5 o s hm
  omega

set_option maxRecDepth 100000 in
theorem reltbl_layout_witness :
    mkreltbl image91Loaded = .ok image91Reloc ∧ image91Loaded.ohead.length = 0x10 ∧
    hd image91Reloc.ohead 3 = (emitted91 image91Loaded).length % 65536 ∧
    image91Reloc.out = List.replicate 0x1c 0 ++ tableBytes (emitted91 image91Loaded) :=
  ⟨by decide, by decide,
   (reltbl_layout image91Loaded image91Reloc (by decide) (by decide)).2.2.2.1,
   (reltbl_layout image91Loaded image91Reloc (by decide) (by decide)).2.1⟩

theorem reloc91Step_endmarker (s : Rel) (rest : List Byte) (hr : s.r = 0 :: 1 :: 0 :: rest) :
    reloc91Step s = .done { s with r := rest } := by
  unfold reloc91Step
  rw [hr]
  dsimp only
  rw [if_pos (by rfl), readFull_of_le _ _ (by simp)]
  dsimp only
  have hw : hd (words (List.take 2 ((1 : Byte) :: 0 :: rest))) 0 = 1 := rfl
  rw [hw, if_neg (by decide), if_pos rfl]
  rfl

theorem reloc91Step_byte (s : Rel) (b : Byte) (rest : List Byte) (hr : s.r = b :: rest)
    (hb : b.val ≠ 0) : reloc91Step s = .next (reloc91Emit { s with r := rest } b.val) := by
  unfold reloc91Step
  rw [hr]
  dsimp only
  rw [if_neg hb]

theorem reloc91Step_word (s : Rel) (lo hi : Byte) (rest : List Byte)
    (hr : s.r = 0 :: lo :: hi :: rest) (h2 : 2 ≤ word lo hi) :
    reloc91Step s = .next (reloc91Emit { s with r := rest } (word lo hi)) := by
  unfold reloc91Step
  rw [hr]
  dsimp only
  rw [if_pos (by rfl), readFull_of_le _ _ (by simp)]
  dsimp only
  have hw : hd (words (List.take 2 (lo :: hi :: rest))) 0 = word lo hi := rfl
  rw [hw, if_neg (by omega), if_neg (by omega)]
  rfl

theorem reloc91_ones (post : List Byte) :
    ∀ (k : Nat) (s : Rel) (fuel : Nat),
      s.r = List.replicate k 1 ++ 0 :: 1 :: 0 :: post → k < fuel →
      (∃ t, reloc91Loop fuel s = .ok t) ∧ (reloc91Trace fuel s).length = k
  | _, _, 0, _, hf => by omega
  | 0, s, fuel + 1, hr, _ => by
    have hs := reloc91Step_endmarker s post hr
    unfold reloc91Loop reloc91Trace
    rw [hs]
    exact ⟨⟨_, rfl⟩, rfl⟩
  | k + 1, s, fuel + 1, hr, hf => by
    have hs := reloc91Step_byte s 1 (List.replicate k 1 ++ 0 :: 1 :: 0 :: post)
      (by rw [hr, List.replicate_succ, List.cons_append]) (by decide)
    obtain ⟨⟨t, ht⟩, hl⟩ := reloc91_ones post k
      (reloc91Emit { s with r := List.replicate k 1 ++ 0 :: 1 :: 0 :: post } (1 : Byte).val) fuel
      rfl (by omega)
    unfold reloc91Loop reloc91Trace
    rw [hs]
    dsimp only
    rw [ht, List.length_cons, hl]
    exact ⟨⟨_, rfl⟩, rfl⟩

set_option maxRecDepth 100000 in
theorem stub91Head_length : stub91Head.length = 392 := by decide

set_option maxRecDepth 100000 in
theorem headerOf_image91With (rel : List Byte) :
    headerOf (image91With rel) =
      [0x5a4d, 0, 0, 0, 2, 0, 0, 0, 0, 0, 0x0e, 1, 0x1c, 0, 0, 0] := by
  unfold headerOf image91With
  dsimp only
  rw [List.take_append_of_le_length (by rw [stub91Head_length]; omega)]
  decide

theorem loaded91_len (rel : List Byte) : (loaded91 rel).inp.len = 392 + rel.length := by
  show (stub91Head ++ rel).length = 392 + rel.length
  rw [List.length_append, stub91Head_length]

theorem loaded91_start (rel : List Byte) : relocStart91 (loaded91 rel) = 392 := by
  unfold relocStart91
  rw [show (loaded91 rel).ihead = headerOf (image91With rel) from rfl, headerOf_image91With]
  decide

theorem loaded91_drop (rel : List Byte) : (loaded91 rel).inp.elems.drop 392 = rel := by
  show (stub91Head ++ rel).drop 392 = rel
  exact List.drop_left' stub91Head_length

theorem emitted91_loaded91 (rel : List Byte) :
    emitted91 (loaded91 rel) =
      reloc91Trace (392 + rel.length + 1) (Rel.init rel (List.replicate 0x1c 0)) := by
  unfold emitted91
  rw [loaded91_start, loaded91_drop, loaded91_len]

theorem mkreltbl_loaded91 (rel : List Byte) (t : Rel) (hlen : rel.length < 2 ^ 32 - 392)
    (hpos : 0 < rel.length)
    (hl : reloc91Loop (392 + rel.length + 1) (Rel.init rel (List.replicate 0x1c 0)) = .ok t) :
    ∃ q, mkreltbl (loaded91 rel) = .ok q := by
  have hi : (loaded91 rel).ihead = [0x5a4d, 0, 0, 0, 2, 0, 0, 0, 0, 0, 0x0e, 1, 0x1c, 0, 0, 0] :=
    headerOf_image91With rel
  have hv : (loaded91 rel).ver = 91 := rfl
  have hn := loaded91_len rel
  have hd392 := loaded91_drop rel
  unfold mkreltbl
  dsimp only
  rw [hi, show ((hd [0x5a4d, 0, 0, 0, 2, 0, 0, 0, 0, 0, 0x0e, 1, 0x1c, 0, 0, 0] 0xb +
      hd [0x5a4d, 0, 0, 0, 2, 0, 0, 0, 0, 0, 0x0e, 1, 0x1c, 0, 0, 0] 0x4) <<< 4) % 2 ^ 32 = 48
      by decide, hn, Nat.mod_eq_of_lt (show 392 + rel.length < 2 ^ 32 by omega),
    if_neg (by omega), readFull_of_le _ _ (by rw [List.length_drop]; unfold Slice.len at hn; omega)]
  dsimp only
  rw [hv, if_neg (by decide), if_pos rfl, reloc91_unfold]
  dsimp only
  rw [hn, show (48 + 0x158) % 2 ^ 32 = 392 by decide,
    Nat.mod_eq_of_lt (show 392 + rel.length < 2 ^ 32 by omega), if_neg (by omega), hd392, hl]
  exact ⟨_, rfl⟩

theorem loaded91_ohead (rel : List Byte) : (loaded91 rel).ohead.length = 0x10 := by
  rw [show (loaded91 rel).ohead = headerOf (image91With rel) from rfl, headerOf_image91With]
  rfl

theorem ones_length (k : Nat) : (List.replicate k (1 : Byte) ++ [0, 1, 0]).length = k + 3 := by
  rw [List.length_append, List.length_replicate]
  rfl

theorem mkreltbl_ones (k : Nat) (hk : k + 3 < 2 ^ 32 - 392) :
    ∃ q, mkreltbl (loaded91 (List.replicate k 1 ++ [0, 1, 0])) = .ok q ∧
      (emitted91 (loaded91 (List.replicate k 1 ++ [0, 1, 0]))).length = k ∧
      hd q.ohead 3 = k % 65536 ∧ q.out.length = 28 + 4 * k ∧ q.ohead.length = 0x10 := by
  have hlen := ones_length k
  obtain ⟨⟨t, ht⟩, hn⟩ := reloc91_ones [] k
    (Rel.init (List.replicate k 1 ++ [0, 1, 0]) (List.replicate 0x1c 0))
    (392 + (List.replicate k (1 : Byte) ++ [0, 1, 0]).length + 1) rfl (by omega)
  obtain ⟨q, hq⟩ := mkreltbl_loaded91 _ t (by omega) (by omega) ht
  obtain ⟨_, h2, h3, h4, _⟩ := mkreltbl_layout _ q hq (loaded91_ohead _)
  rw [emitted91_loaded91] at h2 h3 ⊢
  rw [hn] at h3
  refine ⟨q, hq, hn, h3, ?_, h4⟩
  rw [h2, List.length_append, List.length_replicate, tableBytes_length, hn]

/-- C13 (counterexample): on a variant-91 image whose relocation data is 65536
spans of 1 followed by the end marker, `mkreltbl` succeeds and emits 65536
pairs, but output header word 3 is 0: the entry count is a `uint16`. -/
theorem reltbl_count_counterexample :
    ∃ q, mkreltbl (loaded91 (List.replicate 65536 1 ++ [0, 1, 0])) = .ok q ∧
      (emitted91 (loaded91 (List.replicate 65536 1 ++ [0, 1, 0]))).length = 65536 ∧
      hd q.ohead 3 = 0 := by
  obtain ⟨q, h1, h2, h3, _⟩ := mkreltbl_ones 65536 (by decide)
  exact ⟨q, h1, h2, h3⟩

theorem encSpan_step (s : Rel) (d : Nat) (rest : List Byte) (hr : s.r = encSpan d ++ rest)
    (h0 : 0 < d) (h1 : d < 65536) :
    reloc91Step s = .next (reloc91Emit { s with r := rest } d) := by
  unfold encSpan at hr
  by_cases h : 0 < d ∧ d < 256
  · rw [if_pos h] at hr
    have hv : (u8 d).val = d := Nat.mod_eq_of_lt h.2
    have hs := reloc91Step_byte s (u8 d) rest hr (by rw [hv]; omega)
    rw [hs, hv]
  · rw [if_neg h] at hr
    have hw := word_u8 d h1
    have hs := reloc91Step_word s (u8 d) (u8 (d >>> 8)) rest hr (by rw [hw]; omega)
    rw [hs, hw]

theorem encode91From_length :
    ∀ (pairs : List (Nat × Nat)) (prev : Nat), pairs.length + 3 ≤ (encode91From prev pairs).length
  | [], _ => by simp [encode91From]
  | (o, s) :: rest, prev => by
    have ih := encode91From_length rest (16 * s + o)
    have h1 : 1 ≤ (encSpan (16 * s + o - prev)).length := by
      unfold encSpan
      split <;> simp
    rw [encode91From, List.length_append, List.length_cons]
    omega

theorem reloc91Loop_encode (post : List Byte) :
    ∀ (pairs : List (Nat × Nat)) (prev : Nat) (s : Rel) (fuel : Nat),
      s.r = encode91From prev pairs ++ post → s.reloff = prev % 16 → s.relseg = prev / 16 →
      s.relcount < 65536 → Spans91 prev pairs → pairs.length < fuel →
      ∃ t, reloc91Loop fuel s = .ok t ∧ t.out = s.out ++ tableBytes pairs ∧
        t.relcount = (s.relcount + pairs.length) % 65536 ∧ t.r = post
  | _, _, _, 0, _, _, _, _, _, hf => by omega
  | [], prev, s, fuel + 1, hr, _, _, hc, _, _ => by
    have hs := reloc91Step_endmarker s post hr
    unfold reloc91Loop
    rw [hs]
    exact ⟨_, rfl, by simp [tableBytes], by simp; omega, rfl⟩
  | (o, sg) :: rest, prev, s, fuel + 1, hr, ho, hg, hc, hsp, hf => by
    obtain ⟨h1, h2, h3, h4, h5⟩ := hsp
    have hs := encSpan_step s (16 * sg + o - prev) (encode91From (16 * sg + o) rest ++ post)
      (by rw [hr, encode91From, List.append_assoc]) (by omega) (by omega)
    have he := reloc91Emit_eq { s with r := encode91From (16 * sg + o) rest ++ post }
      (16 * sg + o - prev)
    have e1 : ((s.reloff + (16 * sg + o - prev)) % 65536) % 16 = o := by omega
    have e2 : (s.relseg + ((s.reloff + (16 * sg + o - prev)) % 65536) / 16) % 65536 = sg := by
      omega
    dsimp only at he
    rw [e1, e2] at he
    obtain ⟨t, ht, hout, hcnt, hpost⟩ := reloc91Loop_encode post rest (16 * sg + o)
      (reloc91Emit { s with r := encode91From (16 * sg + o) rest ++ post } (16 * sg + o - prev))
      fuel (by rw [he]) (by rw [he]; dsimp only; omega) (by rw [he]; dsimp only; omega)
      (by rw [he]; dsimp only; omega) h5
      (by simp at hf; omega)
    unfold reloc91Loop
    rw [hs]
    dsimp only
    refine ⟨t, ht, ?_, ?_, hpost⟩
    · rw [hout, he]
      simp [putword, tableBytes]
    · rw [hcnt, he]
      dsimp only
      rw [List.length_cons]
      omega

/-- C12 (amended): relocation round trip for variant 91. For every list of
(offset, segment) pairs with offsets at most 15, segments at most `0xffff`,
strictly ascending non-zero addresses and no span that overflows the 16-bit
offset accumulator (`Spans91 0 pairs`), `reloc91` run on an input shorter than
`2^32` bytes that holds the encoding of the list at the relocation data offset
succeeds, appends exactly the original pairs in order to the output, and sets
output header word 3 to their number modulo `2^16`. -/
theorem reloc91_roundtrip (p : ulz) (fpos : Nat) (pairs : List (Nat × Nat))
    (pre post : List Byte) (hin : p.inp.elems = pre ++ encode91 pairs ++ post)
    (hpre : pre.length = (fpos + 0x158) % 2 ^ 32) (hlen : p.inp.len < 2 ^ 32)
    (hs : Spans91 0 pairs) :
    reloc91 p fpos =
      .ok { p with out := p.out ++ tableBytes pairs,
                   ohead := p.ohead.set 3 (pairs.length % 65536) } := by
  have hl := encode91From_length pairs 0
  have hel : p.inp.len = pre.length + (encode91 pairs).length + post.length := by
    unfold Slice.len
    rw [hin, List.length_append, List.length_append]
  unfold encode91 at hin hel
  have hd : p.inp.elems.drop ((fpos + 0x158) % 2 ^ 32) = encode91From 0 pairs ++ post := by
    rw [← hpre, hin, List.append_assoc, List.drop_left]
  obtain ⟨t, ht, hout, hcnt, _⟩ := reloc91Loop_encode post pairs 0
    (Rel.init (p.inp.elems.drop ((fpos + 0x158) % 2 ^ 32)) p.out) (p.inp.len + 1)
    hd rfl rfl (show (0 : Nat) < 65536 by decide) hs (by omega)
  rw [reloc91_unfold, if_neg (by rw [Nat.mod_eq_of_lt hlen]; omega), ht]
  dsimp only
  rw [hout, hcnt]
  simp [Rel.init]

set_option maxRecDepth 100000 in
theorem reloc91_roundtrip_witness :
    reloc91 (loaded91 (encode91 [(5, 0), (3, 0x20), (0, 0x21)])) 48 =
      .ok { loaded91 (encode91 [(5, 0), (3, 0x20), (0, 0x21)]) with
            out := (loaded91 (encode91 [(5, 0), (3, 0x20), (0, 0x21)])).out ++
              tableBytes [(5, 0), (3, 0x20), (0, 0x21)],
            ohead := (loaded91 (encode91 [(5, 0), (3, 0x20), (0, 0x21)])).ohead.set 3
              ([(5, 0), (3, 0x20), (0, 0x21)].length % 65536) } :=
  reloc91_roundtrip (loaded91 (encode91 [(5, 0), (3, 0x20), (0, 0x21)])) 48
    [(5, 0), (3, 0x20), (0, 0x21)] stub91Head [] (by decide) (by decide) (by decide)
    (by simp [Spans91])

set_option maxRecDepth 100000 in
/-- C12 (counterexample): the pairs `(15, 0)` and `(14, 0x1000)` are in ascending
address order (addresses 15 and 65550, span `0xffff`), yet `reloc91` decodes
their variant-91 encoding to `(15, 0)` and `(14, 0)`: the span is added to the
16-bit offset accumulator, which wraps. The pair `(0x10, 0)`, whose offset is
not below 16, is decoded to `(0, 1)`. -/
theorem reloc91_roundtrip_counterexample :
    encode91 [(15, 0), (14, 0x1000)] = [15, 0, 0xff, 0xff, 0, 1, 0] ∧
    reloc91 (loaded91 (encode91 [(15, 0), (14, 0x1000)])) 48 =
      .ok { loaded91 (encode91 [(15, 0), (14, 0x1000)]) with
            out := (loaded91 (encode91 [(15, 0), (14, 0x1000)])).out ++
              tableBytes [(15, 0), (14, 0)],
            ohead := (loaded91 (encode91 [(15, 0), (14, 0x1000)])).ohead.set 3 2 } ∧
    tableBytes [(15, 0), (14, 0)] ≠ tableBytes [(15, 0), (14, 0x1000)] ∧
    reloc91 (loaded91 (encode91 [(0x10, 0)])) 48 =
      .ok { loaded91 (encode91 [(0x10, 0)]) with
            out := (loaded91 (encode91 [(0x10, 0)])).out ++ tableBytes [(0, 1)],
            ohead := (loaded91 (encode91 [(0x10, 0)])).ohead.set 3 1 } ∧
    tableBytes [(0, 1)] ≠ tableBytes [(0x10, 0)] := by
  refine ⟨by decide, by decide, by decide, by decide, by decide⟩

theorem words_length : ∀ (n : Nat) (l : List Byte), l.length = 2 * n → (words l).length = n
  | 0, l, h => by
    have : l = [] := List.length_eq_zero.mp (by omega)
    rw [this]
    rfl
  | n + 1, [], h => by simp at h
  | n + 1, [_], h => by simp at h; omega
  | n + 1, a :: b :: l, h => by
    have ih := words_length n l (by simp at h; omega)
    simp [words, ih]

theorem headerOf_length (inp : Slice) (h : 32 ≤ inp.len) : (headerOf inp).length = 0x10 := by
  unfold headerOf
  apply words_length
  rw [List.length_take]
  unfold Slice.len at h
  omega

theorem beforeUnpack_inv (inp : Slice) (p : ulz) (h : beforeUnpack inp = some p) :
    ∃ ver p1 q, rdhead { ulz.zero with inp := inp } = .ok (ver, p1) ∧ ver ≠ 0 ∧
      mkreltbl { p1 with ver := ver } = .ok q ∧ q.ohead.length = 0x10 ∧
      p = { q with
            ohead := q.ohead.set 4
              (((q.out.length + (((0x200 : Int) - (q.out.length : Int)) % 512).toNat) >>> 4) %
                65536),
            out := q.out ++
              List.replicate (((0x200 : Int) - (q.out.length : Int)) % 512).toNat 0 } := by
  unfold beforeUnpack at h
  dsimp only at h
  cases hr : rdhead { ulz.zero with inp := inp } with
  | error e => rw [hr] at h; exact absurd h (by simp)
  | crash => rw [hr] at h; exact absurd h (by simp)
  | hang => rw [hr] at h; exact absurd h (by simp)
  | ok res =>
    obtain ⟨ver, p1⟩ := res
    rw [hr] at h
    dsimp only at h
    by_cases hv : ver = 0
    · rw [if_pos hv] at h
      exact absurd h (by simp)
    · rw [if_neg hv] at h
      cases hm : mkreltbl { p1 with ver := ver } with
      | error e => rw [hm] at h; exact absurd h (by simp)
      | crash => rw [hm] at h; exact absurd h (by simp)
      | hang => rw [hm] at h; exact absurd h (by simp)
      | ok q =>
        rw [hm] at h
        dsimp only at h
        injection h with h
        refine ⟨ver, p1, q, rfl, hv, hm, ?_, h.symm⟩
        obtain ⟨h91, t, inf, ohead2, _, hq, hlen⟩ := mkreltbl_ok _ q hm
        have h91 : ver = 91 := h91
        obtain ⟨h32, _, hp1, _, _⟩ := rdhead_packed_inv _ p1 ver hr (Or.inr h91)
        rw [hq]
        dsimp only
        rw [List.length_set, hlen, hp1]
        exact headerOf_length inp h32

theorem pad_spec (f : Nat) :
    (f + (((0x200 : Int) - (f : Int)) % 512).toNat) % 512 = 0 ∧
    (((0x200 : Int) - (f : Int)) % 512).toNat < 512 := by
  omega

set_option maxRecDepth 100000 in
/-- C14 (amended): when `decode` has built the relocation table (`mkreltbl`
returned the receiver `q`, with output length `fpos`), it appends exactly
`(512 - fpos) mod 512` zero bytes, so the output length becomes the smallest
multiple of 512 that is at least `fpos`, and it sets output header word 4 to
the padded length divided by 16, reduced modulo `2^16`: the quotient itself
whenever the padded length is below `2^20`. `p` is the receiver on which
`decode` then calls `unpack`. -/
theorem decode_padding (inp : Slice) (p : ulz) (h : beforeUnpack inp = some p) :
    ∃ ver p1 q, rdhead { ulz.zero with inp := inp } = .ok (ver, p1) ∧
      mkreltbl { p1 with ver := ver } = .ok q ∧
      p.out = q.out ++ List.replicate (((512 : Int) - (q.out.length : Int)) % 512).toNat 0 ∧
      p.out.length % 512 = 0 ∧ q.out.length ≤ p.out.length ∧
      p.out.length < q.out.length + 512 ∧
      hd p.ohead 4 = (p.out.length / 16) % 65536 ∧
      (p.out.length < 2 ^ 20 → hd p.ohead 4 = p.out.length / 16) := by
  obtain ⟨ver, p1, q, hr, _, hm, hlen, hp⟩ := beforeUnpack_inv inp p h
  obtain ⟨h1, h2⟩ := pad_spec q.out.length
  have hout : p.out.length =
      q.out.length + (((0x200 : Int) - (q.out.length : Int)) % 512).toNat := by
    rw [hp]
    simp
  have hw : hd p.ohead 4 = (p.out.length / 16) % 65536 := by
    rw [hout, hp]
    dsimp only
    rw [hd_set_self _ _ _ (by omega), Nat.shiftRight_eq_div_pow]
  refine ⟨ver, p1, q, hr, hm, ?_, ?_, ?_, ?_, hw, ?_⟩
  · rw [hp]
  · omega
  · omega
  · omega
  · intro hlt
    rw [hw]
    omega

set_option maxRecDepth 100000 in
theorem decode_padding_witness :
    ∃ ver p1 q, rdhead { ulz.zero with inp := image91 } = .ok (ver, p1) ∧
      mkreltbl { p1 with ver := ver } = .ok q ∧
      image91Padded.out =
        q.out ++ List.replicate (((512 : Int) - (q.out.length : Int)) % 512).toNat 0 ∧
      image91Padded.out.length % 512 = 0 ∧ q.out.length ≤ image91Padded.out.length ∧
      image91Padded.out.length < q.out.length + 512 ∧
      hd image91Padded.ohead 4 = (image91Padded.out.length / 16) % 65536 ∧
      (image91Padded.out.length < 2 ^ 20 →
        hd image91Padded.ohead 4 = image91Padded.out.length / 16) :=
  decode_padding image91 image91Padded (by decide)

set_option maxRecDepth 100000 in
theorem window_image91With (rel : List Byte) :
    (((stub91Head ++ rel) ++ []).drop 62).take 232 = sig91 := by
  rw [List.append_nil, List.drop_append_of_le_length (by rw [stub91Head_length]; omega),
    List.take_append_of_le_length (by rw [List.length_drop, stub91Head_length]; omega)]
  decide

set_option maxRecDepth 100000 in
theorem rdhead_image91With (rel : List Byte) :
    rdhead { ulz.zero with inp := image91With rel } =
      .ok (91, loaded { ulz.zero with inp := image91With rel }) := by
  have hl : ({ ulz.zero with inp := image91With rel } : ulz).inp.len = 392 + rel.length := by
    show (stub91Head ++ rel).length = _
    rw [List.length_append, stub91Head_length]
  have hc : ({ ulz.zero with inp := image91With rel } : ulz).inp.cap = 392 + rel.length := by
    show (stub91Head ++ rel).length + 0 = _
    rw [List.length_append, stub91Head_length]
    rfl
  have hh : headerOf ({ ulz.zero with inp := image91With rel } : ulz).inp =
      headerOf (image91With rel) := rfl
  have he : entryOf [0x5a4d, 0, 0, 0, 2, 0, 0, 0, 0, 0, 0x0e, 1, 0x1c, 0, 0, 0] = 62 := by decide
  rw [rdhead_unfold _ (by rw [hl]; omega), hh, headerOf_image91With, he]
  rw [if_neg (by decide), if_neg (by rw [hl]; omega), sub_of_le _ _ _ (by rw [hc]; omega)]
  dsimp only
  rw [show ({ ulz.zero with inp := image91With rel } : ulz).inp.elems = stub91Head ++ rel from rfl,
    show ({ ulz.zero with inp := image91With rel } : ulz).inp.spare = [] from rfl,
    window_image91With, if_neg (Ne.symm sig90_ne_sig91), if_pos rfl]

theorem beforeUnpack_image91With (rel : List Byte) (q : ulz)
    (hq : mkreltbl (loaded91 rel) = .ok q) :
    ∃ p, beforeUnpack (image91With rel) = some p ∧
      p.out.length =
        q.out.length + (((0x200 : Int) - (q.out.length : Int)) % 512).toNat ∧
      p.ohead = q.ohead.set 4
        (((q.out.length + (((0x200 : Int) - (q.out.length : Int)) % 512).toNat) >>> 4) %
          65536) := by
  have key : mkreltbl { loaded { ulz.zero with inp := image91With rel } with ver := 91 } =
      .ok q := hq
  unfold beforeUnpack
  rw [rdhead_image91With]
  dsimp only
  rw [if_neg (by decide), key]
  dsimp only
  refine ⟨_, rfl, ?_, rfl⟩
  dsimp only
  rw [List.length_append, List.length_replicate]

theorem pad_zero : (((0x200 : Int) - ((1048576 : Nat) : Int)) % 512).toNat = 0 := by decide

/-- C14 (counterexample): on a variant-91 image whose relocation data is 262137
spans of 1 followed by the end marker, `decode` reaches `unpack` with an output
of exactly `2^20` bytes (28 header bytes and 262137 table entries, no padding
needed), yet output header word 4 is 0 and not `2^20 / 16 = 65536`: the word is
a `uint16`. -/
theorem decode_padding_counterexample :
    ∃ p, beforeUnpack (image91With (List.replicate 262137 1 ++ [0, 1, 0])) = some p ∧
      p.out.length = 2 ^ 20 ∧ hd p.ohead 4 = 0 := by
  obtain ⟨q, hq, _, _, hlen, hoh⟩ := mkreltbl_ones 262137 (by decide)
  obtain ⟨p, hp, hl, ho⟩ := beforeUnpack_image91With _ q hq
  have h20 : 28 + 4 * 262137 = 1048576 := by decide
  rw [hlen, h20, pad_zero] at hl ho
  refine ⟨p, hp, hl, ?_⟩
  rw [ho, hd_set_self _ _ _ (by rw [hoh]; decide)]
  decide

/-! ## The output header written by `wrhead` -/

theorem putUint16At_getElem? (out : List Byte) (i v k : Nat) (h : i * 2 + 2 ≤ out.length) :
    ∃ out2, putUint16At out i v = some out2 ∧ out2.length = out.length ∧
      out2[k]? = if k = 2 * i then some (u8 v) else if k = 2 * i + 1 then some (u8 (v >>> 8))
        else out[k]? := by
  unfold putUint16At
  rw [if_pos h]
  refine ⟨_, rfl, by simp, ?_⟩
  rw [List.getElem?_set, List.getElem?_set]
  by_cases h1 : k = 2 * i
  · subst h1
    rw [if_neg (by omega), if_pos (by omega), if_pos (by omega), if_pos rfl]
  · rw [if_neg h1]
    by_cases h2 : k = 2 * i + 1
    · subst h2
      rw [if_pos (by omega), if_pos (by simp; omega), if_pos rfl]
    · rw [if_neg (by omega), if_neg (by omega), if_neg h2]

theorem wrheadLoop_spec (ohead : List Nat) :
    ∀ (n i : Nat) (out : List Byte), 2 * (i + n) ≤ out.length →
      ∃ out2, wrheadLoop ohead n i out = some out2 ∧ out2.length = out.length ∧
        ∀ k, out2[k]? =
          if 2 * i ≤ k ∧ k < 2 * (i + n) then
            some (if k % 2 = 0 then u8 (hd ohead (k / 2)) else u8 (hd ohead (k / 2) >>> 8))
          else out[k]?
  | 0, i, out, _ => ⟨out, rfl, rfl, fun k => by rw [if_neg (by omega)]⟩
  | n + 1, i, out, h => by
    have hput := fun k => putUint16At_getElem? out i (hd ohead i) k (by omega)
    obtain ⟨out1, h1, hl1, _⟩ := hput 0
    obtain ⟨out2, h2, hl2, hk2⟩ := wrheadLoop_spec ohead n (i + 1) out1 (by omega)
    unfold wrheadLoop
    rw [h1]
    refine ⟨out2, h2, by omega, ?_⟩
    intro k
    obtain ⟨out1b, h1b, _, hk1⟩ := hput k
    rw [h1] at h1b
    injection h1b with h1b
    subst h1b
    rw [hk2 k, hk1]
    by_cases ha : k = 2 * i
    · subst ha
      have e1 : ¬ (2 * (i + 1) ≤ 2 * i ∧ 2 * i < 2 * (i + 1 + n)) := by omega
      have e2 : 2 * i ≤ 2 * i ∧ 2 * i < 2 * (i + (n + 1)) := by omega
      have e3 : 2 * i % 2 = 0 := by omega
      have e4 : 2 * i / 2 = i := by omega
      rw [if_neg e1, if_pos rfl, if_pos e2, if_pos e3, e4]
    · by_cases hb : k = 2 * i + 1
      · subst hb
        have e1 : ¬ (2 * (i + 1) ≤ 2 * i + 1 ∧ 2 * i + 1 < 2 * (i + 1 + n)) := by omega
        have e2 : 2 * i ≤ 2 * i + 1 ∧ 2 * i + 1 < 2 * (i + (n + 1)) := by omega
        have e3 : ¬ ((2 * i + 1) % 2 = 0) := by omega
        have e4 : (2 * i + 1) / 2 = i := by omega
        rw [if_neg e1, if_neg ha, if_pos rfl, if_pos e2, if_neg e3, e4]
      · rw [if_neg ha, if_neg hb]
        by_cases hc : 2 * (i + 1) ≤ k ∧ k < 2 * (i + 1 + n)
        · have e2 : 2 * i ≤ k ∧ k < 2 * (i + (n + 1)) := by omega
          rw [if_pos hc, if_pos e2]
        · have e2 : ¬ (2 * i ≤ k ∧ k < 2 * (i + (n + 1))) := by omega
          rw [if_neg hc, if_neg e2]

theorem wrhead_unfold (p : ulz) :
    ∃ oh : List Nat, oh.length = p.ohead.length ∧ hd oh 4 = hd p.ohead 4 ∧
      wrhead p =
        match wrheadLoop
          ((oh.set 1 (((p.loadsize + (hd oh 4 <<< 4) % 2 ^ 32) % 2 ^ 32) % 65536 &&& 0x1ff)).set 2
            ((((p.loadsize + (((hd oh 4 <<< 4) % 2 ^ 32 + 0x1ff) % 2 ^ 32)) % 2 ^ 32) >>> 9) %
              65536)) 0xe 0 p.out with
        | none => .crash
        | some out =>
          .ok { p with
                ohead := (oh.set 1
                  (((p.loadsize + (hd oh 4 <<< 4) % 2 ^ 32) % 2 ^ 32) % 65536 &&& 0x1ff)).set 2
                  ((((p.loadsize + (((hd oh 4 <<< 4) % 2 ^ 32 + 0x1ff) % 2 ^ 32)) % 2 ^ 32) >>>
                    9) % 65536),
                out := out } := by
  unfold wrhead
  dsimp only
  by_cases h6 : hd p.ihead 6 ≠ 0
  · rw [if_pos h6]
    by_cases hf : hd p.ihead 6 ≠ 0xffff
    · rw [if_pos hf]
      exact ⟨_, by simp, by rw [hd_set_ne _ _ _ _ (by decide), hd_set_ne _ _ _ _ (by decide)],
        rfl⟩
    · rw [if_neg hf]
      exact ⟨_, by simp, by rw [hd_set_ne _ _ _ _ (by decide)], rfl⟩
  · rw [if_neg h6]
    exact ⟨_, rfl, rfl, rfl⟩

theorem wrhead_spec (p : ulz) (hoh : p.ohead.length = 0x10) (hout : 0x1c ≤ p.out.length) :
    ∃ q, wrhead p = .ok q ∧ hd q.ohead 4 = hd p.ohead 4 ∧
      hd q.ohead 1 = (p.loadsize + 16 * hd p.ohead 4) % 512 ∧
      hd q.ohead 2 =
        (((p.loadsize % 2 ^ 32 + 16 * hd p.ohead 4 + 0x1ff) % 2 ^ 32) / 512) % 65536 ∧
      q.out.length = p.out.length ∧
      (∀ i, i < 14 → q.out[2 * i]? = some (u8 (hd q.ohead i)) ∧
        q.out[2 * i + 1]? = some (u8 (hd q.ohead i >>> 8))) ∧
      q.out.drop 28 = p.out.drop 28 := by
  obtain ⟨oh, hl, ho4, hw⟩ := wrhead_unfold p
  rw [ho4] at hw
  obtain ⟨out2, hloop, hlen, hk⟩ := wrheadLoop_spec
    ((oh.set 1 (((p.loadsize + (hd p.ohead 4 <<< 4) % 2 ^ 32) % 2 ^ 32) % 65536 &&& 0x1ff)).set 2
      ((((p.loadsize + (((hd p.ohead 4 <<< 4) % 2 ^ 32 + 0x1ff) % 2 ^ 32)) % 2 ^ 32) >>> 9) %
        65536)) 0xe 0 p.out (by omega)
  rw [hloop] at hw
  dsimp only at hw
  have hsh : hd p.ohead 4 <<< 4 = 16 * hd p.ohead 4 := by
    rw [Nat.shiftLeft_eq]
    omega
  refine ⟨_, hw, ?_, ?_, ?_, hlen, ?_, ?_⟩
  · dsimp only
    rw [hd_set_ne _ _ _ _ (by decide), hd_set_ne _ _ _ _ (by decide), ho4]
  · dsimp only
    rw [hd_set_ne _ _ _ _ (by decide), hd_set_self _ _ _ (by omega),
      Nat.and_pow_two_sub_one_eq_mod _ 9, hsh]
    omega
  · dsimp only
    rw [hd_set_self _ _ _ (by simp; omega), Nat.shiftRight_eq_div_pow, hsh]
    have e : (p.loadsize + (16 * hd p.ohead 4 % 2 ^ 32 + 511) % 2 ^ 32) % 2 ^ 32 =
        (p.loadsize % 2 ^ 32 + 16 * hd p.ohead 4 + 511) % 2 ^ 32 := by omega
    rw [e]
  · intro i hi
    dsimp only
    have e1 : 2 * 0 ≤ 2 * i ∧ 2 * i < 2 * (0 + 0xe) := by omega
    have e2 : 2 * 0 ≤ 2 * i + 1 ∧ 2 * i + 1 < 2 * (0 + 0xe) := by omega
    have e3 : 2 * i % 2 = 0 := by omega
    have e4 : 2 * i / 2 = i := by omega
    have e5 : ¬ ((2 * i + 1) % 2 = 0) := by omega
    have e6 : (2 * i + 1) / 2 = i := by omega
    rw [hk, hk, if_pos e1, if_pos e2, if_pos e3, if_neg e5, e4, e6]
    exact ⟨rfl, rfl⟩
  · dsimp only
    apply List.ext_getElem?
    intro k
    have e1 : ¬ (2 * 0 ≤ 28 + k ∧ 28 + k < 2 * (0 + 0xe)) := by omega
    rw [List.getElem?_drop, List.getElem?_drop, hk, if_neg e1]

theorem wrhead_of_payload (p0 : ulz) (payload : List Byte) (hr : refUnpack p0 = .ok payload)
    (hoh : p0.ohead.length = 0x10)
    (hout : 0x1c ≤ max p0.out.length ((hd p0.ohead 4 <<< 4) + payload.length)) :
    ∃ p q, unpack p0 = .ok p ∧ wrhead p = .ok q ∧
      hd p.ohead 4 = hd p0.ohead 4 ∧ hd q.ohead 4 = hd p.ohead 4 ∧
      hd q.ohead 1 = (payload.length + 16 * hd p.ohead 4) % 512 ∧
      hd q.ohead 2 = (((payload.length + 16 * hd p.ohead 4 + 0x1ff) % 2 ^ 32) / 512) % 65536 ∧
      (∀ i, i < 14 → q.out[2 * i]? = some (u8 (hd q.ohead i)) ∧
        q.out[2 * i + 1]? = some (u8 (hd q.ohead i >>> 8))) ∧
      q.out.drop 28 = p.out.drop 28 := by
  rcases unpack_ref p0 with ⟨payload2, h1, h2⟩ | ⟨h1, _⟩
  swap
  · rw [hr] at h1
    exact absurd h1 (by simp)
  rw [hr] at h1
  injection h1 with h1
  subst h1
  obtain ⟨q, hq, h4, hw1, hw2, _, hb, hd28⟩ := wrhead_spec
    { p0 with out := place p0.out (hd p0.ohead 4 <<< 4) payload,
              loadsize := payload.length % 2 ^ 32 } hoh (by
      dsimp only
      rw [place_length]
      exact hout)
  refine ⟨_, q, h2, hq, rfl, h4, ?_, ?_, hb, hd28⟩
  · rw [hw1]
    dsimp only
    omega
  · rw [hw2]
    dsimp only
    omega

set_option maxRecDepth 1000000 in
/-- C15 (amended): when the compressed stream decodes to a payload of `L` bytes
(so that `unpack` succeeds, C6) and the output before `unpack` holds at least
the 28 header bytes, `wrhead` succeeds and, with `S = 16 * (output header word
4)`, sets output header word 1 to `(L + S) & 0x1ff` and word 2 to
`((L + S + 0x1ff) mod 2^32) >> 9` reduced modulo `2^16`, which is
`(L + S + 0x1ff) >> 9` whenever `L + S + 0x1ff < 2^25`; it writes header words
0..13 little-endian into output bytes 0..27 and leaves every output byte from
offset 28 on unchanged. -/
theorem wrhead_after_unpack (p0 : ulz) (payload : List Byte)
    (hr : refUnpack p0 = .ok payload) (hoh : p0.ohead.length = 0x10)
    (hout : 0x1c ≤ p0.out.length) :
    ∃ p q, unpack p0 = .ok p ∧ wrhead p = .ok q ∧ hd q.ohead 4 = hd p.ohead 4 ∧
      hd q.ohead 1 = (payload.length + 16 * hd p.ohead 4) &&& 0x1ff ∧
      hd q.ohead 2 =
        (((payload.length + 16 * hd p.ohead 4 + 0x1ff) % 2 ^ 32) >>> 9) % 65536 ∧
      (payload.length + 16 * hd p.ohead 4 + 0x1ff < 2 ^ 25 →
        hd q.ohead 2 = (payload.length + 16 * hd p.ohead 4 + 0x1ff) >>> 9) ∧
      (∀ i, i < 14 → q.out[2 * i]? = some (u8 (hd q.ohead i)) ∧
        q.out[2 * i + 1]? = some (u8 (hd q.ohead i >>> 8))) ∧
      q.out.drop 28 = p.out.drop 28 := by
  obtain ⟨p, q, hu, hq, _, h4, hw1, hw2, hb, hd28⟩ :=
    wrhead_of_payload p0 payload hr hoh (by omega)
  refine ⟨p, q, hu, hq, h4, ?_, ?_, ?_, hb, hd28⟩
  · rw [hw1, Nat.and_pow_two_sub_one_eq_mod _ 9]
  · rw [hw2, Nat.shiftRight_eq_div_pow]
  · intro hlt
    rw [hw2, Nat.shiftRight_eq_div_pow]
    omega

set_option maxRecDepth 1000000 in
theorem wrhead_after_unpack_witness :
    ∃ p q, unpack image91Padded = .ok p ∧ wrhead p = .ok q ∧ hd q.ohead 4 = hd p.ohead 4 ∧
      hd q.ohead 1 = (5 + 16 * hd p.ohead 4) &&& 0x1ff ∧
      hd q.ohead 2 = (((5 + 16 * hd p.ohead 4 + 0x1ff) % 2 ^ 32) >>> 9) % 65536 ∧
      (5 + 16 * hd p.ohead 4 + 0x1ff < 2 ^ 25 →
        hd q.ohead 2 = (5 + 16 * hd p.ohead 4 + 0x1ff) >>> 9) ∧
      (∀ i, i < 14 → q.out[2 * i]? = some (u8 (hd q.ohead i)) ∧
        q.out[2 * i + 1]? = some (u8 (hd q.ohead i >>> 8))) ∧
      q.out.drop 28 = p.out.drop 28 :=
  wrhead_after_unpack image91Padded [65, 66, 67, 65, 66] (by decide) (by decide) (by decide)

theorem wrhead_literals (s : List Byte) (hs : 28 ≤ s.length) :
    ∃ p q, unpack { ulz.zero with inp := ⟨encodeLiterals s, []⟩ } = .ok p ∧
      refUnpack { ulz.zero with inp := ⟨encodeLiterals s, []⟩ } = .ok s ∧
      wrhead p = .ok q ∧ hd p.ohead 4 = 0 ∧
      hd q.ohead 2 = (((s.length + 0x1ff) % 2 ^ 32) / 512) % 65536 := by
  have hin : ({ ulz.zero with inp := ⟨encodeLiterals s, []⟩ } : ulz).inp.elems =
      [] ++ encodeLiterals s ++ [] := by
    show encodeLiterals s = [] ++ encodeLiterals s ++ []
    rw [List.nil_append, List.append_nil]
  have href := refUnpack_literals _ s [] [] hin rfl
  obtain ⟨p, q, hu, hq, h4, _, _, hw2, _, _⟩ :=
    wrhead_of_payload _ s href rfl (by
      have : 0x1c ≤ s.length := hs
      omega)
  have h40 : hd p.ohead 4 = 0 := by
    rw [h4]
    rfl
  refine ⟨p, q, hu, href, hq, h40, ?_⟩
  rw [hw2, h40]

/-- C15 (counterexample): for a payload of `2^25` zero bytes, encoded with literal
steps and unpacked with payload start `S = 0`, `wrhead` sets output header word
2 to 0, whereas `(L + S + 0x1ff) >> 9` is 65536: the word is a `uint16`. -/
theorem wrhead_pages_counterexample :
    (List.replicate (2 ^ 25) (0 : Byte)).length = 33554432 ∧
    (33554432 + 16 * 0 + 0x1ff) >>> 9 = 65536 ∧
    ∃ p q, unpack { ulz.zero with inp := ⟨encodeLiterals (List.replicate (2 ^ 25) 0), []⟩ } =
        .ok p ∧
      refUnpack { ulz.zero with inp := ⟨encodeLiterals (List.replicate (2 ^ 25) 0), []⟩ } =
        .ok (List.replicate (2 ^ 25) 0) ∧
      wrhead p = .ok q ∧ hd p.ohead 4 = 0 ∧ hd q.ohead 2 = 0 := by
  obtain ⟨p, q, h1, h2, h3, h4, h5⟩ := wrhead_literals (List.replicate (2 ^ 25) 0)
    (by rw [List.length_replicate]; decide)
  rw [List.length_replicate] at h5
  exact ⟨List.length_replicate _ _, by decide, p, q, h1, h2, h3, h4, h5⟩

/-! ## The palette and the tile index table of `dumptiles` -/

theorem palLoop_spec : ∀ (n : Nat) (r : List Byte),
    (palLoop n r).length = n ∧
    ∀ k, k < n → (palLoop n r)[k]? = some (u8 ((r.getD k 0).val <<< 2))
  | 0, _ => ⟨rfl, fun k hk => by omega⟩
  | n + 1, r => by
    obtain ⟨hl, hk⟩ := palLoop_spec n (readByteOr r 0).2
    refine ⟨by simp [palLoop, hl], ?_⟩
    intro k hlt
    cases k with
    | zero =>
      rw [palLoop, List.getElem?_cons_zero]
      cases r with
      | nil => rfl
      | cons x r => rfl
    | succ k =>
      rw [palLoop, List.getElem?_cons_succ, hk k (by omega)]
      cases r with
      | nil => rfl
      | cons x r => rfl

theorem sectionReader_getD (data : List Byte) (off k : Nat) (hk : k < 0x7fffffff) :
    (sectionReader data off).getD k 0 = data.getD (off + k) 0 := by
  unfold sectionReader
  simp only [List.getD_eq_getElem?_getD, List.getElem?_take, List.getElem?_drop]
  rw [if_pos hk]

/-- C19: the palette that `dumptiles` builds has 256 x 3 channels, and channel `k`,
built from the source byte `v` at offset `paloff + k` of the image (0 when the
image ends before it), holds `(4 * v) mod 256`; hence it is a multiple of 4 and
equals `4 * v` whenever `v <= 63`. -/
theorem palette_channel (data : List Byte) (k : Nat) (hk : k < 256 * 3) :
    (palette data).length = 256 * 3 ∧
    ((palette data).getD k 0).val = (4 * (data.getD (paloff + k) 0).val) % 256 ∧
    4 ∣ ((palette data).getD k 0).val ∧
    ((data.getD (paloff + k) 0).val ≤ 63 →
      ((palette data).getD k 0).val = 4 * (data.getD (paloff + k) 0).val) := by
  obtain ⟨hl, hget⟩ := palLoop_spec 768 (sectionReader data paloff)
  have hv : ((palette data).getD k 0).val = (4 * (data.getD (paloff + k) 0).val) % 256 := by
    unfold palette
    rw [List.getD_eq_getElem?_getD, hget k hk, sectionReader_getD _ _ _ (by omega)]
    show ((data.getD (paloff + k) 0).val <<< 2) % 256 = _
    rw [Nat.shiftLeft_eq]
    omega
  refine ⟨hl, hv, ?_, ?_⟩
  · rw [hv]
    omega
  · intro h63
    rw [hv]
    omega

theorem palette_channel_witness :
    (palette (paletteSample)).length = 256 * 3 ∧
    ((palette (paletteSample)).getD 2 0).val =
      (4 * ((paletteSample).getD (paloff + 2) 0).val) % 256 ∧
    4 ∣ ((palette (paletteSample)).getD 2 0).val ∧
    (((paletteSample).getD (paloff + 2) 0).val ≤ 63 →
      ((palette (paletteSample)).getD 2 0).val =
        4 * ((paletteSample).getD (paloff + 2) 0).val) :=
  palette_channel (paletteSample) 2 (by decide)

theorem le32At_of_le (out : List Byte) (pos : Nat) (h : pos + 4 ≤ out.length) :
    le32At out pos = some (word32At out pos) := by
  unfold le32At word32At
  rw [getElem?_eq_some_getD _ _ (by omega), getElem?_eq_some_getD _ _ (by omega),
    getElem?_eq_some_getD _ _ (by omega), getElem?_eq_some_getD _ _ (by omega)]

theorem tileLoop_spec (out : List Byte) :
    ∀ (n i : Nat), (∀ j, i ≤ j → j < i + n → (j * 4 + 4) % 2 ^ 32 + 4 ≤ out.length) →
      ∃ ti, tileLoop out n i = some ti ∧ ti.length = n ∧
        ∀ j, j < n → ti[j]? = some (word32At out (((i + j) * 4 + 4) % 2 ^ 32))
  | 0, i, _ => ⟨[], rfl, rfl, fun j hj => by omega⟩
  | n + 1, i, h => by
    obtain ⟨ti, h1, h2, h3⟩ := tileLoop_spec out n (i + 1)
      (fun j hj1 hj2 => h j (by omega) (by omega))
    have h0 := le32At_of_le out ((i * 4 + 4) % 2 ^ 32) (h i (by omega) (by omega))
    unfold tileLoop
    rw [h0, h1]
    refine ⟨_, rfl, by simp [h2], ?_⟩
    intro j hj
    cases j with
    | zero =>
      rw [List.getElem?_cons_zero]
      rfl
    | succ j =>
      have e : i + 1 + j = i + (j + 1) := by omega
      rw [List.getElem?_cons_succ, h3 j (by omega), e]

theorem tileIndex_ok (out : List Byte) (flen : Nat) (h4 : 4 ≤ out.length)
    (hn : word32At out 0 * 4 + 4 ≤ out.length)
    (hin : ∀ j, j < word32At out 0 → (j * 4 + 4) % 2 ^ 32 + 4 ≤ out.length) :
    ∃ ti, tileIndex out flen = .ok ti ∧ ti.length = word32At out 0 + 1 ∧
      (∀ i, i < word32At out 0 → ti[i]? = some (word32At out ((i * 4 + 4) % 2 ^ 32))) ∧
      ti[word32At out 0]? = some flen := by
  obtain ⟨ti, h1, h2, h3⟩ := tileLoop_spec out (word32At out 0) 0
    (fun j _ hj => hin j (by omega))
  unfold tileIndex
  rw [if_neg (by omega), le32At_of_le out 0 (by omega)]
  dsimp only
  rw [if_neg (by omega), h1]
  refine ⟨_, rfl, by simp [h2], ?_, ?_⟩
  · intro i hi
    rw [List.getElem?_append_left (by omega), h3 i hi, Nat.zero_add]
  · rw [List.getElem?_append_right (by omega), h2, Nat.sub_self]
    rfl

/-- C20 (amended): for every decompressed graphics stream shorter than `2^32 + 4`
bytes, with tile count `n` (the little-endian 32-bit word at byte 0): if the
stream is shorter than `4 + 4n` bytes `dumptiles` returns an error; otherwise
the tile index table has exactly `n + 1` entries, entry `i` (`i < n`) being the
little-endian 32-bit word at byte `4 + 4i` and entry `n` being the declared
total stream length. -/
theorem tileIndex_spec (out : List Byte) (flen : Nat) (hlen : out.length < 2 ^ 32 + 4) :
    (out.length < 4 + 4 * word32At out 0 → ∃ e, tileIndex out flen = .error e) ∧
    (4 + 4 * word32At out 0 ≤ out.length →
      ∃ ti, tileIndex out flen = .ok ti ∧ ti.length = word32At out 0 + 1 ∧
        (∀ i, i < word32At out 0 → ti[i]? = some (word32At out (4 + 4 * i))) ∧
        ti[word32At out 0]? = some flen) := by
  constructor
  · intro hs
    unfold tileIndex
    by_cases h4 : out.length < 4
    · rw [if_pos h4]
      exact ⟨_, rfl⟩
    · rw [if_neg h4, le32At_of_le out 0 (by omega)]
      dsimp only
      rw [if_pos (by omega)]
      exact ⟨_, rfl⟩
  · intro hs
    obtain ⟨ti, h1, h2, h3, h4⟩ := tileIndex_ok out flen (by omega) (by omega)
      (fun j hj => by omega)
    refine ⟨ti, h1, h2, ?_, h4⟩
    intro i hi
    have e : (i * 4 + 4) % 2 ^ 32 = 4 + 4 * i := by omega
    rw [h3 i hi, e]

theorem tileIndex_spec_witness :
    (tileSample.length < 4 + 4 * word32At tileSample 0 →
      ∃ e, tileIndex tileSample 14 = .error e) ∧
    (4 + 4 * word32At tileSample 0 ≤ tileSample.length →
      ∃ ti, tileIndex tileSample 14 = .ok ti ∧ ti.length = word32At tileSample 0 + 1 ∧
        (∀ i, i < word32At tileSample 0 → ti[i]? = some (word32At tileSample (4 + 4 * i))) ∧
        ti[word32At tileSample 0]? = some 14) :=
  tileIndex_spec tileSample 14 (by decide)

theorem getD_append_zeros (pre : List Byte) (n k : Nat) (h : pre.length ≤ k) :
    (pre ++ List.replicate n 0).getD k 0 = 0 := by
  rw [List.getD_eq_getElem?_getD, List.getElem?_append_right h, List.getElem?_replicate]
  split <;> rfl

theorem word32At_zeros (pre : List Byte) (n pos : Nat) (h : pre.length ≤ pos) :
    word32At (pre ++ List.replicate n 0) pos = 0 := by
  unfold word32At
  rw [getD_append_zeros _ _ _ h, getD_append_zeros _ _ _ (by omega),
    getD_append_zeros _ _ _ (by omega), getD_append_zeros _ _ _ (by omega)]
  rfl

theorem word32At_head (b0 b1 b2 b3 : Byte) (rest : List Byte) :
    word32At ([b0, b1, b2, b3] ++ rest) 0 = word32 b0 b1 b2 b3 := rfl

theorem word32_pow30 : word32 0 0 0 0x40 = 2 ^ 30 := by
  have h : word32 0 0 0 0x40 = 1073741824 := by decide
  rw [h]
  decide

theorem tileIndex_wrap (rest : List Byte) (flen : Nat) (hr : rest.length = 2 ^ 32) :
    ∃ ti, tileIndex ([0, 0, 0, 0x40] ++ rest) flen = .ok ti ∧
      ti.length = 2 ^ 30 + 1 ∧ ti[2 ^ 30 - 1]? = some (2 ^ 30) := by
  have hw : word32At ([0, 0, 0, 0x40] ++ rest) 0 = 2 ^ 30 := by
    rw [word32At_head, word32_pow30]
  have h4 : ([0, 0, 0, 0x40] : List Byte).length = 4 := rfl
  have hl : ([0, 0, 0, 0x40] ++ rest).length = 2 ^ 32 + 4 := by
    rw [List.length_append, hr, h4]
    decide
  obtain ⟨ti, h1, h2, h3, _⟩ := tileIndex_ok ([0, 0, 0, 0x40] ++ rest) flen
    (by rw [hl]; omega) (by rw [hl, hw]; omega) (fun j _ => by rw [hl]; omega)
  rw [hw] at h2 h3
  refine ⟨ti, h1, h2, ?_⟩
  have e : ((2 ^ 30 - 1) * 4 + 4) % 2 ^ 32 = 0 := by decide
  rw [h3 (2 ^ 30 - 1) (by decide), e, hw]

/-- C20 (counterexample): the stream of `2^32 + 4` bytes that declares `n = 2^30`
tiles and is zero elsewhere is not shorter than `4 + 4n`, and `dumptiles` builds
a table of `n + 1` entries; but entry `n - 1` is `2^30`, the word at byte 0,
and not the word at byte `4 + 4(n - 1) = 2^32`, which is 0: the byte offset
`i*4+4` is computed in `uint32` and wraps. -/
theorem tileIndex_counterexample :
    hugeTileStream.length = 4 + 4 * 2 ^ 30 ∧ word32At hugeTileStream 0 = 2 ^ 30 ∧
    word32At hugeTileStream (4 + 4 * (2 ^ 30 - 1)) = 0 ∧
    ∃ ti, tileIndex hugeTileStream 0 = .ok ti ∧ ti.length = 2 ^ 30 + 1 ∧
      ti[2 ^ 30 - 1]? = some (2 ^ 30) := by
  refine ⟨?_, ?_, ?_, ?_⟩
  · have h4 : ([0, 0, 0, 0x40] : List Byte).length = 4 := rfl
    unfold hugeTileStream
    rw [List.length_append, List.length_replicate, h4]
    decide
  · unfold hugeTileStream
    rw [word32At_head, word32_pow30]
  · unfold hugeTileStream
    exact word32At_zeros _ _ _ (by decide)
  · unfold hugeTileStream
    exact tileIndex_wrap _ 0 (List.length_replicate _ _)

/-! ## The RLE decoder of `dumptiles` -/

set_option maxRecDepth 100000 in
theorem high_bit : ∀ b : Byte, (b.val &&& 0x80 ≠ 0) ↔ 128 ≤ b.val := by decide

theorem low_bits (b : Byte) (h : 128 ≤ b.val) : b.val &&& 0x7f = b.val - 128 := by
  have h1 := Nat.and_pow_two_sub_one_eq_mod b.val 7
  have h2 : b.val < 256 := b.isLt
  have h3 : b.val &&& 0x7f = b.val % 128 := h1
  omega

theorem rleLiteral_full : ∀ (n : Nat) (nb : Byte) (s : Rle), n ≤ s.r.length → s.clen < 2 ^ 32 →
    rleLiteral n nb s =
      { r := s.r.drop n, out := s.out ++ s.r.take n, clen := (s.clen + n) % 2 ^ 32 }
  | 0, _, s, _, hc => by
    cases s
    simp only [rleLiteral, List.drop_zero, List.take_zero, List.append_nil, Nat.add_zero]
    rw [Nat.mod_eq_of_lt hc]
  | n + 1, nb, s, hn, hc => by
    obtain ⟨r, out, clen⟩ := s
    cases r with
    | nil => simp at hn
    | cons x r =>
      have ih := rleLiteral_full n x { r := r, out := out ++ [x], clen := (clen + 1) % 2 ^ 32 }
        (by simpa using hn) (Nat.mod_lt _ (by decide))
      simp only [rleLiteral, readByteOr]
      rw [ih]
      simp only [List.drop_succ_cons, List.take_succ_cons, List.append_assoc,
        List.singleton_append]
      congr 1
      omega

theorem rleRepeat_spec : ∀ (n : Nat) (nb : Byte) (s : Rle), s.clen < 2 ^ 32 →
    rleRepeat n nb s =
      { r := s.r, out := s.out ++ List.replicate n nb, clen := (s.clen + n) % 2 ^ 32 }
  | 0, _, s, hc => by
    cases s
    simp only [rleRepeat, List.replicate_zero, List.append_nil, Nat.add_zero]
    rw [Nat.mod_eq_of_lt hc]
  | n + 1, nb, s, hc => by
    obtain ⟨r, out, clen⟩ := s
    have ih := rleRepeat_spec n nb { r := r, out := out ++ [nb], clen := (clen + 1) % 2 ^ 32 }
      (Nat.mod_lt _ (by decide))
    simp only [rleRepeat]
    rw [ih]
    simp only [List.replicate_succ, List.append_assoc, List.singleton_append]
    congr 1
    omega

theorem rleStep_specRun (s : Rle) (bs r2 : List Byte) (h : specRun s.r = some (bs, r2))
    (hc : s.clen < 2 ^ 32) :
    rleStep s = { r := r2, out := s.out ++ bs, clen := (s.clen + bs.length) % 2 ^ 32 } ∧
    1 ≤ bs.length ∧ bs.length ≤ 130 ∧ r2.length < s.r.length := by
  obtain ⟨r, out, clen⟩ := s
  cases r with
  | nil => exact absurd h (by simp [specRun])
  | cons b rest =>
    have hb : b.val < 256 := b.isLt
    simp only [specRun] at h
    by_cases hbit : b.val &&& 0x80 ≠ 0
    · have h128 := (high_bit b).mp hbit
      have hlow := low_bits b h128
      rw [if_pos hbit] at h
      by_cases hn : (b.val &&& 0x7f) + 1 ≤ rest.length
      · rw [if_pos hn] at h
        injection h with h
        injection h with h1 h2
        subst h1 h2
        have hl : (rest.take ((b.val &&& 0x7f) + 1)).length = (b.val &&& 0x7f) + 1 := by
          rw [List.length_take]
          omega
        refine ⟨?_, by omega, by omega, by simp; omega⟩
        simp only [rleStep, readByteOr]
        rw [if_pos hbit, rleLiteral_full _ _ { r := rest, out := out, clen := clen } hn hc, hl]
      · rw [if_neg hn] at h
        exact absurd h (by simp)
    · have h128 : ¬ 128 ≤ b.val := fun hh => hbit ((high_bit b).mpr hh)
      rw [if_neg hbit] at h
      cases rest with
      | nil => exact absurd h (by simp)
      | cons v rest =>
        injection h with h
        injection h with h1 h2
        subst h1 h2
        refine ⟨?_, by simp, by simp; omega, by simp only [List.length_cons]; omega⟩
        simp only [rleStep, readByteOr]
        rw [if_neg hbit, rleRepeat_spec _ _ { r := rest, out := out, clen := clen } hc,
          List.length_replicate]

theorem specDecode_length (flen : Nat) : ∀ (fuel : Nat) (r acc out : List Byte),
    specDecode flen fuel r acc = some out → acc.length ≤ out.length ∧ flen ≤ out.length
  | 0, _, _, _, h => absurd h (by simp [specDecode])
  | fuel + 1, r, acc, out, h => by
    rw [specDecode] at h
    by_cases hf : flen ≤ acc.length
    · rw [if_pos hf] at h
      injection h with h
      subst h
      exact ⟨Nat.le_refl _, hf⟩
    · rw [if_neg hf] at h
      cases hr : specRun r with
      | none => rw [hr] at h; exact absurd h (by simp)
      | some x =>
        rw [hr] at h
        obtain ⟨h1, h2⟩ := specDecode_length flen fuel _ _ _ h
        rw [List.length_append] at h1
        exact ⟨by omega, h2⟩

theorem rleLoop_spec (flen : Nat) : ∀ (fuel : Nat) (r acc out : List Byte),
    specDecode flen fuel r acc = some out → out.length < 2 ^ 32 →
    ∀ fuel2, r.length < fuel2 →
      ∃ t, rleLoop flen fuel2 { r := r, out := acc, clen := acc.length } = .ok t ∧ t.out = out
  | 0, _, _, _, h, _, _, _ => absurd h (by simp [specDecode])
  | fuel + 1, r, acc, out, h, hlen, fuel2, hf2 => by
    have hacc := (specDecode_length flen _ _ _ _ h).1
    rw [specDecode] at h
    cases fuel2 with
    | zero => omega
    | succ f =>
      rw [rleLoop]
      by_cases hf : flen ≤ acc.length
      · rw [if_pos hf] at h
        injection h with h
        rw [if_neg (by dsimp only; omega)]
        exact ⟨_, rfl, h⟩
      · rw [if_neg hf] at h
        rw [if_pos (by dsimp only; omega)]
        cases hr : specRun r with
        | none => rw [hr] at h; exact absurd h (by simp)
        | some x =>
          obtain ⟨bs, r2⟩ := x
          rw [hr] at h
          dsimp only at h
          obtain ⟨hstep, _, _, hr2⟩ := rleStep_specRun { r := r, out := acc, clen := acc.length }
            bs r2 hr (by dsimp only; omega)
          have hacc2 := (specDecode_length flen _ _ _ _ h).1
          rw [List.length_append] at hacc2
          dsimp only at hstep hr2
          rw [hstep, Nat.mod_eq_of_lt (by omega), ← List.length_append]
          exact rleLoop_spec flen fuel r2 (acc ++ bs) out h hlen f (by omega)

/-- C17 (amended): in the graphics RLE decoder of `dumptiles`, after the 32-bit
little-endian length prefix, each control byte `b` with its high bit set
appends the next `(b & 0x7f) + 1` input bytes verbatim, each control byte `b`
with its high bit clear appends the single following input byte `b + 3` times,
and decoding stops after the first run at which the number of bytes produced
is at least the declared length, provided that no run is cut off by the end of
the blob before that and that the number of bytes produced stays below `2^32`.
The decoder described in these words is `specDecode`, which yields nothing
when the blob ends inside a run (or before a run that is still needed):
whenever it yields `out` from the bytes that follow the prefix, and `out` is
shorter than `2^32` bytes, `dumptiles` decodes exactly `out` and takes the
prefix as the declared length. -/
theorem rleDecode_spec (data r out : List Byte) (b0 b1 b2 b3 : Byte) (fuel : Nat)
    (hd : sectionReader data vgaoff = b0 :: b1 :: b2 :: b3 :: r)
    (hs : specDecode (word32 b0 b1 b2 b3) fuel r [] = some out)
    (hlen : out.length < 2 ^ 32) :
    rleDecode data = .ok (out, word32 b0 b1 b2 b3) := by
  obtain ⟨t, ht, hout⟩ := rleLoop_spec _ fuel r [] out hs hlen (r.length + 2 ^ 32 + 1) (by omega)
  unfold rleDecode
  rw [hd]
  simp only [readLen]
  have e : ({ r := r, out := [], clen := 0 } : Rle) =
      { r := r, out := [], clen := ([] : List Byte).length } := rfl
  rw [e, ht]
  dsimp only
  rw [hout]

theorem sectionReader_append (pre rest : List Byte) (off : Nat) (h1 : pre.length = off) :
    sectionReader (pre ++ rest) off = rest.take 0x7fffffff := by
  unfold sectionReader
  rw [List.drop_left' h1]

theorem sectionReader_rleSample :
    sectionReader rleSample vgaoff = [7, 0, 0, 0, 0x82, 1, 2, 3, 0x01, 9] := by
  unfold rleSample
  rw [sectionReader_append _ _ _ (List.length_replicate _ _)]
  rfl

theorem rleDecode_spec_witness :
    rleDecode rleSample = .ok ([1, 2, 3, 9, 9, 9, 9], 7) :=
  rleDecode_spec rleSample [0x82, 1, 2, 3, 0x01, 9] [1, 2, 3, 9, 9, 9, 9] 7 0 0 0 3
    sectionReader_rleSample (by decide) (by decide)

theorem u8_val (n : Nat) (h : n < 256) : (u8 n).val = n := Nat.mod_eq_of_lt h

theorem specRun_encode (run : Run) (rest : List Byte) (hv : run.Valid) :
    specRun (run.encode ++ rest) = some (run.expand, rest) := by
  cases run with
  | lit bs =>
    obtain ⟨h1, h2⟩ := hv
    have hv : (u8 (0x80 + (bs.length - 1))).val = 0x80 + (bs.length - 1) := u8_val _ (by omega)
    have hbit := (high_bit (u8 (0x80 + (bs.length - 1)))).mpr (by rw [hv]; omega)
    have hlow := low_bits (u8 (0x80 + (bs.length - 1))) (by rw [hv]; omega)
    have hn : ((u8 (0x80 + (bs.length - 1))).val &&& 0x7f) + 1 = bs.length := by
      rw [hlow, hv]
      omega
    show specRun (u8 (0x80 + (bs.length - 1)) :: (bs ++ rest)) = some (bs, rest)
    simp only [specRun]
    rw [if_pos hbit, hn, if_pos (by simp), List.take_left, List.drop_left]
  | rep v n =>
    obtain ⟨h1, h2⟩ := hv
    have hv : (u8 (n - 3)).val = n - 3 := u8_val _ (by omega)
    have hbit : ¬ ((u8 (n - 3)).val &&& 0x80 ≠ 0) := fun hh => by
      have := (high_bit _).mp hh
      omega
    show specRun (u8 (n - 3) :: v :: rest) = some (List.replicate n v, rest)
    simp only [specRun]
    rw [if_neg hbit, hv, Nat.sub_add_cancel h1]

theorem encodeRuns_length : ∀ runs : List Run, runs.length ≤ (encodeRuns runs).length
  | [] => Nat.le_refl _
  | run :: runs => by
    have ih := encodeRuns_length runs
    have h1 : 1 ≤ run.encode.length := by cases run <;> simp [Run.encode]
    rw [encodeRuns, List.length_append, List.length_cons]
    omega

theorem rleLoop_runs (flen : Nat) (rest : List Byte) (hf : flen < 2 ^ 32) :
    ∀ (runs : List Run) (s : Rle) (fuel : Nat), (∀ run ∈ runs, run.Valid) →
      s.r = encodeRuns runs ++ rest → s.clen = s.out.length →
      s.out.length + (expandRuns runs).length = flen → runs.length < fuel →
      rleLoop flen fuel s = .ok { r := rest, out := s.out ++ expandRuns runs, clen := flen }
  | _, _, 0, _, _, _, _, hfu => by omega
  | [], s, fuel + 1, _, hr, hc, hl, _ => by
    obtain ⟨r, out, clen⟩ := s
    simp only [encodeRuns, List.nil_append, expandRuns, List.length_nil, Nat.add_zero] at hr hc hl
    subst hr hc
    rw [rleLoop, if_neg (by dsimp only; omega)]
    simp [expandRuns, hl]
  | run :: runs, s, fuel + 1, hv, hr, hc, hl, hfu => by
    have hvr : run.Valid := hv run (List.mem_cons_self _ _)
    have hpos : 1 ≤ run.expand.length := by
      cases run with
      | lit bs => exact hvr.1
      | rep v n =>
        show 1 ≤ (List.replicate n v).length
        rw [List.length_replicate]
        exact Nat.le_trans (by decide) hvr.1
    rw [expandRuns, List.length_append] at hl
    rw [encodeRuns, List.append_assoc] at hr
    have hsr : specRun s.r = some (run.expand, encodeRuns runs ++ rest) := by
      rw [hr]
      exact specRun_encode run _ hvr
    obtain ⟨hstep, _, _, _⟩ := rleStep_specRun s _ _ hsr (by omega)
    rw [rleLoop, if_pos (by omega), hstep]
    rw [rleLoop_runs flen rest hf runs _ fuel (fun x hx => hv x (List.mem_cons_of_mem _ hx)) rfl
      (by dsimp only; rw [List.length_append, Nat.mod_eq_of_lt (by omega)]; omega)
      (by dsimp only; rw [List.length_append]; omega) (by simp at hfu; omega)]
    simp [expandRuns]

theorem word32_le32 (n : Nat) (h : n < 2 ^ 32) :
    word32 (u8 n) (u8 (n >>> 8)) (u8 (n >>> 16)) (u8 (n >>> 24)) = n := by
  unfold word32 u8
  dsimp only
  rw [Nat.shiftRight_eq_div_pow, Nat.shiftRight_eq_div_pow, Nat.shiftRight_eq_div_pow]
  omega

/-- C18 (amended): RLE round trip. For every sequence of literal runs (1 to 128
bytes each) and repeat runs (3 to 130 copies of one byte each) whose expansions
concatenate to a byte sequence `s` shorter than `2^32` bytes, if the encoding,
prefixed with `len(s)` as a 32-bit little-endian word, is at most `2^31 - 1`
bytes long and stands at offset `vgaoff` of the image, the RLE decoder of
`dumptiles` returns exactly `s` (and `len(s)` as the declared length). -/
theorem rle_roundtrip (data pre post : List Byte) (runs : List Run)
    (hv : ∀ run ∈ runs, run.Valid)
    (hd : data = pre ++ (le32 (expandRuns runs).length ++ encodeRuns runs ++ post))
    (hpre : pre.length = vgaoff) (hlen : (expandRuns runs).length < 2 ^ 32)
    (henc : 4 + (encodeRuns runs).length ≤ 0x7fffffff) :
    rleDecode data = .ok (expandRuns runs, (expandRuns runs).length) := by
  have hr : ∃ rest2, sectionReader data vgaoff =
      le32 (expandRuns runs).length ++ (encodeRuns runs ++ rest2) := by
    rw [hd, sectionReader_append _ _ _ hpre, List.take_append_eq_append_take,
      List.take_of_length_le (by simp [le32]; omega), List.append_assoc]
    exact ⟨_, rfl⟩
  obtain ⟨rest2, hr⟩ := hr
  have hloop := rleLoop_runs (expandRuns runs).length rest2 hlen runs
    { r := encodeRuns runs ++ rest2, out := [], clen := 0 }
    ((encodeRuns runs ++ rest2).length + 2 ^ 32 + 1) hv rfl rfl (by simp) (by
      have := encodeRuns_length runs
      rw [List.length_append]
      omega)
  unfold rleDecode
  rw [hr]
  simp only [le32, List.cons_append, List.nil_append, readLen]
  rw [word32_le32 _ hlen, hloop]
  simp

theorem rle_roundtrip_witness :
    rleDecode rleSample = .ok (expandRuns [.lit [1, 2, 3], .rep 9 4],
      (expandRuns [.lit [1, 2, 3], .rep 9 4]).length) :=
  rle_roundtrip rleSample (List.replicate vgaoff 0) [] [.lit [1, 2, 3], .rep 9 4]
    (by simp [Run.Valid]) rfl (List.length_replicate _ _) (by decide) (by decide)

/-! ### Runs that overflow the 32-bit counter or the section reader -/

theorem rleLiteral_length : ∀ (n : Nat) (nb : Byte) (s : Rle),
    (rleLiteral n nb s).out.length = s.out.length + n
  | 0, _, _ => rfl
  | n + 1, nb, s => by
    rw [rleLiteral, rleLiteral_length n]
    simp only [List.length_append, List.length_singleton]
    omega

theorem rleRepeat_length : ∀ (n : Nat) (nb : Byte) (s : Rle),
    (rleRepeat n nb s).out.length = s.out.length + n
  | 0, _, _ => rfl
  | n + 1, nb, s => by
    rw [rleRepeat, rleRepeat_length n]
    simp only [List.length_append, List.length_singleton]
    omega

theorem rleStep_grows (s : Rle) : s.out.length < (rleStep s).out.length := by
  unfold rleStep
  dsimp only
  split
  · rw [rleLiteral_length]
    dsimp only
    omega
  · rw [rleRepeat_length]
    dsimp only
    omega

theorem rleLoop_mono (flen : Nat) : ∀ (fuel : Nat) (s t : Rle),
    rleLoop flen fuel s = .ok t → s.out.length ≤ t.out.length
  | 0, _, _, h => absurd h (by simp [rleLoop])
  | fuel + 1, s, t, h => by
    rw [rleLoop] at h
    split at h
    · have h1 := rleLoop_mono flen fuel _ t h
      have h2 := rleStep_grows s
      omega
    · injection h with h
      rw [h]

theorem rleLoop_continues (flen fuel : Nat) (s t : Rle) (hc : s.clen < flen)
    (h : rleLoop flen fuel s = .ok t) : s.out.length < t.out.length := by
  cases fuel with
  | zero => exact absurd h (by simp [rleLoop])
  | succ f =>
    rw [rleLoop, if_pos hc] at h
    have h1 := rleLoop_mono flen f _ t h
    have h2 := rleStep_grows s
    omega

theorem repRuns_length : ∀ k, (repRuns k).length = 2 * k
  | 0 => rfl
  | k + 1 => by
    rw [repRuns, List.length_cons, List.length_cons, repRuns_length k]
    omega

theorem specRun_repRun (r : List Byte) :
    specRun (0x7f :: 0 :: r) = some (List.replicate 130 0, r) := rfl

theorem specDecode_repRuns (flen : Nat) (rest : List Byte) :
    ∀ (k fuel : Nat) (acc : List Byte), acc.length + 130 * k < flen + 130 →
      specDecode flen (fuel + k) (repRuns k ++ rest) acc =
        specDecode flen fuel rest (acc ++ List.replicate (130 * k) 0)
  | 0, fuel, acc, _ => by
    simp [repRuns]
  | k + 1, fuel, acc, h => by
    have ih := specDecode_repRuns flen rest k fuel (acc ++ List.replicate 130 0)
      (by rw [List.length_append, List.length_replicate]; omega)
    have e : fuel + (k + 1) = fuel + k + 1 := rfl
    have e2 : 130 * (k + 1) = 130 + 130 * k := by omega
    rw [e, specDecode, if_neg (by omega), repRuns, List.cons_append, List.cons_append,
      specRun_repRun]
    dsimp only
    rw [ih, List.append_assoc, ← List.replicate_add, e2]

theorem rleLoop_repRuns (flen : Nat) (rest : List Byte) (t : Rle) :
    ∀ (k fuel : Nat) (s : Rle), s.r = repRuns k ++ rest → s.clen < 2 ^ 32 →
      s.clen + 130 * k < flen + 130 → flen ≤ 2 ^ 32 →
      rleLoop flen fuel s = .ok t →
      ∃ fuel2, rleLoop flen fuel2
        { r := rest, out := s.out ++ List.replicate (130 * k) 0,
          clen := (s.clen + 130 * k) % 2 ^ 32 } = .ok t
  | _, 0, _, _, _, _, _, h => absurd h (by simp [rleLoop])
  | 0, fuel + 1, s, hr, hc, _, _, h => by
    obtain ⟨r, out, clen⟩ := s
    simp only [repRuns, List.nil_append] at hr
    subst hr
    refine ⟨fuel + 1, ?_⟩
    simp only [Nat.mul_zero, List.replicate_zero, List.append_nil, Nat.add_zero]
    rw [Nat.mod_eq_of_lt hc]
    exact h
  | k + 1, fuel + 1, s, hr, hc, hk, hf, h => by
    rw [repRuns, List.cons_append, List.cons_append] at hr
    have hsr : specRun s.r = some (List.replicate 130 0, repRuns k ++ rest) := by
      rw [hr]
      rfl
    obtain ⟨hstep, _, _, _⟩ := rleStep_specRun s _ _ hsr hc
    rw [List.length_replicate] at hstep
    rw [rleLoop, if_pos (by omega), hstep] at h
    obtain ⟨fuel2, h2⟩ := rleLoop_repRuns flen rest t k fuel _ rfl (Nat.mod_lt _ (by decide))
      (by dsimp only; omega) hf h
    refine ⟨fuel2, ?_⟩
    dsimp only at h2
    have e2 : 130 * (k + 1) = 130 + 130 * k := by omega
    have e3 : ((s.clen + 130) % 2 ^ 32 + 130 * k) % 2 ^ 32 =
        (s.clen + (130 + 130 * k)) % 2 ^ 32 := by omega
    rw [List.append_assoc, ← List.replicate_add, e3] at h2
    rw [e2]
    exact h2

theorem specDecode_done (flen fuel : Nat) (r acc : List Byte) (h : flen ≤ acc.length) :
    specDecode flen (fuel + 1) r acc = some acc := by
  rw [specDecode, if_pos h]

theorem readLen_cons (b0 b1 b2 b3 : Byte) (r : List Byte) :
    readLen (b0 :: b1 :: b2 :: b3 :: r) = (word32 b0 b1 b2 b3, r) := rfl

theorem rleDecode_ok (data r : List Byte) (b0 b1 b2 b3 : Byte) (t : List Byte × Nat)
    (hd : sectionReader data vgaoff = b0 :: b1 :: b2 :: b3 :: r)
    (h : rleDecode data = .ok t) :
    ∃ s, rleLoop (word32 b0 b1 b2 b3) (r.length + 2 ^ 32 + 1) { r := r, out := [], clen := 0 } =
        .ok s ∧ t = (s.out, word32 b0 b1 b2 b3) := by
  unfold rleDecode at h
  rw [hd, readLen_cons] at h
  dsimp only at h
  cases hl : rleLoop (word32 b0 b1 b2 b3) (r.length + 2 ^ 32 + 1)
      { r := r, out := [], clen := 0 } with
  | ok s =>
    rw [hl] at h
    injection h with h
    exact ⟨s, rfl, h.symm⟩
  | error e => rw [hl] at h; exact absurd h (by simp)
  | crash => rw [hl] at h; exact absurd h (by simp)
  | hang => rw [hl] at h; exact absurd h (by simp)

theorem sectionReader_hugeRleImage :
    sectionReader hugeRleImage vgaoff = 0xff :: 0xff :: 0xff :: 0xff :: repRuns 33038210 := by
  have h4 : ([0xff, 0xff, 0xff, 0xff] : List Byte).length = 4 := rfl
  unfold hugeRleImage
  rw [sectionReader_append _ _ _ (List.length_replicate _ _),
    List.take_of_length_le (by
      rw [List.length_append, repRuns_length, h4]
      decide)]
  rfl

theorem word32_ones : word32 0xff 0xff 0xff 0xff = 4294967295 := by decide

theorem encodeRuns_lits : ∀ k, encodeRuns (List.replicate k (.lit [1])) = litRuns k
  | 0 => rfl
  | k + 1 => by
    rw [List.replicate_succ, encodeRuns, encodeRuns_lits k, litRuns]
    rfl

theorem expandRuns_lits : ∀ k, expandRuns (List.replicate k (.lit [1])) = List.replicate k 1
  | 0 => rfl
  | k + 1 => by
    rw [List.replicate_succ, expandRuns, expandRuns_lits k, List.replicate_succ]
    rfl

theorem litRuns_take : ∀ k m, (litRuns (k + (m + 1))).take (2 * k + 1) = litRuns k ++ [0x80]
  | 0, m => by
    rw [Nat.zero_add, litRuns]
    rfl
  | k + 1, m => by
    have e1 : k + 1 + (m + 1) = k + (m + 1) + 1 := by omega
    have e2 : 2 * (k + 1) + 1 = 2 * k + 1 + 1 + 1 := by omega
    rw [e1, e2, litRuns, List.take_succ_cons, List.take_succ_cons, litRuns_take k m, litRuns]
    rfl

theorem litRuns_length : ∀ k, (litRuns k).length = 2 * k
  | 0 => rfl
  | k + 1 => by
    rw [litRuns, List.length_cons, List.length_cons, litRuns_length k]
    omega

theorem specRun_litRun (r : List Byte) : specRun (0x80 :: 1 :: r) = some ([1], r) :=
  specRun_encode (.lit [1]) r ⟨by decide, by decide⟩

theorem rleLoop_litRuns (flen : Nat) (rest : List Byte) (hf : flen < 2 ^ 32) :
    ∀ (k fuel : Nat) (s : Rle), s.r = litRuns k ++ rest → s.clen + k ≤ flen →
      rleLoop flen (fuel + k) s =
        rleLoop flen fuel { r := rest, out := s.out ++ List.replicate k 1, clen := s.clen + k }
  | 0, fuel, s, hr, _ => by
    obtain ⟨r, out, clen⟩ := s
    simp only [litRuns, List.nil_append] at hr
    subst hr
    simp
  | k + 1, fuel, s, hr, hk => by
    rw [litRuns, List.cons_append, List.cons_append] at hr
    have hsr : specRun s.r = some ([1], litRuns k ++ rest) := by
      rw [hr]
      exact specRun_litRun _
    obtain ⟨hstep, _, _, _⟩ := rleStep_specRun s _ _ hsr (by omega)
    have e : fuel + (k + 1) = fuel + k + 1 := rfl
    rw [e, rleLoop, if_pos (by omega), hstep,
      rleLoop_litRuns flen rest hf k fuel _ rfl (by
        dsimp only
        rw [List.length_singleton, Nat.mod_eq_of_lt (by omega)]
        omega)]
    dsimp only
    rw [List.length_singleton, Nat.mod_eq_of_lt (by omega), List.append_assoc,
      List.singleton_append, ← List.replicate_succ, Nat.add_assoc, Nat.add_comm 1 k]

theorem rleStep_cut (x : List Byte) (c : Nat) :
    rleStep { r := [0x80], out := x, clen := c } =
      { r := [], out := x ++ [0], clen := (c + 1) % 2 ^ 32 } := by
  have hz : ((0x80 : Byte).val &&& 0x7f) + 1 = 1 := by decide
  unfold rleStep
  dsimp only [readByteOr]
  rw [if_pos (by decide), hz]
  rfl

theorem rleStep_empty (x : List Byte) (c : Nat) :
    rleStep { r := [], out := x, clen := c } =
      { r := [], out := x ++ [0] ++ [0] ++ [0],
        clen := (((c + 1) % 2 ^ 32 + 1) % 2 ^ 32 + 1) % 2 ^ 32 } := by
  have hz : (0 : Byte).val + 3 = 3 := by decide
  unfold rleStep
  dsimp only [readByteOr]
  rw [if_neg (by decide), hz]
  rfl

theorem rleLoop_cut (flen fuel : Nat) (x : List Byte) (c : Nat) (h1 : c + 1 < flen)
    (h2 : flen ≤ c + 4) (h3 : c + 4 < 2 ^ 32) :
    rleLoop flen (fuel + 3) { r := [0x80], out := x, clen := c } =
      .ok { r := [], out := x ++ [0] ++ [0] ++ [0] ++ [0], clen := c + 4 } := by
  have e1 : (c + 1) % 2 ^ 32 = c + 1 := Nat.mod_eq_of_lt (by omega)
  have e2 : (((c + 1 + 1) % 2 ^ 32 + 1) % 2 ^ 32 + 1) % 2 ^ 32 = c + 4 := by omega
  rw [rleLoop, if_pos (by dsimp only; omega), rleStep_cut, e1, rleLoop,
    if_pos (by dsimp only; omega), rleStep_empty, e2, rleLoop, if_neg (by dsimp only; omega)]

theorem le32_pow30 : le32 (2 ^ 30) = [0, 0, 0, 0x40] := by
  have e : (2 : Nat) ^ 30 = 1073741824 := by decide
  rw [e]
  decide

theorem sectionReader_hugeLitImage :
    sectionReader hugeLitImage vgaoff =
      0 :: 0 :: 0 :: 0x40 :: (litRuns 1073741821 ++ [0x80]) := by
  have h4 : ([0, 0, 0, 0x40] : List Byte).length = 4 := rfl
  have e1 : (2 : Nat) ^ 30 = 1073741821 + (2 + 1) := by decide
  have e2 : 2147483647 - 4 = 2 * 1073741821 + 1 := by decide
  unfold hugeLitImage hugeRuns
  rw [sectionReader_append _ _ _ (List.length_replicate _ _), expandRuns_lits, encodeRuns_lits,
    List.length_replicate, le32_pow30, List.append_nil, List.take_append_eq_append_take,
    List.take_of_length_le (by rw [h4]; decide), h4, e2, e1, litRuns_take]
  rfl

theorem rleDecode_of_loop (data r : List Byte) (b0 b1 b2 b3 : Byte) (s : Rle)
    (hd : sectionReader data vgaoff = b0 :: b1 :: b2 :: b3 :: r)
    (hl : rleLoop (word32 b0 b1 b2 b3) (r.length + 2 ^ 32 + 1) { r := r, out := [], clen := 0 } =
      .ok s) :
    rleDecode data = .ok (s.out, word32 b0 b1 b2 b3) := by
  unfold rleDecode
  rw [hd, readLen_cons]
  dsimp only
  rw [hl]

theorem sectionReader_cutRleImage :
    sectionReader cutRleImage vgaoff = [10, 0, 0, 0, 0x83, 1, 2] := by
  unfold cutRleImage
  rw [sectionReader_append _ _ _ (List.length_replicate _ _)]
  rfl

theorem specDecode_cut : ∀ fuel, specDecode 10 fuel [0x83, 1, 2] [] = none
  | 0 => rfl
  | fuel + 1 => by
    rw [specDecode, if_neg (by decide)]
    rfl

theorem rleStep_cutRun :
    rleStep { r := [0x83, 1, 2], out := [], clen := 0 } =
      { r := [], out := [1, 2, 2, 2], clen := 4 } := by decide

theorem rleLoop_cutRun (fuel : Nat) :
    rleLoop 10 (fuel + 1 + 1 + 1 + 1) { r := [0x83, 1, 2], out := [], clen := 0 } =
      .ok { r := [], out := [1, 2, 2, 2, 0, 0, 0, 0, 0, 0], clen := 10 } := by
  rw [rleLoop, if_pos (by decide), rleStep_cutRun, rleLoop, if_pos (by decide), rleStep_empty,
    rleLoop, if_pos (by decide), rleStep_empty, rleLoop, if_neg (by decide)]
  rfl

theorem rleDecode_cutRleImage :
    rleDecode cutRleImage = .ok ([1, 2, 2, 2, 0, 0, 0, 0, 0, 0], 10) := by
  have h3 : ([0x83, 1, 2] : List Byte).length = 3 := rfl
  have hf : 3 + 2 ^ 32 + 1 = 4294967296 + 1 + 1 + 1 + 1 := by decide
  have hl := rleLoop_cutRun 4294967296
  rw [← hf, ← h3] at hl
  exact rleDecode_of_loop cutRleImage [0x83, 1, 2] 10 0 0 0 _ sectionReader_cutRleImage hl

/-- C17 (counterexample): two blobs on which `dumptiles` does not decode as
described. The first declares the length `2^32 - 1` and holds 33038210 repeat
runs of 130 zero bytes: decoding as described stops after the last of these
runs, the first at which the number of bytes produced (`2^32 + 4`) is at least
the declared length; `dumptiles` does not stop there, because its 32-bit
counter `clen` has wrapped to 4: whatever it returns is longer than `2^32 + 4`
bytes. The second declares the length 10 and ends inside its first run,
`83 01 02`, a literal run of four bytes of which two are present: there are no
next four input bytes to append, and `dumptiles`, which ignores the failed
reads, returns `01 02 02 02` followed by six zero bytes. -/
theorem rleDecode_wrap_counterexample :
    sectionReader hugeRleImage vgaoff = 0xff :: 0xff :: 0xff :: 0xff :: repRuns 33038210 ∧
    word32 0xff 0xff 0xff 0xff = 4294967295 ∧
    specDecode 4294967295 (1 + 33038210) (repRuns 33038210) [] =
      some (List.replicate 4294967300 0) ∧
    (∀ t, rleDecode hugeRleImage = .ok t → 4294967300 < t.1.length) ∧
    sectionReader cutRleImage vgaoff = [10, 0, 0, 0, 0x83, 1, 2] ∧
    (∀ fuel, specDecode (word32 10 0 0 0) fuel [0x83, 1, 2] [] = none) ∧
    rleDecode cutRleImage = .ok ([1, 2, 2, 2, 0, 0, 0, 0, 0, 0], 10) := by
  have hk : 130 * 33038210 = 4294967300 := by decide
  refine ⟨sectionReader_hugeRleImage, word32_ones, ?_, ?_, sectionReader_cutRleImage,
    specDecode_cut, rleDecode_cutRleImage⟩
  · have h := specDecode_repRuns 4294967295 [] 33038210 1 []
      (by rw [List.length_nil]; decide)
    rw [List.append_nil, List.nil_append, hk] at h
    rw [h, specDecode_done _ _ _ _ (by rw [List.length_replicate]; decide)]
  · intro t ht
    obtain ⟨s, hs, hts⟩ := rleDecode_ok _ _ _ _ _ _ t sectionReader_hugeRleImage ht
    rw [word32_ones] at hs
    obtain ⟨fuel2, h2⟩ := rleLoop_repRuns 4294967295 [] s 33038210 _
      { r := repRuns 33038210, out := [], clen := 0 } (List.append_nil _).symm
      (by decide) (by decide) (by decide) hs
    have hc : (0 + 130 * 33038210) % 2 ^ 32 = 4 := by decide
    dsimp only at h2
    rw [hc, hk, List.nil_append] at h2
    have h3 := rleLoop_continues _ _ _ _ (by decide) h2
    dsimp only at h3
    rw [List.length_replicate] at h3
    rw [hts]
    exact h3

theorem hugeRuns_valid : ∀ run ∈ hugeRuns, run.Valid := by
  intro run hrun
  rw [List.eq_of_mem_replicate hrun]
  exact ⟨by decide, by decide⟩

theorem rleLoop_hugeLit :
    rleLoop (word32 0 0 0 0x40) ((litRuns 1073741821 ++ [0x80]).length + 2 ^ 32 + 1)
        { r := litRuns 1073741821 ++ [0x80], out := [], clen := 0 } =
      .ok { r := [], out := List.replicate 1073741821 1 ++ [0] ++ [0] ++ [0] ++ [0],
            clen := 1073741821 + 4 } := by
  have hw : word32 0 0 0 0x40 = 1073741824 := by decide
  have efuel : (litRuns 1073741821 ++ [0x80]).length + 2 ^ 32 + 1 =
      5368709116 + 3 + 1073741821 := by
    rw [List.length_append, litRuns_length, List.length_singleton]
    decide
  have h1 := rleLoop_litRuns 1073741824 [0x80] (by decide) 1073741821 (5368709116 + 3)
    { r := litRuns 1073741821 ++ [0x80], out := [], clen := 0 } rfl (by decide)
  have h2 := rleLoop_cut 1073741824 5368709116 (List.replicate 1073741821 1) 1073741821
    (by decide) (by decide) (by decide)
  rw [efuel, hw, h1]
  exact h2

/-- C18 (counterexample): `2^30` literal runs of the single byte 1 are an encoding
of the sequence `s` of `2^30` bytes 1, but the encoding with its length prefix
is `2^31 + 4` bytes long and the decoder of `dumptiles` reads at most
`2^31 - 1` bytes of the image: it returns a sequence of `2^30 + 1` bytes that
ends in four zero bytes, not `s`. -/
theorem rle_roundtrip_counterexample :
    (∀ run ∈ hugeRuns, run.Valid) ∧ expandRuns hugeRuns = List.replicate (2 ^ 30) 1 ∧
    rleDecode hugeLitImage =
      .ok (List.replicate 1073741821 1 ++ [0] ++ [0] ++ [0] ++ [0], word32 0 0 0 0x40) ∧
    (List.replicate 1073741821 (1 : Byte) ++ [0] ++ [0] ++ [0] ++ [0]).length ≠
      (expandRuns hugeRuns).length := by
  have hexp : expandRuns hugeRuns = List.replicate (2 ^ 30) 1 := expandRuns_lits _
  refine ⟨hugeRuns_valid, hexp, ?_, ?_⟩
  · exact rleDecode_of_loop _ _ _ _ _ _ _ sectionReader_hugeLitImage rleLoop_hugeLit
  · rw [hexp, List.length_append, List.length_append, List.length_append, List.length_append,
      List.length_replicate, List.length_replicate, List.length_singleton]
    omega

/-! ## The tiles of `dumptiles` -/

theorem tileHeader_inside (out : List Byte) (cb : Nat) (h32 : cb + 4 < 2 ^ 32)
    (hin : cb + 3 < out.length) :
    tileHeader out cb =
      some (if (out.getD (cb + 1) 0).val = 0 ∧ (out.getD (cb + 3) 0).val = 0 ∧
              (0 < (out.getD cb 0).val ∧ (out.getD cb 0).val < 0xbf) ∧
              (0 < (out.getD (cb + 2) 0).val ∧ (out.getD (cb + 2) 0).val < 0x64)
            then ((out.getD cb 0).val, (out.getD (cb + 2) 0).val, cb + 4)
            else (16, 16, cb)) := by
  unfold tileHeader
  rw [Nat.mod_eq_of_lt (show cb + 1 < 2 ^ 32 by omega),
    Nat.mod_eq_of_lt (show cb + 2 < 2 ^ 32 by omega),
    Nat.mod_eq_of_lt (show cb + 3 < 2 ^ 32 by omega),
    Nat.mod_eq_of_lt (show cb + 4 < 2 ^ 32 by omega),
    getElem?_eq_some_getD out (cb + 1) (by omega), getElem?_eq_some_getD out (cb + 3) (by omega),
    getElem?_eq_some_getD out cb (by omega), getElem?_eq_some_getD out (cb + 2) (by omega)]
  dsimp only
  by_cases h1 : (out.getD (cb + 1) 0).val = 0
  · by_cases h3 : (out.getD (cb + 3) 0).val = 0
    · by_cases h0 : 0 < (out.getD cb 0).val ∧ (out.getD cb 0).val < 0xbf
      · by_cases h2 : 0 < (out.getD (cb + 2) 0).val ∧ (out.getD (cb + 2) 0).val < 0x64
        · rw [if_pos h1, if_pos h3, if_pos h0, if_pos h2, if_pos ⟨h1, h3, h0, h2⟩]
        · rw [if_pos h1, if_pos h3, if_pos h0, if_neg h2, if_neg (fun h => h2 h.2.2.2)]
      · rw [if_pos h1, if_pos h3, if_neg h0, if_neg (fun h => h0 h.2.2.1)]
    · rw [if_pos h1, if_neg h3, if_neg (fun h => h3 h.2.1)]
  · rw [if_neg h1, if_neg (fun h => h1 h.1)]

/-- C21 (amended): for a tile whose index table entry `v` is below `2^32 - 5`, the
start offset `cb` is `v`, plus 1 exactly when `v > 65280` (65280 itself is not
corrected); when the bytes at `cb .. cb + 3` lie inside the stream, the tile has
width `out[cb]`, height `out[cb+2]` and pixel data starting at `cb + 4` exactly
when `out[cb+1] = 0`, `out[cb+3] = 0`, `0 < out[cb] < 0xbf` and
`0 < out[cb+2] < 0x64`, and otherwise has size 16 x 16 with pixel data starting
at `cb`. -/
theorem tile_start_and_size (out : List Byte) (v : Nat) (hv : v + 5 < 2 ^ 32) :
    tileStart v = (if v > 65280 then v + 1 else v) ∧ tileStart 65280 = 65280 ∧
    (tileStart v + 3 < out.length →
      tileHeader out (tileStart v) =
        some (if (out.getD (tileStart v + 1) 0).val = 0 ∧
                (out.getD (tileStart v + 3) 0).val = 0 ∧
                (0 < (out.getD (tileStart v) 0).val ∧ (out.getD (tileStart v) 0).val < 0xbf) ∧
                (0 < (out.getD (tileStart v + 2) 0).val ∧
                  (out.getD (tileStart v + 2) 0).val < 0x64)
              then ((out.getD (tileStart v) 0).val, (out.getD (tileStart v + 2) 0).val,
                tileStart v + 4)
              else (16, 16, tileStart v))) := by
  have hs : tileStart v = (if v > 65280 then v + 1 else v) := by
    unfold tileStart
    split
    · exact Nat.mod_eq_of_lt (by omega)
    · rfl
  refine ⟨hs, by decide, ?_⟩
  intro hin
  exact tileHeader_inside out (tileStart v) (by rw [hs]; split <;> omega) hin

theorem tile_start_and_size_witness :
    tileStart 8 = 8 ∧ tileHeader sizedTileStream (tileStart 8) = some (2, 3, 12) :=
  ⟨by decide,
   ((tile_start_and_size sizedTileStream 8 (by decide)).2.2 (by decide)).trans (by decide)⟩

set_option maxRecDepth 100000 in
/-- C21 (counterexample): for the index table entry `0xffffffff` the start offset
is 0, not `0xffffffff + 1`: `cb++` wraps in `uint32`. In the 8-byte stream whose
only entry it is, the tile is decoded as a 16 x 16 tile whose pixel data start
at offset 0 and end at the declared length 8. -/
theorem tile_start_counterexample :
    tileStart 0xffffffff = 0 ∧ tileHeader wrapTileStream (tileStart 0xffffffff) = some (16, 16, 0) ∧
    ∃ m, decodeTile wrapTileStream (List.replicate 768 0) 0xffffffff 8 = .ok (m, 8) := by
  refine ⟨by decide, by decide,
    ⟨{ w := 16, h := 16,
       pix := List.replicate 8 ⟨0, 0, 0, 255⟩ ++ List.replicate 248 ⟨0, 0, 0, 0⟩ }, by decide⟩⟩

theorem tileHeader_pos (out : List Byte) (cb tw th start : Nat)
    (h : tileHeader out cb = some (tw, th, start)) : 1 ≤ tw ∧ 1 ≤ th := by
  unfold tileHeader at h
  have key : ∀ c : Nat, (some (16, 16, c) : Option (Nat × Nat × Nat)) = some (tw, th, start) →
      1 ≤ tw ∧ 1 ≤ th := by
    intro c hc
    injection hc with hc
    injection hc with h1 hc
    injection hc with h2 _
    omega
  split at h
  · exact absurd h (by simp)
  · split at h
    · split at h
      · exact absurd h (by simp)
      · split at h
        · split at h
          · exact absurd h (by simp)
          · split at h
            · split at h
              · exact absurd h (by simp)
              · split at h
                · injection h with h
                  injection h with h1 h
                  injection h with h2 _
                  omega
                · exact key _ h
            · exact key _ h
        · exact key _ h
    · exact key _ h

theorem Img.set_w (m : Img) (x y : Nat) (c : RGBA) : (m.set x y c).w = m.w := by
  unfold Img.set
  split <;> rfl

theorem Img.set_h (m : Img) (x y : Nat) (c : RGBA) : (m.set x y c).h = m.h := by
  unfold Img.set
  split <;> rfl

theorem Img.set_length (m : Img) (x y : Nat) (c : RGBA) :
    (m.set x y c).pix.length = m.pix.length := by
  unfold Img.set
  split
  · simp
  · rfl

theorem Img.set_ne (m : Img) (x y j : Nat) (c : RGBA) (h : j ≠ y * m.w + x) :
    (m.set x y c).pix[j]? = m.pix[j]? := by
  unfold Img.set
  split
  · exact List.getElem?_set_ne (Ne.symm h)
  · rfl

theorem Img.set_self (m : Img) (x y : Nat) (c : RGBA) (hx : x < m.w)
    (hp : y * m.w + x < m.pix.length) (hlen : m.pix.length = m.w * m.h) :
    (m.set x y c).pix[y * m.w + x]? = some c := by
  have hy : y < m.h := by
    by_contra hn
    have : m.w * m.h ≤ m.w * y := Nat.mul_le_mul_left _ (by omega)
    rw [Nat.mul_comm m.w y] at this
    omega
  unfold Img.set
  rw [if_pos ⟨hx, hy⟩]
  exact List.getElem?_set_self hp

theorem pixelLoop_ok (out pal : List Byte) (tw : Nat) :
    ∀ (n cb x y : Nat) (m : Img) (r : Img × Nat),
      pixelLoop out pal tw n cb x y m = .ok r → m.w = tw → x < tw →
      m.pix.length = m.w * m.h →
      r.2 = cb + n ∧ (∀ c, cb ≤ c → c < cb + n → c < out.length) ∧
      r.1.w = m.w ∧ r.1.h = m.h ∧ r.1.pix.length = m.pix.length ∧
      (∀ j, j < y * tw + x → r.1.pix[j]? = m.pix[j]?) ∧
      (∀ k, k < n → y * tw + x + k < m.pix.length →
        r.1.pix[y * tw + x + k]? = some (palColor pal (out.getD (cb + k) 0).val))
  | 0, cb, x, y, m, r, h, _, _, _ => by
    rw [pixelLoop] at h
    injection h with h
    subst h
    exact ⟨rfl, fun c h1 h2 => by omega, rfl, rfl, rfl, fun _ _ => rfl, fun k hk => by omega⟩
  | n + 1, cb, x, y, m, r, h, hw, hx, hlen => by
    rw [pixelLoop] at h
    by_cases hcb : cb ≥ out.length
    · rw [if_pos hcb] at h
      exact absurd h (by simp)
    rw [if_neg hcb] at h
    by_cases hpal : (out.getD cb 0).val * 3 + 2 ≥ 768
    · rw [if_pos hpal] at h
      exact absurd h (by simp)
    rw [if_neg hpal] at h
    dsimp only at h
    have hw1 := Img.set_w m x y (palColor pal (out.getD cb 0).val)
    have hh1 := Img.set_h m x y (palColor pal (out.getD cb 0).val)
    have hl1 := Img.set_length m x y (palColor pal (out.getD cb 0).val)
    have key : ∀ (x2 y2 : Nat), x2 < tw → y2 * tw + x2 = y * tw + x + 1 →
        pixelLoop out pal tw n (cb + 1) x2 y2 (m.set x y (palColor pal (out.getD cb 0).val)) =
          .ok r →
        r.2 = cb + (n + 1) ∧ (∀ c, cb ≤ c → c < cb + (n + 1) → c < out.length) ∧
        r.1.w = m.w ∧ r.1.h = m.h ∧ r.1.pix.length = m.pix.length ∧
        (∀ j, j < y * tw + x → r.1.pix[j]? = m.pix[j]?) ∧
        (∀ k, k < n + 1 → y * tw + x + k < m.pix.length →
          r.1.pix[y * tw + x + k]? = some (palColor pal (out.getD (cb + k) 0).val)) := by
      intro x2 y2 hx2 hp h2
      obtain ⟨i1, i2, i3, i4, i5, i6, i7⟩ := pixelLoop_ok out pal tw n (cb + 1) x2 y2 _ r h2
        (by rw [hw1]; exact hw) hx2 (by rw [hl1, hw1, hh1]; exact hlen)
      rw [hp] at i6 i7
      refine ⟨by omega, ?_, by rw [i3, hw1], by rw [i4, hh1], by rw [i5, hl1], ?_, ?_⟩
      · intro c h1 h2
        by_cases hc : c = cb
        · omega
        · exact i2 c (by omega) (by omega)
      · intro j hj
        rw [i6 j (by omega), Img.set_ne _ _ _ _ _ (by rw [hw]; omega)]
      · intro k hk hlt
        cases k with
        | zero =>
          rw [Nat.add_zero, i6 _ (by omega)]
          have := Img.set_self m x y (palColor pal (out.getD cb 0).val) (by omega)
            (by rw [hw]; omega) hlen
          rw [hw] at this
          exact this
        | succ k =>
          have := i7 k (by omega) (by rw [hl1]; omega)
          rw [show y * tw + x + 1 + k = y * tw + x + (k + 1) by omega,
            show cb + 1 + k = cb + (k + 1) by omega] at this
          exact this
    by_cases hwrap : x + 1 ≥ tw
    · rw [if_pos hwrap] at h
      exact key 0 (y + 1) (by omega) (by rw [Nat.add_mul]; omega) h
    · rw [if_neg hwrap] at h
      exact key (x + 1) y (by omega) (by omega) h

theorem decodeTile_ok (out pal : List Byte) (v next : Nat) (m : Img) (stop : Nat)
    (h : decodeTile out pal v next = .ok (m, stop)) :
    ∃ tw th start, tileHeader out (tileStart v) = some (tw, th, start) ∧ m.w = tw ∧ m.h = th ∧
      1 ≤ tw ∧ 1 ≤ th ∧ m.pix.length = tw * th ∧ stop = start + (next - start) ∧
      (∀ c, start ≤ c → c < next → c < out.length) ∧
      (∀ k, k < next - start → k < tw * th →
        m.pix[k]? = some (palColor pal (out.getD (start + k) 0).val)) := by
  unfold decodeTile at h
  cases hh : tileHeader out (tileStart v) with
  | none => rw [hh] at h; exact absurd h (by simp)
  | some res =>
    obtain ⟨tw, th, start⟩ := res
    rw [hh] at h
    dsimp only at h
    obtain ⟨hp1, hp2⟩ := tileHeader_pos _ _ _ _ _ hh
    obtain ⟨i1, i2, i3, i4, i5, _, i7⟩ := pixelLoop_ok out pal tw (next - start) start 0 0
      (Img.new tw th) (m, stop) h rfl (by omega) (by simp [Img.new])
    have hl : (Img.new tw th).pix.length = tw * th := by simp [Img.new]
    refine ⟨tw, th, start, rfl, i3, i4, hp1, hp2, by rw [i5, hl], i1, ?_, ?_⟩
    · intro c h1 h2
      exact i2 c h1 (by omega)
    · intro k hk hlt
      have := i7 k hk (by rw [hl]; omega)
      simp only [Nat.zero_mul, Nat.zero_add] at this
      exact this

/-- C22: for every tile that `dumptiles` decodes, of size `w x h`, the `k`-th
palette-index byte `b` consumed for the tile (`k < w * h`) sets pixel
`(k mod w, floor(k / w))` to `RGBA(palette[b].r, palette[b].g, palette[b].b, 255)`. -/
theorem tile_pixels (out pal : List Byte) (v next : Nat) (m : Img) (stop : Nat)
    (h : decodeTile out pal v next = .ok (m, stop)) :
    ∃ start, (∃ tw th, tileHeader out (tileStart v) = some (tw, th, start) ∧
        m.w = tw ∧ m.h = th) ∧
      stop = start + (next - start) ∧
      ∀ k, k < stop - start → k < m.w * m.h →
        m.get (k % m.w) (k / m.w) =
          some { r := pal.getD ((out.getD (start + k) 0).val * 3) 0,
                 g := pal.getD ((out.getD (start + k) 0).val * 3 + 1) 0,
                 b := pal.getD ((out.getD (start + k) 0).val * 3 + 2) 0, a := 255 } := by
  obtain ⟨tw, th, start, h1, h2, h3, h4, h5, h6, h7, _, h9⟩ := decodeTile_ok out pal v next m stop h
  refine ⟨start, ⟨tw, th, h1, h2, h3⟩, h7, ?_⟩
  intro k hk hlt
  rw [h2, h3] at hlt
  have hdiv : k / m.w < m.h := by
    rw [h2, h3]
    exact (Nat.div_lt_iff_lt_mul (by omega)).mpr (by rw [Nat.mul_comm]; exact hlt)
  have hmod : k % m.w < m.w := Nat.mod_lt _ (by omega)
  unfold Img.get
  rw [if_pos ⟨hmod, hdiv⟩, Nat.div_add_mod' k m.w, h9 k (by omega) hlt]
  rfl

set_option maxRecDepth 1000000 in
theorem decodeTile_five :
    decodeTile fiveTileStream fivePalette 8 264 = .ok (fiveTileImage, 264) := by decide

theorem tile_pixels_witness :
    decodeTile fiveTileStream fivePalette 8 264 = .ok (fiveTileImage, 264) ∧
    ∃ start, (∃ tw th, tileHeader fiveTileStream (tileStart 8) = some (tw, th, start) ∧
        fiveTileImage.w = tw ∧ fiveTileImage.h = th) ∧
      264 = start + (264 - start) ∧
      ∀ k, k < 264 - start → k < fiveTileImage.w * fiveTileImage.h →
        fiveTileImage.get (k % fiveTileImage.w) (k / fiveTileImage.w) =
          some { r := fivePalette.getD ((fiveTileStream.getD (start + k) 0).val * 3) 0,
                 g := fivePalette.getD ((fiveTileStream.getD (start + k) 0).val * 3 + 1) 0,
                 b := fivePalette.getD ((fiveTileStream.getD (start + k) 0).val * 3 + 2) 0,
                 a := 255 } :=
  ⟨decodeTile_five, tile_pixels fiveTileStream fivePalette 8 264 fiveTileImage 264 decodeTile_five⟩

/-- C23 (amended): for every tile that `dumptiles` decodes, the number of
palette-index bytes consumed is `tileIndex[t+1] - start(t)`, the pixel data
start `start(t)` being that of C21, when `start(t) <= tileIndex[t+1]`, and 0
otherwise, and every byte consumed lies inside the stream; nothing ties this
number to `width(t) * height(t)` or orders the index table. -/
theorem tile_consumed (out pal : List Byte) (v next : Nat) (m : Img) (stop : Nat)
    (h : decodeTile out pal v next = .ok (m, stop)) :
    ∃ tw th start, tileHeader out (tileStart v) = some (tw, th, start) ∧ m.w = tw ∧ m.h = th ∧
      (start ≤ next → stop - start = next - start) ∧ (next < start → stop - start = 0) ∧
      (∀ c, start ≤ c → c < stop → c < out.length) := by
  obtain ⟨tw, th, start, h1, h2, h3, _, _, _, h7, h8, _⟩ := decodeTile_ok out pal v next m stop h
  refine ⟨tw, th, start, h1, h2, h3, fun _ => by omega, fun _ => by omega, ?_⟩
  intro c hc1 hc2
  exact h8 c hc1 (by omega)

theorem tile_consumed_witness :
    ∃ tw th start, tileHeader fiveTileStream (tileStart 8) = some (tw, th, start) ∧
      fiveTileImage.w = tw ∧ fiveTileImage.h = th ∧
      (start ≤ 264 → 264 - start = 264 - start) ∧ (264 < start → 264 - start = 0) ∧
      (∀ c, start ≤ c → c < 264 → c < fiveTileStream.length) :=
  tile_consumed fiveTileStream fivePalette 8 264 fiveTileImage 264 decodeTile_five

theorem rleDecode_eq_spec (data r out : List Byte) (b0 b1 b2 b3 : Byte) (fuel : Nat)
    (hd : sectionReader data vgaoff = b0 :: b1 :: b2 :: b3 :: r)
    (hs : specDecode (word32 b0 b1 b2 b3) fuel r [] = some out) (hlen : out.length < 2 ^ 32) :
    rleDecode data = .ok (out, word32 b0 b1 b2 b3) := by
  obtain ⟨t, ht, hout⟩ := rleLoop_spec _ fuel r [] out hs hlen (r.length + 2 ^ 32 + 1) (by omega)
  rw [rleDecode_of_loop data r b0 b1 b2 b3 t hd ht, hout]

theorem rleDecode_shortTileImage :
    rleDecode shortTileImage = .ok ([1, 0, 0, 0, 8, 0, 0, 0, 5, 5, 5, 5], 4) := by
  have hd : sectionReader shortTileImage vgaoff =
      [4, 0, 0, 0, 0x8b, 1, 0, 0, 0, 8, 0, 0, 0, 5, 5, 5, 5] := by
    unfold shortTileImage
    rw [sectionReader_append _ _ _ (List.length_replicate _ _)]
    rfl
  exact rleDecode_eq_spec shortTileImage _ [1, 0, 0, 0, 8, 0, 0, 0, 5, 5, 5, 5] 4 0 0 0 2 hd
    (by decide) (by decide)

theorem tileImages_short (pal : List Byte) :
    tileImages [1, 0, 0, 0, 8, 0, 0, 0, 5, 5, 5, 5] pal [8, 4]
      (word32At [1, 0, 0, 0, 8, 0, 0, 0, 5, 5, 5, 5] 0) 0 = .ok [Img.new 16 16] := rfl

theorem dumptiles_of (data out : List Byte) (flen : Nat) (ti : List Nat)
    (h1 : rleDecode data = .ok (out, flen)) (h2 : tileIndex out flen = .ok ti) :
    dumptiles data = tileImages out (palette data) ti (word32At out 0) 0 := by
  unfold dumptiles
  rw [h1]
  dsimp only
  rw [h2]

theorem decodeTile_short (pal : List Byte) :
    decodeTile [1, 0, 0, 0, 8, 0, 0, 0, 5, 5, 5, 5] pal 8 4 = .ok (Img.new 16 16, 8) := rfl

/-- C23 (counterexample): `dumptiles` decodes the graphics blob that declares the
length 4 and expands to 12 bytes (one tile, index table entry 8) successfully;
the index table is `[8, 4]`, so `tileIndex[0] > tileIndex[1]`, and the only
tile, of size 16 x 16, consumes no palette-index byte at all instead of 256. -/
theorem tile_slicing_counterexample :
    dumptiles shortTileImage = .ok [Img.new 16 16] ∧
    rleDecode shortTileImage = .ok ([1, 0, 0, 0, 8, 0, 0, 0, 5, 5, 5, 5], 4) ∧
    tileIndex [1, 0, 0, 0, 8, 0, 0, 0, 5, 5, 5, 5] 4 = .ok [8, 4] ∧
    decodeTile [1, 0, 0, 0, 8, 0, 0, 0, 5, 5, 5, 5] (palette shortTileImage) 8 4 =
      .ok (Img.new 16 16, 8) := by
  have ht : tileIndex [1, 0, 0, 0, 8, 0, 0, 0, 5, 5, 5, 5] 4 = .ok [8, 4] := by decide
  exact ⟨(dumptiles_of _ _ _ _ rleDecode_shortTileImage ht).trans (tileImages_short _),
    rleDecode_shortTileImage, ht, decodeTile_short _⟩

theorem decodeTile_past_end (out pal : List Byte) (v next : Nat) (hv : v + 2 < 2 ^ 32)
    (hpast : out.length ≤ v) : decodeTile out pal v next = .crash := by
  have hs : v ≤ tileStart v ∧ tileStart v ≤ v + 1 := by
    unfold tileStart
    split
    · rw [Nat.mod_eq_of_lt (by omega)]
      omega
    · omega
  unfold decodeTile tileHeader
  rw [Nat.mod_eq_of_lt (show tileStart v + 1 < 2 ^ 32 by omega),
    List.getElem?_eq_none (by omega)]

theorem rleDecode_crashTileImage :
    rleDecode crashTileImage = .ok ([1, 0, 0, 0, 8, 0, 0, 0], 8) := by
  have hd : sectionReader crashTileImage vgaoff = [8, 0, 0, 0, 0x87, 1, 0, 0, 0, 8, 0, 0, 0] := by
    unfold crashTileImage
    rw [sectionReader_append _ _ _ (List.length_replicate _ _)]
    rfl
  exact rleDecode_eq_spec crashTileImage _ [1, 0, 0, 0, 8, 0, 0, 0] 8 0 0 0 2 hd
    (by decide) (by decide)

theorem tileImages_crash (pal : List Byte) :
    tileImages [1, 0, 0, 0, 8, 0, 0, 0] pal [8, 8] (word32At [1, 0, 0, 0, 8, 0, 0, 0] 0) 0 =
      .crash := rfl

/-- C24: a tile whose index table entry `v` points at or past the end of the
decompressed stream (and is below `2^32 - 2`) makes the tile loop of
`dumptiles` panic on the index expression `out[cb+1]`: the program crashes
instead of returning an error. -/
theorem tile_entry_past_end (out pal : List Byte) (v next : Nat) (hv : v + 2 < 2 ^ 32)
    (hpast : out.length ≤ v) :
    decodeTile out pal v next = .crash ∧ tileHeader out (tileStart v) = none := by
  have h := decodeTile_past_end out pal v next hv hpast
  refine ⟨h, ?_⟩
  unfold decodeTile at h
  cases hh : tileHeader out (tileStart v) with
  | none => rfl
  | some r =>
    rw [hh] at h
    obtain ⟨tw, th, cb⟩ := r
    dsimp only at h
    have hs : v ≤ tileStart v := by
      unfold tileStart
      split
      · rw [Nat.mod_eq_of_lt (by omega)]
        omega
      · omega
    unfold tileHeader at hh
    rw [Nat.mod_eq_of_lt (show tileStart v + 1 < 2 ^ 32 by
      have : tileStart v ≤ v + 1 := by
        unfold tileStart
        split
        · rw [Nat.mod_eq_of_lt (by omega)]
        · omega
      omega), List.getElem?_eq_none (by omega)] at hh
    exact absurd hh (by simp)

theorem tile_entry_past_end_witness :
    dumptiles crashTileImage = .crash ∧
    rleDecode crashTileImage = .ok ([1, 0, 0, 0, 8, 0, 0, 0], 8) ∧
    tileIndex [1, 0, 0, 0, 8, 0, 0, 0] 8 = .ok [8, 8] ∧
    decodeTile [1, 0, 0, 0, 8, 0, 0, 0] (palette crashTileImage) 8 8 = .crash :=
  ⟨(dumptiles_of _ _ _ _ rleDecode_crashTileImage (by decide)).trans (tileImages_crash _),
   rleDecode_crashTileImage, by decide,
   (tile_entry_past_end [1, 0, 0, 0, 8, 0, 0, 0] (palette crashTileImage) 8 8 (by decide)
      (by decide)).1⟩

/-! ## Level records and the map -/

theorem dumplevel_error_iff (data : List Byte) (i : Nat) :
    (∃ e, dumplevel data i = .error e) ↔ data.length ≤ leveloff + levelsize * (i + 1) := by
  unfold dumplevel
  dsimp only
  have e : leveloff + levelsize * i + levelsize = leveloff + levelsize * (i + 1) := by
    rw [Nat.mul_add, Nat.mul_one, Nat.add_assoc]
  rw [e]
  constructor
  · intro ⟨msg, h⟩
    split at h
    · assumption
    · exact absurd h (by simp)
  · intro h
    rw [if_pos h]
    exact ⟨_, rfl⟩

/-- C25: `dumplevel` returns the error exactly when
`base + 1280 * (i + 1) >= len(image)`, so also for an image that ends exactly
at the end of record `i`, whose byte range fits within the image: the test is
`end >= len(data)` instead of `end > len(data)`. -/
theorem dumplevel_exact_fit (data : List Byte) (i : Nat) :
    ((∃ e, dumplevel data i = .error e) ↔ leveloff + levelsize * (i + 1) ≥ data.length) ∧
    (data.length = leveloff + levelsize * (i + 1) →
      dumplevel data i = .error "level does not exist in file") := by
  refine ⟨dumplevel_error_iff data i, ?_⟩
  intro h
  unfold dumplevel
  dsimp only
  rw [if_pos (by rw [h, Nat.mul_add, Nat.mul_one, Nat.add_assoc])]

theorem dumplevel_exact_fit_witness :
    exactFitImage.length = 0x26e0a + 1280 * (0 + 1) ∧
    dumplevel exactFitImage 0 = .error "level does not exist in file" :=
  ⟨List.length_replicate _ _,
   (dumplevel_exact_fit exactFitImage 0).2 (List.length_replicate _ _)⟩

theorem record_split (r : List Byte) (h : r.length = 1280) :
    r.take 256 ++ (r.drop 256).take 1000 ++ (r.drop 1256).take 24 = r := by
  have h1 : (r.drop 1256).take 24 = r.drop 1256 :=
    List.take_of_length_le (by rw [List.length_drop]; omega)
  have h2 : r.drop 1256 = (r.drop 256).drop 1000 := by rw [List.drop_drop]
  rw [h1, h2, List.append_assoc, List.take_append_drop, List.take_append_drop]

theorem dumplevel_ok (data : List Byte) (i : Nat) (l : Level) (art : List Byte)
    (h : dumplevel data i = .ok (l, art)) :
    leveloff + levelsize * i + 1280 < data.length ∧
    l.Path = (data.drop (leveloff + levelsize * i)).take 256 ∧
    l.Tiles = (data.drop (leveloff + levelsize * i + 256)).take 1000 ∧
    l.Pad = (data.drop (leveloff + levelsize * i + 1256)).take 24 ∧
    art = (data.drop (leveloff + levelsize * i)).take 1280 := by
  unfold dumplevel at h
  dsimp only at h
  split at h
  · exact absurd h (by simp)
  · rename_i hlt
    have hlt2 : leveloff + levelsize * i + 1280 < data.length := by
      have : levelsize = 1280 := rfl
      omega
    have e : leveloff + levelsize * i + levelsize - (leveloff + levelsize * i) = 1280 := by
      have : levelsize = 1280 := rfl
      omega
    rw [e] at h
    have hr : ((data.drop (leveloff + levelsize * i)).take 1280).length = 1280 := by
      rw [List.length_take, List.length_drop]
      omega
    rw [record_split _ hr] at h
    injection h with h
    injection h with h1 h2
    subst h1 h2
    refine ⟨hlt2, ?_, ?_, ?_, rfl⟩
    · dsimp only
      rw [List.take_take]
      rfl
    · dsimp only
      rw [List.drop_take, List.take_take, List.drop_drop]
      rfl
    · dsimp only
      rw [List.drop_take, List.take_take, List.drop_drop]
      rfl

/-- C26: for every image from which record `i` is extracted, with
`s = 0x26e0a + 1280 * i`, the parsed level has `Path = image[s, s+256)`,
`Tiles = image[s+256, s+1256)`, `Pad = image[s+1256, s+1280)`, and its
serialised artifact is exactly the 1280 bytes `image[s, s+1280)`; byte 256 of
the artifact is the tile-grid byte 0 of the record, so it is 42 when that byte
is 42. -/
theorem level_record (data : List Byte) (i : Nat) (l : Level) (art : List Byte)
    (h : dumplevel data i = .ok (l, art)) :
    l.Path = (data.drop (0x26e0a + 1280 * i)).take 256 ∧
    l.Tiles = (data.drop (0x26e0a + 1280 * i + 256)).take 1000 ∧
    l.Pad = (data.drop (0x26e0a + 1280 * i + 1256)).take 24 ∧
    art = (data.drop (0x26e0a + 1280 * i)).take 1280 ∧
    l.Path.length = 256 ∧ l.Tiles.length = 1000 ∧ l.Pad.length = 24 ∧ art.length = 1280 ∧
    art[256]? = l.Tiles[0]? ∧ (l.Tiles[0]? = some 42 → art[256]? = some 42) := by
  obtain ⟨h0, h1, h2, h3, h4⟩ := dumplevel_ok data i l art h
  have hoff : leveloff + levelsize * i = 0x26e0a + 1280 * i := rfl
  rw [hoff] at h0 h1 h2 h3 h4
  have h5 : art[256]? = l.Tiles[0]? := by
    rw [h4, h2, List.getElem?_take, List.getElem?_take, if_pos (by decide), if_pos (by decide),
      List.getElem?_drop, List.getElem?_drop]
  refine ⟨h1, h2, h3, h4, ?_, ?_, ?_, ?_, h5, fun h42 => by rw [h5, h42]⟩
  · rw [h1, List.length_take, List.length_drop]
    omega
  · rw [h2, List.length_take, List.length_drop]
    omega
  · rw [h3, List.length_take, List.length_drop]
    omega
  · rw [h4, List.length_take, List.length_drop]
    omega

theorem dumplevel_append (pre r post : List Byte) (i : Nat)
    (hpre : pre.length = leveloff + levelsize * i) (hr : r.length = 1280)
    (hpost : 0 < post.length) :
    dumplevel (pre ++ (r ++ post)) i =
      .ok ({ Path := r.take 256, Tiles := (r.drop 256).take 1000, Pad := (r.drop 1256).take 24 },
        r) := by
  have hls : levelsize = 1280 := rfl
  unfold dumplevel
  dsimp only
  rw [if_neg (by rw [List.length_append, List.length_append, hpre, hr]; omega),
    ← hpre, List.drop_left,
    show pre.length + levelsize - pre.length = r.length by omega, List.take_left,
    record_split r hr]

theorem levelRecord_length : levelRecord.length = 1280 := by
  unfold levelRecord
  rw [List.length_append, List.length_append, List.length_cons, List.length_replicate,
    List.length_replicate, List.length_replicate]

theorem dumplevel_levelSample :
    dumplevel levelSample 0 =
      .ok ({ Path := levelRecord.take 256, Tiles := (levelRecord.drop 256).take 1000,
             Pad := (levelRecord.drop 1256).take 24 }, levelRecord) :=
  dumplevel_append _ levelRecord [0] 0 (List.length_replicate _ _) levelRecord_length (by decide)

theorem level_record_witness :
    (levelRecord.drop 256).take 1000 =
      (levelSample.drop (0x26e0a + 1280 * 0 + 256)).take 1000 ∧
    levelRecord = (levelSample.drop (0x26e0a + 1280 * 0)).take 1280 ∧
    levelRecord[256]? = ((levelRecord.drop 256).take 1000)[0]? :=
  have h := level_record levelSample 0 _ levelRecord dumplevel_levelSample
  ⟨h.2.1, h.2.2.2.1, h.2.2.2.2.2.2.2.2.1⟩

theorem drawTile_none (lvls : List Level) (imgs : List Img) (k j i : Nat) (lvl : Level)
    (hl : lvls[k]? = some lvl) (hid : imgs.length ≤ (lvl.Tiles.getD (j * 100 + i) 0).val) :
    drawTile lvls imgs k j i = none := by
  unfold drawTile
  rw [hl]
  dsimp only
  rw [List.getElem?_eq_none hid]

theorem drawTile_some (lvls : List Level) (imgs : List Img) (k j i : Nat) (d : DrawCall)
    (h : drawTile lvls imgs k j i = some d) :
    d.x1 = i * 16 + 16 ∧ d.y1 = k * 160 + j * 16 + 16 ∧ d.x0 = i * 16 ∧
    d.y0 = k * 160 + j * 16 := by
  unfold drawTile at h
  split at h
  · exact absurd h (by simp)
  · split at h
    · exact absurd h (by simp)
    · injection h with h
      subst h
      exact ⟨rfl, rfl, rfl, rfl⟩

theorem dumpmapRow_none (lvls : List Level) (imgs : List Img) (k j : Nat) :
    ∀ (n i0 : Nat), (∃ i, i0 ≤ i ∧ i < i0 + n ∧ drawTile lvls imgs k j i = none) →
      dumpmapRow lvls imgs k j n i0 = none
  | 0, i0, ⟨i, h1, h2, _⟩ => by omega
  | n + 1, i0, ⟨i, h1, h2, h3⟩ => by
    rw [dumpmapRow]
    cases hd : drawTile lvls imgs k j i0 with
    | none => rfl
    | some d =>
      have hne : i ≠ i0 := by
        intro he
        rw [he, hd] at h3
        exact absurd h3 (by simp)
      dsimp only
      rw [dumpmapRow_none lvls imgs k j n (i0 + 1) ⟨i, by omega, by omega, h3⟩]

theorem dumpmapRow_some (lvls : List Level) (imgs : List Img) (k j : Nat) :
    ∀ (n i0 : Nat) (ds : List DrawCall), dumpmapRow lvls imgs k j n i0 = some ds →
      ∀ d ∈ ds, d.x1 ≤ (i0 + n) * 16 ∧ d.y1 = k * 160 + j * 16 + 16 ∧
        d.x0 + 16 = d.x1 ∧ d.y0 + 16 = d.y1
  | 0, i0, ds, h => by
    rw [dumpmapRow] at h
    injection h with h
    subst h
    intro d hd
    exact absurd hd (List.not_mem_nil _)
  | n + 1, i0, ds, h => by
    rw [dumpmapRow] at h
    cases hd : drawTile lvls imgs k j i0 with
    | none => rw [hd] at h; exact absurd h (by simp)
    | some d0 =>
      rw [hd] at h
      dsimp only at h
      cases hr : dumpmapRow lvls imgs k j n (i0 + 1) with
      | none => rw [hr] at h; exact absurd h (by simp)
      | some es =>
        rw [hr] at h
        injection h with h
        subst h
        have ih := dumpmapRow_some lvls imgs k j n (i0 + 1) es hr
        obtain ⟨a1, a2, a3, a4⟩ := drawTile_some _ _ _ _ _ _ hd
        intro d hmem
        rcases List.mem_cons.mp hmem with he | he
        · subst he
          exact ⟨by omega, a2, by omega, by omega⟩
        · obtain ⟨b1, b2, b3, b4⟩ := ih d he
          exact ⟨by omega, b2, b3, b4⟩

theorem dumpmapLevel_none (lvls : List Level) (imgs : List Img) (k : Nat) :
    ∀ (n j0 : Nat),
      (∃ j i, j0 ≤ j ∧ j < j0 + n ∧ i < 100 ∧ drawTile lvls imgs k j i = none) →
      dumpmapLevel lvls imgs k n j0 = none
  | 0, j0, ⟨j, i, h1, h2, _, _⟩ => by omega
  | n + 1, j0, ⟨j, i, h1, h2, h3, h4⟩ => by
    rw [dumpmapLevel]
    cases hd : dumpmapRow lvls imgs k j0 100 0 with
    | none => rfl
    | some ds =>
      have hne : j ≠ j0 := by
        intro he
        rw [← he, dumpmapRow_none lvls imgs k j 100 0 ⟨i, by omega, by omega, h4⟩] at hd
        exact absurd hd (by simp)
      dsimp only
      rw [dumpmapLevel_none lvls imgs k n (j0 + 1) ⟨j, i, by omega, by omega, h3, h4⟩]

theorem dumpmapLevel_some (lvls : List Level) (imgs : List Img) (k : Nat) :
    ∀ (n j0 : Nat) (ds : List DrawCall), dumpmapLevel lvls imgs k n j0 = some ds →
      ∀ d ∈ ds, d.x1 ≤ 1600 ∧ d.y1 ≤ k * 160 + (j0 + n) * 16 ∧
        d.x0 + 16 = d.x1 ∧ d.y0 + 16 = d.y1
  | 0, j0, ds, h => by
    rw [dumpmapLevel] at h
    injection h with h
    subst h
    intro d hd
    exact absurd hd (List.not_mem_nil _)
  | n + 1, j0, ds, h => by
    rw [dumpmapLevel] at h
    cases hd : dumpmapRow lvls imgs k j0 100 0 with
    | none => rw [hd] at h; exact absurd h (by simp)
    | some d0 =>
      rw [hd] at h
      dsimp only at h
      cases hr : dumpmapLevel lvls imgs k n (j0 + 1) with
      | none => rw [hr] at h; exact absurd h (by simp)
      | some es =>
        rw [hr] at h
        injection h with h
        subst h
        have ih := dumpmapLevel_some lvls imgs k n (j0 + 1) es hr
        have ir := dumpmapRow_some lvls imgs k j0 100 0 d0 hd
        intro d hmem
        rcases List.mem_append.mp hmem with he | he
        · obtain ⟨b1, b2, b3, b4⟩ := ir d he
          exact ⟨by omega, by omega, b3, b4⟩
        · obtain ⟨b1, b2, b3, b4⟩ := ih d he
          exact ⟨b1, by omega, b3, b4⟩

theorem dumpmapLoop_none (lvls : List Level) (imgs : List Img) :
    ∀ (n k0 : Nat),
      (∃ k j i, k0 ≤ k ∧ k < k0 + n ∧ j < 10 ∧ i < 100 ∧ drawTile lvls imgs k j i = none) →
      dumpmapLoop lvls imgs n k0 = none
  | 0, k0, ⟨k, j, i, h1, h2, _, _, _⟩ => by omega
  | n + 1, k0, ⟨k, j, i, h1, h2, h3, h4, h5⟩ => by
    rw [dumpmapLoop]
    cases hd : dumpmapLevel lvls imgs k0 10 0 with
    | none => rfl
    | some ds =>
      have hne : k ≠ k0 := by
        intro he
        rw [← he, dumpmapLevel_none lvls imgs k 10 0 ⟨j, i, by omega, by omega, h4, h5⟩] at hd
        exact absurd hd (by simp)
      dsimp only
      rw [dumpmapLoop_none lvls imgs n (k0 + 1) ⟨k, j, i, by omega, by omega, h3, h4, h5⟩]

theorem dumpmapLoop_some (lvls : List Level) (imgs : List Img) :
    ∀ (n k0 : Nat) (ds : List DrawCall), dumpmapLoop lvls imgs n k0 = some ds →
      ∀ d ∈ ds, d.x1 ≤ 1600 ∧ d.y1 ≤ (k0 + n) * 160 ∧
        d.x0 + 16 = d.x1 ∧ d.y0 + 16 = d.y1
  | 0, k0, ds, h => by
    rw [dumpmapLoop] at h
    injection h with h
    subst h
    intro d hd
    exact absurd hd (List.not_mem_nil _)
  | n + 1, k0, ds, h => by
    rw [dumpmapLoop] at h
    cases hd : dumpmapLevel lvls imgs k0 10 0 with
    | none => rw [hd] at h; exact absurd h (by simp)
    | some d0 =>
      rw [hd] at h
      dsimp only at h
      cases hr : dumpmapLoop lvls imgs n (k0 + 1) with
      | none => rw [hr] at h; exact absurd h (by simp)
      | some es =>
        rw [hr] at h
        injection h with h
        subst h
        have ih := dumpmapLoop_some lvls imgs n (k0 + 1) es hr
        have ir := dumpmapLevel_some lvls imgs k0 10 0 d0 hd
        intro d hmem
        rcases List.mem_append.mp hmem with he | he
        · obtain ⟨b1, b2, b3, b4⟩ := ir d he
          exact ⟨b1, by omega, b3, b4⟩
        · obtain ⟨b1, b2, b3, b4⟩ := ih d he
          exact ⟨b1, by omega, b3, b4⟩

/-- C27: when the tile-grid byte of some level `k < 10`, row `j < 10` and column
`i < 100` is not a valid index into the decoded tile list, `dumpmap` panics on
`imgs[id]` and the program crashes: nothing ties the tile-grid bytes to the
number of decoded tiles. Whenever `dumpmap` returns, every destination square
lies inside the 1600 x 1600 raster. -/
theorem dumpmap_tile_index (lvls : List Level) (imgs : List Img) :
    ((∃ k j i lvl, k < 10 ∧ j < 10 ∧ i < 100 ∧ lvls[k]? = some lvl ∧
        imgs.length ≤ (lvl.Tiles.getD (100 * j + i) 0).val) →
      dumpmap lvls imgs = .crash) ∧
    (∀ ds, dumpmap lvls imgs = .ok ds →
      ∀ d ∈ ds, d.x0 ≤ d.x1 ∧ d.y0 ≤ d.y1 ∧ d.x1 ≤ 1600 ∧ d.y1 ≤ 1600) := by
  constructor
  · intro ⟨k, j, i, lvl, hk, hj, hi, hl, hid⟩
    have hdraw := drawTile_none lvls imgs k j i lvl hl (by rw [Nat.mul_comm]; exact hid)
    unfold dumpmap
    rw [dumpmapLoop_none lvls imgs 10 0 ⟨k, j, i, by omega, by omega, hj, hi, hdraw⟩]
  · intro ds h
    unfold dumpmap at h
    cases hd : dumpmapLoop lvls imgs 10 0 with
    | none => rw [hd] at h; exact absurd h (by simp)
    | some es =>
      rw [hd] at h
      injection h with h
      subst h
      intro d hmem
      obtain ⟨b1, b2, b3, b4⟩ := dumpmapLoop_some lvls imgs 10 0 es hd d hmem
      exact ⟨by omega, by omega, b1, by omega⟩

theorem dumpmap_tile_index_witness :
    dumptiles shortTileImage = .ok [Img.new 16 16] ∧
    dumpmap tenLevels [Img.new 16 16] = .crash :=
  ⟨(dumptiles_of _ _ _ _ rleDecode_shortTileImage (by decide)).trans (tileImages_short _),
    (dumpmap_tile_index tenLevels [Img.new 16 16]).1
      ⟨0, 0, 0, _, by decide, by decide, by decide, rfl, by decide⟩⟩

theorem getbit_lt (data : List Byte) (p p2 : bitstream) (pos pos2 b : Nat)
    (h : p.getbit data pos = some (b, p2, pos2)) : b < 2 := by
  unfold bitstream.getbit at h
  dsimp only at h
  split at h
  · cases hw : le16At data pos with
    | none => rw [hw] at h; exact absurd h (by simp)
    | some w =>
      rw [hw] at h
      injection h with h
      injection h with hb h
      omega
  · injection h with h
    injection h with hb h
    omega

theorem getbits_cons (data : List Byte) (n : Nat) (p p2 : bitstream) (pos pos2 b : Nat)
    (bs : List Nat) (h : getbits data (n + 1) p pos = some (b :: bs, p2, pos2)) :
    ∃ p1 pos1, p.getbit data pos = some (b, p1, pos1) ∧
      getbits data n p1 pos1 = some (bs, p2, pos2) := by
  rw [getbits] at h
  cases h1 : p.getbit data pos with
  | none => rw [h1] at h; exact absurd h (by simp)
  | some r1 =>
    obtain ⟨c, p1, pos1⟩ := r1
    rw [h1] at h
    dsimp only at h
    cases h2 : getbits data n p1 pos1 with
    | none => rw [h2] at h; exact absurd h (by simp)
    | some r2 =>
      obtain ⟨cs, q, qpos⟩ := r2
      rw [h2] at h
      dsimp only at h
      injection h with h
      injection h with hb h
      injection hb with hb hbs
      injection h with hp hpos
      subst hb hbs hp hpos
      exact ⟨p1, pos1, rfl, h2⟩

theorem getbits_nil (data : List Byte) (p p2 : bitstream) (pos pos2 : Nat) (bs : List Nat)
    (h : getbits data 0 p pos = some (bs, p2, pos2)) : p2 = p ∧ pos2 = pos := by
  rw [getbits] at h
  injection h with h
  injection h with _ h
  injection h with hp hpos
  exact ⟨hp.symm, hpos.symm⟩

theorem readCmd_short (inp : List Byte) (bits bits4 : bitstream) (ip ip4 b1 b2 : Nat) (v : Byte)
    (h : getbits inp 4 bits ip = some ([0, 0, b1, b2], bits4, ip4)) (hv : inp[ip4]? = some v) :
    readCmd inp bits ip =
      some (.copy (2 + 2 * b1 + b2) ((v.val : Int) - 256), bits4, ip4 + 1) := by
  obtain ⟨q1, k1, g1, h⟩ := getbits_cons _ _ _ _ _ _ _ _ h
  obtain ⟨q2, k2, g2, h⟩ := getbits_cons _ _ _ _ _ _ _ _ h
  obtain ⟨q3, k3, g3, h⟩ := getbits_cons _ _ _ _ _ _ _ _ h
  obtain ⟨q4, k4, g4, h⟩ := getbits_cons _ _ _ _ _ _ _ _ h
  obtain ⟨e1, e2⟩ := getbits_nil _ _ _ _ _ _ h
  subst e1 e2
  have l3 := getbit_lt _ _ _ _ _ _ g3
  have l4 := getbit_lt _ _ _ _ _ _ g4
  unfold readCmd
  rw [g1]
  dsimp only
  rw [if_neg (by decide), g2]
  dsimp only
  rw [if_pos rfl, g3]
  dsimp only
  rw [g4]
  dsimp only
  rw [hv]
  dsimp only
  rw [two_bits b1 b2 l3 l4, short_span, show 2 * b1 + b2 + 2 = 2 + 2 * b1 + b2 by omega]

theorem readCmd_long (inp : List Byte) (bits bits2 : bitstream) (ip ip2 : Nat) (lo hi : Byte)
    (h : getbits inp 2 bits ip = some ([0, 1], bits2, ip2)) (hlo : inp[ip2]? = some lo)
    (hhi : inp[ip2 + 1]? = some hi) :
    readCmd inp bits ip =
      if hi.val &&& 7 = 0 then
        match inp[ip2 + 2]? with
        | none => none
        | some e =>
          if e.val = 0 then some (.stop, bits2, ip2 + 3)
          else if e.val = 1 then some (.skip, bits2, ip2 + 3)
          else some (.copy (e.val + 1)
            ((-8192 : Int) + (256 : Int) * ((hi.val >>> 3 : Nat) : Int) + (lo.val : Int)), bits2, ip2 + 3)
      else some (.copy ((hi.val &&& 7) + 2)
        ((-8192 : Int) + (256 : Int) * ((hi.val >>> 3 : Nat) : Int) + (lo.val : Int)), bits2,
        ip2 + 2) := by
  obtain ⟨q1, k1, g1, h⟩ := getbits_cons _ _ _ _ _ _ _ _ h
  obtain ⟨q2, k2, g2, h⟩ := getbits_cons _ _ _ _ _ _ _ _ h
  obtain ⟨e1, e2⟩ := getbits_nil _ _ _ _ _ _ h
  subst e1 e2
  have hsh : hi.val >>> 3 = hi.val / 8 := Nat.shiftRight_eq_div_pow hi.val 3
  unfold readCmd
  rw [g1]
  dsimp only
  rw [if_neg (by decide), g2]
  dsimp only
  rw [if_neg (by decide), hlo]
  dsimp only
  rw [hhi]
  dsimp only
  rw [long_span, hsh]
  by_cases h7 : hi.val &&& 7 = 0
  · rw [if_pos h7, if_pos (by rw [h7])]
  · rw [if_neg h7, if_neg (by omega)]

/-- C28: in one iteration of the loop of `unpack` (after the window flush, which
leaves the bit stream alone), a short back-reference - control bits 0, 0, then
the bits `b1`, `b2` and the raw byte `v` - copies `2 + 2*b1 + b2` bytes at the
distance `v - 256`, which lies in `[-256, -1]`; a long back-reference - control
bits 0, 1, then the raw bytes `lo`, `hi` - has the distance
`-8192 + 256*(hi >> 3) + lo`, which lies in `[-8192, -1]`, and the length
`(hi & 7) + 2` when `hi & 7` is not zero; when `hi & 7 = 0` one more raw byte
`e` is read: `e = 0` ends decoding, `e = 1` copies nothing and goes on, any
other `e` copies `e + 1` bytes. -/
theorem backref_codes (inp : List Byte) (s0 s : Unp) (hf : flush s0 = some s) :
    (∀ b1 b2 bits4 ip4 v,
      getbits inp 4 s.bits s.ip = some ([0, 0, b1, b2], bits4, ip4) → inp[ip4]? = some v →
      b1 < 2 ∧ b2 < 2 ∧ -256 ≤ (v.val : Int) - 256 ∧ (v.val : Int) - 256 ≤ -1 ∧
      unpackStep inp s0 =
        stepCopy s bits4 (ip4 + 1) (2 + 2 * b1 + b2) ((v.val : Int) - 256)) ∧
    (∀ bits2 ip2 lo hi,
      getbits inp 2 s.bits s.ip = some ([0, 1], bits2, ip2) → inp[ip2]? = some lo →
      inp[ip2 + 1]? = some hi →
      (-8192 : Int) ≤ (-8192 : Int) + (256 : Int) * ((hi.val >>> 3 : Nat) : Int) + (lo.val : Int) ∧
      (-8192 : Int) + (256 : Int) * ((hi.val >>> 3 : Nat) : Int) + (lo.val : Int) ≤ -1 ∧
      (hi.val &&& 7 ≠ 0 →
        unpackStep inp s0 = stepCopy s bits2 (ip2 + 2) ((hi.val &&& 7) + 2)
          ((-8192 : Int) + (256 : Int) * ((hi.val >>> 3 : Nat) : Int) + (lo.val : Int))) ∧
      (hi.val &&& 7 = 0 → ∀ e, inp[ip2 + 2]? = some e →
        (e.val = 0 → unpackStep inp s0 = .stop { s with bits := bits2, ip := ip2 + 3 }) ∧
        (e.val = 1 → unpackStep inp s0 = .next { s with bits := bits2, ip := ip2 + 3 }) ∧
        (2 ≤ e.val →
          unpackStep inp s0 = stepCopy s bits2 (ip2 + 3) (e.val + 1)
            ((-8192 : Int) + (256 : Int) * ((hi.val >>> 3 : Nat) : Int) + (lo.val : Int))))) := by
  constructor
  · intro b1 b2 bits4 ip4 v hg hv
    have hvl := v.isLt
    obtain ⟨q1, k1, g1, hg1⟩ := getbits_cons _ _ _ _ _ _ _ _ hg
    obtain ⟨q2, k2, g2, hg2⟩ := getbits_cons _ _ _ _ _ _ _ _ hg1
    obtain ⟨q3, k3, g3, hg3⟩ := getbits_cons _ _ _ _ _ _ _ _ hg2
    obtain ⟨q4, k4, g4, _⟩ := getbits_cons _ _ _ _ _ _ _ _ hg3
    refine ⟨getbit_lt _ _ _ _ _ _ g3, getbit_lt _ _ _ _ _ _ g4, by omega, by omega, ?_⟩
    rw [unpackStep_eq, hf]
    dsimp only
    rw [readCmd_short inp s.bits bits4 s.ip ip4 b1 b2 v hg hv]
    rfl
  · intro bits2 ip2 lo hi hg hlo hhi
    have hl := lo.isLt
    have hh := hi.isLt
    have hsh : hi.val >>> 3 = hi.val / 8 := Nat.shiftRight_eq_div_pow hi.val 3
    have hrd := readCmd_long inp s.bits bits2 s.ip ip2 lo hi hg hlo hhi
    refine ⟨by omega, by omega, ?_, ?_⟩
    · intro h7
      rw [unpackStep_eq, hf]
      dsimp only
      rw [hrd, if_neg h7]
      rfl
    · intro h7 e he
      rw [if_pos h7, he] at hrd
      dsimp only at hrd
      refine ⟨?_, ?_, ?_⟩
      · intro h0
        rw [unpackStep_eq, hf]
        dsimp only
        rw [hrd, if_pos h0]
        rfl
      · intro h1
        rw [unpackStep_eq, hf]
        dsimp only
        rw [hrd, if_neg (by omega), if_pos h1]
        rfl
      · intro h2
        rw [unpackStep_eq, hf]
        dsimp only
        rw [hrd, if_neg (by omega), if_neg (by omega)]
        rfl

theorem backref_codes_witness :
    unpackStep runStream runState = stepCopy runState ⟨2, 11⟩ 4 4 (-1) ∧
    unpackStep runStream { runState with bits := ⟨2, 11⟩, ip := 4 } =
      .stop { runState with bits := ⟨0, 9⟩, ip := 7 } :=
  ⟨((backref_codes runStream runState runState rfl).1 1 0 ⟨2, 11⟩ 3 0xff rfl rfl).2.2.2.2,
    (((backref_codes runStream { runState with bits := ⟨2, 11⟩, ip := 4 } _ rfl).2
      ⟨0, 9⟩ 4 0 0 rfl rfl rfl).2.2.2 rfl 0 rfl).1 rfl⟩

theorem refCopy_spec (d : Nat) (hd : 1 ≤ d) :
    ∀ (ln : Nat) (acc : List Byte), d ≤ acc.length →
      ∃ acc2, refCopy ln (-(d : Int)) acc = some acc2 ∧ acc2.length = acc.length + ln ∧
        (∀ j, j < acc.length → acc2[j]? = acc[j]?) ∧
        (∀ i, i < ln → acc2[acc.length + i]? = acc2[acc.length + i - d]?)
  | 0, acc, _ => ⟨acc, rfl, rfl, fun _ _ => rfl, fun i hi => absurd hi (Nat.not_lt_zero i)⟩
  | ln + 1, acc, hlen => by
    have hidx : ((acc.length : Int) + -(d : Int)).toNat = acc.length - d := by omega
    have hlt : acc.length - d < acc.length := by omega
    unfold refCopy
    rw [if_neg (by omega), hidx, List.getElem?_eq_getElem hlt]
    dsimp only
    obtain ⟨acc2, h1, h2, h3, h4⟩ :=
      refCopy_spec d hd ln (acc ++ [acc[acc.length - d]])
        (by rw [List.length_append, List.length_singleton]; omega)
    rw [List.length_append, List.length_singleton] at h2 h3 h4
    refine ⟨acc2, h1, by omega, ?_, ?_⟩
    · intro j hj
      rw [h3 j (by omega), List.getElem?_append_left hj]
    · intro i hi
      cases i with
      | zero =>
        rw [Nat.add_zero, h3 _ (by omega), h3 _ (by omega), List.getElem?_append_left hlt,
          List.getElem?_append_right (Nat.le_refl _), Nat.sub_self, List.getElem?_eq_getElem hlt]
        rfl
      | succ i =>
        have := h4 i (by omega)
        rw [show acc.length + (i + 1) = acc.length + 1 + i by omega]
        exact this

/-- C29: let the loop of `unpack` be in a state linked to the decoded output
`fl ++ window[0, dp)` of `n` bytes (`fl` the bytes flushed so far), and let the
iteration read a back-reference of length `L` and distance `-d` with
`1 <= d <= n`. Then the iteration goes on, the decoded output grows by exactly
`L` bytes, what was decoded before is kept, and for every `i < L` the byte at
position `n + i` equals the byte at position `n + i - d`, also when `d < L`. -/
theorem backref_copy (inp out0 : List Byte) (iop : Nat) (s : Unp) (r : Ref) (fl : List Byte)
    (L d : Nat) (bits : bitstream) (ip : Nat)
    (h : Sim out0 iop s r fl) (hok : BitsOk inp s.bits s.ip)
    (hrd : readCmd inp s.bits s.ip = some (.copy L (-(d : Int)), bits, ip))
    (hd1 : 1 ≤ d) (hd2 : d ≤ (fl ++ s.data.take s.dp).length) :
    ∃ s2 r2 fl2, unpackStep inp s = .next s2 ∧ Sim out0 iop s2 r2 fl2 ∧
      (fl2 ++ s2.data.take s2.dp).length = (fl ++ s.data.take s.dp).length + L ∧
      (fl2 ++ s2.data.take s2.dp).take (fl ++ s.data.take s.dp).length =
        fl ++ s.data.take s.dp ∧
      ∀ i, i < L →
        (fl2 ++ s2.data.take s2.dp)[(fl ++ s.data.take s.dp).length + i]? =
          (fl2 ++ s2.data.take s2.dp)[(fl ++ s.data.take s.dp).length + i - d]? := by
  rw [← h.acc] at hd2 ⊢
  rw [h.bits, h.ip] at hok hrd
  obtain ⟨acc2, c1, c2, c3, c4⟩ := refCopy_spec d hd1 L r.acc hd2
  have href : refStep inp r = .next { acc := acc2, bits := bits, ip := ip } := by
    unfold refStep
    rw [hrd]
    dsimp only
    rw [c1]
  rcases step_sim inp out0 iop s r fl h hok with ⟨_, h2⟩ | ⟨s2, r2, fl2, h1, h2, h3, _, _⟩ |
    ⟨_, _, _, _, h2, _, _⟩
  · rw [href] at h2
    exact absurd h2 (by simp)
  · rw [href] at h2
    injection h2 with h2
    subst h2
    refine ⟨s2, _, fl2, h1, h3, ?_, ?_, ?_⟩
    · rw [← h3.acc]
      exact c2
    · rw [← h3.acc]
      apply List.ext_getElem?
      intro j
      rw [List.getElem?_take]
      by_cases hj : j < r.acc.length
      · rw [if_pos hj]
        exact c3 j hj
      · rw [if_neg hj, List.getElem?_eq_none (by omega)]
    · intro i hi
      rw [← h3.acc]
      exact c4 i hi
  · rw [href] at h2
    exact absurd h2 (by simp)

theorem runState_sim : Sim [] 0 runState runRef [] :=
  { bits := rfl, ip := rfl,
    len := by
      unfold runState
      dsimp only
      rw [List.length_cons, List.length_replicate]
    dp := by decide, op := rfl, acc := rfl, hist := Or.inl rfl, out := fun _ => rfl }

theorem backref_copy_witness :
    ∃ s2 r2 fl2, unpackStep runStream runState = .next s2 ∧ Sim [] 0 s2 r2 fl2 ∧
      (fl2 ++ s2.data.take s2.dp).length = 1 + 4 ∧
      (fl2 ++ s2.data.take s2.dp).take 1 = [65] ∧
      ∀ i, i < 4 →
        (fl2 ++ s2.data.take s2.dp)[1 + i]? = (fl2 ++ s2.data.take s2.dp)[1 + i - 1]? :=
  backref_copy runStream [] 0 runState runRef [] 4 1 ⟨2, 11⟩ 4 runState_sim
    ⟨by decide, by decide, by decide⟩ rfl (by decide) (by decide)

theorem pathAt_range (path : List Byte) (i v : Int) (h : pathAt path i = some v) :
    0 ≤ v ∧ v ≤ 255 ∧ 0 ≤ i ∧ i < 256 ∧ v = ((path.getD i.toNat 0).val : Int) := by
  unfold pathAt at h
  split at h
  · rename_i hi
    injection h with h
    have := (path.getD i.toNat 0).isLt
    exact ⟨by omega, by omega, hi.1, hi.2, h.symm⟩
  · exact absurd h (by simp)

/-- C30: when an active monster fetches its next waypoint in `move_monsters`
(its pending step is `(0, 0)`), the pair read from the level path consists of
two numbers between 0 and 255, because the path is an array of unsigned bytes:
it is never `(-22, -22)`, so the monster is never reset to the start of its
path. The next waypoint is the pair read and the path index grows by 2, also
when the two bytes are the sentinel bytes `0xEA 0xEA`, which give the waypoint
`(234, 234)`. -/
theorem waypoint_never_resets (path : List Byte) (m m2 : Monster)
    (h0 : m.next_px = 0 ∧ m.next_py = 0) (h : fetchWaypoint path m = some m2) :
    m2.path_index = m.path_index + 2 ∧
    m2.next_px = ((path.getD m.path_index.toNat 0).val : Int) ∧
    m2.next_py = ((path.getD (m.path_index + 1).toNat 0).val : Int) ∧
    ¬ (m2.next_px = -22 ∧ m2.next_py = -22) ∧
    (path.getD m.path_index.toNat 0 = 0xEA → path.getD (m.path_index + 1).toNat 0 = 0xEA →
      m2.next_px = 234 ∧ m2.next_py = 234) := by
  unfold fetchWaypoint at h
  rw [if_pos h0] at h
  cases hx : pathAt path m.path_index with
  | none => rw [hx] at h; exact absurd h (by simp)
  | some px =>
    rw [hx] at h
    dsimp only at h
    cases hy : pathAt path (m.path_index + 1) with
    | none => rw [hy] at h; exact absurd h (by simp)
    | some py =>
      rw [hy] at h
      dsimp only at h
      obtain ⟨x1, x2, x3, x4, x5⟩ := pathAt_range _ _ _ hx
      obtain ⟨y1, y2, y3, y4, y5⟩ := pathAt_range _ _ _ hy
      have hno : ¬ (px = -22 ∧ py = -22) := by omega
      rw [if_neg hno] at h
      injection h with h
      subst h
      dsimp only
      refine ⟨rfl, x5, y5, hno, ?_⟩
      intro e1 e2
      rw [e1] at x5
      rw [e2] at y5
      exact ⟨x5, y5⟩

theorem waypoint_never_resets_witness :
    fetchWaypoint sentinelPath sentinelMonster =
      some { sentinelMonster with next_px := 234, next_py := 234, path_index := 4 } ∧
    ({ sentinelMonster with next_px := 234, next_py := 234, path_index := 4 } :
      Monster).next_px = 234 ∧
    moveMonster sentinelPath sentinelMonster =
      some { sentinelMonster with next_px := 232, next_py := 232, path_index := 4,
                                  monster_px := 23, monster_py := 18 } :=
  ⟨by decide,
    ((waypoint_never_resets sentinelPath sentinelMonster _ ⟨rfl, rfl⟩
      (show fetchWaypoint sentinelPath sentinelMonster =
        some { sentinelMonster with next_px := 234, next_py := 234, path_index := 4 }
        by decide)).2.2.2.2 rfl rfl).1,
    by decide⟩

/-! ## Dave -/

theorem daveGrid_fire (c : Game) : (daveGrid c).dave_fire = c.dave_fire := by
  simp [daveGrid, apply_ite Game.dave_fire]

theorem daveWalk_fire (c : Game) : (daveWalk c).dave_fire = c.dave_fire := by
  simp [daveWalk, apply_ite Game.dave_fire]

theorem daveJump_fire (c : Game) : (daveJump c).dave_fire = c.dave_fire := by
  simp [daveJump, apply_ite Game.dave_fire]

theorem daveFire_spec (c : Game) (h : c.dave_fire = true) :
    (daveFire c).dave_fire = false ∧ (daveFire c).dave_px = c.dave_px ∧
    (daveFire c).dave_py = c.dave_py ∧ (daveFire c).last_dir = c.last_dir ∧
    (daveFire c).dbullet_py = c.dave_py + 8 ∧
    (daveFire c).dbullet_dir = (if c.last_dir = 0 then 1 else c.last_dir) ∧
    ((daveFire c).dbullet_dir = 1 → (daveFire c).dbullet_px = c.dave_px + 18) ∧
    ((daveFire c).dbullet_dir = -1 → (daveFire c).dbullet_px = c.dave_py - 8) := by
  unfold daveFire
  rw [if_pos h]
  by_cases h0 : c.last_dir = 0
  · simp [h0]
  · by_cases h1 : c.last_dir = 1
    · simp [h1]
    · by_cases h2 : c.last_dir = -1
      · simp [h2]
      · simp [h0, h1, h2]

/-- C31: when Dave fires in `move_dave`, the bullet direction becomes the
direction he faces (1 when he faces neither way), its y position becomes
`dave_py + 8` and the fire request is cleared; for the direction 1 the x
position becomes `dave_px + 18`, but for the direction -1 it becomes
`dave_py - 8`, the vertical position of Dave minus 8, not `dave_px - 8`. The
positions are those that `move_dave` leaves. -/
theorem dave_bullet_start (c : Game) (h : c.dave_fire = true) :
    (move_dave c).dave_fire = false ∧
    (move_dave c).dbullet_py = (move_dave c).dave_py + 8 ∧
    (move_dave c).dbullet_dir = (if (move_dave c).last_dir = 0 then 1 else (move_dave c).last_dir) ∧
    ((move_dave c).dbullet_dir = 1 → (move_dave c).dbullet_px = (move_dave c).dave_px + 18) ∧
    ((move_dave c).dbullet_dir = -1 → (move_dave c).dbullet_px = (move_dave c).dave_py - 8) := by
  have hf : (daveJump (daveWalk (daveGrid c))).dave_fire = true := by
    rw [daveJump_fire, daveWalk_fire, daveGrid_fire, h]
  obtain ⟨h1, h2, h3, h4, h5, h6, h7, h8⟩ := daveFire_spec _ hf
  unfold move_dave
  rw [h2, h3, h4]
  exact ⟨h1, h5, h6, h7, h8⟩

theorem dave_bullet_start_witness :
    (move_dave leftShooter).dbullet_dir = -1 ∧ (move_dave leftShooter).dave_px = 100 ∧
    (move_dave leftShooter).dave_py = 40 ∧ (move_dave leftShooter).dbullet_px = 32 ∧
    (move_dave leftShooter).dbullet_px ≠ (move_dave leftShooter).dave_px - 8 :=
  have h := (dave_bullet_start leftShooter rfl).2.2.2.2 (by decide)
  ⟨by decide, by decide, by decide, h.trans (by decide), by decide⟩

/-! ## Termination and the window of `unpack` -/

theorem step_measure (inp : List Byte) (s s2 : Unp) (hok : BitsOk inp s.bits s.ip)
    (h : unpackStep inp s = .next s2) :
    BitsOk inp s2.bits s2.ip ∧ bitsLeft inp s2.bits s2.ip + 1 ≤ bitsLeft inp s.bits s.ip := by
  rw [unpackStep_eq] at h
  cases hf : flush s with
  | none => rw [hf] at h; exact absurd h (by simp)
  | some s1 =>
    rw [hf] at h
    dsimp only at h
    obtain ⟨hb1, hi1⟩ := flush_reader _ _ hf
    rw [hb1, hi1] at h
    cases hrd : readCmd inp s.bits s.ip with
    | none => rw [hrd] at h; exact absurd h (by simp)
    | some res =>
      obtain ⟨cmd, bits, ip⟩ := res
      rw [hrd] at h
      dsimp only at h
      obtain ⟨hok2, hdec, _⟩ := readCmd_spec _ _ _ _ _ _ hrd hok
      by_cases hc : cmd = .stop
      · subst hc
        exact absurd h (by simp [applyCmd])
      · rcases applyCmd_cases s1 bits ip cmd hc with ha | ⟨s3, ha, hb, hi⟩
        · rw [ha] at h
          exact absurd h (by simp)
        · rw [ha] at h
          injection h with h
          subst h
          rw [hb, hi]
          exact ⟨hok2, hdec⟩

theorem unpackLoop_terminates (inp : List Byte) :
    ∀ (fuel : Nat) (s : Unp), BitsOk inp s.bits s.ip → bitsLeft inp s.bits s.ip < fuel →
      unpackLoop inp fuel s ≠ .hang
  | 0, _, _, hf => by omega
  | fuel + 1, s, hok, hf => by
    unfold unpackLoop
    cases hs : unpackStep inp s with
    | fault => simp
    | stop s2 => simp
    | next s2 =>
      obtain ⟨h1, h2⟩ := step_measure inp s s2 hok hs
      exact unpackLoop_terminates inp fuel s2 h1 (by omega)

theorem getbit_cursor (inp : List Byte) (bits bits2 : bitstream) (ip ip2 b : Nat)
    (h : bits.getbit inp ip = some (b, bits2, ip2)) (hok : BitsOk inp bits ip) :
    (bits.count = 1 → ip2 = ip + 2 ∧ bits2.count = 16) ∧
    (bits.count ≠ 1 → ip2 = ip ∧ bits2.count + 1 = bits.count) := by
  obtain ⟨h1, h2, h3⟩ := hok
  unfold bitstream.getbit at h
  dsimp only at h
  by_cases hc : (bits.count + 255) % 256 = 0
  · rw [if_pos hc] at h
    cases hw : le16At inp ip with
    | none => rw [hw] at h; exact absurd h (by simp)
    | some w =>
      rw [hw] at h
      injection h with h
      injection h with hb h
      injection h with hbits hip
      subst hb hbits hip
      exact ⟨fun _ => ⟨rfl, rfl⟩, fun hne => by omega⟩
  · rw [if_neg hc] at h
    injection h with h
    injection h with hb h
    injection h with hbits hip
    subst hb hbits hip
    refine ⟨fun h1 => by omega, fun _ => ⟨rfl, ?_⟩⟩
    dsimp only
    omega

/-- C32: `unpack` terminates on every input: it returns either a result or the
error of a corrupted stream, and never uses up its iteration budget. The reason
is the measure `16 * (len(in) - ip) + count` of control bits that the reader
can still deliver: every iteration of the decode loop that goes on lowers it by
at least 1, so from any sound reader state the loop ends (end-of-stream code,
or a panic that is recovered into the error) within that many iterations; a
call of `getbit` moves the cursor by two bytes exactly when it takes the last
of the 16 bits of the control word. -/
theorem unpack_terminates (p : ulz) :
    ((∃ q, unpack p = .ok q) ∨ unpack p = .error corruptMsg) ∧
    (∀ fuel s, BitsOk p.inp.elems s.bits s.ip → bitsLeft p.inp.elems s.bits s.ip < fuel →
      unpackLoop p.inp.elems fuel s ≠ .hang) ∧
    (∀ s s2, BitsOk p.inp.elems s.bits s.ip → unpackStep p.inp.elems s = .next s2 →
      BitsOk p.inp.elems s2.bits s2.ip ∧
      bitsLeft p.inp.elems s2.bits s2.ip < bitsLeft p.inp.elems s.bits s.ip) ∧
    (∀ bits bits2 ip ip2 b, BitsOk p.inp.elems bits ip →
      bits.getbit p.inp.elems ip = some (b, bits2, ip2) →
      (bits.count = 1 → ip2 = ip + 2 ∧ bits2.count = 16) ∧
      (bits.count ≠ 1 → ip2 = ip ∧ bits2.count + 1 = bits.count)) := by
  refine ⟨?_, fun fuel s => unpackLoop_terminates p.inp.elems fuel s, ?_, ?_⟩
  · rcases unpack_ref p with ⟨payload, _, h2⟩ | ⟨_, h2⟩
    · exact Or.inl ⟨_, h2⟩
    · exact Or.inr h2
  · intro s s2 hok h
    obtain ⟨h1, h2⟩ := step_measure _ s s2 hok h
    exact ⟨h1, by omega⟩
  · intro bits bits2 ip ip2 b hok h
    exact getbit_cursor _ _ _ _ _ _ h hok

theorem unpack_terminates_witness :
    ((∃ q, unpack overrunState = .ok q) ∨ unpack overrunState = .error corruptMsg) ∧
    ((∃ q, unpack image91Padded = .ok q) ∨ unpack image91Padded = .error corruptMsg) :=
  ⟨(unpack_terminates overrunState).1, (unpack_terminates image91Padded).1⟩

theorem flush_window (s : Unp) (hlen : s.data.length = 0x4500) (hdp : s.dp ≤ 0x4100) :
    ∃ s1, flush s = some s1 ∧ s1.data.length = 0x4500 ∧ s1.dp ≤ 0x4000 ∧
      s1.bits = s.bits ∧ s1.ip = s.ip ∧
      (s.dp ≤ 0x4000 → s1 = s) ∧
      (0x4000 < s.dp → s1.dp = s.dp - 0x2000 ∧ 0x2000 < s1.dp ∧ s1.op = s.op + 0x2000 ∧
        s1.data.take s1.dp = (s.data.take s.dp).drop 0x2000) := by
  by_cases hgt : s.dp > 0x4000
  · have hchunk : (s.data.take 0x2000).length = 0x2000 := by
      rw [List.length_take]; omega
    have hout : copyOut (if s.out.length < 0x2000 + s.op then resize s.out (0x2000 + s.op)
        else s.out) s.op (s.data.take 0x2000) = some (place s.out s.op (s.data.take 0x2000)) := by
      rw [resize_guard, show 0x2000 + s.op = s.op + (s.data.take 0x2000).length by omega]
      exact copyOut_resize _ _ _
    have hg : (goCopy (s.data.take (s.dp - 0x2000)) (s.data.drop 0x2000)).length =
        s.dp - 0x2000 := by
      rw [goCopy_length, List.length_take]; omega
    have hgo : goCopy (s.data.take (s.dp - 0x2000)) (s.data.drop 0x2000) =
        (s.data.drop 0x2000).take (s.dp - 0x2000) := by
      have e1 : List.drop (s.data.drop 0x2000).length (s.data.take (s.dp - 0x2000)) = [] :=
        List.drop_eq_nil_of_le (by rw [List.length_take, List.length_drop]; omega)
      unfold goCopy
      rw [e1, List.append_nil, List.length_take, Nat.min_eq_left (by omega)]
    refine ⟨{ s with out := place s.out s.op (s.data.take 0x2000), op := s.op + 0x2000,
                     dp := s.dp - 0x2000,
                     data := goCopy (s.data.take (s.dp - 0x2000)) (s.data.drop 0x2000) ++
                       s.data.drop (s.dp - 0x2000) }, ?_, ?_, ?_, rfl, rfl, ?_, ?_⟩
    · unfold flush
      rw [if_pos hgt]
      dsimp only
      rw [hout]
    · dsimp only
      rw [List.length_append, hg, List.length_drop]
      omega
    · dsimp only
      omega
    · intro hle
      omega
    · intro _
      refine ⟨rfl, by dsimp only; omega, rfl, ?_⟩
      dsimp only
      rw [List.take_left' hg, hgo, List.drop_take]
  · refine ⟨s, ?_, hlen, by omega, rfl, rfl, fun _ => rfl, fun h => by omega⟩
    unfold flush
    rw [if_neg hgt]

theorem copyLoop_window (span : Int) (hs : span ≤ -1) :
    ∀ (ln : Nat) (data : List Byte) (dp : Nat), dp + ln ≤ data.length →
      (copyLoop ln span data dp = none ∧ 0 < ln ∧ (dp : Int) + span < 0) ∨
      (∃ data2, copyLoop ln span data dp = some (data2, dp + ln) ∧
        data2.length = data.length)
  | 0, data, dp, _ => Or.inr ⟨data, rfl, rfl⟩
  | ln + 1, data, dp, hlen => by
    unfold copyLoop
    by_cases hneg : (dp : Int) + span < 0
    · left
      rw [if_pos hneg]
      exact ⟨rfl, by omega, hneg⟩
    · rw [if_neg hneg]
      have hjl : ((dp : Int) + span).toNat < data.length := by omega
      rw [List.getElem?_eq_getElem hjl]
      dsimp only
      rw [if_pos (by omega)]
      rcases copyLoop_window span hs ln (data.set dp (data[((dp : Int) + span).toNat])) (dp + 1)
        (by rw [List.length_set]; omega) with ⟨h1, h2, h3⟩ | ⟨data2, h1, h2⟩
      · omega
      · right
        rw [List.length_set] at h2
        exact ⟨data2, by rw [h1, show dp + 1 + ln = dp + (ln + 1) by omega], h2⟩

/-- The facts about the window that hold at the head of every iteration of the
loop of `unpack`, `iop` being the write position in the output at the start. -/
theorem step_window (inp : List Byte) (iop : Nat) (s : Unp) (hlen : s.data.length = 0x4500)
    (hdp : s.dp ≤ 0x4100) (hok : BitsOk inp s.bits s.ip) (hh : s.op = iop ∨ 0x2000 < s.dp) :
    ∃ s1, flush s = some s1 ∧ s1.data.length = 0x4500 ∧ s1.dp ≤ 0x4000 ∧
      (0x4000 < s.dp → s1.dp = s.dp - 0x2000 ∧ 0x2000 < s1.dp ∧
        s1.data.take s1.dp = (s.data.take s.dp).drop 0x2000) ∧
      (∀ s2, unpackStep inp s = .next s2 →
        s2.data.length = 0x4500 ∧ s1.dp ≤ s2.dp ∧ s2.dp ≤ s1.dp + 256 ∧
        BitsOk inp s2.bits s2.ip ∧ (s2.op = iop ∨ 0x2000 < s2.dp)) ∧
      (unpackStep inp s = .fault →
        readCmd inp s.bits s.ip = none ∨
        (s1.op = iop ∧ ∃ ln span bits ip,
          readCmd inp s.bits s.ip = some (.copy ln span, bits, ip) ∧
          (s1.dp : Int) + span < 0)) := by
  obtain ⟨s1, hf, hl1, hd1, hb1, hi1, hsame, hflush⟩ := flush_window s hlen hdp
  have hh1 : s1.op = iop ∨ 0x2000 < s1.dp := by
    by_cases hgt : 0x4000 < s.dp
    · exact Or.inr (hflush hgt).2.1
    · rw [hsame (by omega)]
      exact hh
  refine ⟨s1, hf, hl1, hd1, fun hgt => ⟨(hflush hgt).1, (hflush hgt).2.1, (hflush hgt).2.2.2⟩,
    ?_, ?_⟩
  · intro s2 hstep
    obtain ⟨hok2, _⟩ := step_measure inp s s2 hok hstep
    rw [unpackStep_eq, hf] at hstep
    dsimp only at hstep
    rw [hb1, hi1] at hstep
    cases hrd : readCmd inp s.bits s.ip with
    | none => rw [hrd] at hstep; exact absurd hstep (by simp)
    | some res =>
      obtain ⟨cmd, bits, ip⟩ := res
      rw [hrd] at hstep
      dsimp only at hstep
      obtain ⟨_, _, hcopy⟩ := readCmd_spec _ _ _ _ _ _ hrd hok
      cases cmd with
      | lit v =>
        dsimp only [applyCmd] at hstep
        rw [if_pos (by omega)] at hstep
        injection hstep with hstep
        subst hstep
        dsimp only at hok2 ⊢
        refine ⟨by rw [List.length_set]; exact hl1, by omega, by omega, hok2, ?_⟩
        rcases hh1 with e | e
        · exact Or.inl e
        · exact Or.inr (by omega)
      | copy ln span =>
        obtain ⟨_, hl2, _, hs2⟩ := hcopy ln span rfl
        dsimp only [applyCmd, stepCopy] at hstep
        rcases copyLoop_window span hs2 ln s1.data s1.dp (by omega) with
          ⟨hc, _, _⟩ | ⟨data2, hc, hc2⟩
        · rw [hc] at hstep
          exact absurd hstep (by simp)
        · rw [hc] at hstep
          dsimp only at hstep
          injection hstep with hstep
          subst hstep
          dsimp only at hok2 ⊢
          refine ⟨by rw [hc2]; exact hl1, by omega, by omega, hok2, ?_⟩
          rcases hh1 with e | e
          · exact Or.inl e
          · exact Or.inr (by omega)
      | skip =>
        dsimp only [applyCmd] at hstep
        injection hstep with hstep
        subst hstep
        dsimp only at hok2 ⊢
        exact ⟨hl1, by omega, by omega, hok2, hh1⟩
      | stop =>
        dsimp only [applyCmd] at hstep
        exact absurd hstep (by simp)
  · intro hfault
    rw [unpackStep_eq, hf] at hfault
    dsimp only at hfault
    rw [hb1, hi1] at hfault
    cases hrd : readCmd inp s.bits s.ip with
    | none => exact Or.inl rfl
    | some res =>
      obtain ⟨cmd, bits, ip⟩ := res
      rw [hrd] at hfault
      dsimp only at hfault
      obtain ⟨_, _, hcopy⟩ := readCmd_spec _ _ _ _ _ _ hrd hok
      right
      cases cmd with
      | lit v =>
        dsimp only [applyCmd] at hfault
        rw [if_pos (by omega)] at hfault
        exact absurd hfault (by simp)
      | copy ln span =>
        obtain ⟨_, hl2, hs1, hs2⟩ := hcopy ln span rfl
        dsimp only [applyCmd, stepCopy] at hfault
        rcases copyLoop_window span hs2 ln s1.data s1.dp (by omega) with
          ⟨hc, _, hneg⟩ | ⟨data2, hc, hc2⟩
        · refine ⟨?_, ln, span, bits, ip, rfl, hneg⟩
          rcases hh1 with e | e
          · exact e
          · omega
        · rw [hc] at hfault
          exact absurd hfault (by simp)
      | skip =>
        dsimp only [applyCmd] at hfault
        exact absurd hfault (by simp)
      | stop =>
        dsimp only [applyCmd] at hfault
        exact absurd hfault (by simp)

theorem iter_window (inp : List Byte) (iop : Nat) :
    ∀ (n : Nat) (s0 s : Unp), s0.data.length = 0x4500 → s0.dp ≤ 0x4100 →
      BitsOk inp s0.bits s0.ip → (s0.op = iop ∨ 0x2000 < s0.dp) →
      unpackIter inp n s0 = some s →
      s.data.length = 0x4500 ∧ s.dp ≤ 0x4100 ∧ BitsOk inp s.bits s.ip ∧
        (s.op = iop ∨ 0x2000 < s.dp)
  | 0, s0, s, h1, h2, h3, h4, h => by
    rw [unpackIter] at h
    injection h with h
    subst h
    exact ⟨h1, h2, h3, h4⟩
  | n + 1, s0, s, h1, h2, h3, h4, h => by
    rw [unpackIter] at h
    cases hs : unpackStep inp s0 with
    | fault => rw [hs] at h; exact absurd h (by simp)
    | stop s2 => rw [hs] at h; exact absurd h (by simp)
    | next s2 =>
      rw [hs] at h
      dsimp only at h
      obtain ⟨s1, _, _, hd1, _, hnext, _⟩ := step_window inp iop s0 h1 h2 h3 h4
      obtain ⟨a1, a2, a3, a4, a5⟩ := hnext s2 hs
      exact iter_window inp iop n s2 s a1 (by omega) a4 a5 h

theorem unpackLoop_iter (inp : List Byte) :
    ∀ (n : Nat) (s0 s : Unp) (fuel : Nat), unpackIter inp n s0 = some s →
      unpackLoop inp (n + fuel) s0 = unpackLoop inp fuel s
  | 0, s0, s, fuel, h => by
    rw [unpackIter] at h
    injection h with h
    rw [h, Nat.zero_add]
  | n + 1, s0, s, fuel, h => by
    rw [unpackIter] at h
    rw [show n + 1 + fuel = (n + fuel) + 1 by omega, unpackLoop]
    cases hs : unpackStep inp s0 with
    | fault => rw [hs] at h; exact absurd h (by simp)
    | stop s2 => rw [hs] at h; exact absurd h (by simp)
    | next s2 =>
      rw [hs] at h
      dsimp only at h ⊢
      exact unpackLoop_iter inp n s2 s fuel h

/-- C33: at the head of every iteration of the loop of `unpack`, on any input,
the window has 0x4500 bytes and the write cursor satisfies `dp <= 0x4100`. The
flush at the head of the iteration cannot fail and leaves `dp <= 0x4000`; when
it moves the window it keeps the last `dp - 0x2000 > 0x2000` decoded bytes. An
iteration that goes on adds at most 256 bytes, so `dp` never exceeds 0x4100
and no write to the window is out of range: the iteration panics only when a
read runs off the input, or when a back-reference points before the start of
the output while nothing has been flushed yet. The states `s` are those of the
loop: running it from the start is the same as running it from `s`. -/
theorem window_cursor_bound (p : ulz) (bits : bitstream) (ip n : Nat) (s : Unp)
    (hinit : bitstream.init p.inp.elems (ipOf p).toNat = some (bits, ip))
    (hs : unpackIter p.inp.elems n
      { data := List.replicate 0x4500 0, bits := bits, dp := 0, ip := ip,
        op := hd p.ohead 4 <<< 4, out := p.out } = some s) :
    s.data.length = 0x4500 ∧ 0 ≤ s.dp ∧ s.dp ≤ 0x4100 ∧
    (∀ fuel, unpackLoop p.inp.elems (n + fuel)
      { data := List.replicate 0x4500 0, bits := bits, dp := 0, ip := ip,
        op := hd p.ohead 4 <<< 4, out := p.out } = unpackLoop p.inp.elems fuel s) ∧
    ∃ s1, flush s = some s1 ∧ s1.data.length = 0x4500 ∧ s1.dp ≤ 0x4000 ∧
      (0x4000 < s.dp → s1.dp = s.dp - 0x2000 ∧ 0x2000 < s1.dp ∧
        s1.data.take s1.dp = (s.data.take s.dp).drop 0x2000) ∧
      (∀ s2, unpackStep p.inp.elems s = .next s2 →
        s2.data.length = 0x4500 ∧ s1.dp ≤ s2.dp ∧ s2.dp ≤ s1.dp + 256 ∧ s2.dp ≤ 0x4100) ∧
      (unpackStep p.inp.elems s = .fault →
        readCmd p.inp.elems s.bits s.ip = none ∨
        (s1.op = hd p.ohead 4 <<< 4 ∧ ∃ ln span bits2 ip2,
          readCmd p.inp.elems s.bits s.ip = some (.copy ln span, bits2, ip2) ∧
          -8192 ≤ span ∧ (s1.dp : Int) + span < 0)) := by
  obtain ⟨hok0, _⟩ := init_spec _ _ _ _ hinit
  obtain ⟨h1, h2, h3, h4⟩ := iter_window p.inp.elems (hd p.ohead 4 <<< 4) n _ s
    (List.length_replicate _ _) (by dsimp only; omega) hok0 (Or.inl rfl) hs
  obtain ⟨s1, hf, hl1, hd1, hfl, hnext, hfault⟩ :=
    step_window p.inp.elems (hd p.ohead 4 <<< 4) s h1 h2 h3 h4
  refine ⟨h1, Nat.zero_le _, h2, fun fuel => unpackLoop_iter _ n _ s fuel hs, s1, hf, hl1, hd1,
    hfl, ?_, ?_⟩
  · intro s2 hstep
    obtain ⟨a1, a2, a3, _, _⟩ := hnext s2 hstep
    exact ⟨a1, a2, a3, by omega⟩
  · intro hft
    rcases hfault hft with hn | ⟨ho, ln, span, bits2, ip2, hrd, hneg⟩
    · exact Or.inl hn
    · obtain ⟨_, _, hcopy⟩ := readCmd_spec _ _ _ _ _ _ hrd h3
      exact Or.inr ⟨ho, ln, span, bits2, ip2, hrd, (hcopy ln span rfl).2.2.1, hneg⟩

theorem flush_small (s : Unp) (h : s.dp ≤ 0x4000) : flush s = some s := by
  unfold flush
  rw [if_neg (by omega)]

theorem runStart_step : unpackStep runStream runStart = .next runState := by
  have hrd : readCmd runStream runStart.bits runStart.ip = some (.lit 65, ⟨0x24, 15⟩, 3) := by
    decide
  have hlen : runStart.dp < runStart.data.length := by
    show 0 < (List.replicate 0x4500 (0 : Byte)).length
    rw [List.length_replicate]
    decide
  rw [unpackStep_eq, flush_small runStart (by decide)]
  dsimp only
  rw [hrd]
  dsimp only [applyCmd]
  rw [if_pos hlen]
  rfl

theorem runInput_first : unpackIter runStream 1 runStart = some runState := by
  rw [unpackIter, runStart_step]
  rfl

theorem window_cursor_bound_witness :
    runState.data.length = 0x4500 ∧ 0 ≤ runState.dp ∧ runState.dp ≤ 0x4100 ∧
    ∃ s1, flush runState = some s1 ∧ s1.dp ≤ 0x4000 :=
  have h := window_cursor_bound runInput ⟨0x49, 16⟩ 2 1 runState rfl runInput_first
  ⟨h.1, h.2.1, h.2.2.1,
    match h.2.2.2.2 with
    | ⟨s1, hf, _, hd1, _⟩ => ⟨s1, hf, hd1⟩⟩

/-! ## The header of the decoded image -/

theorem beforeUnpack_facts (inp : Slice) (p : ulz) (h : beforeUnpack inp = some p) :
    p.ohead.length = 0x10 ∧ 0x1c ≤ p.out.length ∧ p.out.length % 512 = 0 ∧
    hd p.ohead 4 = (p.out.length / 16) % 65536 := by
  obtain ⟨ver, p1, q, _, _, hm, hoh, hp⟩ := beforeUnpack_inv inp p h
  obtain ⟨_, t, inf, ohead2, hl, hq, _⟩ := mkreltbl_ok _ q hm
  obtain ⟨ht, _, _⟩ := reloc91Loop_trace _ _ t hl (show (0 : Nat) < 65536 by decide)
  have hqout : 0x1c ≤ q.out.length := by
    rw [hq]
    dsimp only
    rw [ht, List.length_append]
    have : (Rel.init (List.drop (relocStart91 { p1 with ver := ver })
        ({ p1 with ver := ver } : ulz).inp.elems) (List.replicate 0x1c 0)).out.length = 0x1c :=
      List.length_replicate _ _
    omega
  obtain ⟨h1, h2⟩ := pad_spec q.out.length
  have hout : p.out.length =
      q.out.length + (((0x200 : Int) - (q.out.length : Int)) % 512).toNat := by
    rw [hp]
    simp
  refine ⟨?_, by omega, by omega, ?_⟩
  · rw [hp]
    dsimp only
    rw [List.length_set]
    exact hoh
  · rw [hout, hp]
    dsimp only
    rw [hd_set_self _ _ _ (by omega), Nat.shiftRight_eq_div_pow]

theorem wordAt_of_bytes (out : List Byte) (i v : Nat) (h1 : out[2 * i]? = some (u8 v))
    (h2 : out[2 * i + 1]? = some (u8 (v >>> 8))) (hv : v < 65536) : wordAt out (2 * i) = v := by
  unfold wordAt
  rw [List.getD_eq_getElem?_getD, List.getD_eq_getElem?_getD, h1, h2]
  exact word_u8 v hv

theorem decode_of_payload (inp : Slice) (p : ulz) (payload : List Byte)
    (h : beforeUnpack inp = some p) (hr : refUnpack p = .ok payload) :
    ∃ q out, unpack p = .ok q ∧ q.loadsize = payload.length % 2 ^ 32 ∧
      hd q.ohead 4 = hd p.ohead 4 ∧ decode inp = .ok out ∧
      out.length = max p.out.length ((hd p.ohead 4 <<< 4) + payload.length) ∧
      wordAt out 8 = hd p.ohead 4 ∧
      wordAt out 2 = (payload.length % 2 ^ 32 + 16 * hd p.ohead 4) % 512 ∧
      wordAt out 4 =
        (((payload.length % 2 ^ 32 + 16 * hd p.ohead 4 + 0x1ff) % 2 ^ 32) / 512) % 65536 := by
  obtain ⟨hoh, hout, _, h4⟩ := beforeUnpack_facts inp p h
  rcases unpack_ref p with ⟨payload2, h1, h2⟩ | ⟨h1, _⟩
  swap
  · rw [hr] at h1
    exact absurd h1 (by simp)
  rw [hr] at h1
  injection h1 with h1
  subst h1
  obtain ⟨q, hq, hq4, hw1, hw2, hlen, hb, _⟩ := wrhead_spec
    { p with out := place p.out (hd p.ohead 4 <<< 4) payload,
             loadsize := payload.length % 2 ^ 32 } hoh (by
      dsimp only
      rw [place_length]
      omega)
  dsimp only at hq4 hw1 hw2 hlen
  have hdec : decode inp = .ok q.out := by
    rw [decode_of_beforeUnpack inp p h, h2]
    dsimp only
    rw [hq]
  have hlt4 : hd p.ohead 4 < 65536 := by
    rw [h4]
    omega
  refine ⟨_, q.out, h2, rfl, rfl, hdec, ?_, ?_, ?_, ?_⟩
  · rw [hlen, place_length]
  · have := wordAt_of_bytes q.out 4 (hd q.ohead 4) (hb 4 (by omega)).1 (hb 4 (by omega)).2
      (by rw [hq4]; exact hlt4)
    rw [this, hq4]
  · have := wordAt_of_bytes q.out 1 (hd q.ohead 1) (hb 1 (by omega)).1 (hb 1 (by omega)).2
      (by rw [hw1]; omega)
    rw [this, hw1]
  · have := wordAt_of_bytes q.out 2 (hd q.ohead 2) (hb 2 (by omega)).1 (hb 2 (by omega)).2
      (by rw [hw2]; omega)
    rw [this, hw2]
    omega

/-- C34 (amended): for every packed input that `decode` unpacks successfully, `p`
being the receiver on which `decode` calls `unpack`, with padded table length
below `2^20` and output length at most `2^25 - 512`:
`len(output) = 16 * (header word 4) + decompressed size`, header word 4 being
the word stored at output bytes 8..9, and the header stored in the output
describes that length: the little-endian word at output bytes 2..3 is
`len(output) mod 512` and the word at bytes 4..5 is `ceil(len(output) / 512)`. -/
theorem decode_header_length (inp : Slice) (p : ulz) (out : List Byte)
    (h : beforeUnpack inp = some p) (hdec : decode inp = .ok out)
    (htab : p.out.length < 2 ^ 20) (hlen : out.length + 511 < 2 ^ 25) :
    ∃ q payload, unpack p = .ok q ∧ refUnpack p = .ok payload ∧ q.loadsize = payload.length ∧
      out.length = 16 * hd q.ohead 4 + q.loadsize ∧
      16 * hd q.ohead 4 = p.out.length ∧
      wordAt out 8 = hd q.ohead 4 ∧
      wordAt out 2 = out.length % 512 ∧
      wordAt out 4 = (out.length + 511) / 512 := by
  obtain ⟨_, _, h512, h4⟩ := beforeUnpack_facts inp p h
  rcases unpack_ref p with ⟨payload, h1, _⟩ | ⟨_, h2⟩
  swap
  · rw [decode_of_beforeUnpack inp p h, h2] at hdec
    exact absurd hdec (by simp)
  obtain ⟨q, out2, hq, hl, hq4, hd2, hlen2, w8, w2, w4⟩ := decode_of_payload inp p payload h h1
  rw [hdec] at hd2
  injection hd2 with hd2
  subst hd2
  have hsh : hd p.ohead 4 <<< 4 = 16 * hd p.ohead 4 := by
    rw [Nat.shiftLeft_eq]
    omega
  rw [hsh] at hlen2
  have e4 : 16 * hd p.ohead 4 = p.out.length := by
    rw [h4]
    omega
  have hpl : payload.length < 2 ^ 25 := by omega
  refine ⟨q, payload, hq, h1, ?_, ?_, ?_, ?_, ?_, ?_⟩
  · rw [hl]
    omega
  · rw [hq4, hl]
    omega
  · rw [hq4]
    exact e4
  · rw [w8, hq4]
  · rw [w2]
    omega
  · rw [w4]
    omega


theorem unpack_of_ref (p : ulz) (payload : List Byte) (hr : refUnpack p = .ok payload) :
    unpack p = .ok { p with out := place p.out (hd p.ohead 4 <<< 4) payload,
                            loadsize := payload.length % 2 ^ 32 } := by
  rcases unpack_ref p with ⟨payload2, h1, h2⟩ | ⟨h1, _⟩
  · rw [hr] at h1
    injection h1 with h1
    rw [h2, ← h1]
  · rw [hr] at h1
    exact absurd h1 (by simp)

set_option maxRecDepth 1000000 in
theorem image91_payload : refUnpack image91Padded = .ok [65, 66, 67, 65, 66] := by decide

set_option maxRecDepth 100000 in
theorem image91_before : beforeUnpack image91 = some image91Padded := by decide

set_option maxRecDepth 100000 in
theorem image91_wrhead (q : ulz) (hq : unpack image91Padded = .ok q) :
    ∃ q2, wrhead q = .ok q2 ∧ q2.out = image91Out := by
  rw [unpack_of_ref image91Padded _ image91_payload] at hq
  injection hq with hq
  subst hq
  exact ⟨_, rfl, by decide⟩

theorem image91_decode : decode image91 = .ok image91Out := by
  have hu := unpack_of_ref image91Padded _ image91_payload
  obtain ⟨q2, h1, h2⟩ := image91_wrhead _ hu
  rw [decode_of_beforeUnpack image91 image91Padded image91_before, hu]
  dsimp only at h1 ⊢
  rw [h1]
  dsimp only
  rw [h2]

set_option maxRecDepth 100000 in
theorem decode_header_length_witness :
    ∃ q payload, unpack image91Padded = .ok q ∧ refUnpack image91Padded = .ok payload ∧
      q.loadsize = payload.length ∧
      image91Out.length = 16 * hd q.ohead 4 + q.loadsize ∧
      16 * hd q.ohead 4 = image91Padded.out.length ∧
      wordAt image91Out 8 = hd q.ohead 4 ∧
      wordAt image91Out 2 = image91Out.length % 512 ∧
      wordAt image91Out 4 = (image91Out.length + 511) / 512 :=
  decode_header_length image91 image91Padded image91Out image91_before image91_decode
    (by decide) (by decide)

/-! ### A stream of back-references -/

theorem copyCtl_spec (j : Nat) (h1 : 1 ≤ j) (h2 : j ≤ 8) :
    copyCtl j % 4 = 2 ∧ copyCtl j / 4 = copyCtl (j - 1) := by
  interval_cases j <;> exact ⟨by decide, by decide⟩

theorem longTail_copy (inp : List Byte) (bits : bitstream) (ip : Nat) (rest : List Byte)
    (hd : inp.drop ip = 0xff :: 0xf8 :: 0xff :: rest) :
    (match inp[ip]? with
      | none => none
      | some lo =>
        match inp[ip + 1]? with
        | none => none
        | some hi =>
          let span := toInt16 (lo.val ||| ((((hi.val - (hi.val &&& 0x07)) <<< 5) ||| 0xe000) % 65536))
          let ln := (hi.val &&& 0x07) + 2
          if ln = 2 then
            match inp[ip + 2]? with
            | none => none
            | some e =>
              if e.val = 0 then some (Cmd.stop, bits, ip + 3)
              else if e.val = 1 then some (.skip, bits, ip + 3)
              else some (.copy (e.val + 1) span, bits, ip + 3)
          else some (.copy ln span, bits, ip + 2)) = some (.copy 256 (-1), bits, ip + 3) ∧
    inp.drop (ip + 3) = rest := by
  obtain ⟨h1, r1⟩ := drop_head inp ip 0xff _ hd
  obtain ⟨h2, r2⟩ := drop_head inp (ip + 1) 0xf8 _ r1
  obtain ⟨h3, r3⟩ := drop_head inp (ip + 2) 0xff _ r2
  rw [h1, h2, h3]
  exact ⟨rfl, r3⟩

theorem readCmd_copy_mid (inp : List Byte) (buf k ip : Nat) (rest : List Byte)
    (h1 : 3 ≤ k) (h2 : k ≤ 16) (hb : buf % 4 = 2)
    (hd : inp.drop ip = 0xff :: 0xf8 :: 0xff :: rest) :
    readCmd inp ⟨buf, k⟩ ip = some (.copy 256 (-1), ⟨buf / 4, k - 2⟩, ip + 3) ∧
    inp.drop (ip + 3) = rest := by
  obtain ⟨ht, hr⟩ := longTail_copy inp ⟨buf / 4, k - 2⟩ ip rest hd
  refine ⟨?_, hr⟩
  unfold readCmd
  rw [getbit_mid inp buf k ip (by omega) h2]
  dsimp only
  rw [if_neg (by omega), getbit_mid inp (buf / 2) (k - 1) ip (by omega) (by omega)]
  dsimp only
  rw [if_neg (by omega), show buf / 2 / 2 = buf / 4 by omega, show k - 1 - 1 = k - 2 by omega]
  exact ht

theorem readCmd_copy_last (inp : List Byte) (buf ip : Nat) (wlo whi : Byte) (rest : List Byte)
    (hb : buf % 4 = 2) (hd : inp.drop ip = wlo :: whi :: 0xff :: 0xf8 :: 0xff :: rest) :
    readCmd inp ⟨buf, 2⟩ ip = some (.copy 256 (-1), ⟨word wlo whi, 16⟩, ip + 5) ∧
    inp.drop (ip + 5) = rest := by
  obtain ⟨hw, hr⟩ := le16At_drop inp ip wlo whi _ hd
  obtain ⟨ht, hr2⟩ := longTail_copy inp ⟨word wlo whi, 16⟩ (ip + 2) rest hr
  refine ⟨?_, hr2⟩
  unfold readCmd
  rw [getbit_mid inp buf 2 ip (by omega) (by omega)]
  dsimp only
  rw [if_neg (by omega), getbit_last inp (buf / 2) ip _ hw]
  dsimp only
  rw [if_neg (by omega)]
  exact ht

theorem readCmd_stop_mid (inp : List Byte) (buf k ip : Nat) (rest : List Byte)
    (h1 : 3 ≤ k) (h2 : k ≤ 16) (hb : buf % 4 = 2) (hd : inp.drop ip = 0 :: 0 :: 0 :: rest) :
    readCmd inp ⟨buf, k⟩ ip = some (.stop, ⟨buf / 2 / 2, k - 1 - 1⟩, ip + 3) := by
  unfold readCmd
  rw [getbit_mid inp buf k ip (by omega) h2]
  dsimp only
  rw [if_neg (by omega), getbit_mid inp (buf / 2) (k - 1) ip (by omega) (by omega)]
  dsimp only
  rw [if_neg (by omega)]
  exact readCmd_stop_tail inp _ ip rest hd

theorem readCmd_stop_last (inp : List Byte) (buf ip : Nat) (wlo whi : Byte) (rest : List Byte)
    (hb : buf % 4 = 2) (hd : inp.drop ip = wlo :: whi :: 0 :: 0 :: 0 :: rest) :
    readCmd inp ⟨buf, 2⟩ ip = some (.stop, ⟨word wlo whi, 16⟩, ip + 2 + 3) := by
  obtain ⟨hw, hr⟩ := le16At_drop inp ip wlo whi _ hd
  unfold readCmd
  rw [getbit_mid inp buf 2 ip (by omega) (by omega)]
  dsimp only
  rw [if_neg (by omega), getbit_last inp (buf / 2) ip _ hw]
  dsimp only
  rw [if_neg (by omega)]
  exact readCmd_stop_tail inp _ (ip + 2) rest hr

theorem refCopy_zeros : ∀ (n m : Nat), 1 ≤ m →
    refCopy n (-1) (List.replicate m (0 : Byte)) = some (List.replicate (m + n) 0)
  | 0, m, _ => rfl
  | n + 1, m, hm => by
    have hidx : (((List.replicate m (0 : Byte)).length : Int) + -1).toNat = m - 1 := by
      rw [List.length_replicate]
      omega
    have hget : (List.replicate m (0 : Byte))[m - 1]? = some 0 := by
      rw [List.getElem?_replicate, if_pos (by omega)]
    unfold refCopy
    rw [if_neg (by rw [List.length_replicate]; omega), hidx, hget]
    dsimp only
    rw [← List.replicate_succ', refCopy_zeros n (m + 1) (by omega),
      show m + 1 + n = m + (n + 1) by omega]

theorem refLoop_copies (inp post : List Byte) :
    ∀ (n j m ip fuel : Nat), 1 ≤ j → j ≤ 8 → 1 ≤ m →
      inp.drop ip = copyEnc j n ++ post → n < fuel →
      ∃ r, refLoop inp fuel
          { acc := List.replicate m 0, bits := ⟨copyCtl j, 2 * j⟩, ip := ip } = .done r ∧
        r.acc = List.replicate (m + 256 * n) 0
  | _, _, _, _, 0, _, _, _, _, hf => by omega
  | 0, j, m, ip, fuel + 1, h1, h2, hm, hd, _ => by
    obtain ⟨hb, _⟩ := copyCtl_spec j h1 h2
    unfold copyEnc at hd
    by_cases hj : j = 1
    · subst hj
      rw [if_pos rfl] at hd
      have hrd : readCmd inp ⟨copyCtl 1, 2 * 1⟩ ip = _ :=
        readCmd_stop_last inp (copyCtl 1) ip 0xAA 0xAA post hb hd
      unfold refLoop refStep
      dsimp only
      rw [hrd]
      exact ⟨_, rfl, rfl⟩
    · rw [if_neg hj] at hd
      have hrd := readCmd_stop_mid inp (copyCtl j) (2 * j) ip post (by omega) (by omega) hb hd
      unfold refLoop refStep
      dsimp only
      rw [hrd]
      exact ⟨_, rfl, rfl⟩
  | n + 1, j, m, ip, fuel + 1, h1, h2, hm, hd, hf => by
    obtain ⟨hb, hc⟩ := copyCtl_spec j h1 h2
    unfold copyEnc at hd
    by_cases hj : j = 1
    · subst hj
      rw [if_pos rfl] at hd
      obtain ⟨hrd, hrest⟩ := readCmd_copy_last inp (copyCtl 1) ip 0xAA 0xAA
        (copyEnc 8 n ++ post) hb hd
      have hrd2 : readCmd inp ⟨copyCtl 1, 2 * 1⟩ ip =
          some (.copy 256 (-1), ⟨copyCtl 8, 2 * 8⟩, ip + 5) := hrd
      obtain ⟨r, hr1, hr2⟩ := refLoop_copies inp post n 8 (m + 256) (ip + 5) fuel (by omega)
        (by omega) (by omega) hrest (by omega)
      unfold refLoop refStep
      dsimp only
      rw [hrd2]
      dsimp only
      rw [refCopy_zeros 256 m hm]
      dsimp only
      exact ⟨r, hr1, by rw [hr2, show m + 256 + 256 * n = m + 256 * (n + 1) by omega]⟩
    · rw [if_neg hj] at hd
      obtain ⟨hrd, hrest⟩ := readCmd_copy_mid inp (copyCtl j) (2 * j) ip
        (copyEnc (j - 1) n ++ post) (by omega) (by omega) hb hd
      rw [hc, show 2 * j - 2 = 2 * (j - 1) by omega] at hrd
      obtain ⟨r, hr1, hr2⟩ := refLoop_copies inp post n (j - 1) (m + 256) (ip + 3) fuel
        (by omega) (by omega) (by omega) hrest (by omega)
      unfold refLoop refStep
      dsimp only
      rw [hrd]
      dsimp only
      rw [refCopy_zeros 256 m hm]
      dsimp only
      exact ⟨r, hr1, by rw [hr2, show m + 256 + 256 * n = m + 256 * (n + 1) by omega]⟩

theorem copyEnc_length : ∀ (n j : Nat), 1 ≤ j → j ≤ 8 →
    (copyEnc j n).length = 3 * (n + 1) + 2 * ((n + 9 - j) / 8)
  | 0, j, h1, h2 => by
    unfold copyEnc
    by_cases hj : j = 1
    · subst hj
      rfl
    · rw [if_neg hj]
      show 3 = _
      omega
  | n + 1, j, h1, h2 => by
    unfold copyEnc
    by_cases hj : j = 1
    · subst hj
      rw [if_pos rfl]
      simp only [List.length_cons]
      rw [copyEnc_length n 8 (by omega) (by omega)]
      omega
    · rw [if_neg hj]
      simp only [List.length_cons]
      rw [copyEnc_length n (j - 1) (by omega) (by omega)]
      omega

theorem refLoop_lit (inp : List Byte) (fuel : Nat) (r : Ref) (v : Byte) (bits : bitstream)
    (ip : Nat) (h : readCmd inp r.bits r.ip = some (.lit v, bits, ip)) :
    refLoop inp (fuel + 1) r = refLoop inp fuel { acc := r.acc ++ [v], bits := bits, ip := ip } := by
  rw [refLoop, refStep, h]

theorem refUnpack_of_loop (p : ulz) (w : Nat) (r : Ref) (h0 : 0 ≤ ipOf p)
    (hw : le16At p.inp.elems (ipOf p).toNat = some w)
    (hl : refLoop p.inp.elems (unpackFuel p.inp.elems)
      { acc := [], bits := ⟨w, 0x10⟩, ip := (ipOf p).toNat + 2 } = .done r) :
    refUnpack p = .ok r.acc := by
  unfold refUnpack
  rw [if_neg (by omega)]
  unfold bitstream.init
  rw [hw]
  dsimp only
  rw [hl]

theorem refUnpack_copies (p : ulz) (n : Nat) (pre post : List Byte)
    (hin : p.inp.elems = pre ++ copyStream n ++ post) (hip : ipOf p = pre.length) :
    refUnpack p = .ok (List.replicate (2 + 256 * n) 0) := by
  have hdrop : p.inp.elems.drop pre.length =
      0xAB :: 0xAA :: 0 :: 0 :: (copyEnc 7 n ++ post) := by
    rw [hin, List.append_assoc, List.drop_left]
    rfl
  obtain ⟨hw, hr⟩ := le16At_drop _ _ _ _ _ hdrop
  have hw2 : word 0xAB 0xAA = 0xAAAB := by decide
  rw [hw2] at hw
  have hl1 := readCmd_lit_mid p.inp.elems 0xAAAB 16 (pre.length + 2) 0 _ (by omega) (by omega)
    (by decide) hr
  obtain ⟨_, hr1⟩ := drop_head _ _ _ _ hr
  have hl2 := readCmd_lit_mid p.inp.elems (0xAAAB / 2) (16 - 1) (pre.length + 2 + 1) 0 _
    (by omega) (by omega) (by decide) hr1
  obtain ⟨_, hr2⟩ := drop_head _ _ _ _ hr1
  have hlen : n + 2 < unpackFuel p.inp.elems := by
    have h1 := copyEnc_length n 7 (by omega) (by omega)
    unfold unpackFuel
    rw [hin]
    simp only [List.length_append, copyStream, List.length_cons, List.length_nil]
    omega
  obtain ⟨fuel, hfuel⟩ : ∃ fuel, unpackFuel p.inp.elems = fuel + 1 + 1 :=
    ⟨unpackFuel p.inp.elems - 2, by omega⟩
  obtain ⟨r, hr3, hr4⟩ := refLoop_copies p.inp.elems post n 7 2 (pre.length + 2 + 1 + 1) fuel
    (by omega) (by omega) (by omega) hr2 (by omega)
  have e1 := refLoop_lit p.inp.elems (fuel + 1) ⟨[], ⟨0xAAAB, 16⟩, pre.length + 2⟩ 0 _ _ hl1
  have e2 := refLoop_lit p.inp.elems fuel
    ⟨[] ++ [0], ⟨0xAAAB / 2, 16 - 1⟩, pre.length + 2 + 1⟩ 0 _ _ hl2
  have hpos : (ipOf p).toNat = pre.length := by
    rw [hip, Int.toNat_ofNat]
  have hl : refLoop p.inp.elems (unpackFuel p.inp.elems)
      { acc := [], bits := ⟨0xAAAB, 0x10⟩, ip := (ipOf p).toNat + 2 } = .done r := by
    rw [hfuel, hpos]
    exact e1.trans (e2.trans hr3)
  rw [refUnpack_of_loop p 0xAAAB r (by omega) (by rw [hpos]; exact hw) hl, hr4]

/-! ### An image that decodes to just under `2^25` bytes -/

theorem mkreltbl_empty (p : ulz) (b rest : List Byte) (hv : p.ver = 91)
    (hlen : p.inp.len < 2 ^ 32)
    (hf : ((hd p.ihead 0xb + hd p.ihead 0x4) <<< 4) + 0x158 < p.inp.len)
    (hinfo : (p.inp.elems.drop ((hd p.ihead 0xb + hd p.ihead 0x4) <<< 4)).take 16 = b)
    (hrel : p.inp.elems.drop (((hd p.ihead 0xb + hd p.ihead 0x4) <<< 4) + 0x158) =
      0 :: 1 :: 0 :: rest) :
    mkreltbl p =
      .ok { p with inf := words b,
                   ohead := (((((p.ohead.set 0xa (hd (words b) 0)).set 0xb (hd (words b) 1)).set
                     0x8 (hd (words b) 2)).set 0x7 (hd (words b) 3)).set 0xc 0x1c).set 3 0,
                   out := List.replicate 0x1c 0 } := by
  have hl : p.inp.elems.length = p.inp.len := rfl
  unfold mkreltbl
  dsimp only
  rw [Nat.mod_eq_of_lt (show (hd p.ihead 0xb + hd p.ihead 0x4) <<< 4 < 2 ^ 32 by omega),
    Nat.mod_eq_of_lt hlen, if_neg (by omega),
    readFull_of_le _ _ (by rw [List.length_drop, hl]; omega), hinfo]
  dsimp only
  rw [hv, if_neg (by decide), if_pos rfl, reloc91_unfold]
  dsimp only
  rw [Nat.mod_eq_of_lt (show (hd p.ihead 0xb + hd p.ihead 0x4) <<< 4 + 0x158 < 2 ^ 32 by omega),
    Nat.mod_eq_of_lt hlen, if_neg (by omega), hrel, reloc91Loop,
    reloc91Step_endmarker _ rest rfl]
  rfl

theorem mkHeader_length (a b c : Nat) : (mkHeader a b c).length = 32 := rfl

set_option maxRecDepth 100000 in
theorem copyTail_length : copyTail.length = 347 := by decide

theorem copyImageOf_length (mid : List Byte) (hmid : mid.length = 0x68000) :
    (copyImageOf mid).elems.length = 426363 := by
  show (mkHeader 2 0x0e 0x6800 ++ (mid ++ copyTail)).length = 426363
  rw [List.length_append, List.length_append, mkHeader_length, hmid, copyTail_length]

theorem headerOf_copyImageOf (mid : List Byte) :
    headerOf (copyImageOf mid) =
      [0x5a4d, 0, 0, 0, 2, 0, 0, 0, 0, 0, 0x0e, 0x6800, 0x1c, 0, 0, 0] := by
  unfold headerOf copyImageOf
  dsimp only
  rw [List.take_left' (mkHeader_length _ _ _)]
  decide

theorem copyImageOf_info (mid : List Byte) (hmid : mid.length = 0x68000) :
    (copyImageOf mid).elems.drop 426016 = copyTail := by
  show (mkHeader 2 0x0e 0x6800 ++ (mid ++ copyTail)).drop 426016 = copyTail
  rw [← List.append_assoc]
  exact List.drop_left' (by rw [List.length_append, mkHeader_length, hmid])

set_option maxRecDepth 100000 in
theorem copyImageOf_stub (mid : List Byte) (hmid : mid.length = 0x68000) :
    ((copyImageOf mid).elems.drop 426030).take 232 = sig91 := by
  rw [show 426030 = 426016 + 14 from rfl, ← List.drop_drop, copyImageOf_info mid hmid]
  decide

set_option maxRecDepth 100000 in
theorem copyImageOf_rel (mid : List Byte) (hmid : mid.length = 0x68000) :
    (copyImageOf mid).elems.drop (426016 + 0x158) = [0, 1, 0] := by
  rw [← List.drop_drop, copyImageOf_info mid hmid]
  decide

theorem rdhead_copyImageOf (mid : List Byte) (hmid : mid.length = 0x68000) :
    rdhead { ulz.zero with inp := copyImageOf mid } =
      .ok (91, loaded { ulz.zero with inp := copyImageOf mid }) := by
  have hl : ({ ulz.zero with inp := copyImageOf mid } : ulz).inp.len = 426363 :=
    copyImageOf_length mid hmid
  have hc : ({ ulz.zero with inp := copyImageOf mid } : ulz).inp.cap = 426363 := by
    show (copyImageOf mid).elems.length + 0 = _
    rw [copyImageOf_length mid hmid]
  have hh : headerOf ({ ulz.zero with inp := copyImageOf mid } : ulz).inp =
      headerOf (copyImageOf mid) := rfl
  have he : entryOf [0x5a4d, 0, 0, 0, 2, 0, 0, 0, 0, 0, 0x0e, 0x6800, 0x1c, 0, 0, 0] = 426030 := by
    decide
  rw [rdhead_unfold _ (by rw [hl]; omega), hh, headerOf_copyImageOf, he]
  rw [if_neg (by decide), if_neg (by rw [hl]; omega), sub_of_le _ _ _ (by rw [hc]; omega)]
  dsimp only
  rw [show ({ ulz.zero with inp := copyImageOf mid } : ulz).inp.spare = [] from rfl,
    List.append_nil,
    show ({ ulz.zero with inp := copyImageOf mid } : ulz).inp.elems = (copyImageOf mid).elems
      from rfl,
    copyImageOf_stub mid hmid, if_neg (Ne.symm sig90_ne_sig91), if_pos rfl]

theorem loaded_copyImageOf (mid : List Byte) :
    ({ loaded { ulz.zero with inp := copyImageOf mid } with ver := 91 } : ulz) =
      copyLoadedOf mid := by
  unfold loaded copyLoadedOf
  dsimp only
  rw [headerOf_copyImageOf]
  rfl

set_option maxRecDepth 100000 in
theorem mkreltbl_copyLoadedOf (mid : List Byte) (hmid : mid.length = 0x68000) :
    mkreltbl (copyLoadedOf mid) =
      .ok { copyLoadedOf mid with
            inf := [0, 0, 0, 0, 0x6800, 0, 0, 0x0e06],
            ohead := [0x5a4d, 0, 0, 0, 2, 0, 0, 0, 0, 0, 0, 0, 0x1c, 0, 0, 0],
            out := List.replicate 0x1c 0 } := by
  have hf : (hd (copyLoadedOf mid).ihead 0xb + hd (copyLoadedOf mid).ihead 0x4) <<< 4 =
      426016 := by
    rw [show (copyLoadedOf mid).ihead =
      [0x5a4d, 0, 0, 0, 2, 0, 0, 0, 0, 0, 0x0e, 0x6800, 0x1c, 0, 0, 0] from rfl]
    decide
  have hl : (copyLoadedOf mid).inp.len = 426363 := copyImageOf_length mid hmid
  have hinfo : ((copyLoadedOf mid).inp.elems.drop
      ((hd (copyLoadedOf mid).ihead 0xb + hd (copyLoadedOf mid).ihead 0x4) <<< 4)).take 16 =
      [0, 0, 0, 0, 0, 0, 0, 0, 0x00, 0x68, 0, 0, 0, 0, 0x06, 0x0e] := by
    rw [hf]
    show ((copyImageOf mid).elems.drop 426016).take 16 = _
    rw [copyImageOf_info mid hmid]
    decide
  have hrel : (copyLoadedOf mid).inp.elems.drop
      ((hd (copyLoadedOf mid).ihead 0xb + hd (copyLoadedOf mid).ihead 0x4) <<< 4 + 0x158) =
      0 :: 1 :: 0 :: [] := by
    rw [hf]
    exact copyImageOf_rel mid hmid
  rw [mkreltbl_empty (copyLoadedOf mid) _ [] rfl (by rw [hl]; decide) (by rw [hf, hl]; decide)
    hinfo hrel]
  rfl

theorem beforeUnpack_copyImageOf (mid : List Byte) (hmid : mid.length = 0x68000) :
    beforeUnpack (copyImageOf mid) = some (copyReceiverOf mid) := by
  unfold beforeUnpack
  rw [rdhead_copyImageOf mid hmid]
  dsimp only
  rw [if_neg (by decide), loaded_copyImageOf, mkreltbl_copyLoadedOf mid hmid]
  have hpad : (((0x200 : Int) - ((28 : Nat) : Int)) % 512).toNat = 484 := by decide
  dsimp only
  rw [List.length_replicate, hpad]
  rfl

theorem copyMid_length : copyMid.length = 0x68000 := by
  unfold copyMid copyStream
  rw [List.length_append, List.length_append, copyEnc_length 131069 7 (by decide) (by decide)]
  decide

theorem copyReceiverOf_ip (mid : List Byte) :
    ipOf (copyReceiverOf mid) = ((mkHeader 2 0x0e 0x6800).length : Int) := by
  unfold ipOf
  rw [show (copyReceiverOf mid).ihead =
      [0x5a4d, 0, 0, 0, 2, 0, 0, 0, 0, 0, 0x0e, 0x6800, 0x1c, 0, 0, 0] from rfl,
    show (copyReceiverOf mid).inf = [0, 0, 0, 0, 0x6800, 0, 0, 0x0e06] from rfl, mkHeader_length]
  decide

theorem copyReceiverOf_input (st : List Byte) :
    (copyReceiverOf (st ++ [0, 0, 0, 0])).inp.elems =
      mkHeader 2 0x0e 0x6800 ++ st ++ ([0, 0, 0, 0] ++ copyTail) := by
  show mkHeader 2 0x0e 0x6800 ++ ((st ++ [0, 0, 0, 0]) ++ copyTail) = _
  rw [List.append_assoc, List.append_assoc]

theorem copyReceiver_payload :
    refUnpack (copyReceiverOf copyMid) = .ok (List.replicate (2 + 256 * 131069) 0) :=
  refUnpack_copies (copyReceiverOf copyMid) 131069 (mkHeader 2 0x0e 0x6800)
    ([0, 0, 0, 0] ++ copyTail) (copyReceiverOf_input (copyStream 131069))
    (copyReceiverOf_ip copyMid)

/-- C34 (counterexample): the packed image `copyImage` of 426363 bytes (padded
table length 512) is decoded successfully to `2^25 - 254` bytes, which is an
output length below `2^25`, but the word stored at output bytes 4..5 is 0,
whereas `ceil(len(output) / 512)` is 65536: the page count is a `uint16`. -/
theorem decode_header_counterexample :
    beforeUnpack copyImage = some (copyReceiverOf copyMid) ∧
    (copyReceiverOf copyMid).out.length = 512 ∧
    ∃ out, decode copyImage = .ok out ∧ out.length = 2 ^ 25 - 254 ∧
      (out.length + 511) / 512 = 65536 ∧ wordAt out 4 = 0 := by
  have hb : beforeUnpack copyImage = some (copyReceiverOf copyMid) :=
    beforeUnpack_copyImageOf copyMid copyMid_length
  have ho : (copyReceiverOf copyMid).out.length = 512 := by
    show (List.replicate 0x1c (0 : Byte) ++ List.replicate 484 0).length = 512
    rw [List.length_append, List.length_replicate, List.length_replicate]
  have h4 : hd (copyReceiverOf copyMid).ohead 4 = 32 := by
    rw [show (copyReceiverOf copyMid).ohead =
      [0x5a4d, 0, 0, 0, 32, 0, 0, 0, 0, 0, 0, 0, 0x1c, 0, 0, 0] from rfl]
    decide
  obtain ⟨q, out, _, _, _, hdec, hlen, _, _, w4⟩ :=
    decode_of_payload copyImage (copyReceiverOf copyMid) _ hb copyReceiver_payload
  rw [List.length_replicate, ho, h4] at hlen
  rw [List.length_replicate, h4] at w4
  have e1 : max 512 ((32 <<< 4) + (2 + 256 * 131069)) = 2 ^ 25 - 254 := by decide
  have e2 : (((2 + 256 * 131069) % 2 ^ 32 + 16 * 32 + 0x1ff) % 2 ^ 32) / 512 % 65536 = 0 := by
    decide
  rw [e1] at hlen
  rw [e2] at w4
  refine ⟨hb, ho, out, hdec, hlen, ?_, w4⟩
  rw [hlen]
  decide

end Lmdave
